import Mathlib

/-!
# The virtio descriptor ring of `src/net/virtio.cc`

A shallow embedding of `vring` (descriptor table, free list, available and
used ring, kick decision, completion poll), of the transmit and the
receive queue built on it, and of the feature setup of the device and the
constructor of the vhost queue pair.  Machine integers are natural numbers
or integers with the truncation written out; memory shared with the host is a function from
indices to values; code that can hit an `assert`, index an array outside
the ring or loop for ever returns `Except fault`.
-/

set_option autoImplicit false

namespace virtio

/-! ## Data model -/

/-- Ways in which a run of the driver code fails to produce a result. -/
inductive fault where
  | assertion
  | out_of_bounds
  | diverged
  | exception
  deriving DecidableEq, Repr

/-- Conversion of an integer value to `uint16_t`. -/
def u16 (x : Int) : Nat := (x % 65536).toNat

/-- Conversion of an `unsigned` / `uint32_t` value to `int` (two's complement). -/
def to_int (u : Nat) : Int :=
  if u % 4294967296 < 2147483648 then ((u % 4294967296 : Nat) : Int)
  else ((u % 4294967296 : Nat) : Int) - 4294967296

/-- The constant `VRING_USED_F_NO_NOTIFY` of `linux/virtio_ring.h`
(also `used_layout::no_notify`). -/
def VRING_USED_F_NO_NOTIFY : Nat := 1

/-- Pointwise update of an array held as a function. -/
def upd {α : Type} (f : Nat → α) (i : Nat) (v : α) : Nat → α :=
  fun j => if j = i then v else f j

/-- The `ring_config` struct; the three pointers are addresses. -/
structure ring_config where
  descs : Nat := 0
  avail : Nat := 0
  used : Nat := 0
  size : Nat
  event_index : Bool := false
  indirect : Bool := false
  mergable_buffers : Bool := false
  deriving DecidableEq, Repr

/-- The `buffer` struct: one element of a buffer chain. -/
structure buffer where
  addr : Nat
  len : Nat
  writeable : Bool
  deriving DecidableEq, Repr

/-- The bit field `vring::desc::flags`. -/
structure desc.flags where
  has_next : Bool := false
  writeable : Bool := false
  indirect : Bool := false
  deriving DecidableEq, Repr

/-- One slot of the descriptor table, `vring::desc`. -/
structure desc where
  _paddr : Nat := 0
  _len : Nat := 0
  _flags : desc.flags := {}
  _next : Nat := 0
  deriving DecidableEq, Repr

/-- The guest-to-host ring in shared memory, `vring::avail_layout`. -/
structure avail_layout where
  _flags : Nat := 0
  _idx : Nat := 0
  _ring : Nat → Nat := fun _ => 0

/-- One entry of the used ring, `vring::used_elem`. -/
structure used_elem where
  _id : Nat := 0
  _len : Nat := 0
  deriving DecidableEq, Repr

/-- The host-to-guest ring in shared memory, `vring::used_layout`. -/
structure used_layout where
  _flags : Nat := 0
  _idx : Nat := 0
  _used_elements : Nat → used_elem := fun _ => {}

/-- Guest-side view of the available ring, `vring::avail`. -/
structure avail where
  _shared : avail_layout := {}
  _head : Nat := 0
  _avail_added_since_kick : Nat := 0

/-- Guest-side view of the used ring, `vring::used`. -/
structure used where
  _shared : used_layout := {}
  _tail : Nat := 0

/-- The state of a `vring<BufferChain, Completion>`.  `_avail_event` and
`_used_event` hold the values of the two 16-bit cells the pointers of the
same name point at.  `notified` counts the calls of `_notifier->notify()`
made so far.  The `Completion` functor is passed to `do_complete`. -/
structure vring (BufferChain : Type) where
  _config : ring_config
  _buffer_chains : Nat → BufferChain
  _descs : Nat → desc := fun _ => {}
  _avail : avail := {}
  _used : used := {}
  _avail_event : Nat := 0
  _used_event : Nat := 0
  _available_descriptors : Nat := 0
  _free_head : Int := -1
  _free_last : Int := -1
  notified : Nat := 0

/-- The `Completion` concept.  `call` is `operator()(BufferChain&&, size_t)`:
it runs in an environment `E` (the queue that owns the ring), may signal or
take credits of the ring's `_available_descriptors` (second argument and
second result) and leaves a value behind in the chain it was handed (third
result).  `bunch` is the hook called with the count once per poll. -/
structure completion (BufferChain E : Type) where
  call : E → Nat → BufferChain → Nat → Except fault (E × Nat × BufferChain)
  bunch : E → Nat → E

variable {BC E : Type}

/-! ## vring -/

/-- The method `vring::size()`. -/
def vring.size (r : vring BC) : Nat := r._config.size

/-- The method `vring::mask()`: `size() - 1` as a `size_t`. -/
def vring.mask (r : vring BC) : Nat := (((r.size : Int) - 1) % 18446744073709551616).toNat

/-- The method `vring::masked(idx)`: `idx & mask()`. -/
def vring.masked (r : vring BC) (idx : Nat) : Nat := idx &&& r.mask

/-- The method `vring::notifications_disabled()`. -/
def vring.notifications_disabled (r : vring BC) : Bool :=
  (r._used._shared._flags &&& VRING_USED_F_NO_NOTIFY) != 0

/-- The method `vring::kick()`. -/
def vring.kick (r : vring BC) : vring BC :=
  let fire (need_kick : Bool) : vring BC :=
    if need_kick || decide (r._avail._avail_added_since_kick ≥ 65535 / 2) then
      { r with notified := r.notified + 1, _avail._avail_added_since_kick := 0 }
    else r
  if r._config.event_index then
    let avail_idx : Nat := r._avail._shared._idx
    let avail_event : Nat := r._avail_event
    fire (decide (u16 ((avail_idx : Int) - (avail_event : Int) - 1) < r._avail._avail_added_since_kick))
  else if r.notifications_disabled then r
  else fire true

/-- The method `vring::allocate_desc()`: the index taken off the free list
and the ring afterwards. -/
def vring.allocate_desc (r : vring BC) : Except fault (Nat × vring BC) :=
  if r._free_head = -1 then .error .assertion
  else
    let desc := r._free_head
    if desc = r._free_last then
      .ok ((desc % 4294967296).toNat, { r with _free_last := -1, _free_head := -1 })
    else if 0 ≤ desc ∧ desc < (r.size : Int) then
      .ok ((desc % 4294967296).toNat, { r with _free_head := ((r._descs desc.toNat)._next : Int) })
    else .error .out_of_bounds

/-- The method `vring::setup()`.  The loop that writes `_descs[i]._next = i + 1`
for every `i < size` is one pointwise definition; `_next` is 16 bits wide. -/
def vring.setup (r : vring BC) : vring BC :=
  { r with
    _descs := fun i => if i < r._config.size then { r._descs i with _next := (i + 1) % 65536 } else r._descs i
    _free_head := 0
    _free_last := to_int ((r._config.size + 4294967295) % 4294967296)
    _available_descriptors := r._available_descriptors + r._config.size }

/-- The constructor `vring::vring(conf, complete)` over the given contents of
the ring memory and of the freshly allocated `_buffer_chains` array. -/
def vring.create (conf : ring_config) (chains : Nat → BC) (descs : Nat → desc)
    (avail_mem : avail_layout) (used_mem : used_layout) (avail_event used_event : Nat) : vring BC :=
  vring.setup
    { _config := conf, _buffer_chains := chains, _descs := descs,
      _avail := { _shared := avail_mem }, _used := { _shared := used_mem },
      _avail_event := avail_event, _used_event := used_event }

/-- State of the inner loop of `vring::post`: the ring, the local
`pseudo_head` and `prev`, which points at `pseudo_head` (`none`) or at the
descriptor of the given index. -/
structure post_state (BC : Type) where
  ring : vring BC
  pseudo_head : desc := {}
  prev : Option Nat := none

/-- One iteration of the inner loop of `vring::post`, for the buffer `b`. -/
def vring.post_buffer (st : post_state BC) (b : buffer) : Except fault (post_state BC) :=
  match st.ring.allocate_desc with
  | .error f => .error f
  | .ok (desc_idx, r) =>
    let linked : post_state BC :=
      match st.prev with
      | none =>
        { ring := r,
          pseudo_head := { st.pseudo_head with _flags.has_next := true, _next := desc_idx % 65536 },
          prev := none }
      | some p =>
        let dp : desc := { r._descs p with _flags.has_next := true, _next := desc_idx % 65536 }
        { ring := { r with _descs := upd r._descs p dp },
          pseudo_head := st.pseudo_head,
          prev := some p }
    if desc_idx < r.size then
      let d : desc := linked.ring._descs desc_idx
      let d : desc := { d with _flags := { writeable := b.writeable }, _paddr := b.addr, _len := b.len }
      .ok { ring := { linked.ring with _descs := upd linked.ring._descs desc_idx d },
            pseudo_head := linked.pseudo_head,
            prev := some desc_idx }
    else .error .out_of_bounds

/-- The inner loop of `vring::post` over the buffers of one chain. -/
def vring.post_buffers : List buffer → post_state BC → Except fault (post_state BC)
  | [], st => .ok st
  | b :: bs, st =>
    match vring.post_buffer st b with
    | .error f => .error f
    | .ok st1 => vring.post_buffers bs st1

/-- One iteration of the outer loop of `vring::post`: the chain `bc`, whose
buffers are `buffers bc`, gets its descriptors, is stored under its head
index and is written to the available ring. -/
def vring.post_chain (buffers : BC → List buffer) (r : vring BC) (bc : BC) : Except fault (vring BC) :=
  match vring.post_buffers (buffers bc) { ring := r } with
  | .error f => .error f
  | .ok st =>
    let r1 := st.ring
    let desc_head := st.pseudo_head._next
    if desc_head < r1.size then
      .ok { r1 with
            _buffer_chains := upd r1._buffer_chains desc_head bc
            _avail._shared._ring := upd r1._avail._shared._ring (r1.masked r1._avail._head) desc_head
            _avail._head := (r1._avail._head + 1) % 65536
            _avail._avail_added_since_kick := (r1._avail._avail_added_since_kick + 1) % 65536 }
    else .error .out_of_bounds

/-- The outer loop of `vring::post` over the chains of the range. -/
def vring.post_chains (buffers : BC → List buffer) : List BC → vring BC → Except fault (vring BC)
  | [], r => .ok r
  | bc :: bcs, r =>
    match vring.post_chain buffers r bc with
    | .error f => .error f
    | .ok r1 => vring.post_chains buffers bcs r1

/-- The store of `_avail._head` to the shared `_idx` that ends `vring::post`. -/
def vring.publish (r : vring BC) : vring BC :=
  { r with _avail._shared._idx := r._avail._head }

/-- The method `vring::post(begin, end)` on the chains of the range. -/
def vring.post (buffers : BC → List buffer) (chains : List BC) (r : vring BC) : Except fault (vring BC) :=
  match vring.post_chains buffers chains r with
  | .error f => .error f
  | .ok r1 => .ok r1.publish.kick

/-- The inner `while (true)` of `vring::do_complete` over the descriptor
table `D` of `size` entries: from `id`, follow `_next` while `has_next` is
set; the result is the index the loop breaks at. -/
def chain_end (size : Nat) (D : Nat → desc) : Nat → Nat → Except fault Nat
  | 0, _ => .error .diverged
  | fuel + 1, id =>
    if id < size then
      if (D id)._flags.has_next then chain_end size D fuel (D id)._next
      else .ok id
    else .error .out_of_bounds

/-- One iteration of the outer loop of `vring::do_complete`. -/
def vring.complete_one (c : completion BC E) (fuel : Nat) (r : vring BC) (e : E) :
    Except fault (vring BC × E) :=
  let ue := r._used._shared._used_elements (r.masked r._used._tail)
  let r1 : vring BC := { r with _used._tail := (r._used._tail + 1) % 65536 }
  if ue._id < r1.size then
    match c.call e r1._available_descriptors (r1._buffer_chains ue._id) ue._len with
    | .error f => .error f
    | .ok (e1, credits, left) =>
      let r2 : vring BC :=
        { r1 with _available_descriptors := credits, _buffer_chains := upd r1._buffer_chains ue._id left }
      let id := ue._id
      let linked : Except fault (vring BC) :=
        if r2._free_last ≠ -1 then
          if 0 ≤ r2._free_last ∧ r2._free_last < (r2.size : Int) then
            let dl : desc := { r2._descs r2._free_last.toNat with _next := id % 65536 }
            .ok { r2 with _descs := upd r2._descs r2._free_last.toNat dl }
          else .error .out_of_bounds
        else .ok { r2 with _free_head := to_int id }
      match linked with
      | .error f => .error f
      | .ok r3 =>
        match chain_end r3.size r3._descs fuel id with
        | .error f => .error f
        | .ok last => .ok ({ r3 with _free_last := (last : Int) }, e1)
  else .error .out_of_bounds

/-- The loop `while (used_head != _used._tail)` of `vring::do_complete`. -/
def vring.complete_loop (c : completion BC E) (fuel : Nat) (used_head : Nat) :
    Nat → vring BC → E → Except fault (vring BC × E)
  | 0, _, _ => .error .diverged
  | n + 1, r, e =>
    if used_head ≠ r._used._tail then
      match vring.complete_one c fuel r e with
      | .error f => .error f
      | .ok (r1, e1) => vring.complete_loop c fuel used_head n r1 e1
    else .ok (r, e)

/-- The method `vring::do_complete()`.  `count` is an `int`, handed to
`bunch` as a `uint64_t` and returned as a `bool`.  `fuel` bounds the steps
of each of the two loops. -/
def vring.do_complete (c : completion BC E) (fuel : Nat) (r : vring BC) (e : E) :
    Except fault (Bool × vring BC × E) :=
  let used_head := r._used._shared._idx
  let count : Int := (r._used._tail : Int) - (used_head : Int)
  let e1 := c.bunch e (count % 18446744073709551616).toNat
  match vring.complete_loop c fuel used_head fuel r e1 with
  | .error f => .error f
  | .ok (r1, e2) => .ok (count != 0, r1, e2)

/-! ## Reading the descriptor table -/

/-- An index the descriptor table can hold and name: below the ring size
and within the 16 bits of `_next`. -/
def vring.desc_index (r : vring BC) (i : Nat) : Prop := i < r.size ∧ i < 65536

instance (r : vring BC) (i : Nat) : Decidable (r.desc_index i) := by
  unfold vring.desc_index; infer_instance

/-- The descriptors from index `i` along `_next` up to and including
`_free_last`, when that is reached within `fuel` steps over valid indices. -/
def vring.free_path (r : vring BC) : Nat → Int → Option (List Nat)
  | 0, _ => none
  | fuel + 1, i =>
    if 0 ≤ i ∧ r.desc_index i.toNat then
      if i = r._free_last then some [i.toNat]
      else (vring.free_path r fuel ((r._descs i.toNat)._next : Int)).map (fun l => i.toNat :: l)
    else none

/-- The free list in allocation order: the descriptors `allocate_desc` hands
out until it empties the list.  `none` when `_free_head` does not lead to
`_free_last` over valid indices. -/
def vring.free_list (r : vring BC) : Option (List Nat) :=
  if r._free_head = -1 then (if r._free_last = -1 then some [] else none)
  else r.free_path r.size r._free_head

/-- The descriptor chain that starts at `id`: the indices met from `id` along
`_next` while `has_next` is set, when that ends within `fuel` steps over
valid indices. -/
def vring.chain_of (r : vring BC) : Nat → Nat → Option (List Nat)
  | 0, _ => none
  | fuel + 1, id =>
    if r.desc_index id then
      if (r._descs id)._flags.has_next then
        (vring.chain_of r fuel (r._descs id)._next).map (fun l => id :: l)
      else some [id]
    else none

/-- The buffer a descriptor describes to the host. -/
def desc.to_buffer (d : desc) : buffer :=
  { addr := d._paddr, len := d._len, writeable := d._flags.writeable }

/-! ## Transmit queue -/

/-- Modelled from the spec: the IP protocol number of a packet's offload
metadata (`net/ip.hh` is not under src/). -/
inductive ip_protocol_num where
  | icmp
  | tcp
  | udp
  | unused
  deriving DecidableEq, Repr

/-- Modelled from the spec: the offload metadata of a packet
(`net/packet.hh` is not under src/), with the fields `txq::post` reads. -/
structure offload_info where
  protocol : ip_protocol_num := .unused
  needs_csum : Bool := false
  ip_hdr_len : Nat := 20
  tcp_hdr_len : Nat := 20
  udp_hdr_len : Nat := 8
  tso_seg_size : Nat := 0
  deriving DecidableEq, Repr

/-- Modelled from the spec: the hardware-feature summary of the device
(`net/net.hh` is not under src/). -/
structure hw_features where
  tx_csum_l4_offload : Bool := false
  rx_csum_offload : Bool := false
  rx_lro : Bool := false
  tx_tso : Bool := false
  tx_ufo : Bool := false
  mtu : Nat := 1500
  deriving DecidableEq, Repr

/-- The struct `qp::net_hdr_mrg` (`net_hdr` and `num_buffers`). -/
structure net_hdr_mrg where
  needs_csum : Nat := 0
  flags_reserved : Nat := 0
  gso_type : Nat := 0
  hdr_len : Nat := 0
  gso_size : Nat := 0
  csum_start : Nat := 0
  csum_offset : Nat := 0
  num_buffers : Nat := 0
  deriving DecidableEq, Repr

/-- The enumerators of `qp::net_hdr`. -/
def net_hdr.gso_none : Nat := 0

/-- The enumerator `gso_tcpv4`. -/
def net_hdr.gso_tcpv4 : Nat := 1

/-- The enumerator `gso_udp`. -/
def net_hdr.gso_udp : Nat := 3

/-- The value of `sizeof(eth_hdr)`. -/
def eth_hdr_len : Nat := 14

/-- Modelled from the spec: a fragment of a packet (`net/packet.hh` is not
under src/): `size` bytes at address `base`.  `hdr` is the virtio-net header
those bytes hold, for the fragment `txq::post` puts in front of a packet. -/
structure fragment where
  base : Nat
  size : Nat
  hdr : Option net_hdr_mrg := none
  deriving DecidableEq, Repr

/-- Modelled from the spec: a packet (`net/packet.hh` is not under src/) is
its fragments in order and its offload metadata. -/
structure packet where
  fragments : List fragment := []
  offload : offload_info := {}
  deriving DecidableEq, Repr

/-- Modelled from the spec: `packet::nr_frags()`. -/
def packet.nr_frags (p : packet) : Nat := p.fragments.length

/-- Modelled from the spec: `packet::len()`, the bytes of all fragments. -/
def packet.len (p : packet) : Nat := (p.fragments.map fragment.size).sum

/-- Modelled from the spec: `packet(fragment, packet&&)`, the packet with
the fragment placed ahead of the packet's own fragments. -/
def packet.prepend (f : fragment) (p : packet) : packet :=
  { p with fragments := f :: p.fragments }

/-- Modelled from the spec: the packet left behind by `std::move`. -/
def packet.moved_from : packet := {}

/-- The function `virt_to_phys` (without `HAVE_OSV`). -/
def virt_to_phys (p : Nat) : Nat := p

/-- The function `txq::fragment_to_buffer`.  The `size_t` size of the
fragment is assigned to `buffer::len`, a `uint32_t`. -/
def fragment_to_buffer (f : fragment) : buffer :=
  { addr := virt_to_phys f.base, len := f.size % 4294967296, writeable := false }

/-- The struct `txq::packet_as_buffer_chain`. -/
structure packet_as_buffer_chain where
  p : packet
  deriving DecidableEq, Repr

/-- The range `begin() .. end()` of a `packet_as_buffer_chain`. -/
def packet_as_buffer_chain.buffers (bc : packet_as_buffer_chain) : List buffer :=
  bc.p.fragments.map fragment_to_buffer

/-- The functor `txq::complete`: it moves the packet out of the chain and
signals `nr_frags()` credits on the ring's semaphore. -/
def txq_complete : completion packet_as_buffer_chain Unit where
  call := fun e credits bc _len =>
    let p := bc.p
    .ok (e, credits + p.nr_frags, { p := packet.moved_from })
  bunch := fun e _ => e

/-- The state of a `qp::txq` with what it reaches through `_dev`: the
hardware-feature summary, `_header_len` and the transmit statistics.
`vhdr_addr` is the address of the local `vhdr` of `post`. -/
structure txq where
  _ring : vring packet_as_buffer_chain
  _packets : List packet_as_buffer_chain := []
  hw : hw_features := {}
  _header_len : Nat := 12
  tx_frags : Nat := 0
  tx_bytes : Nat := 0
  vhdr_addr : Nat := 0

/-- The header `txq::post` fills in for the packet `p` ("Handle TCP checksum
offload" up to "prepend virtio-net header"). -/
def txq.make_vhdr (hw : hw_features) (p : packet) : net_hdr_mrg :=
  let vhdr : net_hdr_mrg := {}
  let oi := p.offload
  if hw.tx_csum_l4_offload then
    let ip_hdr_len := oi.ip_hdr_len
    let mtu := hw.mtu
    if oi.protocol = .tcp then
      let tcp_hdr_len := oi.tcp_hdr_len
      let vhdr : net_hdr_mrg :=
        if oi.needs_csum then
          { vhdr with needs_csum := 1, csum_start := (eth_hdr_len + ip_hdr_len) % 65536, csum_offset := 16 }
        else vhdr
      if oi.tso_seg_size ≠ 0 then
        { vhdr with
          gso_type := net_hdr.gso_tcpv4
          hdr_len := (eth_hdr_len + ip_hdr_len + tcp_hdr_len) % 65536
          gso_size := oi.tso_seg_size % 65536 }
      else vhdr
    else if oi.protocol = .udp then
      let udp_hdr_len := oi.udp_hdr_len
      let vhdr : net_hdr_mrg :=
        if oi.needs_csum then
          { vhdr with needs_csum := 1, csum_start := (eth_hdr_len + ip_hdr_len) % 65536, csum_offset := 6 }
        else vhdr
      if hw.tx_ufo ∧ p.len > mtu + eth_hdr_len then
        { vhdr with
          gso_type := net_hdr.gso_udp
          hdr_len := (eth_hdr_len + ip_hdr_len + udp_hdr_len) % 65536
          gso_size := u16 ((mtu : Int) - (ip_hdr_len : Int) - (udp_hdr_len : Int)) }
      else vhdr
    else vhdr
  else vhdr

/-- The locals of `txq::post` that live across its loop. -/
structure txq.post_locals where
  q : txq
  bytes : Nat := 0
  nr_frags : Nat := 0

/-- The `while` loop of `txq::post` over the input queue `pb`; the result
holds what is left of `pb`.  `wait(n)` on the semaphore is ready at once
when `n` credits are there, and the `assert` on the future fails otherwise. -/
def txq.post_loop : List packet → txq.post_locals → Except fault (List packet × txq.post_locals)
  | [], st => .ok ([], st)
  | p :: pb, st =>
    if p.nr_frags + 1 ≤ st.q._ring._available_descriptors then
      let vhdr := txq.make_vhdr st.q.hw p
      let q1 := packet.prepend { base := st.q.vhdr_addr, size := st.q._header_len, hdr := some vhdr } p
      if q1.nr_frags ≤ st.q._ring._available_descriptors then
        let ring := { st.q._ring with
                      _available_descriptors := st.q._ring._available_descriptors - q1.nr_frags }
        txq.post_loop pb
          { q := { st.q with _ring := ring, _packets := st.q._packets ++ [{ p := q1 }] },
            bytes := (st.bytes + p.len) % 18446744073709551616,
            nr_frags := (st.nr_frags + p.nr_frags) % 18446744073709551616 }
      else .error .assertion
    else .ok (p :: pb, st)

/-- The method `txq::post(pb)`: the count returned, what is left of `pb`,
and the queue afterwards. -/
def txq.post (q : txq) (pb : List packet) : Except fault (Nat × List packet × txq) :=
  match txq.post_loop pb { q := { q with _packets := [] } } with
  | .error f => .error f
  | .ok (rest, st) =>
    match st.q._ring.post packet_as_buffer_chain.buffers st.q._packets with
    | .error f => .error f
    | .ok ring =>
      .ok (st.q._packets.length % 4294967296, rest,
           { st.q with _ring := ring, tx_frags := st.q.tx_frags + st.nr_frags,
                       tx_bytes := st.q.tx_bytes + st.bytes })

/-- The constructor `txq::txq(dev, config)` over a zeroed ring memory. -/
def txq.create (config : ring_config) (hw : hw_features) (header_len : Nat) : txq :=
  { _ring := vring.create config (fun _ => { p := {} }) (fun _ => {}) {} {} 0 0,
    hw := hw, _header_len := header_len }

/-! ## Predicates on ring states -/

/-- The `int` that holds an optional descriptor index, `-1` for none. -/
def ptr : Option Nat → Int
  | none => -1
  | some a => (a : Int)

/-- `L` is the free list of `r` in allocation order: `_free_head` is its
first and `_free_last` its last element (both `-1` when it is empty), each
element's `_next` is the element after it, no index occurs twice and every
index is one of the descriptor table. -/
structure vring.free (r : vring BC) (L : List Nat) : Prop where
  head : r._free_head = ptr L.head?
  last : r._free_last = ptr L.getLast?
  link : L.Chain' (fun a b => (r._descs a)._next = b)
  nodup : L.Nodup
  bound : ∀ x ∈ L, r.desc_index x

/-- `C` is the descriptor chain of table `D` that starts at `id`: `has_next`
is set on every element but the last, and `_next` of each element with
`has_next` is the element after it. -/
def is_chain (D : Nat → desc) : Nat → List Nat → Prop
  | _, [] => False
  | id, a :: C =>
    id = a ∧
      match C with
      | [] => (D a)._flags.has_next = false
      | _ :: _ => (D a)._flags.has_next = true ∧ is_chain D (D a)._next C

/-- The 16-bit fields of the ring hold 16-bit values. -/
structure vring.typed (r : vring BC) : Prop where
  head : r._avail._head < 65536
  added : r._avail._avail_added_since_kick < 65536
  avail_idx : r._avail._shared._idx < 65536
  tail : r._used._tail < 65536
  used_idx : r._used._shared._idx < 65536
  avail_event : r._avail_event < 65536

/-- The used-ring entries between `_used._tail` and the host's `_idx`, in
the order `do_complete` reads them. -/
def vring.pending (r : vring BC) : List used_elem :=
  (List.range (u16 ((r._used._shared._idx : Int) - (r._used._tail : Int)))).map
    (fun j => r._used._shared._used_elements (r.masked ((r._used._tail + j) % 65536)))

/-- The descriptor `d` after `prev->_flags.has_next = true; prev->_next = a`. -/
def desc.link (d : desc) (a : Nat) : desc :=
  { d with _flags.has_next := true, _next := a % 65536 }

/-- The descriptor `d` after the inner loop of `post` has filled it in for
the buffer `b`. -/
def desc.fill (d : desc) (b : buffer) : desc :=
  { d with _flags := { writeable := b.writeable }, _paddr := b.addr, _len := b.len }

/-- The descriptor table after `prev` has been linked to `a`, when `prev`
points into the table. -/
def link_prev (D : Nat → desc) : Option Nat → Nat → (Nat → desc)
  | none, _ => D
  | some p, a => upd D p ((D p).link a)

/-- The descriptor table after the inner loop of `post` has run over the
buffers `bufs`, taking the descriptors `A` off the free list in this order;
`prev` is the descriptor `prev` points at when the loop starts. -/
def write_chain (D : Nat → desc) : Option Nat → List Nat → List buffer → (Nat → desc)
  | prev, a :: A, b :: bs =>
    write_chain (upd (link_prev D prev a) a ((link_prev D prev a a).fill b)) (some a) A bs
  | _, _, _ => D

/-- The descriptor table after the outer loop of `post` has run over chains
with the buffers `bss`, the chains taking the descriptors `As` in order. -/
def write_chains (D : Nat → desc) : List (List Nat) → List (List buffer) → (Nat → desc)
  | A :: As, bufs :: bss => write_chains (write_chain D none A bufs) As bss
  | _, _ => D

/-- The array `_buffer_chains` after the chains `bcs` have been stored under
the indices `heads`, in order. -/
def store_chains (B : Nat → BC) : List Nat → List BC → (Nat → BC)
  | a :: heads, bc :: bcs => store_chains (upd B a bc) heads bcs
  | _, _ => B

/-- The available ring after the indices `heads` have been written to it,
the first at the slot of the 16-bit cursor `h`. -/
def write_ring (R : Nat → Nat) (mask : Nat) : Nat → List Nat → (Nat → Nat)
  | _, [] => R
  | h, a :: heads => write_ring (upd R (h &&& mask) a) mask ((h + 1) % 65536) heads

/-- The ring state between polls: `L` is the free list, `Cs` are the chains
in flight, each a descriptor chain from its first element, and no
descriptor is in two of these lists or twice in one of them. -/
structure vring.inv (r : vring BC) (L : List Nat) (Cs : List (List Nat)) : Prop where
  free : r.free L
  chains : ∀ C ∈ Cs, is_chain r._descs C.headI C
  nodup : (L ++ Cs.flatten).Nodup
  bound : ∀ C ∈ Cs, ∀ x ∈ C, r.desc_index x

/-- The calls `do_complete` makes to the completion functor, run one after
the other on the environment and the credit count: the environment and the
credits after the last call, or the fault of the first call that fails. -/
def run_calls (c : completion BC E) : List (BC × Nat) → E → Nat → Except fault (E × Nat)
  | [], e, credits => .ok (e, credits)
  | (bc, len) :: rest, e, credits =>
    match c.call e credits bc len with
    | .error f => .error f
    | .ok (e1, credits1, _) => run_calls c rest e1 credits1

/-- The calls `do_complete` makes for the used-ring entries `es` on the
ring `r`: for each entry the chain stored under its id, with its length. -/
def calls_of (r : vring BC) (es : List used_elem) : List (BC × Nat) :=
  es.map (fun ue => (r._buffer_chains ue._id, ue._len))

/-- The list `L` cut into consecutive pieces of the lengths `ks`. -/
def split_by : List Nat → List Nat → List (List Nat)
  | [], _ => []
  | k :: ks, L => L.take k :: split_by ks (L.drop k)

/-- The fields of the ring that `post` leaves alone before it kicks. -/
structure post_frame (r r1 : vring BC) : Prop where
  config : r1._config = r._config
  used : r1._used = r._used
  notified : r1.notified = r.notified
  avail_event : r1._avail_event = r._avail_event
  credits : r1._available_descriptors = r._available_descriptors
  avail_flags : r1._avail._shared._flags = r._avail._shared._flags
  avail_idx : r1._avail._shared._idx = r._avail._shared._idx

/-- The packets `txq::post` takes from the front of the input queue `pb`
when `credits` descriptors are available: it stops at the first packet whose
fragment count plus one exceeds what is left. -/
def txq.taken : Nat → List packet → List packet
  | _, [] => []
  | credits, p :: pb =>
    if p.nr_frags + 1 ≤ credits then p :: txq.taken (credits - (p.nr_frags + 1)) pb else []

/-- The chain `txq::post` builds for the packet `p`: the packet with the
virtio-net header placed in front. -/
def txq.chain_for (q : txq) (p : packet) : packet_as_buffer_chain :=
  { p := packet.prepend
      { base := q.vhdr_addr, size := q._header_len, hdr := some (txq.make_vhdr q.hw p) } p }

/-- The states of a ring of `size` descriptors reachable from the
constructor (which runs `setup`) by `post`, by `do_complete` and by the
host writing the used ring and the avail-event cell.  The last index is the
list of the heads of the chains in flight: `post` (of non-empty chains that
need no more descriptors than the free list has) adds the head of each chain
it posts, the first descriptor of the chain's piece of the free list;
`do_complete` (on pending entries that name heads in flight, none twice, and
with fuel for its loops) takes the heads it completes away. -/
inductive reachable (buffers : BC → List buffer) (c : completion BC E) (size : Nat) :
    vring BC → E → List Nat → Prop where
  | create (conf : ring_config) (chains : Nat → BC) (descs : Nat → desc)
      (avail_mem : avail_layout) (used_mem : used_layout) (avail_event used_event : Nat) (e : E) :
      conf.size = size → used_mem._idx < 65536 →
      reachable buffers c size
        (vring.create conf chains descs avail_mem used_mem avail_event used_event) e []
  | host (r : vring BC) (e : E) (H : List Nat) (U : used_layout) (avail_event : Nat) :
      reachable buffers c size r e H → U._idx < 65536 →
      reachable buffers c size { r with _used._shared := U, _avail_event := avail_event } e H
  | post (r r1 : vring BC) (e : E) (H : List Nat) (chains : List BC) (L : List Nat) :
      reachable buffers c size r e H →
      (∀ bc ∈ chains, buffers bc ≠ []) →
      r.free_list = some L →
      (chains.map (fun bc => (buffers bc).length)).sum ≤ L.length →
      r.post buffers chains = .ok r1 →
      reachable buffers c size r1 e
        (H ++ (split_by (chains.map (fun bc => (buffers bc).length)) L).map List.headI)
  | complete (r r1 : vring BC) (e e1 : E) (H : List Nat) (b : Bool) (fuel : Nat) :
      reachable buffers c size r e H →
      (r.pending.map used_elem._id).Nodup →
      (∀ id ∈ r.pending.map used_elem._id, id ∈ H) →
      r.pending.length < fuel → r.size ≤ fuel →
      r.do_complete c fuel e = .ok (b, r1, e1) →
      reachable buffers c size r1 e1
        (H.filter (fun h => decide (h ∉ r.pending.map used_elem._id)))

/-- What holds in every reachable state of a ring of 1 to 65536
descriptors: the free list `L` and chains `Cs` in flight of the invariant,
the heads of `Cs` being the heads in flight, hold every descriptor of the
ring between them, and the 16-bit cursors are in range. -/
structure reach_inv (size : Nat) (r : vring BC) (H : List Nat) (L : List Nat)
    (Cs : List (List Nat)) : Prop where
  size_eq : r._config.size = size
  inv : r.inv L Cs
  heads : (Cs.map List.headI).Perm H
  cover : ∀ i, i < size → i ∈ L ++ Cs.flatten
  head : r._avail._head < 65536
  added : r._avail._avail_added_since_kick < 65536
  tail : r._used._tail < 65536
  used_idx : r._used._shared._idx < 65536

/-! ## A ring of four descriptors, for the concrete instances -/

/-- A buffer the host reads. -/
def demo_buffer : buffer := ⟨4096, 64, false⟩

/-- A buffer the host writes. -/
def demo_buffer_w : buffer := ⟨8192, 32, true⟩

/-- A fresh ring of four descriptors over zeroed memory, without event-index;
its chains are lists of buffers. -/
def demo_ring : vring (List buffer) :=
  vring.create { size := 4 } (fun _ => []) (fun _ => {}) {} {} 0 0

/-- A completion functor that records its calls in the environment, gives
one credit per buffer of the chain and leaves the chain empty. -/
def demo_completion : completion (List buffer) (List (List buffer × Nat)) where
  call := fun e credits bc len => .ok (e ++ [(bc, len)], credits + bc.length, [])
  bunch := fun e _ => e

/-- Two chains of two buffers each. -/
def demo_chains : List (List buffer) :=
  [[demo_buffer, demo_buffer_w], [demo_buffer_w, demo_buffer]]

/-- The ring after `post` of `demo_chains`. -/
def demo_posted : vring (List buffer) :=
  match demo_ring.post id demo_chains with
  | .ok r => r
  | .error _ => demo_ring

/-- The used ring after the host has returned the second chain (head 2),
then the first (head 0). -/
def demo_used : used_layout :=
  { _flags := 0, _idx := 2, _used_elements := fun j => if j = 0 then ⟨2, 7⟩ else ⟨0, 9⟩ }

/-- The result of `do_complete` on `demo_posted` once the host has written
`demo_used`. -/
def demo_polled : Bool × vring (List buffer) × List (List buffer × Nat) :=
  match vring.do_complete demo_completion 8 { demo_posted with _used._shared := demo_used } [] with
  | .ok x => x
  | .error _ => (false, demo_posted, [])

/-- The ring after `post` of one empty chain. -/
def demo_posted_empty : vring (List buffer) :=
  match demo_ring.post id [[]] with
  | .ok r => r
  | .error _ => demo_ring

/-- The used ring after the host has returned the head published for the
empty chain, descriptor 0. -/
def demo_used_empty : used_layout :=
  { _flags := 0, _idx := 1, _used_elements := fun _ => ⟨0, 0⟩ }

/-- The result of `do_complete` after the empty chain has been returned. -/
def demo_polled_empty : Bool × vring (List buffer) × List (List buffer × Nat) :=
  match vring.do_complete demo_completion 8
      { demo_posted_empty with _used._shared := demo_used_empty } [] with
  | .ok x => x
  | .error _ => (false, demo_posted_empty, [])

/-- A ring with event-index negotiated in which three chains have been added
since the last kick, the published index is 5 and the host's avail-event
value is 3. -/
def demo_ring_ev : vring (List buffer) :=
  { vring.create { size := 4, event_index := true } (fun _ => []) (fun _ => {}) {} {} 0 0 with
    _avail := { _shared := { _idx := 5 }, _head := 5, _avail_added_since_kick := 3 }
    _avail_event := 3 }

/-- A fresh ring of 131072 descriptors over zeroed memory. -/
def big_ring : vring (List buffer) :=
  vring.create { size := 131072 } (fun _ => []) (fun _ => {}) {} {} 0 0

/-- The fresh ring of four descriptors with the available head and the used
tail one step before the 16-bit wrap. -/
def demo_ring_wrap : vring (List buffer) :=
  { demo_ring with
    _avail := { _shared := { _idx := 65535 }, _head := 65535 }
    _used := { _shared := { _idx := 65535 }, _tail := 65535 } }

/-- The ring after `post` of `demo_chains` on `demo_ring_wrap`. -/
def demo_posted_wrap : vring (List buffer) :=
  match demo_ring_wrap.post id demo_chains with
  | .ok r => r
  | .error _ => demo_ring_wrap

/-- The used ring after the host has echoed the two heads it found in slots
3 and 0 of the available ring into slots 3 and 0 of the used ring. -/
def demo_used_wrap : used_layout :=
  { _flags := 0, _idx := 1, _used_elements := fun j => if j = 3 then ⟨0, 9⟩ else ⟨2, 7⟩ }

/-- A fresh transmit queue over a ring of 256 descriptors. -/
def demo_txq : txq := txq.create { size := 256 } {} 12

/-- Ten packets of one fragment each. -/
def demo_packets : List packet :=
  List.replicate 10 { fragments := [{ base := 8192, size := 100 }] }

/-- The transmit queue after `post` of `demo_packets`. -/
def demo_txq_posted : Nat × List packet × txq :=
  match demo_txq.post demo_packets with
  | .ok x => x
  | .error _ => (0, [], demo_txq)

/-- The used ring after the host has returned the heads of the ten chains,
the descriptors 0, 2, ..., 18. -/
def demo_tx_used : used_layout :=
  { _flags := 0, _idx := 10, _used_elements := fun j => ⟨2 * j, 0⟩ }

/-- A transmit queue over a fresh ring of four descriptors. -/
def demo_txq_small : txq := txq.create { size := 4 } {} 12

/-- A packet of one fragment. -/
def demo_packet_1 : packet := { fragments := [{ base := 8192, size := 100 }] }

/-- A packet of two fragments. -/
def demo_packet_2 : packet :=
  { fragments := [{ base := 8192, size := 100 }, { base := 12288, size := 60 }] }

/-- The small transmit queue after `post` of a packet of one fragment, one
of two and another of one. -/
def demo_txq_small_posted : Nat × List packet × txq :=
  match demo_txq_small.post [demo_packet_1, demo_packet_2, demo_packet_1] with
  | .ok x => x
  | .error _ => (0, [], demo_txq_small)

/-- A hardware-feature summary with checksum offload, TSO and UFO on. -/
def demo_hw : hw_features := { tx_csum_l4_offload := true, tx_tso := true, tx_ufo := true }

/-- The same summary with TSO off. -/
def demo_hw_no_tso : hw_features := { demo_hw with tx_tso := false }

/-- A TCP packet of 3000 bytes that asks for checksum offload and for
segments of 1400 bytes. -/
def demo_tcp_packet : packet :=
  { fragments := [{ base := 8192, size := 3000 }],
    offload := { protocol := .tcp, needs_csum := true, tso_seg_size := 1400 } }

/-- A UDP packet of 3000 bytes that asks for checksum offload. -/
def demo_udp_packet : packet :=
  { fragments := [{ base := 8192, size := 3000 }],
    offload := { protocol := .udp, needs_csum := true } }

/-- The small transmit queue after `post` of one packet of two fragments. -/
def demo_txq_small_posted_2 : Nat × List packet × txq :=
  match demo_txq_small.post [demo_packet_2] with
  | .ok x => x
  | .error _ => (0, [], demo_txq_small)

/-- A packet of one fragment of 2^32 + 5 bytes. -/
def demo_packet_big : packet := { fragments := [{ base := 8192, size := 4294967301 }] }

/-- The result of `txq::post` of `demo_packet_big` on the fresh small queue. -/
def demo_txq_small_posted_big : Nat × List packet × txq :=
  match demo_txq_small.post [demo_packet_big] with
  | .ok x => x
  | .error _ => (0, [], demo_txq_small)

/-! ## Receive queue -/

/-- The struct `rxq::buffer_and_virt`: a `buffer` and `buf`, the owning
pointer to its memory, 0 for the null pointer of a moved-from `unique_ptr`. -/
structure buffer_and_virt where
  addr : Nat := 0
  len : Nat := 0
  writeable : Bool := false
  buf : Nat := 0
  deriving DecidableEq, Repr

/-- The type `rxq::single_buffer`, `std::array<buffer_and_virt, 1>`, by its
one element. -/
structure single_buffer where
  elem : buffer_and_virt := {}
  deriving DecidableEq, Repr

/-- The range `begin() .. end()` of a `single_buffer`, each element read as
the `buffer` it derives from. -/
def single_buffer.buffers (bc : single_buffer) : List buffer :=
  [{ addr := bc.elem.addr, len := bc.elem.len, writeable := bc.elem.writeable }]

/-- The calls `complete_buffer` makes out of the queue: `l2receive(p)` on the
device and `signal(n)` on the semaphore of the ring. -/
inductive rx_event where
  | l2receive (p : packet)
  | signal (n : Nat)
  deriving DecidableEq, Repr

/-- The members of `qp::rxq` other than `_ring`, with what `complete_buffer`
reaches through `_dev`: `_header_len`, the receive statistics, and the
packets handed to `l2receive`, oldest first.  `mem` is guest memory as the
host has left it: the `net_hdr_mrg` that the bytes at an address hold.
`events` holds the calls of `l2receive` and of `signal` made so far, in the
order in which they were made. -/
structure rxq_state where
  _remaining_buffers : Nat := 0
  _fragments : List fragment := []
  _buffers : List Nat := []
  _header_len : Nat := 12
  mem : Nat → net_hdr_mrg := fun _ => {}
  received : List packet := []
  rx_frags : Nat := 0
  rx_bytes : Nat := 0
  rx_pkts_bunch : Nat := 0
  events : List rx_event := []

/-- The first part of `rxq::complete_buffer` ("First buffer"): the state
and the locals `frag_buf` and `frag_len` after it.  Reading the header
through a null `frag_buf` is a fault. -/
def rxq.first_buffer (s : rxq_state) (buf len : Nat) : Except fault (rxq_state × Nat × Nat) :=
  if s._remaining_buffers = 0 then
    if buf = 0 then .error .out_of_bounds
    else
      let hdr := s.mem buf
      if hdr.num_buffers ≥ 1 then
        .ok ({ s with _remaining_buffers := hdr.num_buffers, _fragments := [], _buffers := [] },
             buf + s._header_len,
             (((len : Int) - (s._header_len : Int)) % 18446744073709551616).toNat)
      else .error .assertion
  else .ok (s, buf, len)

/-- The method `rxq::complete_buffer(bc, len)` (without `ACTOR_DEBUG`) on the
members of the queue and the credits of the ring's semaphore; the third
result is the chain as the call leaves it, its `buf` moved from.  The packet
built from `_fragments` is modelled from the spec (`net/packet.hh` is not
under src/): it has these fragments in order.  On the last buffer the
source calls `update_frags_stats`, then `l2receive`, then `signal`; `events`
gets the last two in this order. -/
def rxq.complete_buffer (s : rxq_state) (credits : Nat) (bc : single_buffer) (len : Nat) :
    Except fault (rxq_state × Nat × single_buffer) :=
  let sb := bc.elem
  match rxq.first_buffer s sb.buf len with
  | .error f => .error f
  | .ok (s1, frag_buf, frag_len) =>
    let s2 : rxq_state :=
      { s1 with
        _fragments := s1._fragments ++ [{ base := frag_buf, size := frag_len }]
        _buffers := s1._buffers ++ [sb.buf]
        _remaining_buffers := (s1._remaining_buffers + 4294967295) % 4294967296 }
    let left : single_buffer := { elem := { sb with buf := 0 } }
    if s2._remaining_buffers = 0 then
      let p : packet := { fragments := s2._fragments }
      .ok ({ s2 with
             _buffers := []
             rx_frags := s2.rx_frags + p.nr_frags
             rx_bytes := s2.rx_bytes + p.len
             received := s2.received ++ [p]
             events := s2.events ++ [.l2receive p, .signal s2._fragments.length] },
           credits + s2._fragments.length, left)
    else .ok (s2, credits, left)

/-- The functor `rxq::complete`: `operator()` is `complete_buffer`, `bunch`
is `update_rx_count`.  Modelled from the spec: the `update_pkts_bunch` it
calls (`net/net.hh` is not under src/) adds the count to a 64-bit
statistic. -/
def rxq_complete : completion single_buffer rxq_state where
  call := rxq.complete_buffer
  bunch := fun s c => { s with rx_pkts_bunch := (s.rx_pkts_bunch + c) % 18446744073709551616 }

/-- The state of a `qp::rxq`: the ring and the other members. -/
structure rxq where
  _ring : vring single_buffer
  st : rxq_state := {}

/-- The fragment `complete_buffer` appends for a buffer that is not the
first of its packet: the whole of what the host has written. -/
def rx_fragment (c : single_buffer × Nat) : fragment := { base := c.1.elem.buf, size := c.2 }

/-- A receive buffer of 4096 bytes at the address `a`. -/
def demo_rx_buffer (a : Nat) : single_buffer :=
  { elem := { addr := a, len := 4096, writeable := true, buf := a } }

/-- A receive queue at rest, with a header at address 4096 that reports
three buffers. -/
def demo_rx_state : rxq_state :=
  { mem := fun a => if a = 4096 then { num_buffers := 3 } else {} }

/-- The lambda `make_buffer_chain` of `rxq::prepare_buffers`, for the address
`a` that `malloc(4096)` returns. -/
def rxq.make_buffer_chain (a : Nat) : single_buffer :=
  { elem := { addr := virt_to_phys a, len := 4096, writeable := true, buf := a } }

/-- The continuation of `available.wait(1)` in `rxq::prepare_buffers`, which
runs once the semaphore has a credit (with none the future stays pending and
the queue is as it was).  `malloc i` is the address the `i`-th `malloc` of
the run returns.  `try_wait(n)` takes `n` credits when that many are there. -/
def rxq.prepare_buffers (malloc : Nat → Nat) (q : rxq) : Except fault rxq :=
  if q._ring._available_descriptors < 1 then .ok q
  else
    let available := q._ring._available_descriptors - 1
    let count := 1
    let opportunistic := available
    let taken : Nat × Nat :=
      if opportunistic ≤ available then
        (available - opportunistic, (count + opportunistic) % 4294967296)
      else (available, count)
    let chains := (List.range taken.2).map (fun i => rxq.make_buffer_chain (malloc i))
    match vring.post single_buffer.buffers chains
        { q._ring with _available_descriptors := taken.1 } with
    | .error f => .error f
    | .ok ring => .ok { q with _ring := ring }

/-- The constructor `rxq::rxq(dev, config)` over a zeroed ring memory. -/
def rxq.create (config : ring_config) (st : rxq_state) : rxq :=
  { _ring := vring.create config (fun _ => {}) (fun _ => {}) {} {} 0 0, st := st }

/-- A fresh receive queue over a ring of four descriptors. -/
def demo_rxq : rxq := rxq.create { size := 4, mergable_buffers := true } demo_rx_state

/-- The receive queue after `prepare_buffers` has posted four buffers, at
the addresses 4096, 8192, 12288 and 16384. -/
def demo_rxq_filled : rxq :=
  match demo_rxq.prepare_buffers (fun i => 4096 * (i + 1)) with
  | .ok q => q
  | .error _ => demo_rxq

/-- The used ring after the host has returned the buffers of the descriptors
0, 1 and 2 with 4096, 4096 and 808 bytes. -/
def demo_rx_used : used_layout :=
  { _flags := 0, _idx := 3,
    _used_elements := fun j => if j = 0 then ⟨0, 4096⟩ else if j = 1 then ⟨1, 4096⟩ else ⟨2, 808⟩ }

/-- The ring and the queue after the first round of the loop of
`do_complete` on `demo_rx_used` (which `bunch` has been called before). -/
def demo_rx_step : vring single_buffer × rxq_state :=
  match vring.complete_one rxq_complete 8
      { demo_rxq_filled._ring with _used._shared := demo_rx_used }
      (rxq_complete.bunch demo_rxq_filled.st 18446744073709551613) with
  | .ok x => x
  | .error _ => (demo_rxq_filled._ring, demo_rxq_filled.st)

/-- The result of `do_complete` on the filled receive queue at the moment
the host has returned the first of the three buffers only. -/
def demo_rx_polled_first : Bool × vring single_buffer × rxq_state :=
  match vring.do_complete rxq_complete 8
      { demo_rxq_filled._ring with _used._shared := { demo_rx_used with _idx := 1 } }
      demo_rxq_filled.st with
  | .ok x => x
  | .error _ => (false, demo_rxq_filled._ring, demo_rxq_filled.st)

/-! ## Device, feature negotiation and backend setup -/

/-- Modelled from the spec: what a `boost::program_options::variables_map`
holds under an option name, a string or an unsigned number. -/
inductive variable_value where
  | str (s : String)
  | uns (n : Nat)
  deriving DecidableEq, Repr

/-- Modelled from the spec: the option map, from the name of an option to
the value given for it, if one is given. -/
def variables_map : Type := String → Option variable_value

/-- The call `opts.count(name)`. -/
def variables_map.count (opts : variables_map) (name : String) : Nat :=
  if (opts name).isSome then 1 else 0

/-- The expression `opts[name].as<std::string>()`, which throws when the
option is not given or does not hold a string. -/
def variables_map.as_string (opts : variables_map) (name : String) : Except fault String :=
  match opts name with
  | some (.str s) => .ok s
  | _ => .error .exception

/-- The expression `opts[name].as<unsigned>()`. -/
def variables_map.as_unsigned (opts : variables_map) (name : String) : Except fault Nat :=
  match opts name with
  | some (.uns n) => .ok n
  | _ => .error .exception

/-- The feature macros of `net/virtio-interface.hh`, which is not under
src/, as a parameter: each macro is one bit, `1 << n`, and the structure
holds the bit numbers `n`. -/
structure feature_bits where
  ring_indirect_desc : Nat
  ring_event_idx : Nat
  net_csum : Nat
  net_guest_csum : Nat
  net_mac : Nat
  net_guest_tso4 : Nat
  net_guest_ufo : Nat
  net_host_tso4 : Nat
  net_host_ufo : Nat
  net_mrg_rxbuf : Nat
  deriving DecidableEq, Repr

/-- The macro `VIRTIO_RING_F_INDIRECT_DESC`. -/
def feature_bits.VIRTIO_RING_F_INDIRECT_DESC (F : feature_bits) : Nat := 2 ^ F.ring_indirect_desc

/-- The macro `VIRTIO_RING_F_EVENT_IDX`. -/
def feature_bits.VIRTIO_RING_F_EVENT_IDX (F : feature_bits) : Nat := 2 ^ F.ring_event_idx

/-- The macro `VIRTIO_NET_F_CSUM`. -/
def feature_bits.VIRTIO_NET_F_CSUM (F : feature_bits) : Nat := 2 ^ F.net_csum

/-- The macro `VIRTIO_NET_F_GUEST_CSUM`. -/
def feature_bits.VIRTIO_NET_F_GUEST_CSUM (F : feature_bits) : Nat := 2 ^ F.net_guest_csum

/-- The macro `VIRTIO_NET_F_MAC`. -/
def feature_bits.VIRTIO_NET_F_MAC (F : feature_bits) : Nat := 2 ^ F.net_mac

/-- The macro `VIRTIO_NET_F_GUEST_TSO4`. -/
def feature_bits.VIRTIO_NET_F_GUEST_TSO4 (F : feature_bits) : Nat := 2 ^ F.net_guest_tso4

/-- The macro `VIRTIO_NET_F_GUEST_UFO`. -/
def feature_bits.VIRTIO_NET_F_GUEST_UFO (F : feature_bits) : Nat := 2 ^ F.net_guest_ufo

/-- The macro `VIRTIO_NET_F_HOST_TSO4`. -/
def feature_bits.VIRTIO_NET_F_HOST_TSO4 (F : feature_bits) : Nat := 2 ^ F.net_host_tso4

/-- The macro `VIRTIO_NET_F_HOST_UFO`. -/
def feature_bits.VIRTIO_NET_F_HOST_UFO (F : feature_bits) : Nat := 2 ^ F.net_host_ufo

/-- The macro `VIRTIO_NET_F_MRG_RXBUF`. -/
def feature_bits.VIRTIO_NET_F_MRG_RXBUF (F : feature_bits) : Nat := 2 ^ F.net_mrg_rxbuf

/-- The test `_opts.count(name) && _opts[name].as<std::string>() == "off"`
of `device::setup_features`. -/
def device.option_off (opts : variables_map) (name : String) : Except fault Bool :=
  if opts.count name ≠ 0 then
    match opts.as_string name with
    | .error f => .error f
    | .ok s => .ok (s == "off")
  else .ok false

/-- The method `device::setup_features()` on the option map and the
default-initialised `_hw_features`: the mask it returns (an `int64_t`
returned as `uint64_t`) and `_hw_features` as it leaves it. -/
def device.setup_features (F : feature_bits) (opts : variables_map) (hw : hw_features) :
    Except fault (Nat × hw_features) := do
  let m := F.VIRTIO_RING_F_INDIRECT_DESC ||| F.VIRTIO_NET_F_MRG_RXBUF
  let ev ← device.option_off opts "event-index"
  let m := if !ev then m ||| F.VIRTIO_RING_F_EVENT_IDX else m
  let cs ← device.option_off opts "csum-offload"
  let m := if !cs then m ||| (F.VIRTIO_NET_F_CSUM ||| F.VIRTIO_NET_F_GUEST_CSUM) else m
  let hw := { hw with tx_csum_l4_offload := !cs, rx_csum_offload := !cs }
  let tso ← device.option_off opts "tso"
  let m := if !tso then m ||| F.VIRTIO_NET_F_HOST_TSO4 else m
  let hw := { hw with tx_tso := !tso }
  let lro ← device.option_off opts "lro"
  let m := if !lro then m ||| F.VIRTIO_NET_F_GUEST_TSO4 else m
  let hw := { hw with rx_lro := !lro }
  let ufo ← device.option_off opts "ufo"
  let m := if !ufo then (m ||| F.VIRTIO_NET_F_HOST_UFO) ||| F.VIRTIO_NET_F_GUEST_UFO else m
  let hw := { hw with tx_ufo := !ufo }
  let m := m ||| F.VIRTIO_NET_F_MAC
  .ok (m % 18446744073709551616, hw)

/-- The state of a `virtio::device`. -/
structure device where
  _opts : variables_map
  _hw_features : hw_features := {}
  _features : Nat := 0

/-- The constructor `device::device(opts)`. -/
def device.create (F : feature_bits) (opts : variables_map) : Except fault device :=
  match device.setup_features F opts {} with
  | .error f => .error f
  | .ok (m, hw) => .ok { _opts := opts, _hw_features := hw, _features := m }

/-- The method `device::hw_features()`. -/
def device.hw_features (d : device) : hw_features := d._hw_features

/-- The method `device::features()`. -/
def device.features (d : device) : Nat := d._features

/-- Modelled from the spec: `align_up(v, align)` of `core/align.hh` (not
under src/), the smallest multiple of `align` that is not below `v`. -/
def align_up (v align : Nat) : Nat := (v + align - 1) / align * align

/-- The method `qp::vring_storage_size(ring_size)`, a `size_t`. -/
def qp.vring_storage_size (ring_size : Nat) : Nat :=
  (3 * 4096 + ring_size * (16 + 2 + 8)) % 18446744073709551616

/-- The method `qp::common_config(r)`, given `_dev->features()`.  The
products `16 * r.size` and `2 * r.size` are `unsigned`. -/
def qp.common_config (F : feature_bits) (features : Nat) (r : ring_config) : ring_config :=
  let avail := r.descs + (16 * r.size) % 4294967296
  { r with
    avail := avail
    used := align_up (avail + (2 * r.size) % 4294967296 + 6) 4096
    event_index := (features &&& F.VIRTIO_RING_F_EVENT_IDX) != 0
    indirect := false }

/-- The method `qp::txq_config(tx_ring_size)`; `storage` is
`_txq_storage.get()`. -/
def qp.txq_config (F : feature_bits) (features : Nat) (storage tx_ring_size : Nat) : ring_config :=
  qp.common_config F features
    { size := tx_ring_size % 4294967296, descs := storage, mergable_buffers := false }

/-- The method `qp::rxq_config(rx_ring_size)`; `storage` is
`_rxq_storage.get()`. -/
def qp.rxq_config (F : feature_bits) (features : Nat) (storage rx_ring_size : Nat) : ring_config :=
  qp.common_config F features
    { size := rx_ring_size % 4294967296, descs := storage, mergable_buffers := true }

/-- The address the constructor of `vring` takes for `_used_event`, that of
`_avail._shared->_ring[conf.size]`: the header of `avail_layout` has 4 bytes
and an entry 2. -/
def vring.used_event_addr (conf : ring_config) : Nat := conf.avail + 4 + 2 * conf.size

/-- The address the constructor of `vring` takes for `_avail_event`, that of
`_used._shared->_used_elements[conf.size]`: the header of `used_layout` has
4 bytes and a `used_elem` 8. -/
def vring.avail_event_addr (conf : ring_config) : Nat := conf.used + 4 + 8 * conf.size

/-- The value of `sizeof(net_hdr)`: two bytes of bit fields and `gso_type`,
and four 16-bit fields. -/
def sizeof_net_hdr : Nat := 1 + 1 + 2 + 2 + 2 + 2

/-- The value of `sizeof(net_hdr_mrg)`: `net_hdr` and the 16-bit
`num_buffers`. -/
def sizeof_net_hdr_mrg : Nat := sizeof_net_hdr + 2

/-- The state of a `qp`: the device, `_header_len` and the two queues, which
read the header length and the hardware features through the `qp`. -/
structure qp where
  _dev : device
  _header_len : Nat
  _txq : txq
  _rxq : rxq

/-- The function `config_ring_size(opts)`. -/
def config_ring_size (opts : variables_map) : Except fault Nat :=
  if opts.count "event-index" ≠ 0 then opts.as_unsigned "virtio-ring-size"
  else .ok 256

/-- The system calls the constructor of `qp_vhost` makes, with the arguments
it passes: the two `open`, and the `ioctl` requests by name. -/
inductive vhost_op where
  | open_vhost_net
  | VHOST_GET_FEATURES
  | VHOST_SET_FEATURES (features : Nat)
  | open_tun
  | TUNSETIFF (name : String) (flags : Nat)
  | TUNSETOFFLOAD (offload : Nat)
  | TUNSETVNETHDRSZ (len : Nat)
  | VHOST_SET_OWNER
  | VHOST_SET_MEM_TABLE (guest_phys_addr memory_size userspace_addr : Nat)
  | VHOST_SET_VRING_NUM (index num : Nat)
  | VHOST_SET_VRING_ADDR (index desc_user_addr used_user_addr avail_user_addr : Nat)
  | VHOST_SET_VRING_KICK (index fd : Nat)
  | VHOST_SET_VRING_CALL (index fd : Nat)
  | VHOST_NET_SET_BACKEND (index fd : Nat)
  deriving DecidableEq, Repr

/-- What the system hands to the constructor of `qp_vhost`: the mask
`VHOST_GET_FEATURES` reports, the addresses of the two ring storages and the
file descriptors of the tap device and of the four event channels. -/
structure vhost_env where
  backend_features : Nat
  txq_storage : Nat
  rxq_storage : Nat
  tap_fd : Nat := 0
  rxq_kick_fd : Nat := 0
  rxq_notify_fd : Nat := 0
  txq_kick_fd : Nat := 0
  txq_notify_fd : Nat := 0

/-- The constant `IFNAMSIZ` of `linux/if.h`. -/
def IFNAMSIZ : Nat := 16

/-- The flags `IFF_TAP | IFF_NO_PI | IFF_ONE_QUEUE | IFF_VNET_HDR` of
`linux/if_tun.h`. -/
def tap_flags : Nat := 0x0002 ||| 0x1000 ||| 0x2000 ||| 0x4000

/-- The offload flags the constructor of `qp_vhost` computes for the tap
device from the hardware-feature summary (`TUN_F_CSUM` is 1, `TUN_F_TSO4` 2
and `TUN_F_UFO` 16 in `linux/if_tun.h`). -/
def qp_vhost.tap_offload (hw : hw_features) : Nat :=
  if hw.tx_csum_l4_offload && hw.rx_csum_offload then
    let offload := 1
    let offload := if hw.tx_tso then offload ||| 2 else offload
    if hw.tx_ufo then offload ||| 16 else offload
  else 0

/-- The constructor `qp_vhost::qp_vhost(dev, opts)` when every system call
succeeds: the queue pair, and the system calls made, in order.  The base
constructor `qp::qp` builds the two ring configurations and rings; the
queues are given the `_header_len` the body sets afterwards, which they
read through the `qp` when they run. -/
def qp_vhost.create (F : feature_bits) (env : vhost_env) (dev : device) (opts : variables_map) :
    Except fault (qp × List vhost_op) := do
  let rx_ring_size ← config_ring_size opts
  let tx_ring_size ← config_ring_size opts
  let txc := qp.txq_config F dev.features env.txq_storage tx_ring_size
  let rxc := qp.rxq_config F dev.features env.rxq_storage rx_ring_size
  let tap_device ← opts.as_string "tap-device"
  let vhost_supported_features := env.backend_features &&& dev.features
  let header_len :=
    if vhost_supported_features &&& F.VIRTIO_NET_F_MRG_RXBUF ≠ 0 then sizeof_net_hdr_mrg
    else sizeof_net_hdr
  if tap_device.utf8ByteSize + 1 ≤ IFNAMSIZ then
    let hw := dev.hw_features
    .ok ({ _dev := dev, _header_len := header_len,
           _txq := txq.create txc hw header_len,
           _rxq := rxq.create rxc { _header_len := header_len } },
         [ .open_vhost_net,
           .VHOST_GET_FEATURES,
           .VHOST_SET_FEATURES vhost_supported_features,
           .open_tun,
           .TUNSETIFF tap_device tap_flags,
           .TUNSETOFFLOAD (qp_vhost.tap_offload hw),
           .TUNSETVNETHDRSZ header_len,
           .VHOST_SET_OWNER,
           .VHOST_SET_MEM_TABLE 0 (2 ^ 47 - 4096) 0,
           .VHOST_SET_VRING_NUM 0 rxc.size,
           .VHOST_SET_VRING_NUM 1 txc.size,
           .VHOST_SET_VRING_ADDR 0 rxc.descs rxc.used rxc.avail,
           .VHOST_SET_VRING_ADDR 1 txc.descs txc.used txc.avail,
           .VHOST_SET_VRING_KICK 0 env.rxq_kick_fd,
           .VHOST_SET_VRING_CALL 0 env.rxq_notify_fd,
           .VHOST_SET_VRING_KICK 1 env.txq_kick_fd,
           .VHOST_SET_VRING_CALL 1 env.txq_notify_fd,
           .VHOST_NET_SET_BACKEND 0 env.tap_fd,
           .VHOST_NET_SET_BACKEND 1 env.tap_fd ])
  else .error .assertion

/-- The mask `device::setup_features` returns, by the options that are
"off". -/
def device.supported (F : feature_bits) (ev cs tso lro ufo : Bool) : Nat :=
  let m := F.VIRTIO_RING_F_INDIRECT_DESC ||| F.VIRTIO_NET_F_MRG_RXBUF
  let m := if !ev then m ||| F.VIRTIO_RING_F_EVENT_IDX else m
  let m := if !cs then m ||| (F.VIRTIO_NET_F_CSUM ||| F.VIRTIO_NET_F_GUEST_CSUM) else m
  let m := if !tso then m ||| F.VIRTIO_NET_F_HOST_TSO4 else m
  let m := if !lro then m ||| F.VIRTIO_NET_F_GUEST_TSO4 else m
  let m := if !ufo then (m ||| F.VIRTIO_NET_F_HOST_UFO) ||| F.VIRTIO_NET_F_GUEST_UFO else m
  (m ||| F.VIRTIO_NET_F_MAC) % 18446744073709551616

/-- The bit numbers of the feature macros are ten different numbers below
63 (the macros are `int` constants or-ed into an `int64_t`). -/
def feature_bits.distinct (F : feature_bits) : Prop :=
  [F.ring_indirect_desc, F.ring_event_idx, F.net_csum, F.net_guest_csum, F.net_mac,
    F.net_guest_tso4, F.net_guest_ufo, F.net_host_tso4, F.net_host_ufo, F.net_mrg_rxbuf].Nodup ∧
  ∀ n ∈ [F.ring_indirect_desc, F.ring_event_idx, F.net_csum, F.net_guest_csum, F.net_mac,
    F.net_guest_tso4, F.net_guest_ufo, F.net_host_tso4, F.net_host_ufo, F.net_mrg_rxbuf], n < 63

/-- The option `name` is given as the string "off". -/
def variables_map.is_off (opts : variables_map) (name : String) : Bool :=
  decide (opts name = some (.str "off"))

/-- The feature bits of the virtio specification. -/
def demo_bits : feature_bits :=
  { ring_indirect_desc := 28, ring_event_idx := 29, net_csum := 0, net_guest_csum := 1,
    net_mac := 5, net_guest_tso4 := 7, net_guest_ufo := 10, net_host_tso4 := 11,
    net_host_ufo := 14, net_mrg_rxbuf := 15 }

/-- The mask the constructor of `qp_vhost` sends to the backend. -/
def qp_vhost.negotiated (env : vhost_env) (dev : device) : Nat :=
  env.backend_features &&& dev.features

/-- The header length the constructor of `qp_vhost` sets. -/
def qp_vhost.header_len (F : feature_bits) (env : vhost_env) (dev : device) : Nat :=
  if qp_vhost.negotiated env dev &&& F.VIRTIO_NET_F_MRG_RXBUF ≠ 0 then sizeof_net_hdr_mrg
  else sizeof_net_hdr

/-- The system calls of the constructor of `qp_vhost` from `VHOST_SET_OWNER`
on, for the ring configurations `rxc` and `txc`. -/
def qp_vhost.vhost_setup (env : vhost_env) (rxc txc : ring_config) : List vhost_op :=
  [ .VHOST_SET_OWNER,
    .VHOST_SET_MEM_TABLE 0 (2 ^ 47 - 4096) 0,
    .VHOST_SET_VRING_NUM 0 rxc.size,
    .VHOST_SET_VRING_NUM 1 txc.size,
    .VHOST_SET_VRING_ADDR 0 rxc.descs rxc.used rxc.avail,
    .VHOST_SET_VRING_ADDR 1 txc.descs txc.used txc.avail,
    .VHOST_SET_VRING_KICK 0 env.rxq_kick_fd,
    .VHOST_SET_VRING_CALL 0 env.rxq_notify_fd,
    .VHOST_SET_VRING_KICK 1 env.txq_kick_fd,
    .VHOST_SET_VRING_CALL 1 env.txq_notify_fd,
    .VHOST_NET_SET_BACKEND 0 env.tap_fd,
    .VHOST_NET_SET_BACKEND 1 env.tap_fd ]

/-- An option map with TSO off, rings of 512 descriptors and the tap device
"tap0". -/
def demo_opts : variables_map := fun name =>
  if name = "tso" then some (.str "off")
  else if name = "event-index" then some (.str "on")
  else if name = "virtio-ring-size" then some (.uns 512)
  else if name = "tap-device" then some (.str "tap0")
  else none

/-- The option map of a run with no virtio option on the command line: the
defaults `get_virtio_net_options_description` declares, and the tap device
"tap0". -/
def default_opts : variables_map := fun name =>
  if name = "event-index" then some (.str "on")
  else if name = "csum-offload" then some (.str "on")
  else if name = "tso" then some (.str "on")
  else if name = "ufo" then some (.str "on")
  else if name = "virtio-ring-size" then some (.uns 256)
  else if name = "tap-device" then some (.str "tap0")
  else none

/-- An option map that gives a ring size of 512 and no `event-index`. -/
def ring_size_only_opts : variables_map := fun name =>
  if name = "virtio-ring-size" then some (.uns 512)
  else if name = "tap-device" then some (.str "tap0")
  else none

/-- An option map that gives `event-index` and no ring size. -/
def event_index_only_opts : variables_map := fun name =>
  if name = "event-index" then some (.str "on")
  else if name = "tap-device" then some (.str "tap0")
  else none

/-- A backend that reports the feature mask `backend`, with the ring
storages at 1 MiB and 2 MiB. -/
def demo_env (backend : Nat) : vhost_env :=
  { backend_features := backend, txq_storage := 1048576, rxq_storage := 2097152,
    tap_fd := 5, rxq_kick_fd := 6, rxq_notify_fd := 7, txq_kick_fd := 8, txq_notify_fd := 9 }

/-- The device the constructor builds from the default options. -/
def demo_dev : device :=
  match device.create demo_bits default_opts with
  | .ok d => d
  | .error _ => { _opts := default_opts }

/-- The step of the backend setup a system call belongs to: 0 for set owner,
1 for the memory table, 2 for a ring size, 3 for ring addresses, 4 for a
kick or call event channel and 5 for the attachment of the backend. -/
def vhost_op.stage : vhost_op → Option Nat
  | .VHOST_SET_OWNER => some 0
  | .VHOST_SET_MEM_TABLE _ _ _ => some 1
  | .VHOST_SET_VRING_NUM _ _ => some 2
  | .VHOST_SET_VRING_ADDR _ _ _ _ => some 3
  | .VHOST_SET_VRING_KICK _ _ => some 4
  | .VHOST_SET_VRING_CALL _ _ => some 4
  | .VHOST_NET_SET_BACKEND _ _ => some 5
  | _ => none

/-- The function `device::init_local_queue(opts, qid)` (without `HAVE_OSV`).
`called` is the value of the function-local `static bool called` when the
call starts; the first result is its value when the call ends, be it by a
return, by an exception of the constructor of `qp_vhost`, or at a failed
`assert`. -/
def device.init_local_queue (F : feature_bits) (env : vhost_env) (dev : device)
    (opts : variables_map) (qid : Nat) (called : Bool) :
    Bool × Except fault (qp × List vhost_op) :=
  if qid ≠ 0 then (called, .error .assertion)
  else if called then (called, .error .assertion)
  else (true, qp_vhost.create F env dev opts)

/-- The results of successive calls of `init_local_queue` in one process,
which a failed `assert` ends. -/
def device.init_calls (F : feature_bits) (env : vhost_env) (dev : device) :
    List (variables_map × Nat) → Bool → List (Except fault (qp × List vhost_op))
  | [], _ => []
  | call :: rest, called =>
    match device.init_local_queue F env dev call.1 call.2 called with
    | (_, .error .assertion) => [.error .assertion]
    | (called1, res) => res :: device.init_calls F env dev rest called1

/-- The result of `do_complete` on the filled receive queue once the host
has returned three buffers (`demo_rx_used`). -/
def demo_rx_polled : Bool × vring single_buffer × rxq_state :=
  match vring.do_complete rxq_complete 8
      { demo_rxq_filled._ring with _used._shared := demo_rx_used } demo_rxq_filled.st with
  | .ok x => x
  | .error _ => (false, demo_rxq_filled._ring, demo_rxq_filled.st)

/-- A receive queue at rest in which every header the host has written
reports one buffer. -/
def demo_rx_state_one : rxq_state := { mem := fun _ => { num_buffers := 1 } }

/-- The ring after `post` of one chain of one buffer. -/
def demo_posted_one : vring (List buffer) :=
  match demo_ring.post id [[demo_buffer]] with
  | .ok r => r
  | .error _ => demo_ring

/-- The ring after `post` of one empty chain on `demo_posted_one`. -/
def demo_posted_one_empty : vring (List buffer) :=
  match demo_posted_one.post id [[]] with
  | .ok r => r
  | .error _ => demo_posted_one



/-- The states of a transmit queue over a ring of `size` descriptors
reachable from the constructor by `txq::post` (of any input queue), by
`do_complete` with the functor `txq::complete`, and by the host writing the
used ring and the avail-event cell.  The last index is the list of the heads
of the chains in flight, as for `reachable`; `do_complete` runs on pending
entries that name heads in flight, none twice. -/
inductive txq_reachable (size : Nat) : txq → List Nat → Prop where
  | create (conf : ring_config) (hw : hw_features) (header_len : Nat) :
      conf.size = size → txq_reachable size (txq.create conf hw header_len) []
  | host (q : txq) (H : List Nat) (U : used_layout) (avail_event : Nat) :
      txq_reachable size q H → U._idx < 65536 →
      txq_reachable size
        { q with _ring := { q._ring with _used._shared := U, _avail_event := avail_event } } H
  | post (q q1 : txq) (H : List Nat) (pb rest : List packet) (k : Nat) (L : List Nat) :
      txq_reachable size q H →
      q._ring.free_list = some L →
      q.post pb = .ok (k, rest, q1) →
      txq_reachable size q1
        (H ++ (split_by (q1._packets.map (fun bc => bc.buffers.length)) L).map List.headI)
  | complete (q : txq) (r1 : vring packet_as_buffer_chain) (H : List Nat) (b : Bool)
      (fuel : Nat) :
      txq_reachable size q H →
      (q._ring.pending.map used_elem._id).Nodup →
      (∀ id ∈ q._ring.pending.map used_elem._id, id ∈ H) →
      q._ring.pending.length < fuel → q._ring.size ≤ fuel →
      q._ring.do_complete txq_complete fuel () = .ok (b, r1, ()) →
      txq_reachable size { q with _ring := r1 }
        (H.filter (fun h => decide (h ∉ q._ring.pending.map used_elem._id)))

/-- The states of a receive queue over a ring of `size` descriptors reachable
from the constructor (with `_header_len` as the `qp` sets it) by the
continuation of `rxq::prepare_buffers`, by `do_complete` with the functor
`rxq::complete`, and by the host writing the used ring, the avail-event cell
and the receive buffers.  The last index is the list of the heads of the
chains in flight; `prepare_buffers` adds the descriptors it takes, the
first of the free list, one per credit. -/
inductive rxq_reachable (size : Nat) : rxq → List Nat → Prop where
  | create (conf : ring_config) (header_len : Nat) :
      conf.size = size → rxq_reachable size (rxq.create conf { _header_len := header_len }) []
  | host (q : rxq) (H : List Nat) (U : used_layout) (avail_event : Nat)
      (m : Nat → net_hdr_mrg) :
      rxq_reachable size q H → U._idx < 65536 →
      rxq_reachable size
        { _ring := { q._ring with _used._shared := U, _avail_event := avail_event },
          st := { q.st with mem := m } } H
  | refill (q q1 : rxq) (H : List Nat) (malloc : Nat → Nat) (L : List Nat) :
      rxq_reachable size q H →
      q._ring.free_list = some L →
      q.prepare_buffers malloc = .ok q1 →
      rxq_reachable size q1 (H ++ L.take q._ring._available_descriptors)
  | complete (q : rxq) (r1 : vring single_buffer) (s1 : rxq_state) (H : List Nat) (b : Bool)
      (fuel : Nat) :
      rxq_reachable size q H →
      (q._ring.pending.map used_elem._id).Nodup →
      (∀ id ∈ q._ring.pending.map used_elem._id, id ∈ H) →
      q._ring.pending.length < fuel → q._ring.size ≤ fuel →
      q._ring.do_complete rxq_complete fuel q.st = .ok (b, r1, s1) →
      rxq_reachable size { _ring := r1, st := s1 }
        (H.filter (fun h => decide (h ∉ q._ring.pending.map used_elem._id)))

/-- The number of buffers `complete_buffer` has accumulated for a packet that
is not complete yet. -/
def rxq_state.held (s : rxq_state) : Nat :=
  if s._remaining_buffers = 0 then 0 else s._fragments.length

/-- What holds in every reachable state of a transmit queue: the invariant
of the ring, as many credits as the free list `L` has descriptors, and under
the head of every chain in flight a packet with as many fragments as the
chain has descriptors. -/
structure txq_inv (size : Nat) (q : txq) (H L : List Nat) (Cs : List (List Nat)) : Prop where
  ring : reach_inv size q._ring H L Cs
  credits : q._ring._available_descriptors = L.length
  stored : ∀ C ∈ Cs, (q._ring._buffer_chains C.headI).p.nr_frags = C.length

/-- What holds in every reachable state of a receive queue: the invariant of
the ring, a free list `L` that has as many descriptors as there are credits
and buffers held for an unfinished packet, and chains in flight of one
descriptor each. -/
structure rxq_inv (size : Nat) (q : rxq) (H L : List Nat) (Cs : List (List Nat)) : Prop where
  ring : reach_inv size q._ring H L Cs
  credits : L.length = q._ring._available_descriptors + q.st.held
  single : ∀ C ∈ Cs, C.length = 1

/-- The ring of 131072 descriptors after `post` of one chain of one buffer. -/
def big_posted : vring (List buffer) :=
  match big_ring.post id [[demo_buffer]] with
  | .ok r => r
  | .error _ => big_ring

/-- The result of `do_complete` on `big_posted` once the host has returned
the head of the chain, descriptor 0. -/
def big_polled : Bool × vring (List buffer) × List (List buffer × Nat) :=
  match vring.do_complete demo_completion 8
      { big_posted with _used._shared := demo_used_empty } [] with
  | .ok x => x
  | .error _ => (false, big_posted, [])

/-- A used ring in which the host reports the head 0 twice. -/
def demo_used_twice : used_layout :=
  { _flags := 0, _idx := 2, _used_elements := fun _ => ⟨0, 9⟩ }

/-- The result of `do_complete` on `demo_posted` with `demo_used_twice`. -/
def demo_polled_twice : Bool × vring (List buffer) × List (List buffer × Nat) :=
  match vring.do_complete demo_completion 8
      { demo_posted with _used._shared := demo_used_twice } [] with
  | .ok x => x
  | .error _ => (false, demo_posted, [])

/-- A fresh transmit queue over a ring of 131072 descriptors. -/
def big_txq : txq := txq.create { size := 131072 } {} 12

theorem ptr_some (a : Nat) : ptr (some a) = (a : Int) := rfl

theorem ptr_none : ptr none = -1 := rfl

theorem ptr_ne_neg_one (a : Nat) : ptr (some a) ≠ -1 := by
  simp only [ptr]; omega

theorem upd_same {α : Type} (f : Nat → α) (i : Nat) (v : α) : upd f i v i = v := by
  simp [upd]

theorem upd_other {α : Type} (f : Nat → α) {i j : Nat} (v : α) (h : j ≠ i) : upd f i v j = f j := by
  simp [upd, h]

theorem is_chain_single (D : Nat → desc) (id a : Nat) :
    is_chain D id [a] ↔ id = a ∧ (D a)._flags.has_next = false := by
  simp [is_chain]

theorem is_chain_cons2 (D : Nat → desc) (id a b : Nat) (C : List Nat) :
    is_chain D id (a :: b :: C) ↔
      id = a ∧ (D a)._flags.has_next = true ∧ is_chain D (D a)._next (b :: C) := by
  simp [is_chain]

theorem is_chain_head {D : Nat → desc} {id : Nat} {C : List Nat} (h : is_chain D id C) :
    C.head? = some id := by
  cases C with
  | nil => exact absurd h (by simp [is_chain])
  | cons a C => simp [is_chain] at h; simp [h.1]

theorem is_chain_ne_nil {D : Nat → desc} {id : Nat} {C : List Nat} (h : is_chain D id C) :
    C ≠ [] := by
  intro hC; subst hC; simp [is_chain] at h

/-- A chain only depends on the descriptors it runs through. -/
theorem is_chain_congr {D D1 : Nat → desc} {C : List Nat} :
    ∀ {id : Nat}, (∀ x ∈ C, D1 x = D x) → is_chain D id C → is_chain D1 id C := by
  induction C with
  | nil => intro id _ h; exact h
  | cons a C ih =>
    intro id hD h
    cases C with
    | nil =>
      rw [is_chain_single] at h ⊢
      rw [hD a (by simp)]; exact h
    | cons b C =>
      rw [is_chain_cons2] at h ⊢
      rw [hD a (by simp)]
      exact ⟨h.1, h.2.1, ih (fun x hx => hD x (List.mem_cons_of_mem _ hx)) h.2.2⟩

/-- The `_next` links of a chain. -/
theorem is_chain_link {D : Nat → desc} {C : List Nat} :
    ∀ {id : Nat}, is_chain D id C → C.Chain' (fun a b => (D a)._next = b) := by
  induction C with
  | nil => intro id _; exact List.chain'_nil
  | cons a C ih =>
    intro id h
    cases C with
    | nil => exact List.chain'_singleton a
    | cons b C =>
      rw [is_chain_cons2] at h
      have h2 := h.2.2
      have hb := is_chain_head h2
      simp at hb
      exact List.chain'_cons.mpr ⟨hb.symm, ih h2⟩

theorem free_nil_iff {r : vring BC} {L : List Nat} (h : r.free L) :
    r._free_head = -1 ↔ L = [] := by
  rw [h.head]
  cases L with
  | nil => simp [ptr]
  | cons a L => simp [ptr]

theorem allocate_desc_free {r : vring BC} {a : Nat} {L : List Nat} (h : r.free (a :: L)) :
    ∃ fh fl, r.allocate_desc = .ok (a, { r with _free_head := fh, _free_last := fl }) ∧
      vring.free { r with _free_head := fh, _free_last := fl } L := by
  have hh : r._free_head = (a : Int) := h.head
  have ha := h.bound a (by simp)
  have ha1 : a < r.size := ha.1
  have ha2 : a < 65536 := ha.2
  have hmod : (((a : Int)) % 4294967296).toNat = a := by omega
  cases L with
  | nil =>
    have hl : r._free_last = (a : Int) := h.last
    refine ⟨-1, -1, ?_, ?_⟩
    · unfold vring.allocate_desc
      simp only [hh, hl, hmod]
      rw [if_neg (by omega)]
      simp
    · exact ⟨rfl, rfl, List.chain'_nil, List.nodup_nil, by simp⟩
  | cons b L =>
    have hl : r._free_last = ptr ((b :: L).getLast?) := by
      have := h.last
      rwa [List.getLast?_cons_cons] at this
    have hnd := h.nodup
    have hlink := h.link
    rw [List.chain'_cons] at hlink
    obtain ⟨x, hx⟩ : ∃ x, (b :: L).getLast? = some x := by
      cases hgl : (b :: L).getLast? with
      | none => simp at hgl
      | some x => exact ⟨x, rfl⟩
    have hxmem : x ∈ b :: L := List.mem_of_getLast?_eq_some hx
    have hxa : x ≠ a := by
      rintro rfl
      exact (List.nodup_cons.mp hnd).1 hxmem
    refine ⟨((r._descs a)._next : Int), r._free_last, ?_, ?_⟩
    · unfold vring.allocate_desc
      simp only [hh, hl, hx, ptr, hmod]
      rw [if_neg (by omega), if_neg (by intro hax; exact hxa (by exact_mod_cast hax.symm))]
      rw [if_pos ⟨by omega, by exact_mod_cast ha1⟩]
      simp
    · refine ⟨?_, ?_, hlink.2, (List.nodup_cons.mp hnd).2, ?_⟩
      · simp [hlink.1, ptr]
      · exact hl
      · intro y hy
        exact h.bound y (List.mem_cons_of_mem _ hy)

/-- The free list only depends on the size, the two pointers and the
`_next` fields of its own elements. -/
theorem free_congr {r r1 : vring BC} {L : List Nat} (h : r.free L)
    (hs : r1._config = r._config) (hh : r1._free_head = r._free_head)
    (hl : r1._free_last = r._free_last)
    (hD : ∀ x ∈ L, (r1._descs x)._next = (r._descs x)._next) : r1.free L := by
  refine ⟨hh.trans h.head, hl.trans h.last, ?_, h.nodup, ?_⟩
  · have := List.Chain'.iff_mem.mp h.link
    refine this.imp ?_
    intro a b hab
    rw [hD a hab.1]; exact hab.2.2
  · intro x hx
    have := h.bound x hx
    simpa [vring.desc_index, vring.size, hs] using this

theorem write_chain_nil_left (D : Nat → desc) (prev : Option Nat) (bufs : List buffer) :
    write_chain D prev [] bufs = D := by
  simp [write_chain]

theorem post_buffers_free : ∀ (bufs : List buffer) (A : List Nat) (st : post_state BC) (L : List Nat),
    A.length = bufs.length → st.ring.free (A ++ L) → (∀ p, st.prev = some p → p ∉ A ++ L) →
    ∃ fh fl,
      vring.post_buffers bufs st = .ok
        { ring := { st.ring with
                    _descs := write_chain st.ring._descs st.prev A bufs
                    _free_head := fh, _free_last := fl }
          pseudo_head :=
            (match st.prev, A with
             | none, a :: _ => { st.pseudo_head with _flags.has_next := true, _next := a % 65536 }
             | _, _ => st.pseudo_head)
          prev := if A = [] then st.prev else A.getLast? } ∧
      vring.free { st.ring with
                   _descs := write_chain st.ring._descs st.prev A bufs
                   _free_head := fh, _free_last := fl } L := by
  intro bufs
  induction bufs with
  | nil =>
    intro A st L hlen hfree hprev
    have hA : A = [] := List.length_eq_zero.mp hlen
    subst hA
    refine ⟨st.ring._free_head, st.ring._free_last, ?_, ?_⟩
    · simp only [vring.post_buffers, write_chain_nil_left]
      cases st with
      | mk ring ph prev => cases prev <;> rfl
    · simpa [write_chain_nil_left] using hfree
  | cons b bs ih =>
    intro A st L hlen hfree hprev
    cases A with
    | nil => simp at hlen
    | cons a A =>
      have hlen1 : A.length = bs.length := by simpa using hlen
      have hfree1 : st.ring.free (a :: (A ++ L)) := by simpa using hfree
      obtain ⟨fh, fl, halloc, hfree2⟩ := allocate_desc_free hfree1
      have ha := hfree1.bound a (by simp)
      have hnd := List.nodup_cons.mp hfree1.nodup
      -- the state after one step
      obtain ⟨st1, hst1, hring, hph, hprev1⟩ : ∃ st1 : post_state BC,
          vring.post_buffer st b = .ok st1 ∧
          st1.ring = { st.ring with
                       _descs := write_chain st.ring._descs st.prev [a] [b]
                       _free_head := fh, _free_last := fl } ∧
          st1.pseudo_head =
            (match st.prev with
             | none => { st.pseudo_head with _flags.has_next := true, _next := a % 65536 }
             | some _ => st.pseudo_head) ∧
          st1.prev = some a := by
        have ha1 : a < st.ring._config.size := ha.1
        unfold vring.post_buffer
        rw [halloc]
        cases hp : st.prev with
        | none =>
          simp only [vring.size]
          rw [if_pos ha1]
          exact ⟨_, rfl, by simp [write_chain, link_prev, desc.fill], rfl, rfl⟩
        | some p =>
          simp only [vring.size]
          rw [if_pos ha1]
          exact ⟨_, rfl, by simp [write_chain, link_prev, desc.fill, desc.link], rfl, rfl⟩
      have hD1 : ∀ x ∈ A ++ L, st1.ring._descs x = st.ring._descs x := by
        intro x hx
        have hxa : x ≠ a := by rintro rfl; exact hnd.1 hx
        rw [hring]
        cases hp : st.prev with
        | none => simp [write_chain, link_prev, upd_other _ _ hxa]
        | some p =>
          have hxp : x ≠ p := by
            rintro rfl
            exact hprev x hp (by simp [hx])
          simp [write_chain, link_prev, upd_other _ _ hxa, upd_other _ _ hxp]
      have hfree3 : st1.ring.free (A ++ L) := by
        refine free_congr hfree2 (by rw [hring]) (by rw [hring]) (by rw [hring]) ?_
        intro x hx
        rw [hD1 x hx]
      have hprev3 : ∀ p, st1.prev = some p → p ∉ A ++ L := by
        intro p hp
        rw [hprev1] at hp
        cases hp
        exact hnd.1
      obtain ⟨fh1, fl1, hpost, hfree4⟩ := ih A st1 L hlen1 hfree3 hprev3
      refine ⟨fh1, fl1, ?_, ?_⟩
      · simp only [vring.post_buffers, hst1]
        rw [hpost]
        congr 1
        rw [hring, hph, hprev1]
        cases hp : st.prev with
        | none => cases A <;> simp [write_chain, link_prev, desc.fill]
        | some p => cases A <;> simp [write_chain, link_prev, desc.fill, desc.link]
      · rw [hring, hprev1] at hfree4
        cases hp : st.prev with
        | none => simpa [write_chain, link_prev, desc.fill, hp] using hfree4
        | some p => simpa [write_chain, link_prev, desc.fill, desc.link, hp] using hfree4

theorem link_prev_other (D : Nat → desc) (prev : Option Nat) (a i : Nat) (h : prev ≠ some i) :
    link_prev D prev a i = D i := by
  cases prev with
  | none => rfl
  | some p =>
    have : i ≠ p := fun e => h (by rw [e])
    simp [link_prev, upd_other _ _ this]

theorem write_chain_cons (D : Nat → desc) (prev : Option Nat) (a : Nat) (A : List Nat)
    (b : buffer) (bs : List buffer) :
    write_chain D prev (a :: A) (b :: bs) =
      write_chain (upd (link_prev D prev a) a ((link_prev D prev a a).fill b)) (some a) A bs := by
  simp [write_chain]

/-- What the inner loop of `post` leaves in the descriptor table: nothing
changes outside the descriptors taken and `prev`; `prev` is linked to the
first descriptor taken; the descriptors taken form a chain that starts at
the first of them and describes the buffers in order. -/
theorem write_chain_spec : ∀ (A : List Nat) (bufs : List buffer) (D : Nat → desc) (prev : Option Nat),
    A.length = bufs.length → A.Nodup → (∀ a ∈ A, a < 65536) → (∀ p, prev = some p → p ∉ A) →
    (∀ i, i ∉ A → prev ≠ some i → write_chain D prev A bufs i = D i) ∧
    (∀ p a, prev = some p → A.head? = some a → write_chain D prev A bufs p = (D p).link a) ∧
    (∀ a, A.head? = some a → is_chain (write_chain D prev A bufs) a A) ∧
    A.map (fun a => (write_chain D prev A bufs a).to_buffer) = bufs ∧
    (∀ a ∈ A, (write_chain D prev A bufs a)._flags.indirect = false) := by
  intro A
  induction A with
  | nil =>
    intro bufs D prev hlen _ _ _
    have hb : bufs = [] := List.length_eq_zero.mp hlen.symm
    subst hb
    simp [write_chain]
  | cons a A ih =>
    intro bufs D prev hlen hnd hlt hprev
    cases bufs with
    | nil => simp at hlen
    | cons b bs =>
      have hlen1 : A.length = bs.length := by simpa using hlen
      have hnd1 := List.nodup_cons.mp hnd
      have hpa : prev ≠ some a := fun h => hprev a h (by simp)
      rw [write_chain_cons]
      generalize hD2 : upd (link_prev D prev a) a ((link_prev D prev a a).fill b) = D2
      have hD2a : D2 a = (D a).fill b := by
        rw [← hD2, upd_same, link_prev_other D prev a a hpa]
      have hD2o : ∀ i, i ≠ a → D2 i = link_prev D prev a i := by
        intro i hi
        rw [← hD2, upd_other _ _ hi]
      obtain ⟨h1, h2, h3, h4, h5⟩ := ih bs D2 (some a) hlen1 hnd1.2
        (fun x hx => hlt x (List.mem_cons_of_mem _ hx))
        (fun p hp => by cases hp; exact hnd1.1)
      -- the first descriptor of the chain in the final table
      have hWa : (write_chain D2 (some a) A bs a).to_buffer = b ∧
          (write_chain D2 (some a) A bs a)._flags.indirect = false ∧
          (A = [] → (write_chain D2 (some a) A bs a)._flags.has_next = false) ∧
          (∀ a1, A.head? = some a1 → (write_chain D2 (some a) A bs a)._flags.has_next = true ∧
            (write_chain D2 (some a) A bs a)._next = a1) := by
        cases A with
        | nil =>
          simp [write_chain, hD2a, desc.fill, desc.to_buffer]
        | cons a1 A1 =>
          have ha1 : a1 % 65536 = a1 := Nat.mod_eq_of_lt (hlt a1 (by simp))
          rw [h2 a a1 rfl rfl, hD2a]
          simp [desc.fill, desc.link, desc.to_buffer, ha1]
      refine ⟨?_, ?_, ?_, ?_, ?_⟩
      · intro i hi hpi
        have hia : i ≠ a := fun h => hi (by simp [h])
        have hiA : i ∉ A := fun h => hi (by simp [h])
        rw [h1 i hiA (by simpa using hia.symm), hD2o i hia, link_prev_other D prev a i hpi]
      · intro p x hp hx
        simp at hx
        subst hx
        have hpx : p ≠ a := fun h => hprev p hp (by simp [h])
        have hpA : p ∉ A := fun h => hprev p hp (by simp [h])
        rw [h1 p hpA (by simpa using hpx.symm), hD2o p hpx]
        subst hp
        simp [link_prev, upd_same]
      · intro x hx
        simp at hx
        subst hx
        cases A with
        | nil =>
          rw [is_chain_single]
          exact ⟨rfl, hWa.2.2.1 rfl⟩
        | cons a1 A1 =>
          rw [is_chain_cons2]
          obtain ⟨hn, hnx⟩ := hWa.2.2.2 a1 rfl
          refine ⟨rfl, hn, ?_⟩
          rw [hnx]
          exact h3 a1 rfl
      · simp only [List.map_cons]
        rw [h4, hWa.1]
      · intro x hx
        rcases List.mem_cons.mp hx with rfl | hx
        · exact hWa.2.1
        · exact h5 x hx

theorem headI_of_head {A : List Nat} {a : Nat} (h : A.head? = some a) : A.headI = a := by
  cases A with
  | nil => simp at h
  | cons x A => simp at h; simpa using h

theorem head_of_ne_nil {A : List Nat} (h : A ≠ []) : A.head? = some A.headI := by
  cases A with
  | nil => exact absurd rfl h
  | cons x A => rfl

/-- One chain of `post`: with `A`, as long as the chain, at the front of the
free list, `post_chain` takes exactly `A`, builds the chain in it, stores
the chain under its head and writes the head to the available ring. -/
theorem post_chain_free (buffers : BC → List buffer) (r : vring BC) (bc : BC) (A L : List Nat)
    (hA : A ≠ []) (hlen : A.length = (buffers bc).length) (hfree : r.free (A ++ L)) :
    ∃ fh fl,
      vring.post_chain buffers r bc = .ok
        { r with
          _descs := write_chain r._descs none A (buffers bc)
          _free_head := fh, _free_last := fl
          _buffer_chains := upd r._buffer_chains A.headI bc
          _avail._shared._ring := upd r._avail._shared._ring (r.masked r._avail._head) A.headI
          _avail._head := (r._avail._head + 1) % 65536
          _avail._avail_added_since_kick := (r._avail._avail_added_since_kick + 1) % 65536 } ∧
      vring.free
        { r with
          _descs := write_chain r._descs none A (buffers bc)
          _free_head := fh, _free_last := fl } L := by
  obtain ⟨fh, fl, hpost, hfree1⟩ :=
    post_buffers_free (buffers bc) A { ring := r } L hlen hfree (by intro p hp; cases hp)
  refine ⟨fh, fl, ?_, hfree1⟩
  cases A with
  | nil => exact absurd rfl hA
  | cons a A =>
    have ha := hfree.bound a (by simp)
    have ha1 : a < r._config.size := ha.1
    have ha2 : a % 65536 = a := Nat.mod_eq_of_lt ha.2
    unfold vring.post_chain
    rw [hpost]
    simp only [ha2, vring.size, List.headI_cons]
    rw [if_pos ha1]
    rfl

/-- The outer loop of `post`: with the descriptors `As`, one list per chain
and as long as the chain, at the front of the free list, `post_chains`
takes exactly these and leaves the rest `L` as the free list. -/
theorem post_chains_free (buffers : BC → List buffer) :
    ∀ (chains : List BC) (As : List (List Nat)) (r : vring BC) (L : List Nat),
    List.Forall₂ (fun A bc => A ≠ [] ∧ A.length = (buffers bc).length) As chains →
    r.free (As.flatten ++ L) →
    r._avail._head < 65536 → r._avail._avail_added_since_kick < 65536 →
    ∃ fh fl,
      vring.post_chains buffers chains r = .ok
        { r with
          _descs := write_chains r._descs As (chains.map buffers)
          _free_head := fh, _free_last := fl
          _buffer_chains := store_chains r._buffer_chains (As.map List.headI) chains
          _avail._shared._ring :=
            write_ring r._avail._shared._ring r.mask r._avail._head (As.map List.headI)
          _avail._head := (r._avail._head + chains.length) % 65536
          _avail._avail_added_since_kick :=
            (r._avail._avail_added_since_kick + chains.length) % 65536 } ∧
      vring.free
        { r with
          _descs := write_chains r._descs As (chains.map buffers)
          _free_head := fh, _free_last := fl } L := by
  intro chains
  induction chains with
  | nil =>
    intro As r L hF hfree hh ha
    cases hF
    refine ⟨r._free_head, r._free_last, ?_, ?_⟩
    · simp only [vring.post_chains, write_chains, store_chains, write_ring, List.map_nil,
        List.length_nil, Nat.add_zero, Nat.mod_eq_of_lt hh, Nat.mod_eq_of_lt ha]
    · simpa [write_chains] using hfree
  | cons bc chains ih =>
    intro As r L hF hfree hh ha
    cases hF with
    | cons hA hF =>
      rename_i A As
      have hfree1 : r.free (A ++ (As.flatten ++ L)) := by simpa using hfree
      obtain ⟨fh, fl, hpost, hfree2⟩ := post_chain_free buffers r bc A _ hA.1 hA.2 hfree1
      have hfree3 : vring.free
          { r with
            _descs := write_chain r._descs none A (buffers bc)
            _free_head := fh, _free_last := fl
            _buffer_chains := upd r._buffer_chains A.headI bc
            _avail._shared._ring := upd r._avail._shared._ring (r.masked r._avail._head) A.headI
            _avail._head := (r._avail._head + 1) % 65536
            _avail._avail_added_since_kick := (r._avail._avail_added_since_kick + 1) % 65536 }
          (As.flatten ++ L) := free_congr hfree2 rfl rfl rfl (fun _ _ => rfl)
      obtain ⟨fh1, fl1, hposts, hfree4⟩ := ih As _ L hF hfree3
        (Nat.mod_lt _ (by norm_num)) (Nat.mod_lt _ (by norm_num))
      refine ⟨fh1, fl1, ?_, ?_⟩
      · simp only [vring.post_chains, hpost]
        rw [hposts]
        simp only [write_chains, store_chains, write_ring, List.map_cons, List.length_cons,
          vring.masked, vring.mask, vring.size]
        have e1 : ∀ x : Nat, ((x + 1) % 65536 + chains.length) % 65536
            = (x + (chains.length + 1)) % 65536 := by intro x; omega
        rw [e1, e1]
      · exact free_congr hfree4 rfl rfl rfl (fun _ _ => rfl)

/-- The outer loop of `post` leaves the descriptors it does not take as
they are. -/
theorem write_chains_other : ∀ (As : List (List Nat)) (bss : List (List buffer)) (D : Nat → desc),
    List.Forall₂ (fun A bufs => A ≠ [] ∧ A.length = bufs.length) As bss →
    As.flatten.Nodup → (∀ x ∈ As.flatten, x < 65536) →
    ∀ i, i ∉ As.flatten → write_chains D As bss i = D i := by
  intro As
  induction As with
  | nil => intro bss D hF _ _ i _; cases hF; rfl
  | cons A As ih =>
    intro bss D hF hnd hlt i hi
    cases hF with
    | cons hA hF =>
      rename_i bufs bss
      rw [List.flatten_cons] at hnd hlt hi
      have hnd1 := List.nodup_append.mp hnd
      simp only [write_chains]
      rw [ih bss _ hF hnd1.2.1 (fun x hx => hlt x (List.mem_append_right _ hx)) i
        (fun h => hi (List.mem_append_right _ h))]
      exact (write_chain_spec A bufs D none hA.2 hnd1.1
        (fun x hx => hlt x (List.mem_append_left _ hx)) (by intro p hp; cases hp)).1 i
        (fun h => hi (List.mem_append_left _ h)) (by simp)

/-- The outer loop of `post` builds, for every chain, a descriptor chain in
the descriptors it took for it, describing the chain's buffers in order. -/
theorem write_chains_spec : ∀ (As : List (List Nat)) (bss : List (List buffer)) (D : Nat → desc),
    List.Forall₂ (fun A bufs => A ≠ [] ∧ A.length = bufs.length) As bss →
    As.flatten.Nodup → (∀ x ∈ As.flatten, x < 65536) →
    List.Forall₂ (fun A bufs =>
      is_chain (write_chains D As bss) A.headI A ∧
      A.map (fun a => (write_chains D As bss a).to_buffer) = bufs ∧
      ∀ a ∈ A, (write_chains D As bss a)._flags.indirect = false) As bss := by
  intro As
  induction As with
  | nil => intro bss D hF _ _; cases hF; exact List.Forall₂.nil
  | cons A As ih =>
    intro bss D hF hnd hlt
    cases hF with
    | cons hA hF =>
      rename_i bufs bss
      rw [List.flatten_cons] at hnd hlt
      have hnd1 := List.nodup_append.mp hnd
      have hlt2 : ∀ x ∈ As.flatten, x < 65536 := fun x hx => hlt x (List.mem_append_right _ hx)
      obtain ⟨_, _, h3, h4, h5⟩ := write_chain_spec A bufs D none hA.2 hnd1.1
        (fun x hx => hlt x (List.mem_append_left _ hx)) (by intro p hp; cases hp)
      have hsame : ∀ x ∈ A, write_chains D (A :: As) (bufs :: bss) x = write_chain D none A bufs x := by
        intro x hx
        simp only [write_chains]
        exact write_chains_other As bss _ hF hnd1.2.1 hlt2 x (fun h => hnd1.2.2 hx h)
      refine List.Forall₂.cons ⟨?_, ?_, ?_⟩ ?_
      · exact is_chain_congr hsame (h3 _ (head_of_ne_nil hA.1))
      · exact (List.map_congr_left (fun x hx => by rw [hsame x hx])).trans h4
      · intro a ha
        rw [hsame a ha]
        exact h5 a ha
      · exact ih bss _ hF hnd1.2.1 hlt2

/-- Storing chains under distinct indices leaves each under its index. -/
theorem store_chains_spec : ∀ (heads : List Nat) (bcs : List BC) (B : Nat → BC),
    heads.length = bcs.length → heads.Nodup →
    List.Forall₂ (fun a bc => store_chains B heads bcs a = bc) heads bcs ∧
    ∀ i, i ∉ heads → store_chains B heads bcs i = B i := by
  intro heads
  induction heads with
  | nil =>
    intro bcs B hlen _
    have : bcs = [] := List.length_eq_zero.mp hlen.symm
    subst this
    exact ⟨List.Forall₂.nil, fun _ _ => rfl⟩
  | cons a heads ih =>
    intro bcs B hlen hnd
    cases bcs with
    | nil => simp at hlen
    | cons bc bcs =>
      have hnd1 := List.nodup_cons.mp hnd
      obtain ⟨h1, h2⟩ := ih bcs (upd B a bc) (by simpa using hlen) hnd1.2
      refine ⟨List.Forall₂.cons ?_ h1, ?_⟩
      · simp only [store_chains]
        rw [h2 a hnd1.1, upd_same]
      · intro i hi
        simp only [store_chains]
        rw [h2 i (fun h => hi (List.mem_cons_of_mem _ h)), upd_other]
        exact fun h => hi (by simp [h])

/-- The mask of a ring whose size is a power of two. -/
theorem masked_pow2 (r : vring BC) (m x : Nat) (hs : r.size = 2 ^ m) (hx : x < 65536) :
    r.masked x = x % r.size := by
  unfold vring.masked vring.mask
  rw [hs]
  rcases Nat.lt_or_ge m 64 with hm | hm
  · have h1 : 2 ^ m ≤ 2 ^ 63 := Nat.pow_le_pow_right (by norm_num) (by omega)
    have h2 : 0 < 2 ^ m := Nat.two_pow_pos _
    have h3 : ((((2 ^ m : Nat) : Int) - 1) % 18446744073709551616).toNat = 2 ^ m - 1 := by
      norm_num at h1
      omega
    rw [h3, Nat.and_pow_two_sub_one_eq_mod]
  · obtain ⟨t, ht⟩ : ∃ t, m = 64 + t := ⟨m - 64, by omega⟩
    have h2 : 0 < 2 ^ t := Nat.two_pow_pos _
    have h4 : (2 : Nat) ^ m = 18446744073709551616 * 2 ^ t := by
      rw [ht, pow_add]; norm_num
    have h3 : ((((2 ^ m : Nat) : Int) - 1) % 18446744073709551616).toNat = 2 ^ 64 - 1 := by
      rw [h4]
      norm_num
      generalize (2 : Nat) ^ t = u at h2
      omega
    rw [h3, Nat.and_pow_two_sub_one_eq_mod]
    have h5 : x < 2 ^ m := by rw [h4]; nlinarith
    rw [Nat.mod_eq_of_lt h5, Nat.mod_eq_of_lt (by omega)]

/-- The slots the 16-bit cursor visits from `h` on are distinct over as many
steps as a power-of-two ring has entries. -/
theorem masked_inj (r : vring BC) (m h n : Nat) (hs : r.size = 2 ^ m) (hn : n ≤ r.size)
    (hn2 : n ≤ 65536) (i j : Nat) (hi : i < n) (hj : j < n)
    (hij : r.masked ((h + i) % 65536) = r.masked ((h + j) % 65536)) : i = j := by
  rw [masked_pow2 r m _ hs (Nat.mod_lt _ (by norm_num)),
    masked_pow2 r m _ hs (Nat.mod_lt _ (by norm_num))] at hij
  rcases Nat.lt_or_ge m 17 with hm | hm
  · have hdvd : r.size ∣ 65536 := by
      rw [hs]
      exact (Nat.pow_dvd_pow_iff_le_right (by norm_num : 1 < 2)).mpr (by omega : m ≤ 16)
    rw [Nat.mod_mod_of_dvd _ hdvd, Nat.mod_mod_of_dvd _ hdvd] at hij
    have h1 : (h + i) ≡ (h + j) [MOD r.size] := hij
    have h2 : i ≡ j [MOD r.size] := Nat.ModEq.add_left_cancel' h h1
    have h3 : i % r.size = j % r.size := h2
    rwa [Nat.mod_eq_of_lt (by omega), Nat.mod_eq_of_lt (by omega)] at h3
  · have h1 : (2 : Nat) ^ 17 ≤ 2 ^ m := Nat.pow_le_pow_right (by norm_num) hm
    norm_num at h1
    have hsz : 131072 ≤ r.size := by rw [hs]; exact h1
    have e1 : (h + i) % 65536 % r.size = (h + i) % 65536 := Nat.mod_eq_of_lt (by omega)
    have e2 : (h + j) % 65536 % r.size = (h + j) % 65536 := Nat.mod_eq_of_lt (by omega)
    rw [e1, e2] at hij
    omega

/-- The available ring after `post` has written the heads of its chains:
when the slots written are distinct, the `j`-th of them holds the `j`-th
head, and every other slot is as before. -/
theorem write_ring_spec (mask : Nat) : ∀ (heads : List Nat) (R : Nat → Nat) (h : Nat),
    h < 65536 →
    (∀ i j, i < heads.length → j < heads.length →
      ((h + i) % 65536) &&& mask = ((h + j) % 65536) &&& mask → i = j) →
    (∀ j (hj : j < heads.length),
      write_ring R mask h heads (((h + j) % 65536) &&& mask) = heads.get ⟨j, hj⟩) ∧
    (∀ x, (∀ j, j < heads.length → x ≠ ((h + j) % 65536) &&& mask) →
      write_ring R mask h heads x = R x) := by
  intro heads
  induction heads with
  | nil =>
    intro R h _ _
    exact ⟨fun j hj => absurd hj (by simp), fun _ _ => rfl⟩
  | cons a heads ih =>
    intro R h hh hinj
    have hshift : ∀ j, ((h + 1) % 65536 + j) % 65536 = (h + (j + 1)) % 65536 := by
      intro j; omega
    obtain ⟨h1, h2⟩ := ih (upd R (h &&& mask) a) ((h + 1) % 65536) (Nat.mod_lt _ (by norm_num))
      (by
        intro i j hi hj hij
        rw [hshift, hshift] at hij
        have := hinj (i + 1) (j + 1) (by simpa using hi) (by simpa using hj) hij
        omega)
    have h0 : (h + 0) % 65536 = h := by simpa using Nat.mod_eq_of_lt hh
    refine ⟨?_, ?_⟩
    · intro j hj
      cases j with
      | zero =>
        simp only [write_ring, h0, List.get_eq_getElem, List.getElem_cons_zero]
        rw [h2, upd_same]
        intro j hj2
        rw [hshift]
        intro heq
        have := hinj 0 (j + 1) (by simp) (by simpa using hj2) (by rw [h0]; exact heq)
        omega
      | succ j =>
        have hj1 : j < heads.length := by simpa using hj
        have := h1 j hj1
        rw [hshift] at this
        simpa [write_ring] using this
    · intro x hx
      simp only [write_ring]
      rw [h2 x, upd_other]
      · have := hx 0 (by simp)
        rwa [h0] at this
      · intro j hj
        rw [hshift]
        exact hx (j + 1) (by simpa using hj)

/-- The inner loop of `do_complete` ends at the last descriptor of the chain. -/
theorem chain_end_of_is_chain (size : Nat) (D : Nat → desc) : ∀ (C : List Nat) (id fuel : Nat),
    is_chain D id C → (∀ x ∈ C, x < size) → C.length ≤ fuel →
    ∃ l, C.getLast? = some l ∧ chain_end size D fuel id = .ok l := by
  intro C
  induction C with
  | nil => intro id fuel h; exact absurd h (by simp [is_chain])
  | cons a C ih =>
    intro id fuel h hb hf
    cases fuel with
    | zero => simp at hf
    | succ fuel =>
      have ha : a < size := hb a (by simp)
      cases C with
      | nil =>
        rw [is_chain_single] at h
        obtain ⟨rfl, hn⟩ := h
        exact ⟨id, rfl, by simp [chain_end, ha, hn]⟩
      | cons b C =>
        rw [is_chain_cons2] at h
        obtain ⟨rfl, hn, hrest⟩ := h
        obtain ⟨l, hl, hend⟩ := ih _ fuel hrest (fun x hx => hb x (List.mem_cons_of_mem _ hx))
          (by simpa using hf)
        refine ⟨l, by rw [List.getLast?_cons_cons]; exact hl, ?_⟩
        simp [chain_end, ha, hn, hend]

/-- Writing the `_next` of the last element of a list keeps its links. -/
theorem chain_upd_last (D : Nat → desc) (v : desc) : ∀ (L : List Nat) (l : Nat),
    L.Nodup → L.getLast? = some l → L.Chain' (fun a b => (D a)._next = b) →
    L.Chain' (fun a b => (upd D l v a)._next = b) := by
  intro L
  induction L with
  | nil => intro _ _ _ _; exact List.chain'_nil
  | cons x L ih =>
    intro l hnd hl hc
    cases L with
    | nil => exact List.chain'_singleton x
    | cons y L =>
      rw [List.getLast?_cons_cons] at hl
      have hnd1 := List.nodup_cons.mp hnd
      have hxl : x ≠ l := by
        rintro rfl
        exact hnd1.1 (List.mem_of_getLast?_eq_some hl)
      rw [List.chain'_cons] at hc ⊢
      exact ⟨by rw [upd_other _ _ hxl]; exact hc.1, ih l hnd1.2 hl hc.2⟩

/-- The invariant only depends on the configuration, the descriptor table
and the two free-list pointers. -/
theorem inv_congr {r r1 : vring BC} {L : List Nat} {Cs : List (List Nat)} (h : r.inv L Cs)
    (hs : r1._config = r._config) (hD : r1._descs = r._descs)
    (hh : r1._free_head = r._free_head) (hl : r1._free_last = r._free_last) : r1.inv L Cs := by
  refine ⟨free_congr h.free hs hh hl (fun x _ => by rw [hD]), ?_, h.nodup, ?_⟩
  · intro C hC; rw [hD]; exact h.chains C hC
  · intro C hC x hx
    have := h.bound C hC x hx
    simpa [vring.desc_index, vring.size, hs] using this

theorem mem_flatten_of {Cs : List (List Nat)} {C : List Nat} {x : Nat} (hC : C ∈ Cs) (hx : x ∈ C) :
    x ∈ Cs.flatten := List.mem_flatten.mpr ⟨C, hC, hx⟩

theorem to_int_small {x : Nat} (h : x < 65536) : to_int x = (x : Int) := by
  unfold to_int
  have : x % 4294967296 = x := Nat.mod_eq_of_lt (by omega)
  rw [this, if_pos (by omega)]

/-- Taking one chain in flight apart from the others. -/
theorem inv_split {r : vring BC} {L : List Nat} {Cs Cs1 : List (List Nat)} {C : List Nat}
    (hinv : r.inv L Cs) (hC : Cs.Perm (C :: Cs1)) :
    ((L ++ C) ++ Cs1.flatten).Nodup := by
  have hp : Cs.flatten.Perm (C ++ Cs1.flatten) := by
    have := hC.flatten
    simpa using this
  have h2 : (L ++ Cs.flatten).Perm ((L ++ C) ++ Cs1.flatten) := by
    rw [List.append_assoc]
    exact List.Perm.append_left L hp
  exact h2.nodup_iff.mp hinv.nodup

/-- A fault of the completion functor is the fault of the iteration. -/
theorem complete_one_error (c : completion BC E) (fuel : Nat) (r : vring BC) (e : E)
    (ue : used_elem) (hue : r._used._shared._used_elements (r.masked r._used._tail) = ue)
    (hid : ue._id < r.size) (f : fault)
    (hcall : c.call e r._available_descriptors (r._buffer_chains ue._id) ue._len = .error f) :
    vring.complete_one c fuel r e = .error f := by
  unfold vring.complete_one
  simp only [hue, vring.size] at hid ⊢
  rw [if_pos hid, hcall]

/-- One iteration of `do_complete` on the head of a chain in flight: the
chain goes to the end of the free list. -/
theorem complete_one_ok (c : completion BC E) (fuel : Nat) (r : vring BC) (e : E)
    (L : List Nat) (Cs Cs1 : List (List Nat)) (C : List Nat) (hinv : r.inv L Cs)
    (hP : Cs.Perm (C :: Cs1))
    (ue : used_elem) (hue : r._used._shared._used_elements (r.masked r._used._tail) = ue)
    (hid : ue._id = C.headI) (hfuel : C.length ≤ fuel) (e1 : E) (s1 : Nat) (left : BC)
    (hcall : c.call e r._available_descriptors (r._buffer_chains ue._id) ue._len
      = .ok (e1, s1, left)) :
    ∃ D fh fl,
      vring.complete_one c fuel r e = .ok
        ({ r with
           _used._tail := (r._used._tail + 1) % 65536
           _available_descriptors := s1
           _buffer_chains := upd r._buffer_chains ue._id left
           _descs := D, _free_head := fh, _free_last := fl }, e1) ∧
      vring.inv
        { r with
          _used._tail := (r._used._tail + 1) % 65536
          _available_descriptors := s1
          _buffer_chains := upd r._buffer_chains ue._id left
          _descs := D, _free_head := fh, _free_last := fl } (L ++ C) Cs1 ∧
      (∀ x, x ∉ L → D x = r._descs x) := by
  have hnd := inv_split hinv hP
  have hC : C ∈ Cs := hP.mem_iff.mpr (by simp)
  have hsub : ∀ C1 ∈ Cs1, C1 ∈ Cs := fun C1 h => hP.mem_iff.mpr (List.mem_cons_of_mem _ h)
  have hnd1 := List.nodup_append.mp hnd
  have hnd2 := List.nodup_append.mp hnd1.1
  have hchain := hinv.chains C hC
  have hCb := hinv.bound C hC
  have hCne : C ≠ [] := is_chain_ne_nil hchain
  have hhead : C.head? = some ue._id := by rw [hid]; exact head_of_ne_nil hCne
  have hidC : ue._id ∈ C := List.mem_of_mem_head? (by rw [hhead]; rfl)
  have hidx := hCb _ hidC
  have hid1 : ue._id < r._config.size := hidx.1
  have hmod : ue._id % 65536 = ue._id := Nat.mod_eq_of_lt hidx.2
  have hchain0 : is_chain r._descs ue._id C := by rw [hid]; exact hchain
  -- the other chains are away from the free list and from `C`
  have hothers : ∀ C1 ∈ Cs1, ∀ x ∈ C1, x ∉ L := by
    intro C1 hC1 x hx hxL
    exact hnd1.2.2 (List.mem_append_left _ hxL) (mem_flatten_of hC1 hx)
  have hbound : ∀ C1 ∈ Cs1, ∀ x ∈ C1, r.desc_index x :=
    fun C1 hC1 x hx => hinv.bound C1 (hsub C1 hC1) x hx
  cases hL : L with
  | nil =>
    subst hL
    have hfl : r._free_last = -1 := hinv.free.last
    obtain ⟨l, hl, hend⟩ := chain_end_of_is_chain r._config.size r._descs C ue._id fuel hchain0
      (fun x hx => (hCb x hx).1) hfuel
    refine ⟨r._descs, to_int ue._id, (l : Int), ?_, ?_, fun _ _ => rfl⟩
    · unfold vring.complete_one
      simp only [hue, vring.size]
      rw [if_pos hid1, hcall]
      simp only [hfl, ne_eq, not_true_eq_false, if_false]
      rw [hend]
    · refine ⟨⟨?_, ?_, ?_, ?_, ?_⟩, ?_, ?_, ?_⟩
      · simp only [List.nil_append, hhead, ptr]
        exact to_int_small hidx.2
      · simp only [List.nil_append, hl, ptr]
      · simpa using is_chain_link hchain
      · simpa using hnd2.2.1
      · intro x hx
        exact hCb x (by simpa using hx)
      · intro C1 hC1
        exact hinv.chains C1 (hsub C1 hC1)
      · simpa using hnd
      · exact hbound
  | cons a0 L0 =>
    have hLne : L ≠ [] := by rw [hL]; simp
    obtain ⟨l, hl⟩ : ∃ l, L.getLast? = some l := by
      cases hg : L.getLast? with
      | none => exact absurd (List.getLast?_eq_none_iff.mp hg) hLne
      | some l => exact ⟨l, rfl⟩
    have hlL : l ∈ L := List.mem_of_getLast?_eq_some hl
    have hlb := hinv.free.bound l hlL
    have hfl : r._free_last = (l : Int) := by rw [hinv.free.last, hl]; rfl
    have hlC : l ∉ C := fun h => hnd2.2.2 hlL h
    let D1 : Nat → desc := upd r._descs l { r._descs l with _next := ue._id }
    have hchain1 : is_chain D1 C.headI C := by
      refine is_chain_congr ?_ hchain
      intro x hx
      exact upd_other _ _ (fun h => hlC (h ▸ hx))
    obtain ⟨cl, hcl, hend⟩ := chain_end_of_is_chain r._config.size D1 C ue._id fuel
      (by rw [hid]; exact hchain1) (fun x hx => (hCb x hx).1) hfuel
    rw [← hL]
    refine ⟨D1, r._free_head, (cl : Int), ?_, ?_, ?_⟩
    · unfold vring.complete_one
      simp only [hue, vring.size]
      rw [if_pos hid1, hcall]
      simp only [hfl, hmod]
      rw [if_pos (by omega), if_pos ⟨by omega, by exact_mod_cast hlb.1⟩]
      simp only [Int.toNat_ofNat]
      rw [hend]
    · refine ⟨⟨?_, ?_, ?_, ?_, ?_⟩, ?_, ?_, ?_⟩
      · have : (L ++ C).head? = L.head? := by
          rw [hL]; rfl
        rw [this]
        exact hinv.free.head
      · have : (L ++ C).getLast? = C.getLast? := List.getLast?_append_of_ne_nil L hCne
        rw [this, hcl]
        rfl
      · rw [List.chain'_append]
        refine ⟨chain_upd_last _ _ L l hinv.free.nodup hl hinv.free.link,
          is_chain_link hchain1, ?_⟩
        intro x hx y hy
        rw [hl] at hx
        rw [hhead] at hy
        cases hx
        cases hy
        show (D1 l)._next = ue._id
        simp [D1, upd_same]
      · exact hnd1.1
      · intro x hx
        rcases List.mem_append.mp hx with h | h
        · exact hinv.free.bound x h
        · exact hCb x h
      · intro C1 hC1
        refine is_chain_congr ?_ (hinv.chains C1 (hsub C1 hC1))
        intro x hx
        exact upd_other _ _ (fun h => hothers C1 hC1 x hx (h ▸ hlL))
      · exact hnd
      · exact hbound
    · intro x hx
      exact upd_other _ _ (fun h => hx (h ▸ hlL))

theorem u16_sub_eq_zero {a b : Nat} (ha : a < 65536) (hb : b < 65536) :
    u16 ((a : Int) - (b : Int)) = 0 ↔ a = b := by
  unfold u16; omega

theorem u16_sub_succ {a b : Nat} (ha : a < 65536) (hb : b < 65536) (hab : a ≠ b) :
    u16 ((a : Int) - (b : Int)) = u16 ((a : Int) - (((b + 1) % 65536 : Nat) : Int)) + 1 := by
  unfold u16; omega

/-- No entry is pending when the used index equals the tail. -/
theorem pending_nil {r : vring BC} (ht : r._used._tail < 65536) (hi : r._used._shared._idx < 65536) :
    r.pending = [] ↔ r._used._shared._idx = r._used._tail := by
  unfold vring.pending
  rw [List.map_eq_nil_iff, List.range_eq_nil, u16_sub_eq_zero hi ht]

/-- The first pending entry is the one at the slot of the tail; the others
are the pending entries once the tail has moved on by one. -/
theorem pending_cons (r r1 : vring BC) (ht : r._used._tail < 65536)
    (hi : r._used._shared._idx < 65536) (hne : r._used._shared._idx ≠ r._used._tail)
    (hc : r1._config = r._config) (hs : r1._used._shared = r._used._shared)
    (ht1 : r1._used._tail = (r._used._tail + 1) % 65536) :
    r.pending = r._used._shared._used_elements (r.masked r._used._tail) :: r1.pending := by
  unfold vring.pending
  rw [u16_sub_succ hi ht hne, List.range_succ_eq_map, List.map_cons, List.map_map, hs, ht1]
  congr 1
  · simp [Nat.mod_eq_of_lt ht]
  · apply List.map_congr_left
    intro j _
    have e : (r._used._tail + (j + 1)) % 65536 = ((r._used._tail + 1) % 65536 + j) % 65536 := by
      omega
    simp only [Function.comp, vring.masked, vring.mask, vring.size, hc, e]

theorem headI_mem {C : List Nat} (h : C ≠ []) : C.headI ∈ C := by
  cases C with
  | nil => exact absurd rfl h
  | cons a C => simp

theorem forall2_of_mem_left {α β : Type} {R : α → β → Prop} {l1 : List α} {l2 : List β}
    (h : List.Forall₂ R l1 l2) : ∀ a ∈ l1, ∃ b ∈ l2, R a b := by
  induction h with
  | nil => intro a ha; simp at ha
  | cons hab _ ih =>
    intro a ha
    rcases List.mem_cons.mp ha with rfl | h2
    · exact ⟨_, by simp, hab⟩
    · obtain ⟨b, hb, hr⟩ := ih a h2
      exact ⟨b, List.mem_cons_of_mem _ hb, hr⟩

/-- The loop of `do_complete` over pending entries `es` that name the heads
of the chains `Ps` in flight: the completion functor is called once per
entry, in order, with the chain stored under the entry's id and the entry's
length; the chains go to the end of the free list in this order and the
tail reaches the used index. -/
theorem complete_loop_spec (c : completion BC E) (fuel : Nat) :
    ∀ (es : List used_elem) (Ps : List (List Nat)) (n : Nat) (r : vring BC) (e : E)
      (L : List Nat) (Cs Cs1 : List (List Nat)),
    r.inv L Cs → Cs.Perm (Ps ++ Cs1) →
    List.Forall₂ (fun ue C => ue._id = C.headI) es Ps →
    r.pending = es → r._used._tail < 65536 → r._used._shared._idx < 65536 →
    es.length < n → (∀ C ∈ Ps, C.length ≤ fuel) →
    (∀ f, run_calls c (calls_of r es) e r._available_descriptors = .error f →
      vring.complete_loop c fuel r._used._shared._idx n r e = .error f) ∧
    (∀ e1 s1, run_calls c (calls_of r es) e r._available_descriptors = .ok (e1, s1) →
      ∃ B D fh fl,
        vring.complete_loop c fuel r._used._shared._idx n r e = .ok
          ({ r with
             _used._tail := r._used._shared._idx
             _available_descriptors := s1
             _buffer_chains := B, _descs := D, _free_head := fh, _free_last := fl }, e1) ∧
        vring.inv
          { r with
            _used._tail := r._used._shared._idx
            _available_descriptors := s1
            _buffer_chains := B, _descs := D, _free_head := fh, _free_last := fl }
          (L ++ Ps.flatten) Cs1 ∧
        (∀ i, i ∉ es.map used_elem._id → B i = r._buffer_chains i)) := by
  intro es
  induction es with
  | nil =>
    intro Ps n r e L Cs Cs1 hinv hP hF hpend ht hi hn _
    cases hF
    have hidx := (pending_nil ht hi).mp hpend
    obtain ⟨n, rfl⟩ : ∃ k, n = k + 1 := ⟨n - 1, by simp at hn; omega⟩
    have hloop : vring.complete_loop c fuel r._used._shared._idx (n + 1) r e = .ok (r, e) := by
      simp [vring.complete_loop, hidx]
    refine ⟨?_, ?_⟩
    · intro f hf
      simp [calls_of, run_calls] at hf
    · intro e1 s1 hr
      simp only [calls_of, run_calls, List.map_nil, Except.ok.injEq, Prod.mk.injEq] at hr
      obtain ⟨rfl, rfl⟩ := hr
      refine ⟨r._buffer_chains, r._descs, r._free_head, r._free_last, ?_, ?_, fun _ _ => rfl⟩
      · rw [hloop]
        congr 2
        cases r with
        | mk cfg bcs ds av us ae ue2 ad fh fl nt =>
          cases us with
          | mk sh tl => simp only at hidx; subst hidx; rfl
      · have hinv2 : r.inv (L ++ ([] : List (List Nat)).flatten) Cs1 := by
          simp only [List.flatten_nil, List.append_nil]
          exact ⟨hinv.free, fun C hC => hinv.chains C (hP.mem_iff.mpr (by simpa using hC)),
            by
              have := hP.flatten
              simp only [List.nil_append] at this
              exact ((List.Perm.append_left L this).nodup_iff).mp hinv.nodup,
            fun C hC => hinv.bound C (hP.mem_iff.mpr (by simpa using hC))⟩
        exact inv_congr hinv2 rfl rfl rfl rfl
  | cons ue es ih =>
    intro Ps n r e L Cs Cs1 hinv hP hF hpend ht hi hn hfuel
    cases hF with
    | cons hid hF =>
      rename_i C Ps
      obtain ⟨n, rfl⟩ : ∃ k, n = k + 1 := ⟨n - 1, by simp at hn; omega⟩
      have hne : r._used._shared._idx ≠ r._used._tail := by
        intro h
        have := (pending_nil ht hi).mpr h
        rw [hpend] at this
        cases this
      have hP1 : Cs.Perm (C :: (Ps ++ Cs1)) := by simpa using hP
      have hCin : C ∈ Cs := hP1.mem_iff.mpr (by simp)
      have hCne : C ≠ [] := is_chain_ne_nil (hinv.chains C hCin)
      have hnd := inv_split hinv hP1
      have hnd1 := List.nodup_append.mp hnd
      -- the entry read
      have hue : r._used._shared._used_elements (r.masked r._used._tail) = ue := by
        have := pending_cons r ({ r with _used._tail := (r._used._tail + 1) % 65536 })
          ht hi hne rfl rfl rfl
        rw [hpend] at this
        exact (List.cons.inj this).1.symm
      have hidx : ue._id < r.size := by
        rw [hid]
        exact (hinv.bound C hCin _ (headI_mem hCne)).1
      -- ids of the later entries differ from this one
      have hother : ∀ ue1 ∈ es, ue1._id ≠ ue._id := by
        intro ue1 hue1 heq
        obtain ⟨C1, hC1, hid1⟩ := forall2_of_mem_left hF ue1 hue1
        have hC1in : C1 ∈ Cs := hP1.mem_iff.mpr (by simp [hC1])
        have hC1ne : C1 ≠ [] := is_chain_ne_nil (hinv.chains C1 hC1in)
        have h1 : ue1._id ∈ (Ps ++ Cs1).flatten :=
          mem_flatten_of (List.mem_append_left _ hC1) (by rw [hid1]; exact headI_mem hC1ne)
        have h2 : ue._id ∈ L ++ C :=
          List.mem_append_right _ (by rw [hid]; exact headI_mem hCne)
        exact hnd1.2.2 h2 (heq ▸ h1)
      simp only [calls_of, List.map_cons, run_calls]
      cases hcall : c.call e r._available_descriptors (r._buffer_chains ue._id) ue._len with
      | error f0 =>
        have hone := complete_one_error c fuel r e ue hue hidx f0 hcall
        refine ⟨?_, ?_⟩
        · intro f hf
          simp only [Except.error.injEq] at hf
          subst hf
          simp [vring.complete_loop, hne, hone]
        · intro e1 s1 hr
          simp at hr
      | ok res =>
        obtain ⟨e0, s0, left⟩ := res
        obtain ⟨D, fh, fl, hone, hinv1, _⟩ := complete_one_ok c fuel r e L Cs (Ps ++ Cs1) C hinv hP1
          ue hue hid (hfuel C (by simp)) e0 s0 left hcall
        have hpend1 : vring.pending
            ({ r with
               _used._tail := (r._used._tail + 1) % 65536
               _available_descriptors := s0
               _buffer_chains := upd r._buffer_chains ue._id left
               _descs := D, _free_head := fh, _free_last := fl } : vring BC) = es := by
          have := pending_cons r (({ r with
               _used._tail := (r._used._tail + 1) % 65536
               _available_descriptors := s0
               _buffer_chains := upd r._buffer_chains ue._id left
               _descs := D, _free_head := fh, _free_last := fl } : vring BC)) ht hi hne rfl rfl rfl
          rw [hpend] at this
          exact (List.cons.inj this).2.symm
        obtain ⟨ihe, iho⟩ := ih Ps n _ e0 (L ++ C) (Ps ++ Cs1) Cs1 hinv1 (List.Perm.refl _) hF hpend1
          (Nat.mod_lt _ (by norm_num)) hi (by simpa using hn)
          (fun C1 hC1 => hfuel C1 (List.mem_cons_of_mem _ hC1))
        have hcalls : calls_of ({ r with
               _used._tail := (r._used._tail + 1) % 65536
               _available_descriptors := s0
               _buffer_chains := upd r._buffer_chains ue._id left
               _descs := D, _free_head := fh, _free_last := fl } : vring BC) es
            = List.map (fun ue => (r._buffer_chains ue._id, ue._len)) es := by
          unfold calls_of
          apply List.map_congr_left
          intro ue1 hue1
          simp only [upd_other _ _ (hother ue1 hue1)]
        rw [hcalls] at ihe iho
        have hstep : vring.complete_loop c fuel r._used._shared._idx (n + 1) r e =
            vring.complete_loop c fuel r._used._shared._idx n
              ({ r with
                 _used._tail := (r._used._tail + 1) % 65536
                 _available_descriptors := s0
                 _buffer_chains := upd r._buffer_chains ue._id left
                 _descs := D, _free_head := fh, _free_last := fl } : vring BC) e0 := by
          simp [vring.complete_loop, hne, hone]
        rw [hstep]
        refine ⟨fun f hf => ihe f hf, ?_⟩
        intro e1 s1 hr
        obtain ⟨B, D2, fh2, fl2, hloop, hinv2, hB⟩ := iho e1 s1 hr
        refine ⟨B, D2, fh2, fl2, hloop, ?_, ?_⟩
        · have : L ++ (C :: Ps).flatten = L ++ C ++ Ps.flatten := by simp
          rw [this]
          exact hinv2
        · intro i hi2
          simp only [List.map_cons, List.mem_cons, not_or] at hi2
          rw [hB i hi2.2]
          exact upd_other _ _ hi2.1

/-- Cutting a list that is long enough gives pieces of the lengths asked
for, and the pieces followed by what is left are the list. -/
theorem split_by_spec : ∀ (ks : List Nat) (L : List Nat), ks.sum ≤ L.length →
    (split_by ks L).flatten ++ L.drop ks.sum = L ∧
    List.Forall₂ (fun A k => A.length = k) (split_by ks L) ks := by
  intro ks
  induction ks with
  | nil => intro L _; simp [split_by]
  | cons k ks ih =>
    intro L h
    simp only [List.sum_cons] at h
    obtain ⟨h1, h2⟩ := ih (L.drop k) (by simp; omega)
    refine ⟨?_, List.Forall₂.cons (by simp; omega) h2⟩
    simp only [split_by, List.flatten_cons, List.sum_cons, List.append_assoc]
    rw [← List.drop_drop, h1, List.take_append_drop]

/-- A list without repetition of numbers below `n` has at most `n` elements. -/
theorem length_le_of_nodup_lt {L : List Nat} {n : Nat} (hnd : L.Nodup) (hlt : ∀ x ∈ L, x < n) :
    L.length ≤ n := by
  have hsub : L ⊆ List.range n := fun x hx => List.mem_range.mpr (hlt x hx)
  have := (List.subperm_of_subset hnd hsub).length_le
  simpa using this

/-- The executable free list agrees with the predicate. -/
theorem free_path_of_link (r : vring BC) : ∀ (L : List Nat) (a : Nat) (fuel : Nat),
    (a :: L).Chain' (fun x y => (r._descs x)._next = y) → (a :: L).Nodup →
    (∀ x ∈ a :: L, r.desc_index x) → r._free_last = ptr (a :: L).getLast? →
    (a :: L).length ≤ fuel →
    r.free_path fuel (a : Int) = some (a :: L) := by
  intro L
  induction L with
  | nil =>
    intro a fuel _ _ hb hl hf
    cases fuel with
    | zero => simp at hf
    | succ fuel =>
      have := hb a (by simp)
      simp only [List.getLast?_singleton, ptr] at hl
      simp [vring.free_path, this, hl]
  | cons b L ih =>
    intro a fuel hc hnd hb hl hf
    cases fuel with
    | zero => simp at hf
    | succ fuel =>
      have ha := hb a (by simp)
      rw [List.chain'_cons] at hc
      have hnd1 := List.nodup_cons.mp hnd
      rw [List.getLast?_cons_cons] at hl
      obtain ⟨x, hx⟩ : ∃ x, (b :: L).getLast? = some x := by
        cases hg : (b :: L).getLast? with
        | none => simp at hg
        | some x => exact ⟨x, rfl⟩
      have hxa : x ≠ a := by
        rintro rfl
        exact hnd1.1 (List.mem_of_getLast?_eq_some hx)
      have hne : (a : Int) ≠ r._free_last := by
        rw [hl, hx]
        simp only [ptr]
        intro hax
        exact hxa (by exact_mod_cast hax.symm)
      have hrec := ih b fuel hc.2 hnd1.2 (fun y hy => hb y (List.mem_cons_of_mem _ hy)) hl
        (by simpa using hf)
      simp only [vring.free_path, Int.toNat_ofNat, Nat.cast_nonneg, true_and, ha, if_true,
        hne, if_false, hc.1, hrec, Option.map_some']

theorem free_list_of_free {r : vring BC} {L : List Nat} (h : r.free L) : r.free_list = some L := by
  unfold vring.free_list
  cases L with
  | nil =>
    have h1 : r._free_head = -1 := h.head
    have h2 : r._free_last = -1 := h.last
    simp [h1, h2]
  | cons a L =>
    have h1 : r._free_head = (a : Int) := h.head
    rw [h1, if_neg (by omega)]
    exact free_path_of_link r L a r.size h.link h.nodup h.bound h.last
      (length_le_of_nodup_lt h.nodup (fun x hx => (h.bound x hx).1))

/-- The executable chain walk agrees with the predicate. -/
theorem chain_of_is_chain (r : vring BC) : ∀ (C : List Nat) (id fuel : Nat),
    is_chain r._descs id C → (∀ x ∈ C, r.desc_index x) → C.length ≤ fuel →
    r.chain_of fuel id = some C := by
  intro C
  induction C with
  | nil => intro id fuel h; exact absurd h (by simp [is_chain])
  | cons a C ih =>
    intro id fuel h hb hf
    cases fuel with
    | zero => simp at hf
    | succ fuel =>
      have ha := hb a (by simp)
      cases C with
      | nil =>
        rw [is_chain_single] at h
        obtain ⟨rfl, hn⟩ := h
        simp [vring.chain_of, ha, hn]
      | cons b C =>
        rw [is_chain_cons2] at h
        obtain ⟨rfl, hn, hrest⟩ := h
        have := ih _ fuel hrest (fun x hx => hb x (List.mem_cons_of_mem _ hx)) (by simpa using hf)
        simp [vring.chain_of, ha, hn, this]

/-- The `has_next` flags along a chain. -/
theorem is_chain_flags {D : Nat → desc} : ∀ (C : List Nat) (id : Nat), is_chain D id C →
    (∀ x ∈ C.dropLast, (D x)._flags.has_next = true) ∧
    (∀ l, C.getLast? = some l → (D l)._flags.has_next = false) := by
  intro C
  induction C with
  | nil => intro id h; exact absurd h (by simp [is_chain])
  | cons a C ih =>
    intro id h
    cases C with
    | nil =>
      rw [is_chain_single] at h
      refine ⟨by simp, ?_⟩
      intro l hl
      simp at hl
      subst hl
      exact h.2
    | cons b C =>
      rw [is_chain_cons2] at h
      obtain ⟨h1, h2⟩ := ih _ h.2.2
      refine ⟨?_, ?_⟩
      · intro x hx
        rw [List.dropLast_cons₂] at hx
        rcases List.mem_cons.mp hx with rfl | hx
        · exact h.2.1
        · exact h1 x hx
      · intro l hl
        rw [List.getLast?_cons_cons] at hl
        exact h2 l hl

/-- After `setup` the free list of a ring of 1 to 65536 descriptors is
`0, 1, ..., size - 1`. -/
theorem setup_free (r : vring BC) (h0 : 0 < r._config.size) (h1 : r._config.size ≤ 65536) :
    r.setup.free (List.range r._config.size) := by
  obtain ⟨n, hn⟩ : ∃ n, r._config.size = n + 1 := ⟨r._config.size - 1, by omega⟩
  refine ⟨?_, ?_, ?_, List.nodup_range _, ?_⟩
  · rw [hn]
    simp [vring.setup, List.range_succ_eq_map, ptr]
  · rw [hn, List.getLast?_range]
    simp only [vring.setup, hn, to_int, ptr]
    have e : (n + 1 + 4294967295) % 4294967296 = n := by omega
    rw [e]
    have e2 : n % 4294967296 = n := by omega
    rw [e2, if_pos (by omega)]
    simp
  · rw [hn, List.chain'_range_succ]
    intro m hm
    simp only [vring.setup, hn]
    rw [if_pos (by omega)]
    show (m + 1) % 65536 = m + 1
    omega
  · intro x hx
    have := List.mem_range.mp hx
    exact ⟨this, by omega⟩

/-- After `setup` no chain is in flight. -/
theorem setup_inv (r : vring BC) (h0 : 0 < r._config.size) (h1 : r._config.size ≤ 65536) :
    r.setup.inv (List.range r._config.size) [] :=
  ⟨setup_free r h0 h1, by simp, by simpa using List.nodup_range _, by simp⟩

theorem kick_frame (r : vring BC) :
    r.kick._config = r._config ∧ r.kick._descs = r._descs ∧
    r.kick._free_head = r._free_head ∧ r.kick._free_last = r._free_last ∧
    r.kick._buffer_chains = r._buffer_chains ∧ r.kick._used = r._used ∧
    r.kick._avail._shared = r._avail._shared ∧ r.kick._avail._head = r._avail._head ∧
    r.kick._available_descriptors = r._available_descriptors ∧
    r.kick._avail_event = r._avail_event := by
  unfold vring.kick
  simp only
  split_ifs <;> simp

theorem forall2_ne_nil (buffers : BC → List buffer) {As : List (List Nat)} {chains : List BC}
    (hF : List.Forall₂ (fun A bc => A.length = (buffers bc).length) As chains) :
    (∀ bc ∈ chains, buffers bc ≠ []) →
    List.Forall₂ (fun A bc => A ≠ [] ∧ A.length = (buffers bc).length) As chains := by
  induction hF with
  | nil => intro _; exact List.Forall₂.nil
  | @cons A bc As chains h _ ih =>
    intro hne
    refine List.Forall₂.cons ⟨?_, h⟩ (ih (fun b hb => hne b (List.mem_cons_of_mem _ hb)))
    intro hA
    subst hA
    exact hne bc (by simp) (List.length_eq_zero.mp h.symm)

/-- What `post` does to a ring with the chains `Cs` in flight and the free
list `L0`, for non-empty chains that need no more descriptors than `L0`
has: the chains take the front of `L0`, piece by piece, and are in flight
afterwards. -/
theorem post_chains_inv (buffers : BC → List buffer) (chains : List BC) (r : vring BC)
    (L0 : List Nat) (Cs : List (List Nat)) (hinv : r.inv L0 Cs)
    (hne : ∀ bc ∈ chains, buffers bc ≠ [])
    (htot : (chains.map (fun bc => (buffers bc).length)).sum ≤ L0.length)
    (hh : r._avail._head < 65536) (ha : r._avail._avail_added_since_kick < 65536) :
    ∃ fh fl,
      vring.post_chains buffers chains r = .ok
        { r with
          _descs := write_chains r._descs
            (split_by (chains.map (fun bc => (buffers bc).length)) L0) (chains.map buffers)
          _free_head := fh, _free_last := fl
          _buffer_chains := store_chains r._buffer_chains
            ((split_by (chains.map (fun bc => (buffers bc).length)) L0).map List.headI) chains
          _avail._shared._ring :=
            write_ring r._avail._shared._ring r.mask r._avail._head
              ((split_by (chains.map (fun bc => (buffers bc).length)) L0).map List.headI)
          _avail._head := (r._avail._head + chains.length) % 65536
          _avail._avail_added_since_kick :=
            (r._avail._avail_added_since_kick + chains.length) % 65536 } ∧
      vring.inv
        { r with
          _descs := write_chains r._descs
            (split_by (chains.map (fun bc => (buffers bc).length)) L0) (chains.map buffers)
          _free_head := fh, _free_last := fl }
        (L0.drop (chains.map (fun bc => (buffers bc).length)).sum)
        (Cs ++ split_by (chains.map (fun bc => (buffers bc).length)) L0) := by
  obtain ⟨hsplit, hF⟩ := split_by_spec _ L0 htot
  generalize hAs : split_by (chains.map (fun bc => (buffers bc).length)) L0 = As at hsplit hF ⊢
  generalize hL : L0.drop (chains.map (fun bc => (buffers bc).length)).sum = L at hsplit ⊢
  have hF1 : List.Forall₂ (fun A bc => A ≠ [] ∧ A.length = (buffers bc).length) As chains := by
    rw [List.forall₂_map_right_iff] at hF
    exact forall2_ne_nil buffers hF hne
  have hF2 : List.Forall₂ (fun A bufs => A ≠ [] ∧ A.length = bufs.length) As (chains.map buffers) := by
    rw [List.forall₂_map_right_iff]
    exact hF1
  have hfree0 : r.free (As.flatten ++ L) := by rw [hsplit]; exact hinv.free
  obtain ⟨fh, fl, hpost, hfree⟩ := post_chains_free buffers chains As r L hF1 hfree0 hh ha
  refine ⟨fh, fl, hpost, ?_⟩
  have hnd0 : ((As.flatten ++ L) ++ Cs.flatten).Nodup := by rw [hsplit]; exact hinv.nodup
  have hnd1 := List.nodup_append.mp hnd0
  have hnd2 := List.nodup_append.mp hnd1.1
  have hlt : ∀ x ∈ As.flatten, x < 65536 := fun x hx =>
    (hfree0.bound x (List.mem_append_left _ hx)).2
  refine ⟨hfree, ?_, ?_, ?_⟩
  · intro C hC
    rcases List.mem_append.mp hC with hC | hC
    · refine is_chain_congr ?_ (hinv.chains C hC)
      intro x hx
      refine write_chains_other As _ r._descs hF2 hnd2.1 hlt x ?_
      intro hxA
      exact hnd1.2.2 (List.mem_append_left _ hxA) (mem_flatten_of hC hx)
    · obtain ⟨bufs, _, h⟩ := forall2_of_mem_left
        (write_chains_spec As _ r._descs hF2 hnd2.1 hlt) C hC
      exact h.1
  · have hp : (L ++ (Cs ++ As).flatten).Perm ((As.flatten ++ L) ++ Cs.flatten) := by
      simp only [List.flatten_append]
      have h1 : (L ++ (Cs.flatten ++ As.flatten)).Perm (L ++ (As.flatten ++ Cs.flatten)) :=
        List.Perm.append_left L List.perm_append_comm
      refine h1.trans ?_
      rw [← List.append_assoc]
      exact List.Perm.append_right _ List.perm_append_comm
    exact hp.nodup_iff.mpr hnd0
  · intro C hC x hx
    rcases List.mem_append.mp hC with hC | hC
    · exact hinv.bound C hC x hx
    · exact hfree0.bound x (List.mem_append_left _ (mem_flatten_of hC hx))

/-- Distinct ids that are heads of chains in flight pick out as many of the
chains, in the order of the ids. -/
theorem match_chains : ∀ (ids : List Nat) (Cs : List (List Nat)), ids.Nodup →
    (∀ id ∈ ids, id ∈ Cs.map List.headI) →
    ∃ Ps Cs1, Cs.Perm (Ps ++ Cs1) ∧ List.Forall₂ (fun id C => id = C.headI) ids Ps := by
  intro ids
  induction ids with
  | nil => intro Cs _ _; exact ⟨[], Cs, by simp, List.Forall₂.nil⟩
  | cons id ids ih =>
    intro Cs hnd hsub
    have hnd1 := List.nodup_cons.mp hnd
    obtain ⟨C, hC, hid⟩ := List.mem_map.mp (hsub id (by simp))
    obtain ⟨s, t, hst⟩ := List.append_of_mem hC
    have hperm : Cs.Perm (C :: (s ++ t)) := by
      rw [hst]; exact List.perm_middle
    have hsub1 : ∀ id1 ∈ ids, id1 ∈ (s ++ t).map List.headI := by
      intro id1 h1
      obtain ⟨C1, hC1, hid1⟩ := List.mem_map.mp (hsub id1 (List.mem_cons_of_mem _ h1))
      have : C1 ∈ C :: (s ++ t) := hperm.mem_iff.mp hC1
      rcases List.mem_cons.mp this with rfl | h2
      · exact absurd (hid1.symm.trans hid) (fun h => hnd1.1 (h ▸ h1))
      · exact List.mem_map.mpr ⟨C1, h2, hid1⟩
    obtain ⟨Ps, Cs1, hp, hF⟩ := ih (s ++ t) hnd1.2 hsub1
    refine ⟨C :: Ps, Cs1, ?_, List.Forall₂.cons hid.symm hF⟩
    exact hperm.trans (by simpa using List.Perm.cons C hp)

/-- The poll `do_complete` over pending entries that name the heads of the
chains `Ps` in flight: `bunch` gets the count, then the completion functor
is called once per pending entry, in order, with the chain stored under the
entry's id and the entry's length; the chains go to the end of the free
list in this order and the tail reaches the used index. -/
theorem do_complete_spec (c : completion BC E) (fuel : Nat) (r : vring BC) (e : E)
    (L : List Nat) (Cs Cs1 Ps : List (List Nat)) (hinv : r.inv L Cs) (hP : Cs.Perm (Ps ++ Cs1))
    (hF : List.Forall₂ (fun ue C => ue._id = C.headI) r.pending Ps)
    (ht : r._used._tail < 65536) (hi : r._used._shared._idx < 65536)
    (hn : r.pending.length < fuel) (hfuel : ∀ C ∈ Ps, C.length ≤ fuel) :
    (∀ f, run_calls c (calls_of r r.pending)
        (c.bunch e ((((r._used._tail : Int) - (r._used._shared._idx : Int))
          % 18446744073709551616).toNat)) r._available_descriptors = .error f →
      vring.do_complete c fuel r e = .error f) ∧
    (∀ e1 s1, run_calls c (calls_of r r.pending)
        (c.bunch e ((((r._used._tail : Int) - (r._used._shared._idx : Int))
          % 18446744073709551616).toNat)) r._available_descriptors = .ok (e1, s1) →
      ∃ B D fh fl,
        vring.do_complete c fuel r e = .ok
          (((r._used._tail : Int) - (r._used._shared._idx : Int)) != 0,
           { r with
             _used._tail := r._used._shared._idx
             _available_descriptors := s1
             _buffer_chains := B, _descs := D, _free_head := fh, _free_last := fl }, e1) ∧
        vring.inv
          { r with
            _used._tail := r._used._shared._idx
            _available_descriptors := s1
            _buffer_chains := B, _descs := D, _free_head := fh, _free_last := fl }
          (L ++ Ps.flatten) Cs1 ∧
        (∀ i, i ∉ r.pending.map used_elem._id → B i = r._buffer_chains i)) := by
  obtain ⟨he, ho⟩ := complete_loop_spec c fuel r.pending Ps fuel r
    (c.bunch e ((((r._used._tail : Int) - (r._used._shared._idx : Int))
          % 18446744073709551616).toNat)) L Cs Cs1 hinv hP hF rfl ht hi hn hfuel
  refine ⟨?_, ?_⟩
  · intro f hf
    unfold vring.do_complete
    simp only [he f hf]
  · intro e1 s1 hr
    obtain ⟨B, D, fh, fl, hloop, hinv1, hB⟩ := ho e1 s1 hr
    refine ⟨B, D, fh, fl, ?_, hinv1, hB⟩
    unfold vring.do_complete
    simp only [hloop]

theorem post_frame_refl (r : vring BC) : post_frame r r := ⟨rfl, rfl, rfl, rfl, rfl, rfl, rfl⟩

theorem post_frame_trans {r r1 r2 : vring BC} (h1 : post_frame r r1) (h2 : post_frame r1 r2) :
    post_frame r r2 :=
  ⟨h2.config.trans h1.config, h2.used.trans h1.used, h2.notified.trans h1.notified,
    h2.avail_event.trans h1.avail_event, h2.credits.trans h1.credits,
    h2.avail_flags.trans h1.avail_flags, h2.avail_idx.trans h1.avail_idx⟩

theorem allocate_desc_frame {r r1 : vring BC} {i : Nat} (h : r.allocate_desc = .ok (i, r1)) :
    post_frame r r1 ∧ r1._avail = r._avail := by
  unfold vring.allocate_desc at h
  by_cases h1 : r._free_head = -1
  · rw [if_pos h1] at h; cases h
  · rw [if_neg h1] at h
    by_cases h2 : r._free_head = r._free_last
    · simp only [h2, if_true, Except.ok.injEq, Prod.mk.injEq] at h
      obtain ⟨_, rfl⟩ := h
      exact ⟨⟨rfl, rfl, rfl, rfl, rfl, rfl, rfl⟩, rfl⟩
    · simp only [h2, if_false] at h
      by_cases h3 : 0 ≤ r._free_head ∧ r._free_head < (r.size : Int)
      · rw [if_pos h3] at h
        simp only [Except.ok.injEq, Prod.mk.injEq] at h
        obtain ⟨_, rfl⟩ := h
        exact ⟨⟨rfl, rfl, rfl, rfl, rfl, rfl, rfl⟩, rfl⟩
      · rw [if_neg h3] at h; cases h

theorem post_buffer_frame {st st1 : post_state BC} {b : buffer}
    (h : vring.post_buffer st b = .ok st1) :
    post_frame st.ring st1.ring ∧ st1.ring._avail = st.ring._avail := by
  unfold vring.post_buffer at h
  cases ha : st.ring.allocate_desc with
  | error f => rw [ha] at h; cases h
  | ok res =>
    obtain ⟨i, r1⟩ := res
    obtain ⟨hf, hav⟩ := allocate_desc_frame ha
    rw [ha] at h
    simp only at h
    split_ifs at h
    cases hp : st.prev with
    | none =>
      simp only [hp, Except.ok.injEq] at h
      subst h
      exact ⟨⟨hf.config, hf.used, hf.notified, hf.avail_event, hf.credits, hf.avail_flags,
        hf.avail_idx⟩, hav⟩
    | some p =>
      simp only [hp, Except.ok.injEq] at h
      subst h
      exact ⟨⟨hf.config, hf.used, hf.notified, hf.avail_event, hf.credits, hf.avail_flags,
        hf.avail_idx⟩, hav⟩

theorem post_buffers_frame : ∀ (bufs : List buffer) (st st1 : post_state BC),
    vring.post_buffers bufs st = .ok st1 →
    post_frame st.ring st1.ring ∧ st1.ring._avail = st.ring._avail := by
  intro bufs
  induction bufs with
  | nil =>
    intro st st1 h
    simp only [vring.post_buffers, Except.ok.injEq] at h
    subst h
    exact ⟨post_frame_refl _, rfl⟩
  | cons b bs ih =>
    intro st st1 h
    simp only [vring.post_buffers] at h
    cases hb : vring.post_buffer st b with
    | error f => rw [hb] at h; cases h
    | ok st2 =>
      rw [hb] at h
      obtain ⟨h1, h2⟩ := post_buffer_frame hb
      obtain ⟨h3, h4⟩ := ih st2 st1 h
      exact ⟨post_frame_trans h1 h3, h4.trans h2⟩

theorem post_chain_frame (buffers : BC → List buffer) {r r1 : vring BC} {bc : BC}
    (h : vring.post_chain buffers r bc = .ok r1) :
    post_frame r r1 ∧ r1._avail._head = (r._avail._head + 1) % 65536 ∧
    r1._avail._avail_added_since_kick = (r._avail._avail_added_since_kick + 1) % 65536 := by
  unfold vring.post_chain at h
  cases hb : vring.post_buffers (buffers bc) { ring := r } with
  | error f => rw [hb] at h; cases h
  | ok st =>
    rw [hb] at h
    obtain ⟨hf, hav⟩ := post_buffers_frame _ _ _ hb
    simp only at hf hav h
    split_ifs at h
    simp only [Except.ok.injEq] at h
    subst h
    refine ⟨⟨hf.config, hf.used, hf.notified, hf.avail_event, hf.credits, hf.avail_flags,
      hf.avail_idx⟩, ?_, ?_⟩
    · simp only [hav]
    · simp only [hav]

/-- Whatever the chains and the state, the outer loop of `post` leaves the
configuration, the used ring and the notifier alone, and moves the cursor
and the added-since-kick counter on by one per chain. -/
theorem post_chains_frame (buffers : BC → List buffer) : ∀ (chains : List BC) (r r1 : vring BC),
    vring.post_chains buffers chains r = .ok r1 →
    r._avail._head < 65536 → r._avail._avail_added_since_kick < 65536 →
    post_frame r r1 ∧ r1._avail._head = (r._avail._head + chains.length) % 65536 ∧
    r1._avail._avail_added_since_kick
      = (r._avail._avail_added_since_kick + chains.length) % 65536 := by
  intro chains
  induction chains with
  | nil =>
    intro r r1 h hh ha
    simp only [vring.post_chains, Except.ok.injEq] at h
    subst h
    exact ⟨post_frame_refl _, by simp [Nat.mod_eq_of_lt hh], by simp [Nat.mod_eq_of_lt ha]⟩
  | cons bc chains ih =>
    intro r r1 h hh ha
    simp only [vring.post_chains] at h
    cases hb : vring.post_chain buffers r bc with
    | error f => rw [hb] at h; cases h
    | ok r2 =>
      rw [hb] at h
      obtain ⟨h1, h2, h3⟩ := post_chain_frame buffers hb
      obtain ⟨h4, h5, h6⟩ := ih r2 r1 h (by rw [h2]; exact Nat.mod_lt _ (by norm_num))
        (by rw [h3]; exact Nat.mod_lt _ (by norm_num))
      refine ⟨post_frame_trans h1 h4, ?_, ?_⟩
      · rw [h5, h2, List.length_cons]; omega
      · rw [h6, h3, List.length_cons]; omega

/-- Whatever the chains and the state, the outer loop of `post` leaves the
configuration, the used ring and the notifier alone. -/
theorem post_chains_frame_only (buffers : BC → List buffer) :
    ∀ (chains : List BC) (r r1 : vring BC),
    vring.post_chains buffers chains r = .ok r1 → post_frame r r1 := by
  intro chains
  induction chains with
  | nil =>
    intro r r1 h
    simp only [vring.post_chains, Except.ok.injEq] at h
    subst h
    exact post_frame_refl _
  | cons bc chains ih =>
    intro r r1 h
    simp only [vring.post_chains] at h
    cases hb : vring.post_chain buffers r bc with
    | error f => rw [hb] at h; cases h
    | ok r2 =>
      rw [hb] at h
      exact post_frame_trans (post_chain_frame buffers hb).1 (ih r2 r1 h)

/-! ## The claims -/

/-- C6: when event-index is not negotiated, a `post` that returns invokes
the notifier not at all if the bit `VRING_USED_F_NO_NOTIFY` of the host's
used-ring flags is set, and exactly once if that bit is clear, whatever the
chains posted and whatever the added-since-kick counter holds. -/
theorem C6_post_kick_without_event_index (buffers : BC → List buffer) (chains : List BC)
    (r r1 : vring BC) (hev : r._config.event_index = false)
    (hpost : r.post buffers chains = .ok r1) :
    (r._used._shared._flags &&& VRING_USED_F_NO_NOTIFY ≠ 0 → r1.notified = r.notified) ∧
    (r._used._shared._flags &&& VRING_USED_F_NO_NOTIFY = 0 → r1.notified = r.notified + 1) := by
  unfold vring.post at hpost
  cases hc : vring.post_chains buffers chains r with
  | error f => rw [hc] at hpost; cases hpost
  | ok r2 =>
    rw [hc] at hpost
    simp only [Except.ok.injEq] at hpost
    have hf := post_chains_frame_only buffers chains r r2 hc
    subst hpost
    have hcfg : r2.publish._config.event_index = false := by
      simp only [vring.publish, hf.config, hev]
    have hflags : r2.publish._used._shared._flags = r._used._shared._flags := by
      simp only [vring.publish, hf.used]
    have hnot : r2.publish.notified = r.notified := by
      simp only [vring.publish, hf.notified]
    refine ⟨?_, ?_⟩
    · intro hset
      have hd : r2.publish.notifications_disabled = true := by
        simp only [vring.notifications_disabled, hflags]
        simpa using hset
      unfold vring.kick
      simp only [hcfg, hd, if_true, Bool.false_eq_true, if_false, hnot]
    · intro hclear
      have hd : r2.publish.notifications_disabled = false := by
        simp only [vring.notifications_disabled, hflags]
        simpa using hclear
      unfold vring.kick
      simp only [hcfg, hd, Bool.false_eq_true, if_false, Bool.true_or, if_true, hnot]

/-- C7: when event-index is negotiated, with `new` the published available
index, `a` the added-since-kick counter and `e` the host's avail-event
value, `kick` invokes the notifier (once, and resets the counter) if and
only if `(new - e - 1) mod 2^16 < a` or `a >= 32767`; the first condition
says that `e` is one of `new - a, ..., new - 1` modulo 2^16; and the host's
used-ring flags play no part. -/
theorem C7_kick_with_event_index (r : vring BC) (hev : r._config.event_index = true)
    (ht : r.typed) :
    (r.kick.notified = r.notified + 1 ↔
      (u16 ((r._avail._shared._idx : Int) - (r._avail_event : Int) - 1)
          < r._avail._avail_added_since_kick ∨
        r._avail._avail_added_since_kick ≥ 32767)) ∧
    (r.kick.notified = r.notified ↔
      ¬ (u16 ((r._avail._shared._idx : Int) - (r._avail_event : Int) - 1)
          < r._avail._avail_added_since_kick ∨
        r._avail._avail_added_since_kick ≥ 32767)) ∧
    (u16 ((r._avail._shared._idx : Int) - (r._avail_event : Int) - 1)
        < r._avail._avail_added_since_kick ↔
      ∃ i, 1 ≤ i ∧ i ≤ r._avail._avail_added_since_kick ∧
        r._avail_event = u16 ((r._avail._shared._idx : Int) - (i : Int))) ∧
    (∀ flags : Nat,
      (vring.kick { r with _used._shared._flags := flags }).notified = r.kick.notified) := by
  have hk : ∀ r2 : vring BC, r2._config.event_index = true →
      r2.kick.notified =
        if (u16 ((r2._avail._shared._idx : Int) - (r2._avail_event : Int) - 1)
              < r2._avail._avail_added_since_kick ∨
            r2._avail._avail_added_since_kick ≥ 32767)
        then r2.notified + 1 else r2.notified := by
    intro r2 h2
    unfold vring.kick
    simp only [h2, if_true]
    by_cases h1 : u16 ((r2._avail._shared._idx : Int) - (r2._avail_event : Int) - 1)
        < r2._avail._avail_added_since_kick
    · simp [h1]
    · by_cases h3 : r2._avail._avail_added_since_kick ≥ 32767
      · have : 65535 / 2 ≤ r2._avail._avail_added_since_kick := by omega
        simp [h1, h3, this]
      · have : ¬ 65535 / 2 ≤ r2._avail._avail_added_since_kick := by omega
        simp [h1, h3, this]
  have hidx := ht.avail_idx
  have hae := ht.avail_event
  have hadd := ht.added
  refine ⟨?_, ?_, ?_, ?_⟩
  · rw [hk r hev]
    split_ifs with h
    · simp [h]
    · simp only [h, iff_false]; omega
  · rw [hk r hev]
    split_ifs with h
    · simp only [h, not_true_eq_false, iff_false]; omega
    · simp [h]
  · constructor
    · intro h
      refine ⟨u16 ((r._avail._shared._idx : Int) - (r._avail_event : Int) - 1) + 1, by omega,
        by omega, ?_⟩
      unfold u16 at h ⊢
      omega
    · rintro ⟨i, h1, h2, h3⟩
      unfold u16 at h3 ⊢
      omega
  · intro flags
    rw [hk r hev, hk _ (by simpa using hev)]

/-- An iteration of `do_complete` that returns has called the completion
functor, with the chain stored under the id of the entry at the tail. -/
theorem complete_one_called (c : completion BC E) (fuel : Nat) (r : vring BC) (e : E)
    (res : vring BC × E) (h : vring.complete_one c fuel r e = .ok res) :
    ∃ e2 s2 left, c.call e r._available_descriptors
      (r._buffer_chains (r._used._shared._used_elements (r.masked r._used._tail))._id)
      (r._used._shared._used_elements (r.masked r._used._tail))._len = .ok (e2, s2, left) := by
  unfold vring.complete_one at h
  simp only at h
  by_cases hsz : (r._used._shared._used_elements (r.masked r._used._tail))._id
      < vring.size { r with _used._tail := (r._used._tail + 1) % 65536 }
  · rw [if_pos hsz] at h
    cases hcall : c.call e r._available_descriptors
        (r._buffer_chains (r._used._shared._used_elements (r.masked r._used._tail))._id)
        (r._used._shared._used_elements (r.masked r._used._tail))._len with
    | error f => rw [hcall] at h; cases h
    | ok res2 =>
      obtain ⟨e3, s3, left⟩ := res2
      exact ⟨e3, s3, left, rfl⟩
  · rw [if_neg hsz] at h; cases h

/-- C10: a `do_complete` that returns, returns `true` if and only if the
used index loaded from the host differs from the guest's used tail on
entry, which is to say if and only if some used-ring entry is pending, and
at least one call of the completion functor has then been made; when index
and tail are equal it returns `false`, calls the completion functor not at
all (only `bunch`, with count 0) and leaves the ring, with its free list and
its used tail, as it was. -/
theorem C10_do_complete_result (c : completion BC E) (fuel : Nat) (r r1 : vring BC) (e e1 : E)
    (b : Bool) (ht : r._used._tail < 65536) (hi : r._used._shared._idx < 65536)
    (h : r.do_complete c fuel e = .ok (b, r1, e1)) :
    (b = true ↔ r._used._shared._idx ≠ r._used._tail) ∧
    (b = true ↔ r.pending ≠ []) ∧
    (b = true → ∃ ue rest e2 s2 left,
      r.pending = ue :: rest ∧
      c.call (c.bunch e ((((r._used._tail : Int) - (r._used._shared._idx : Int))
          % 18446744073709551616).toNat)) r._available_descriptors
        (r._buffer_chains ue._id) ue._len = .ok (e2, s2, left)) ∧
    (r._used._shared._idx = r._used._tail → b = false ∧ r1 = r ∧ e1 = c.bunch e 0) := by
  unfold vring.do_complete at h
  simp only at h
  cases hl : vring.complete_loop c fuel r._used._shared._idx fuel r
      (c.bunch e ((((r._used._tail : Int) - (r._used._shared._idx : Int))
          % 18446744073709551616).toNat)) with
  | error f => rw [hl] at h; cases h
  | ok res =>
    obtain ⟨r2, e2⟩ := res
    rw [hl] at h
    simp only [Except.ok.injEq, Prod.mk.injEq] at h
    obtain ⟨hb, hr, he⟩ := h
    have hb1 : b = true ↔ r._used._shared._idx ≠ r._used._tail := by
      rw [← hb]
      simp only [bne_iff_ne, ne_eq]
      omega
    refine ⟨hb1, ?_, ?_, ?_⟩
    · rw [hb1, ne_eq, ne_eq, pending_nil ht hi]
    · intro hbt
      have hne := hb1.mp hbt
      cases fuel with
      | zero => simp [vring.complete_loop] at hl
      | succ n =>
        simp only [vring.complete_loop, hne, ne_eq, not_false_eq_true, if_true] at hl
        cases hone : vring.complete_one c (n + 1) r
            (c.bunch e ((((r._used._tail : Int) - (r._used._shared._idx : Int))
              % 18446744073709551616).toNat)) with
        | error f => rw [hone] at hl; cases hl
        | ok res1 =>
          have hp := pending_cons r ({ r with _used._tail := (r._used._tail + 1) % 65536 })
            ht hi hne rfl rfl rfl
          obtain ⟨e3, s3, left, hcall⟩ := complete_one_called c (n + 1) r _ res1 hone
          exact ⟨_, _, e3, s3, left, hp, hcall⟩
    · intro heq
      have hbf : b = false := by
        cases b with
        | false => rfl
        | true => exact absurd heq (hb1.mp rfl)
      cases fuel with
      | zero => simp [vring.complete_loop] at hl
      | succ n =>
        simp only [vring.complete_loop, heq, ne_eq, not_true_eq_false, if_false, Except.ok.injEq,
          Prod.mk.injEq] at hl
        refine ⟨hbf, by rw [← hr, ← hl.1], ?_⟩
        rw [← he, ← hl.2]
        simp [heq]

/-- A free list alone is the invariant with no chain in flight. -/
theorem inv_of_free {r : vring BC} {L : List Nat} (h : r.free L) : r.inv L [] :=
  ⟨h, by simp, by simpa using h.nodup, by simp⟩

theorem length_le_sum_of_ne_nil (buffers : BC → List buffer) : ∀ (chains : List BC),
    (∀ bc ∈ chains, buffers bc ≠ []) →
    chains.length ≤ (chains.map (fun bc => (buffers bc).length)).sum := by
  intro chains
  induction chains with
  | nil => intro _; simp
  | cons bc chains ih =>
    intro h
    have h1 := ih (fun b hb => h b (List.mem_cons_of_mem _ hb))
    have h2 : 0 < (buffers bc).length := List.length_pos.mpr (h bc (by simp))
    simp only [List.length_cons, List.map_cons, List.sum_cons]
    omega

theorem heads_nodup : ∀ (As : List (List Nat)), (∀ A ∈ As, A ≠ []) → As.flatten.Nodup →
    (As.map List.headI).Nodup := by
  intro As
  induction As with
  | nil => intro _ _; simp
  | cons A As ih =>
    intro hne hnd
    rw [List.flatten_cons] at hnd
    have h3 := List.nodup_append.mp hnd
    rw [List.map_cons, List.nodup_cons]
    refine ⟨?_, ih (fun B hB => hne B (List.mem_cons_of_mem _ hB)) h3.2.1⟩
    intro hmem
    obtain ⟨A1, hA1, he⟩ := List.mem_map.mp hmem
    have hA1ne : A1 ≠ [] := hne A1 (List.mem_cons_of_mem _ hA1)
    exact h3.2.2 (headI_mem (hne A (by simp))) (mem_flatten_of hA1 (he ▸ headI_mem hA1ne))

theorem forall2_and {α β : Type} {P Q : α → β → Prop} {l1 : List α} {l2 : List β}
    (hP : List.Forall₂ P l1 l2) : List.Forall₂ Q l1 l2 →
    List.Forall₂ (fun a b => P a b ∧ Q a b) l1 l2 := by
  induction hP with
  | nil => intro _; exact List.Forall₂.nil
  | cons h _ ih =>
    intro hQ
    cases hQ with
    | cons hq hQ => exact List.Forall₂.cons ⟨h, hq⟩ (ih hQ)

/-- The method `post` on a ring with the chains `Cs` in flight and the free
list `L0`, for non-empty chains that need no more descriptors than `L0`
has: it returns; each chain has taken its piece `A` of the front of `L0`,
which is a descriptor chain describing its buffers; the chain is stored
under the head of `A` and the heads are written to the available ring from
the cursor on; the pieces are in flight and the rest of `L0` is the free
list. -/
theorem post_spec (buffers : BC → List buffer) (chains : List BC) (r : vring BC)
    (L0 : List Nat) (Cs : List (List Nat)) (hinv : r.inv L0 Cs)
    (hne : ∀ bc ∈ chains, buffers bc ≠ [])
    (htot : (chains.map (fun bc => (buffers bc).length)).sum ≤ L0.length)
    (hh : r._avail._head < 65536) (ha : r._avail._avail_added_since_kick < 65536) :
    ∃ r1,
      vring.post_chains buffers chains r = .ok r1 ∧
      r.post buffers chains = .ok r1.publish.kick ∧
      post_frame r r1 ∧
      r1.inv (L0.drop (chains.map (fun bc => (buffers bc).length)).sum)
        (Cs ++ split_by (chains.map (fun bc => (buffers bc).length)) L0) ∧
      List.Forall₂ (fun A bc =>
        A ≠ [] ∧ r1._buffer_chains A.headI = bc ∧
        A.map (fun a => (r1._descs a).to_buffer) = buffers bc ∧
        ∀ a ∈ A, (r1._descs a)._flags.indirect = false)
        (split_by (chains.map (fun bc => (buffers bc).length)) L0) chains ∧
      (∀ i, i ∉ (split_by (chains.map (fun bc => (buffers bc).length)) L0).map List.headI →
        r1._buffer_chains i = r._buffer_chains i) ∧
      r1._avail._shared._ring = write_ring r._avail._shared._ring r.mask r._avail._head
        ((split_by (chains.map (fun bc => (buffers bc).length)) L0).map List.headI) ∧
      r1._avail._head = (r._avail._head + chains.length) % 65536 ∧
      r1._avail._avail_added_since_kick
        = (r._avail._avail_added_since_kick + chains.length) % 65536 := by
  obtain ⟨fh, fl, hpost, hinv1⟩ := post_chains_inv buffers chains r L0 Cs hinv hne htot hh ha
  obtain ⟨hsplit, hF⟩ := split_by_spec _ L0 htot
  generalize hAs : split_by (chains.map (fun bc => (buffers bc).length)) L0 = As at *
  generalize hL : L0.drop (chains.map (fun bc => (buffers bc).length)).sum = L at *
  have hF1 : List.Forall₂ (fun A bc => A ≠ [] ∧ A.length = (buffers bc).length) As chains := by
    rw [List.forall₂_map_right_iff] at hF
    exact forall2_ne_nil buffers hF hne
  have hF2 : List.Forall₂ (fun A bufs => A ≠ [] ∧ A.length = bufs.length) As (chains.map buffers) := by
    rw [List.forall₂_map_right_iff]
    exact hF1
  have hnd0 : (As.flatten ++ L).Nodup := by rw [hsplit]; exact hinv.free.nodup
  have hnd2 := List.nodup_append.mp hnd0
  have hlt : ∀ x ∈ As.flatten, x < 65536 := fun x hx =>
    (hinv.free.bound x (by rw [← hsplit]; exact List.mem_append_left _ hx)).2
  have hheads : (As.map List.headI).Nodup :=
    heads_nodup As (fun A hA => (forall2_of_mem_left hF1 A hA).choose_spec.2.1) hnd2.1
  obtain ⟨hst1, hst2⟩ := store_chains_spec (As.map List.headI) chains r._buffer_chains
    (by simpa using hF1.length_eq) hheads
  have hW := write_chains_spec As _ r._descs hF2 hnd2.1 hlt
  refine ⟨_, hpost, ?_, ⟨rfl, rfl, rfl, rfl, rfl, rfl, rfl⟩,
    inv_congr hinv1 rfl rfl rfl rfl, ?_, hst2, rfl, rfl, rfl⟩
  · unfold vring.post
    rw [hpost]
  · rw [List.forall₂_map_left_iff] at hst1
    rw [List.forall₂_map_right_iff] at hW
    refine (forall2_and hF1 (forall2_and hst1 hW)).imp ?_
    intro A bc h
    exact ⟨h.1.1, h.2.1, h.2.2.2.1, h.2.2.2.2⟩

theorem forall2_mem {α β : Type} {P : α → β → Prop} {l1 : List α} {l2 : List β}
    (hP : List.Forall₂ P l1 l2) :
    List.Forall₂ (fun a b => a ∈ l1 ∧ b ∈ l2 ∧ P a b) l1 l2 := by
  induction hP with
  | nil => exact List.Forall₂.nil
  | cons h _ ih =>
    refine List.Forall₂.cons ⟨by simp, by simp, h⟩ (ih.imp ?_)
    intro a b hab
    exact ⟨List.mem_cons_of_mem _ hab.1, List.mem_cons_of_mem _ hab.2.1, hab.2.2⟩

/-- C8: `post` of non-empty chains that need no more descriptors than the
free list `L0` has returns, and for every chain, in posting order, the head
index it writes to the available ring starts a descriptor chain: following
`_next` from the head while `has_next` is set visits exactly as many
descriptors as the chain has buffers, the `i`-th with the address, length
and writeable flag of the `i`-th buffer, `has_next` set on all but the last
and clear on the last, and `indirect` set on none. -/
theorem C8_post_builds_descriptor_chains (buffers : BC → List buffer) (chains : List BC)
    (r : vring BC) (L0 : List Nat) (hfree : r.free L0)
    (hne : ∀ bc ∈ chains, buffers bc ≠ [])
    (htot : (chains.map (fun bc => (buffers bc).length)).sum ≤ L0.length)
    (hh : r._avail._head < 65536) (ha : r._avail._avail_added_since_kick < 65536) :
    ∃ r2 heads,
      r.post buffers chains = .ok r2 ∧
      r2._avail._shared._ring
        = write_ring r._avail._shared._ring r.mask r._avail._head heads ∧
      List.Forall₂ (fun bc head =>
        ∃ C, r2.chain_of (buffers bc).length head = some C ∧
          C.length = (buffers bc).length ∧
          C.map (fun i => (r2._descs i).to_buffer) = buffers bc ∧
          (∀ i ∈ C.dropLast, (r2._descs i)._flags.has_next = true) ∧
          (∀ l, C.getLast? = some l → (r2._descs l)._flags.has_next = false) ∧
          (∀ i ∈ C, (r2._descs i)._flags.indirect = false)) chains heads := by
  obtain ⟨r1, _, hpost, _, hinv, hF, _, hring, _, _⟩ :=
    post_spec buffers chains r L0 [] (inv_of_free hfree) hne htot hh ha
  obtain ⟨hk1, hk2, _, _, _, _, hk7, _⟩ := kick_frame r1.publish
  have hD : r1.publish.kick._descs = r1._descs := by rw [hk2]; rfl
  have hS : r1.publish.kick._config = r1._config := by rw [hk1]; rfl
  refine ⟨r1.publish.kick,
    (split_by (chains.map (fun bc => (buffers bc).length)) L0).map List.headI, hpost, ?_, ?_⟩
  · rw [hk7]
    exact hring
  · rw [List.forall₂_map_right_iff]
    refine (forall2_mem hF).flip.imp ?_
    intro bc A h
    obtain ⟨hA, _, hAne, _, hmap, hind⟩ := h
    have hchain := hinv.chains A (by simpa using hA)
    have hbound := hinv.bound A (by simpa using hA)
    have hlen : A.length = (buffers bc).length := by
      have := congrArg List.length hmap
      simpa using this
    have hflags := is_chain_flags A A.headI hchain
    refine ⟨A, ?_, hlen, ?_, ?_, ?_, ?_⟩
    · refine chain_of_is_chain _ A A.headI _ (by rw [hD]; exact hchain) ?_ (by omega)
      intro x hx
      have := hbound x hx
      simpa [vring.desc_index, vring.size, hS] using this
    · rw [hD]; exact hmap
    · rw [hD]; exact hflags.1
    · rw [hD]; exact hflags.2
    · rw [hD]; exact hind

/-- A poll with no pending entry calls `bunch` with count 0 and nothing else. -/
theorem do_complete_idle (c : completion BC E) (fuel : Nat) (r : vring BC) (e : E)
    (h : r._used._shared._idx = r._used._tail) :
    r.do_complete c (fuel + 1) e = .ok (false, r, c.bunch e 0) := by
  unfold vring.do_complete
  simp [vring.complete_loop, h]

/-- The chains in flight are no longer than the ring. -/
theorem inv_chain_length {r : vring BC} {L : List Nat} {Cs : List (List Nat)} (hinv : r.inv L Cs)
    {C : List Nat} (hC : C ∈ Cs) : C.length ≤ r.size := by
  refine length_le_of_nodup_lt ?_ (fun x hx => (hinv.bound C hC x hx).1)
  have h1 := (List.nodup_append.mp hinv.nodup).2.1
  obtain ⟨s, t, hst⟩ := List.append_of_mem hC
  rw [hst] at h1
  simp only [List.flatten_append, List.flatten_cons] at h1
  exact (List.nodup_append.mp (List.nodup_append.mp h1).2.1).1

/-- The poll on a ring with chains in flight whose pending entries name
distinct heads of chains in flight: what it leaves is what the calls of the
completion functor leave, made once per pending entry and in order, with
the chain stored under the entry's id and the entry's length; when it
returns, the chains named are at the end of the free list, in the order
of the entries, and the tail is the used index. -/
theorem do_complete_inflight (c : completion BC E) (fuel : Nat) (r : vring BC) (e : E)
    (L : List Nat) (Cs : List (List Nat)) (hinv : r.inv L Cs)
    (ht : r._used._tail < 65536) (hi : r._used._shared._idx < 65536)
    (hnd : (r.pending.map used_elem._id).Nodup)
    (hsub : ∀ id ∈ r.pending.map used_elem._id, id ∈ Cs.map List.headI)
    (hn : r.pending.length < fuel) (hfuel : r.size ≤ fuel) :
    (r.do_complete c fuel e).map (fun x => (x.2.2, x.2.1._available_descriptors))
      = run_calls c (calls_of r r.pending)
          (c.bunch e ((((r._used._tail : Int) - (r._used._shared._idx : Int))
            % 18446744073709551616).toNat)) r._available_descriptors ∧
    ∀ b r3 e1, r.do_complete c fuel e = .ok (b, r3, e1) →
      ∃ Ps Cs1, Cs.Perm (Ps ++ Cs1) ∧
        List.Forall₂ (fun ue C => ue._id = C.headI) r.pending Ps ∧
        r3.inv (L ++ Ps.flatten) Cs1 ∧
        r3._used._tail = r._used._shared._idx ∧ r3._used._shared = r._used._shared ∧
        r3._config = r._config ∧ r3._avail = r._avail ∧ r3.notified = r.notified ∧
        (∀ i, i ∉ r.pending.map used_elem._id → r3._buffer_chains i = r._buffer_chains i) := by
  obtain ⟨Ps, Cs1, hP, hF0⟩ := match_chains _ Cs hnd hsub
  have hF : List.Forall₂ (fun ue C => ue._id = C.headI) r.pending Ps := by
    rw [List.forall₂_map_left_iff] at hF0
    exact hF0
  have hlen : ∀ C ∈ Ps, C.length ≤ fuel := fun C hC =>
    (inv_chain_length hinv (hP.mem_iff.mpr (List.mem_append_left _ hC))).trans hfuel
  obtain ⟨he, ho⟩ := do_complete_spec c fuel r e L Cs Cs1 Ps hinv hP hF ht hi hn hlen
  cases hr : run_calls c (calls_of r r.pending)
      (c.bunch e ((((r._used._tail : Int) - (r._used._shared._idx : Int))
        % 18446744073709551616).toNat)) r._available_descriptors with
  | error f =>
    rw [he f hr]
    refine ⟨rfl, ?_⟩
    intro b r3 e1 h
    cases h
  | ok res =>
    obtain ⟨e2, s2⟩ := res
    obtain ⟨B, D, fh, fl, hdo, hinv3, hB⟩ := ho e2 s2 hr
    rw [hdo]
    refine ⟨rfl, ?_⟩
    intro b r3 e1 h
    simp only [Except.ok.injEq, Prod.mk.injEq] at h
    obtain ⟨_, rfl, _⟩ := h
    exact ⟨Ps, Cs1, hP, hF, hinv3, rfl, rfl, rfl, rfl, rfl, hB⟩

/-- The invariant after `post` has published and kicked, and after the host
has written the used ring and the avail-event cell. -/
theorem post_spec_host (buffers : BC → List buffer) (chains : List BC) (r : vring BC)
    (L0 : List Nat) (Cs : List (List Nat)) (hinv : r.inv L0 Cs)
    (hne : ∀ bc ∈ chains, buffers bc ≠ [])
    (htot : (chains.map (fun bc => (buffers bc).length)).sum ≤ L0.length)
    (hh : r._avail._head < 65536) (ha : r._avail._avail_added_since_kick < 65536) :
    ∃ r2,
      r.post buffers chains = .ok r2 ∧
      r2._config = r._config ∧ r2._used = r._used ∧
      r2._available_descriptors = r._available_descriptors ∧
      List.Forall₂ (fun A bc => A ≠ [] ∧ r2._buffer_chains A.headI = bc)
        (split_by (chains.map (fun bc => (buffers bc).length)) L0) chains ∧
      ∀ (U : used_layout) (ae : Nat),
        vring.inv { r2 with _used._shared := U, _avail_event := ae }
          (L0.drop (chains.map (fun bc => (buffers bc).length)).sum)
          (Cs ++ split_by (chains.map (fun bc => (buffers bc).length)) L0) := by
  obtain ⟨r1, _, hpost, hfr, hinv1, hF, _, _, _, _⟩ :=
    post_spec buffers chains r L0 Cs hinv hne htot hh ha
  obtain ⟨hk1, hk2, hk3, hk4, hk5, hk6, _, _, hk9, _⟩ := kick_frame r1.publish
  refine ⟨r1.publish.kick, hpost, ?_, ?_, ?_, ?_, ?_⟩
  · rw [hk1]; exact hfr.config
  · rw [hk6]; exact hfr.used
  · rw [hk9]; exact hfr.credits
  · refine hF.imp ?_
    intro A bc h
    refine ⟨h.1, ?_⟩
    rw [hk5]
    exact h.2.1
  · intro U ae
    exact inv_congr hinv1 (by simp only [hk1]; rfl) (by simp only [hk2]; rfl)
      (by simp only [hk3]; rfl) (by simp only [hk4]; rfl)

/-- C3 (amended): after `post` of non-empty chains within the free-descriptor budget,
for every used-ring content the host publishes in which the entries between
the used tail and the used index name distinct heads of chains in flight:
`post` has stored each chain under its head; what `do_complete` leaves in
the completion functor's environment and credits is what one call per
pending entry leaves, the calls made in used-ring order, each with the chain
stored under the entry's id and with the entry's length; and when
`do_complete` returns, the used tail equals the used index, so that a
further `do_complete` without new entries makes no call. -/
theorem C3_completions_in_used_ring_order (c : completion BC E) (buffers : BC → List buffer)
    (chains : List BC) (r : vring BC) (L0 : List Nat) (Cs : List (List Nat))
    (hinv : r.inv L0 Cs) (hne : ∀ bc ∈ chains, buffers bc ≠ [])
    (htot : (chains.map (fun bc => (buffers bc).length)).sum ≤ L0.length)
    (hh : r._avail._head < 65536) (ha : r._avail._avail_added_since_kick < 65536)
    (htl : r._used._tail < 65536) (U : used_layout) (hU : U._idx < 65536)
    (fuel : Nat) (e : E) :
    ∃ r1,
      r.post buffers chains = .ok r1 ∧
      List.Forall₂ (fun A bc => A ≠ [] ∧ r1._buffer_chains A.headI = bc)
        (split_by (chains.map (fun bc => (buffers bc).length)) L0) chains ∧
      (((vring.pending { r1 with _used._shared := U }).map used_elem._id).Nodup →
       (∀ id ∈ (vring.pending { r1 with _used._shared := U }).map used_elem._id,
          id ∈ (Cs ++ split_by (chains.map (fun bc => (buffers bc).length)) L0).map List.headI) →
       (vring.pending { r1 with _used._shared := U }).length < fuel → r.size ≤ fuel →
       (vring.do_complete c fuel { r1 with _used._shared := U } e).map
           (fun x => (x.2.2, x.2.1._available_descriptors))
         = run_calls c
             ((vring.pending { r1 with _used._shared := U }).map
               (fun ue => (r1._buffer_chains ue._id, ue._len)))
             (c.bunch e ((((r._used._tail : Int) - (U._idx : Int)) % 18446744073709551616).toNat))
             r._available_descriptors ∧
       ∀ b r3 e1, vring.do_complete c fuel { r1 with _used._shared := U } e = .ok (b, r3, e1) →
         r3._used._tail = U._idx ∧ r3._used._shared = U ∧
         r3.do_complete c fuel e1 = .ok (false, r3, c.bunch e1 0)) := by
  obtain ⟨r1, hpost, hcfg, hused, hcred, hF, hinv1⟩ :=
    post_spec_host buffers chains r L0 Cs hinv hne htot hh ha
  refine ⟨r1, hpost, hF, ?_⟩
  intro hnd hsub hn hfuel
  have hinv2 : vring.inv ({ r1 with _used._shared := U } : vring BC) _ _ :=
    inv_congr (hinv1 U r1._avail_event) rfl rfl rfl rfl
  have htl2 : r1._used._tail = r._used._tail := by rw [hused]
  obtain ⟨h1, h2⟩ := do_complete_inflight c fuel ({ r1 with _used._shared := U } : vring BC) e
    _ _ hinv2 (by simpa [htl2] using htl) hU hnd hsub hn
    (by simpa [vring.size, hcfg] using hfuel)
  refine ⟨?_, ?_⟩
  · rw [h1]
    simp only [calls_of, htl2, hcred]
  · intro b r3 e1 hdo
    obtain ⟨_, _, _, _, _, h3, h4, _⟩ := h2 b r3 e1 hdo
    refine ⟨h3, h4, ?_⟩
    obtain ⟨k, rfl⟩ : ∃ k, fuel = k + 1 := ⟨fuel - 1, by omega⟩
    exact do_complete_idle c k r3 e1 (by rw [h3, h4])

theorem mod_mod_size {size x : Nat} (hd : size ∣ 65536) : x % 65536 % size = x % size :=
  Nat.mod_mod_of_dvd x hd

/-- C5: on a ring whose size is a power of two that divides 65536, for
every 16-bit value `h` of the available head and `t` of the used tail
(whether or not `h + n` or `t + j` pass 65536): `post` of `n` non-empty
chains within the free-descriptor budget writes the head of the `j`-th
chain to slot `(h + j) mod size` of the available ring and publishes the
index `(h + n) mod 65536`; the entries `do_complete` reads are those of the
used-ring slots `(t + j) mod size`, in the order of `j`; and when the host
echoes into these slots, for `j` below the count it publishes, the id it
finds in slot `(h + j) mod size` of the available ring, the calls
`do_complete` makes to the completion functor get, in order, the chains
that were posted: the call for the `j`-th entry gets the `j`-th chain, which
is the chain stored under the id the entry reports. -/
theorem C5_index_wraparound (c : completion BC E) (buffers : BC → List buffer)
    (chains : List BC) (r : vring BC) (L0 : List Nat) (Cs : List (List Nat)) (m : Nat)
    (hinv : r.inv L0 Cs) (hne : ∀ bc ∈ chains, buffers bc ≠ [])
    (htot : (chains.map (fun bc => (buffers bc).length)).sum ≤ L0.length)
    (hh : r._avail._head < 65536) (ha : r._avail._avail_added_since_kick < 65536)
    (htl : r._used._tail < 65536) (hs : r.size = 2 ^ m) (hm : m ≤ 16)
    (U : used_layout) (hU : U._idx < 65536) (fuel : Nat) (e : E) :
    ∃ r1,
      r.post buffers chains = .ok r1 ∧
      (∀ j, j < chains.length →
        ((split_by (chains.map (fun bc => (buffers bc).length)) L0).map List.headI)[j]?
          = some (r1._avail._shared._ring ((r._avail._head + j) % r.size))) ∧
      r1._avail._shared._idx = (r._avail._head + chains.length) % 65536 ∧
      vring.pending { r1 with _used._shared := U }
        = (List.range (u16 ((U._idx : Int) - (r._used._tail : Int)))).map
            (fun j => U._used_elements ((r._used._tail + j) % r.size)) ∧
      (u16 ((U._idx : Int) - (r._used._tail : Int)) ≤ chains.length →
       (∀ j, j < u16 ((U._idx : Int) - (r._used._tail : Int)) →
          (U._used_elements ((r._used._tail + j) % r.size))._id
            = r1._avail._shared._ring ((r._avail._head + j) % r.size)) →
       u16 ((U._idx : Int) - (r._used._tail : Int)) < fuel → r.size ≤ fuel →
       List.Forall₂ (fun ue bc => r1._buffer_chains ue._id = bc)
         (vring.pending { r1 with _used._shared := U })
         (chains.take (u16 ((U._idx : Int) - (r._used._tail : Int)))) ∧
       (vring.do_complete c fuel { r1 with _used._shared := U } e).map
           (fun x => (x.2.2, x.2.1._available_descriptors))
         = run_calls c
             ((vring.pending { r1 with _used._shared := U }).map
               (fun ue => (r1._buffer_chains ue._id, ue._len)))
             (c.bunch e ((((r._used._tail : Int) - (U._idx : Int)) % 18446744073709551616).toNat))
             r._available_descriptors) := by
  have hd : r.size ∣ 65536 := by
    rw [hs]
    exact (Nat.pow_dvd_pow_iff_le_right (by norm_num : 1 < 2)).mpr hm
  obtain ⟨r1, _, hpost, hfr, hinv1, hF, _, hring, hhead, _⟩ :=
    post_spec buffers chains r L0 Cs hinv hne htot hh ha
  obtain ⟨hk1, hk2, hk3, hk4, hk5, hk6, hk7, hk8, hk9, _⟩ := kick_frame r1.publish
  generalize hAs : split_by (chains.map (fun bc => (buffers bc).length)) L0 = As at *
  have hlen : (As.map List.headI).length = chains.length := by simpa using hF.length_eq
  have hn1 : chains.length ≤ L0.length :=
    (length_le_sum_of_ne_nil buffers chains hne).trans htot
  have hn2 : L0.length ≤ r.size :=
    length_le_of_nodup_lt hinv.free.nodup (fun x hx => (hinv.free.bound x hx).1)
  have hn3 : L0.length ≤ 65536 :=
    length_le_of_nodup_lt hinv.free.nodup (fun x hx => (hinv.free.bound x hx).2)
  have hmask : ∀ x, r.masked (x % 65536) = x % r.size := by
    intro x
    rw [masked_pow2 r m _ hs (Nat.mod_lt _ (by norm_num)), mod_mod_size hd]
  obtain ⟨hw1, _⟩ := write_ring_spec r.mask (As.map List.headI)
    r._avail._shared._ring r._avail._head hh
    (by
      intro i j hi hj hij
      rw [hlen] at hi hj
      exact masked_inj r m r._avail._head chains.length hs (by omega) (by omega) i j hi hj hij)
  have hcfg : r1.publish.kick._config = r._config := by rw [hk1]; exact hfr.config
  have hused : r1.publish.kick._used = r._used := by rw [hk6]; exact hfr.used
  have hringk : r1.publish.kick._avail._shared._ring = r1._avail._shared._ring := by
    rw [hk7]; rfl
  have hbc : r1.publish.kick._buffer_chains = r1._buffer_chains := by rw [hk5]; rfl
  -- the slots of the available ring
  have hslot : ∀ j (hj : j < (As.map List.headI).length),
      r1.publish.kick._avail._shared._ring ((r._avail._head + j) % r.size)
        = (As.map List.headI).get ⟨j, hj⟩ := by
    intro j hj
    rw [hringk, hring, ← hmask]
    exact hw1 j hj
  -- the entries read
  have hpend : vring.pending ({ r1.publish.kick with _used._shared := U } : vring BC)
      = (List.range (u16 ((U._idx : Int) - (r._used._tail : Int)))).map
          (fun j => U._used_elements ((r._used._tail + j) % r.size)) := by
    have hmask2 : ∀ x, (x % 65536) &&& (((r._config.size : Int) - 1) % 18446744073709551616).toNat
        = x % r._config.size := fun x => hmask x
    simp only [vring.pending, vring.masked, vring.mask, vring.size, hcfg, hused, hmask2]
  refine ⟨r1.publish.kick, hpost, ?_, ?_, hpend, ?_⟩
  · intro j hj
    have hj2 : j < (As.map List.headI).length := by rw [hlen]; exact hj
    rw [hslot j hj2, List.getElem?_eq_getElem hj2]
    rfl
  · rw [hk7]; exact hhead
  · intro hcnt hecho hfuel1 hfuel2
    generalize hk : u16 ((U._idx : Int) - (r._used._tail : Int)) = k at *
    -- the chain of the `j`-th entry
    have hFbc : List.Forall₂ (fun a bc => r1._buffer_chains a = bc) (As.map List.headI) chains := by
      rw [List.forall₂_map_left_iff]
      exact hF.imp (fun A bc h => h.2.1)
    have hget := (List.forall₂_iff_get.mp hFbc).2
    have hF2 : List.Forall₂ (fun ue bc => r1.publish.kick._buffer_chains ue._id = bc)
        (vring.pending ({ r1.publish.kick with _used._shared := U } : vring BC))
        (chains.take k) := by
      rw [hpend, List.forall₂_iff_get]
      refine ⟨by simp [hcnt], ?_⟩
      intro j h1 h2
      have hjk : j < k := by simpa using h1
      have hj2 : j < (As.map List.headI).length := by rw [hlen]; omega
      simp only [List.get_eq_getElem, List.getElem_map, List.getElem_range, List.getElem_take]
      rw [hecho j hjk, hslot j hj2, hbc]
      exact hget j hj2 (by omega)
    refine ⟨hF2, ?_⟩
    -- the ids of the entries are distinct heads
    have hids : (vring.pending ({ r1.publish.kick with _used._shared := U } : vring BC)).map
        used_elem._id = (As.map List.headI).take k := by
      apply List.ext_getElem
      · simp [hpend, hlen, hcnt]
      · intro j h1 h2
        have hjk : j < k := by simpa [hpend] using h1
        have hj2 : j < (As.map List.headI).length := by rw [hlen]; omega
        simp only [hpend, List.getElem_map, List.getElem_range, List.getElem_take]
        rw [hecho j hjk, hslot j hj2]
        simp
    have hAsne : ∀ A ∈ As, A ≠ [] := fun A hA => (forall2_of_mem_left hF A hA).choose_spec.2.1
    have hndAs : As.flatten.Nodup := by
      have h1 := (List.nodup_append.mp hinv1.nodup).2.1
      simp only [List.flatten_append] at h1
      exact (List.nodup_append.mp h1).2.1
    have hheads : (As.map List.headI).Nodup := heads_nodup As hAsne hndAs
    have hinv2 : vring.inv ({ r1.publish.kick with _used._shared := U } : vring BC) _ _ :=
      inv_congr hinv1 (by simp only [hk1]; rfl) (by simp only [hk2]; rfl)
        (by simp only [hk3]; rfl) (by simp only [hk4]; rfl)
    have htl2 : r1.publish.kick._used._tail = r._used._tail := by rw [hused]
    obtain ⟨h1, _⟩ := do_complete_inflight c fuel
      ({ r1.publish.kick with _used._shared := U } : vring BC) e _ _ hinv2
      (by simpa [htl2] using htl) hU
      (by rw [hids]; exact hheads.sublist (List.take_sublist _ _))
      (by
        intro id hid
        rw [hids] at hid
        simp only [List.map_append]
        exact List.mem_append_right _ (List.mem_of_mem_take hid))
      (by rw [hpend]; simpa using hfuel1)
      (by simpa [vring.size, hcfg] using hfuel2)
    rw [h1]
    simp only [calls_of, htl2, hk9]
    rw [show r1.publish._available_descriptors = r._available_descriptors from hfr.credits]

/-- The chains in flight are non-empty, and no two begin with the same
descriptor. -/
theorem inv_heads_nodup {r : vring BC} {L : List Nat} {Cs : List (List Nat)} (hinv : r.inv L Cs) :
    (Cs.map List.headI).Nodup :=
  heads_nodup Cs (fun C hC => is_chain_ne_nil (hinv.chains C hC))
    (List.nodup_append.mp hinv.nodup).2.1

theorem forall2_map_eq {α β γ : Type} {f : α → γ} {g : β → γ} {l1 : List α} {l2 : List β}
    (h : List.Forall₂ (fun a b => f a = g b) l1 l2) : l2.map g = l1.map f := by
  induction h with
  | nil => rfl
  | cons h _ ih => simp only [List.map_cons, h, ih]

/-- The poll on a ring whose pending entries name the heads of the chains
`As` in flight, each once and in any order: when it returns, the chains of
`As` are at the end of the free list, in the order of the entries, and the
other chains in flight are as before. -/
theorem do_complete_drains (c : completion BC E) (fuel : Nat) (r : vring BC) (e : E)
    (L : List Nat) (Cs As : List (List Nat)) (hinv : r.inv L (Cs ++ As))
    (ht : r._used._tail < 65536) (hi : r._used._shared._idx < 65536)
    (hperm : (r.pending.map used_elem._id).Perm (As.map List.headI))
    (hn : r.pending.length < fuel) (hfuel : r.size ≤ fuel) :
    (r.do_complete c fuel e).map (fun x => (x.2.2, x.2.1._available_descriptors))
      = run_calls c (calls_of r r.pending)
          (c.bunch e ((((r._used._tail : Int) - (r._used._shared._idx : Int))
            % 18446744073709551616).toNat)) r._available_descriptors ∧
    ∀ b r3 e1, r.do_complete c fuel e = .ok (b, r3, e1) →
      ∃ Ps, Ps.Perm As ∧
        List.Forall₂ (fun ue C => ue._id = C.headI) r.pending Ps ∧
        r3.inv (L ++ Ps.flatten) Cs ∧
        r3._used._tail = r._used._shared._idx ∧ r3._used._shared = r._used._shared ∧
        r3._config = r._config ∧ r3._avail = r._avail ∧ r3.notified = r.notified := by
  have hheads := inv_heads_nodup hinv
  have hAsheads : (As.map List.headI).Nodup := by
    rw [List.map_append] at hheads
    exact (List.nodup_append.mp hheads).2.1
  have hnd : (r.pending.map used_elem._id).Nodup := hperm.nodup_iff.mpr hAsheads
  have hsub : ∀ id ∈ r.pending.map used_elem._id, id ∈ (Cs ++ As).map List.headI := by
    intro id hid
    rw [List.map_append]
    exact List.mem_append_right _ (hperm.mem_iff.mp hid)
  obtain ⟨h1, h2⟩ := do_complete_inflight c fuel r e L (Cs ++ As) hinv ht hi hnd hsub hn hfuel
  refine ⟨h1, ?_⟩
  intro b r3 e1 hdo
  obtain ⟨Ps, Cs1, hP, hF, hinv3, h3, h4, h5, h6, h7, _⟩ := h2 b r3 e1 hdo
  have hinj := List.inj_on_of_nodup_map hheads
  -- the heads of `Ps` are the ids
  have hPsheads : Ps.map List.headI = r.pending.map used_elem._id := forall2_map_eq hF
  have hPsnd : Ps.Nodup := List.Nodup.of_map List.headI (by rw [hPsheads]; exact hnd)
  have hAsnd : As.Nodup := List.Nodup.of_map List.headI hAsheads
  have hPsub : Ps ⊆ As := by
    intro P hPin
    have hPin2 : P ∈ Cs ++ As := hP.mem_iff.mpr (List.mem_append_left _ hPin)
    have : P.headI ∈ As.map List.headI := by
      apply hperm.mem_iff.mp
      rw [← hPsheads]
      exact List.mem_map_of_mem _ hPin
    obtain ⟨A, hA, hAe⟩ := List.mem_map.mp this
    have := hinj (List.mem_append_right _ hA) hPin2 hAe
    rw [← this]
    exact hA
  have hlen : As.length ≤ Ps.length := by
    have h8 := congrArg List.length hPsheads
    have h9 := hperm.length_eq
    simp only [List.length_map] at h8 h9
    omega
  have hPA : Ps.Perm As := (List.subperm_of_subset hPsnd hPsub).perm_of_length_le hlen
  have hCs1 : Cs1.Perm Cs := by
    have e1 : (Ps ++ Cs1).Perm (Ps ++ Cs) :=
      hP.symm.trans (List.perm_append_comm.trans (List.Perm.append_right Cs hPA.symm))
    exact (List.perm_append_left_iff Ps).mp e1
  refine ⟨Ps, hPA, hF, ?_, h3, h4, h5, h6, h7⟩
  exact ⟨hinv3.free, fun C hC => hinv3.chains C (hCs1.mem_iff.mpr hC),
    ((List.Perm.append_left _ hCs1.flatten).nodup_iff).mp hinv3.nodup,
    fun C hC => hinv3.bound C (hCs1.mem_iff.mpr hC)⟩

/-- A completion functor that never fails makes every run of calls succeed. -/
theorem run_calls_total (c : completion BC E)
    (hc : ∀ e s bc len, ∃ x, c.call e s bc len = .ok x) :
    ∀ (calls : List (BC × Nat)) (e : E) (s : Nat), ∃ x, run_calls c calls e s = .ok x := by
  intro calls
  induction calls with
  | nil => intro e s; exact ⟨_, rfl⟩
  | cons a calls ih =>
    intro e s
    obtain ⟨bc, len⟩ := a
    obtain ⟨x, hx⟩ := hc e s bc len
    obtain ⟨e1, s1, left⟩ := x
    simp only [run_calls, hx]
    exact ih e1 s1

theorem sum_map_const_len (buffers : BC → List buffer) (k : Nat) : ∀ (chains : List BC),
    (∀ bc ∈ chains, (buffers bc).length = k) →
    (chains.map (fun bc => (buffers bc).length)).sum = chains.length * k := by
  intro chains
  induction chains with
  | nil => intro _; simp
  | cons bc chains ih =>
    intro h
    simp only [List.map_cons, List.sum_cons, List.length_cons, h bc (by simp),
      ih (fun b hb => h b (List.mem_cons_of_mem _ hb))]
    ring

/-- One cycle of `post` and `do_complete` on a ring that satisfies the
invariant with free list `L0`: `post` of `N` chains of `k >= 1` buffers each,
with `N * k` no more than the length of `L0`, returns and takes exactly the
first `N * k` descriptors of `L0` off the free list; and once the host has
returned each chain head once in the used ring, in any order, `do_complete`
(with a completion functor that does not fail) returns and leaves a free
list that is a permutation of `L0`. -/
theorem post_drain_cycle (c : completion BC E) (buffers : BC → List buffer)
    (chains : List BC) (r : vring BC) (L0 : List Nat) (Cs : List (List Nat)) (N k : Nat)
    (hc : ∀ e s bc len, ∃ x, c.call e s bc len = .ok x)
    (hinv : r.inv L0 Cs) (hk : 1 ≤ k) (hN : chains.length = N)
    (hlen : ∀ bc ∈ chains, (buffers bc).length = k) (hbud : N * k ≤ L0.length)
    (hh : r._avail._head < 65536) (ha : r._avail._avail_added_since_kick < 65536)
    (htl : r._used._tail < 65536) (U : used_layout) (hU : U._idx < 65536)
    (fuel : Nat) (e : E) :
    ∃ r1,
      r.post buffers chains = .ok r1 ∧
      r1.free_list = some (L0.drop (N * k)) ∧
      (L0.drop (N * k)).length + N * k = L0.length ∧
      (((vring.pending { r1 with _used._shared := U }).map used_elem._id).Perm
          ((split_by (chains.map (fun bc => (buffers bc).length)) L0).map List.headI) →
       (vring.pending { r1 with _used._shared := U }).length < fuel → r.size ≤ fuel →
       ∃ b r3 e1 L3,
         vring.do_complete c fuel { r1 with _used._shared := U } e = .ok (b, r3, e1) ∧
         r3.free_list = some L3 ∧ L3.Perm L0 ∧ L3.Nodup ∧ L3.length = L0.length ∧
         r3.inv L3 Cs) := by
  have hsum := sum_map_const_len buffers k chains hlen
  rw [hN] at hsum
  have hne : ∀ bc ∈ chains, buffers bc ≠ [] := by
    intro bc hbc h0
    have := hlen bc hbc
    rw [h0] at this
    simp at this
    omega
  have htot : (chains.map (fun bc => (buffers bc).length)).sum ≤ L0.length := by
    rw [hsum]; exact hbud
  obtain ⟨r1, hpost, hcfg, hused, _, _, hinv1⟩ :=
    post_spec_host buffers chains r L0 Cs hinv hne htot hh ha
  obtain ⟨hsplit, _⟩ := split_by_spec _ L0 htot
  rw [hsum] at hsplit
  have hinvU := hinv1 U r1._avail_event
  rw [hsum] at hinvU
  have hfree1 : r1.free (L0.drop (N * k)) :=
    free_congr hinvU.free rfl rfl rfl (fun _ _ => rfl)
  refine ⟨r1, hpost, free_list_of_free hfree1, by simp; omega, ?_⟩
  intro hperm hn hfuel
  have hinv2 : vring.inv ({ r1 with _used._shared := U } : vring BC) _ _ :=
    inv_congr hinvU rfl rfl rfl rfl
  have htl2 : r1._used._tail = r._used._tail := by rw [hused]
  obtain ⟨h1, h2⟩ := do_complete_drains c fuel ({ r1 with _used._shared := U } : vring BC) e
    _ Cs _ hinv2 (by simpa [htl2] using htl) hU hperm hn
    (by simpa [vring.size, hcfg] using hfuel)
  obtain ⟨x, hx⟩ := run_calls_total c hc
    (calls_of ({ r1 with _used._shared := U } : vring BC)
      (vring.pending ({ r1 with _used._shared := U } : vring BC)))
    (c.bunch e ((((r1._used._tail : Int) - (U._idx : Int)) % 18446744073709551616).toNat))
    r1._available_descriptors
  cases hdo : vring.do_complete c fuel ({ r1 with _used._shared := U } : vring BC) e with
  | error f =>
    rw [hdo] at h1
    simp only [Except.map] at h1
    rw [hx] at h1
    cases h1
  | ok res =>
    obtain ⟨b, r3, e1⟩ := res
    obtain ⟨Ps, hPA, _, hinv3, _⟩ := h2 b r3 e1 hdo
    have hL3 : (L0.drop (N * k) ++ Ps.flatten).Perm L0 := by
      have e1 : (L0.drop (N * k) ++ Ps.flatten).Perm
          (L0.drop (N * k) ++ (split_by (chains.map (fun bc => (buffers bc).length)) L0).flatten) :=
        List.Perm.append_left _ hPA.flatten
      refine e1.trans (List.perm_append_comm.trans ?_)
      rw [hsplit]
    exact ⟨b, r3, e1, _, rfl, free_list_of_free hinv3.free, hL3, hinv3.free.nodup,
      hL3.length_eq, hinv3⟩

theorem taken_credits : ∀ (pb : List packet) (s : Nat),
    ((txq.taken s pb).map (fun p => p.nr_frags + 1)).sum ≤ s := by
  intro pb
  induction pb with
  | nil => intro s; simp [txq.taken]
  | cons p pb ih =>
    intro s
    simp only [txq.taken]
    split_ifs with h
    · have := ih (s - (p.nr_frags + 1))
      simp only [List.map_cons, List.sum_cons]
      omega
    · simp

/-- The loop of `txq::post`: it never fails; it takes the packets `taken`
from the front of the input, appends the chain of each to `_packets`, and
takes the fragment count of each chain from the credits. -/
theorem post_loop_spec : ∀ (pb : List packet) (st : txq.post_locals),
    ∃ st1, txq.post_loop pb st = .ok (pb.drop (txq.taken st.q._ring._available_descriptors pb).length, st1) ∧
      st1.q = { st.q with
                _ring := { st.q._ring with
                           _available_descriptors := st.q._ring._available_descriptors -
                             ((txq.taken st.q._ring._available_descriptors pb).map
                               (fun p => p.nr_frags + 1)).sum }
                _packets := st.q._packets ++
                  (txq.taken st.q._ring._available_descriptors pb).map st.q.chain_for } := by
  intro pb
  induction pb with
  | nil =>
    intro st
    refine ⟨st, rfl, ?_⟩
    simp [txq.taken]
  | cons p pb ih =>
    intro st
    by_cases h : p.nr_frags + 1 ≤ st.q._ring._available_descriptors
    · have h2 : (st.q.chain_for p).p.nr_frags = p.nr_frags + 1 := by
        simp [txq.chain_for, packet.prepend, packet.nr_frags]
      simp only [txq.chain_for] at h2
      obtain ⟨st1, hl, hq⟩ := ih
        { q := { st.q with
                 _ring := { st.q._ring with
                            _available_descriptors := st.q._ring._available_descriptors
                              - (p.nr_frags + 1) }
                 _packets := st.q._packets ++ [st.q.chain_for p] },
          bytes := (st.bytes + p.len) % 18446744073709551616,
          nr_frags := (st.nr_frags + p.nr_frags) % 18446744073709551616 }
      refine ⟨st1, ?_, ?_⟩
      · simp only [txq.post_loop, txq.taken, h, if_true, h2, List.length_cons, List.drop_succ_cons]
        exact hl
      · rw [hq]
        simp only [txq.taken, h, if_true, List.map_cons, List.sum_cons, List.append_assoc,
          List.singleton_append, txq.chain_for]
        congr 2
        omega
    · refine ⟨st, ?_, ?_⟩
      · simp [txq.post_loop, txq.taken, h]
      · simp [txq.taken, h]

/-- The calls of `txq::complete` give back the fragment count of each chain. -/
theorem run_calls_txq : ∀ (calls : List (packet_as_buffer_chain × Nat)) (e : Unit) (s : Nat),
    run_calls txq_complete calls e s = .ok (e, s + (calls.map (fun x => x.1.p.nr_frags)).sum) := by
  intro calls
  induction calls with
  | nil => intro e s; simp [run_calls]
  | cons a calls ih =>
    intro e s
    obtain ⟨bc, len⟩ := a
    have hcall : txq_complete.call e s bc len
        = .ok (e, s + bc.p.nr_frags, { p := packet.moved_from }) := rfl
    simp only [run_calls, hcall, List.map_cons, List.sum_cons]
    rw [ih, Nat.add_assoc]

theorem chain_for_buffers (q : txq) (p : packet) :
    (q.chain_for p).buffers.length = p.nr_frags + 1 ∧ (q.chain_for p).p.nr_frags = p.nr_frags + 1 := by
  simp [txq.chain_for, packet_as_buffer_chain.buffers, packet.prepend, packet.nr_frags]

/-- C4: on a transmit queue whose ring has no more credits than free
descriptors, `txq::post` returns; the credits it takes for a packet are the
fragment count of the header-prepended packet, which is the number of
buffers (descriptors) of its chain and the credits `txq::complete` gives
back for that chain; and once the host has returned the head of each
posted chain once, `do_complete` returns and the available-descriptor
count is what it was before the post. -/
theorem C4_tx_credits_round_trip (q : txq) (pb : List packet) (L0 : List Nat)
    (Cs : List (List Nat)) (hinv : q._ring.inv L0 Cs)
    (hcred : q._ring._available_descriptors ≤ L0.length)
    (hh : q._ring._avail._head < 65536) (ha : q._ring._avail._avail_added_since_kick < 65536)
    (htl : q._ring._used._tail < 65536) (U : used_layout) (hU : U._idx < 65536) (fuel : Nat) :
    ∃ k rest q1,
      q.post pb = .ok (k, rest, q1) ∧
      k = q1._packets.length % 4294967296 ∧
      q1._packets = (txq.taken q._ring._available_descriptors pb).map q.chain_for ∧
      q1._ring._available_descriptors + (q1._packets.map (fun bc => bc.p.nr_frags)).sum
        = q._ring._available_descriptors ∧
      (∀ bc ∈ q1._packets, bc.buffers.length = bc.p.nr_frags ∧
        ∀ (e : Unit) (s len : Nat),
          txq_complete.call e s bc len = .ok (e, s + bc.p.nr_frags, { p := packet.moved_from })) ∧
      (((vring.pending { q1._ring with _used._shared := U }).map used_elem._id).Perm
          ((split_by (q1._packets.map (fun bc => bc.buffers.length)) L0).map List.headI) →
       (vring.pending { q1._ring with _used._shared := U }).length < fuel →
       q._ring.size ≤ fuel →
       ∃ b r3,
         vring.do_complete txq_complete fuel { q1._ring with _used._shared := U } ()
           = .ok (b, r3, ()) ∧
         r3._available_descriptors = q._ring._available_descriptors) := by
  obtain ⟨st1, hloop, hq⟩ := post_loop_spec pb { q := { q with _packets := [] } }
  simp only [List.nil_append] at hloop hq
  generalize hT : txq.taken q._ring._available_descriptors pb = T at hloop hq
  have hsumle : (T.map (fun p => p.nr_frags + 1)).sum ≤ q._ring._available_descriptors := by
    rw [← hT]; exact taken_credits pb _
  have hpk : st1.q._packets = T.map q.chain_for := by rw [hq]; rfl
  have hrg : st1.q._ring = { q._ring with
      _available_descriptors := q._ring._available_descriptors
        - (T.map (fun p => p.nr_frags + 1)).sum } := by rw [hq]
  have hlens : st1.q._packets.map (fun bc => bc.buffers.length)
      = T.map (fun p => p.nr_frags + 1) := by
    rw [hpk, List.map_map]
    exact List.map_congr_left (fun p _ => (chain_for_buffers q p).1)
  have hfrags : st1.q._packets.map (fun bc => bc.p.nr_frags)
      = T.map (fun p => p.nr_frags + 1) := by
    rw [hpk, List.map_map]
    exact List.map_congr_left (fun p _ => (chain_for_buffers q p).2)
  have hinv0 : st1.q._ring.inv L0 Cs := by
    rw [hrg]; exact inv_congr hinv rfl rfl rfl rfl
  obtain ⟨r2, hpost, hcfg, hused, hcr, hF, hinv2⟩ :=
    post_spec_host packet_as_buffer_chain.buffers st1.q._packets st1.q._ring L0 Cs hinv0
      (by
        intro bc hbc h0
        rw [hpk] at hbc
        obtain ⟨p, _, rfl⟩ := List.mem_map.mp hbc
        have := (chain_for_buffers q p).1
        rw [h0] at this
        simp at this)
      (by rw [hlens]; omega)
      (by rw [hrg]; exact hh) (by rw [hrg]; exact ha)
  refine ⟨st1.q._packets.length % 4294967296, pb.drop T.length,
    { st1.q with _ring := r2, tx_frags := st1.q.tx_frags + st1.nr_frags,
                 tx_bytes := st1.q.tx_bytes + st1.bytes }, ?_, rfl, hpk, ?_, ?_, ?_⟩
  · unfold txq.post
    rw [hloop]
    simp only [hpost]
  · simp only [hcr, hrg, hfrags]
    omega
  · intro bc hbc
    simp only [hpk] at hbc
    obtain ⟨p, _, rfl⟩ := List.mem_map.mp hbc
    refine ⟨?_, fun e s len => rfl⟩
    rw [(chain_for_buffers q p).1, (chain_for_buffers q p).2]
  · intro hperm hn hfuel
    simp only at hperm hn ⊢
    have hinv3 : vring.inv ({ r2 with _used._shared := U } : vring packet_as_buffer_chain) _ _ :=
      inv_congr (hinv2 U r2._avail_event) rfl rfl rfl rfl
    have htl2 : r2._used._tail = q._ring._used._tail := by rw [hused, hrg]
    have hsz : r2._config = q._ring._config := by rw [hcfg, hrg]
    obtain ⟨h1, _⟩ := do_complete_drains txq_complete fuel
      ({ r2 with _used._shared := U } : vring packet_as_buffer_chain) () _ Cs _ hinv3
      (by simpa [htl2] using htl) hU hperm hn (by simpa [vring.size, hsz] using hfuel)
    rw [run_calls_txq] at h1
    cases hdo : vring.do_complete txq_complete fuel
        ({ r2 with _used._shared := U } : vring packet_as_buffer_chain) () with
    | error f => rw [hdo] at h1; cases h1
    | ok res =>
      obtain ⟨b, r3, e1⟩ := res
      rw [hdo] at h1
      simp only [Except.map, Except.ok.injEq, Prod.mk.injEq] at h1
      refine ⟨b, r3, rfl, ?_⟩
      rw [h1.2]
      -- the credits given back are those of the posted chains
      have hsum : ((calls_of ({ r2 with _used._shared := U } : vring packet_as_buffer_chain)
          (vring.pending ({ r2 with _used._shared := U } : vring packet_as_buffer_chain))).map
            (fun x => x.1.p.nr_frags)).sum
          = (st1.q._packets.map (fun bc => bc.p.nr_frags)).sum := by
        simp only [calls_of, List.map_map]
        have e1 : List.map ((fun x : packet_as_buffer_chain × Nat => x.1.p.nr_frags) ∘
              fun ue : used_elem => (r2._buffer_chains ue._id, ue._len))
            (vring.pending ({ r2 with _used._shared := U } : vring packet_as_buffer_chain))
            = List.map (fun id => (r2._buffer_chains id).p.nr_frags)
              (List.map used_elem._id
                (vring.pending ({ r2 with _used._shared := U } : vring packet_as_buffer_chain))) := by
          rw [List.map_map]; rfl
        rw [e1, (hperm.map _).sum_eq, List.map_map]
        congr 1
        have hF2 : List.Forall₂
            (fun (A : List Nat) (bc : packet_as_buffer_chain) =>
              (r2._buffer_chains A.headI).p.nr_frags = bc.p.nr_frags)
            (split_by (st1.q._packets.map (fun bc => bc.buffers.length)) L0) st1.q._packets :=
          hF.imp (fun A bc h => by rw [h.2])
        exact (forall2_map_eq hF2).symm
      rw [hsum, hcr, hrg, hfrags]
      simp only
      omega

theorem kick_added_le (r : vring BC) :
    r.kick._avail._avail_added_since_kick ≤ r._avail._avail_added_since_kick := by
  unfold vring.kick
  simp only
  split_ifs <;> simp

/-- The ring the constructor leaves: every descriptor free, none in flight. -/
theorem create_inv (conf : ring_config) (chains : Nat → BC) (descs : Nat → desc)
    (avail_mem : avail_layout) (used_mem : used_layout) (avail_event used_event : Nat)
    (h0 : 0 < conf.size) (h1 : conf.size ≤ 65536) :
    (vring.create conf chains descs avail_mem used_mem avail_event used_event).inv
      (List.range conf.size) [] := by
  unfold vring.create
  exact setup_inv _ h0 h1

theorem reachable_inv (buffers : BC → List buffer) (c : completion BC E) (size : Nat)
    (h0 : 0 < size) (h1 : size ≤ 65536) (r : vring BC) (e : E) (H : List Nat)
    (hr : reachable buffers c size r e H) : ∃ L Cs, reach_inv size r H L Cs := by
  induction hr with
  | create conf chains descs am um ae ue e hs hu =>
    refine ⟨List.range size, [], hs, ?_, by simp, ?_, by simp [vring.create, vring.setup],
      by simp [vring.create, vring.setup], by simp [vring.create, vring.setup], hu⟩
    · subst hs
      exact create_inv conf chains descs am um ae ue h0 h1
    · intro i hi
      simpa using hi
  | host r e H U ae _ hU ih =>
    obtain ⟨L, Cs, hI⟩ := ih
    exact ⟨L, Cs, hI.size_eq, inv_congr hI.inv rfl rfl rfl rfl, hI.heads, hI.cover,
      hI.head, hI.added, hI.tail, hU⟩
  | post r r1 e H chains L0 _ hne hfl htot hpost ih =>
    obtain ⟨L, Cs, hI⟩ := ih
    have hL : L0 = L := by
      have := free_list_of_free hI.inv.free
      rw [hfl] at this
      exact (Option.some.inj this)
    subst hL
    obtain ⟨r2, _, hpost2, hfr, hinv2, _, _, _, hhead, hadd⟩ :=
      post_spec buffers chains r L0 Cs hI.inv hne htot hI.head hI.added
    have hr1 : r1 = r2.publish.kick := by
      rw [hpost] at hpost2
      exact Except.ok.inj hpost2
    subst hr1
    obtain ⟨hk1, hk2, hk3, hk4, _, hk6, _, hk8, _, _⟩ := kick_frame r2.publish
    obtain ⟨hsplit, _⟩ := split_by_spec _ L0 htot
    refine ⟨_, _, ?_, inv_congr hinv2 (by rw [hk1]; rfl) (by rw [hk2]; rfl) (by rw [hk3]; rfl)
      (by rw [hk4]; rfl), ?_, ?_, ?_, ?_, ?_, ?_⟩
    · rw [hk1]
      show r2._config.size = size
      rw [hfr.config]; exact hI.size_eq
    · rw [List.map_append]
      exact List.Perm.append_right _ hI.heads
    · intro i hi
      have := hI.cover i hi
      rw [← hsplit] at this
      simp only [List.mem_append, List.flatten_append] at this ⊢
      tauto
    · rw [hk8]
      exact hhead ▸ Nat.mod_lt _ (by norm_num)
    · refine lt_of_le_of_lt (kick_added_le _) ?_
      exact hadd ▸ Nat.mod_lt _ (by norm_num)
    · rw [hk6]
      exact hfr.used ▸ hI.tail
    · rw [hk6]
      exact hfr.used ▸ hI.used_idx
  | complete r r1 e e1 H b fuel _ hnd hsub hn hfuel hdo ih =>
    obtain ⟨L, Cs, hI⟩ := ih
    have hsub2 : ∀ id ∈ r.pending.map used_elem._id, id ∈ Cs.map List.headI :=
      fun id hid => hI.heads.mem_iff.mpr (hsub id hid)
    obtain ⟨_, h2⟩ := do_complete_inflight c fuel r e L Cs hI.inv hI.tail hI.used_idx hnd hsub2
      hn hfuel
    obtain ⟨Ps, Cs1, hP, hF, hinv3, h3, h4, h5, h6, _, _⟩ := h2 b r1 e1 hdo
    have hPsheads : Ps.map List.headI = r.pending.map used_elem._id := forall2_map_eq hF
    have hheads2 : (Cs.map List.headI).Perm (r.pending.map used_elem._id ++ Cs1.map List.headI) := by
      have := hP.map List.headI
      rwa [List.map_append, hPsheads] at this
    have hnd2 : (r.pending.map used_elem._id ++ Cs1.map List.headI).Nodup :=
      hheads2.nodup_iff.mp (inv_heads_nodup hI.inv)
    have hdisj := (List.nodup_append.mp hnd2).2.2
    refine ⟨_, Cs1, by rw [h5]; exact hI.size_eq, hinv3, ?_, ?_, by rw [h6]; exact hI.head,
      by rw [h6]; exact hI.added, by rw [h3]; exact hI.used_idx, by rw [h4]; exact hI.used_idx⟩
    · have e1 := (hheads2.symm.trans hI.heads).filter
        (fun h => decide (h ∉ r.pending.map used_elem._id))
      rw [List.filter_append] at e1
      have e2 : List.filter (fun h => decide (h ∉ r.pending.map used_elem._id))
          (r.pending.map used_elem._id) = [] := by
        rw [List.filter_eq_nil_iff]
        intro a ha
        simpa using ha
      have e3 : List.filter (fun h => decide (h ∉ r.pending.map used_elem._id))
          (Cs1.map List.headI) = Cs1.map List.headI := by
        rw [List.filter_eq_self]
        intro a ha
        simp only [decide_eq_true_eq]
        exact fun h => hdisj h ha
      rwa [e2, e3, List.nil_append] at e1
    · intro i hi
      have := hI.cover i hi
      have hp := hP.flatten
      simp only [List.flatten_append] at hp
      simp only [List.mem_append] at this ⊢
      rcases this with h | h
      · exact Or.inl (Or.inl h)
      · rcases List.mem_append.mp (hp.mem_iff.mp h) with h | h
        · exact Or.inl (Or.inr h)
        · exact Or.inr h

theorem demo_post_ok : demo_ring.post id demo_chains = .ok demo_posted := rfl

theorem demo_poll_ok :
    vring.do_complete demo_completion 8 { demo_posted with _used._shared := demo_used } []
      = .ok demo_polled := rfl

theorem demo_inv : demo_ring.inv [0, 1, 2, 3] [] :=
  setup_inv _ (by decide) (by decide)

theorem demo_completion_total : ∀ (e : List (List buffer × Nat)) (s : Nat) (bc : List buffer)
    (len : Nat), ∃ x, demo_completion.call e s bc len = .ok x :=
  fun _ _ _ _ => ⟨_, rfl⟩

/-- Chains in flight that share a descriptor are the same chain. -/
theorem inv_chain_unique {r : vring BC} {L : List Nat} {Cs : List (List Nat)} (hinv : r.inv L Cs)
    {C1 C2 : List Nat} (h1 : C1 ∈ Cs) (h2 : C2 ∈ Cs) {i : Nat} (hi1 : i ∈ C1) (hi2 : i ∈ C2) :
    C1 = C2 := by
  by_contra hne
  have hnd := (List.nodup_append.mp hinv.nodup).2.1
  have hpw := (List.nodup_flatten.mp hnd).2
  have hsym : Symmetric (List.Disjoint : List Nat → List Nat → Prop) :=
    fun _ _ h => h.symm
  exact (hpw.forall hsym h1 h2 hne) hi1 hi2

/-- C2 (amended): in every state of a ring of at most 65536 descriptors
that is reachable from the constructor by `post` (of non-empty chains,
within the free-descriptor budget), `do_complete` (on used entries that name
heads of chains in flight, none twice) and writes of the host to the used
ring, the free list `L` is a list without repetition, every head in flight
starts a descriptor chain, and every descriptor index below the ring size is
either on the free list and in no chain in flight, or not on the free list
and in the chain of exactly one head in flight. -/
theorem C2_descriptor_partition (buffers : BC → List buffer) (c : completion BC E) (size : Nat)
    (r : vring BC) (e : E) (H : List Nat) (hr : reachable buffers c size r e H)
    (h1 : size ≤ 65536) :
    ∀ i, i < size →
      ∃ L, r.free_list = some L ∧ L.Nodup ∧ H.Nodup ∧
        (∀ h ∈ H, ∃ C, r.chain_of size h = some C) ∧
        ((i ∈ L ∧ ∀ h ∈ H, ∀ C, r.chain_of size h = some C → i ∉ C) ∨
         (i ∉ L ∧ ∃ h ∈ H, (∃ C, r.chain_of size h = some C ∧ i ∈ C) ∧
            ∀ h2 ∈ H, ∀ C2, r.chain_of size h2 = some C2 → i ∈ C2 → h2 = h)) := by
  intro i hi
  obtain ⟨L, Cs, hI⟩ := reachable_inv buffers c size (by omega) h1 r e H hr
  have hdisj := (List.nodup_append.mp hI.inv.nodup).2.2
  have hchain : ∀ h ∈ H, ∃ C, C ∈ Cs ∧ C.headI = h ∧ r.chain_of size h = some C := by
    intro h hh
    obtain ⟨C, hC, hCh⟩ := List.mem_map.mp (hI.heads.mem_iff.mpr hh)
    refine ⟨C, hC, hCh, ?_⟩
    rw [← hCh]
    refine chain_of_is_chain r C C.headI size (hI.inv.chains C hC) (hI.inv.bound C hC) ?_
    have := inv_chain_length hI.inv hC
    simpa [vring.size, hI.size_eq] using this
  have hsame : ∀ h ∈ H, ∀ C, r.chain_of size h = some C → C ∈ Cs ∧ C.headI = h := by
    intro h hh C hC
    obtain ⟨C1, h1, h2, h3⟩ := hchain h hh
    rw [h3] at hC
    cases hC
    exact ⟨h1, h2⟩
  refine ⟨L, free_list_of_free hI.inv.free, hI.inv.free.nodup,
    hI.heads.nodup_iff.mp (inv_heads_nodup hI.inv),
    fun h hh => (hchain h hh).imp (fun C hC => hC.2.2), ?_⟩
  rcases List.mem_append.mp (hI.cover i hi) with hL | hF
  · left
    refine ⟨hL, ?_⟩
    intro h hh C hC hiC
    exact hdisj hL (mem_flatten_of (hsame h hh C hC).1 hiC)
  · right
    obtain ⟨C0, hC0, hiC0⟩ := List.mem_flatten.mp hF
    refine ⟨fun hL => hdisj hL hF, C0.headI,
      hI.heads.mem_iff.mp (List.mem_map_of_mem _ hC0), ?_, ?_⟩
    · obtain ⟨C1, h1, h2, h3⟩ := hchain C0.headI (hI.heads.mem_iff.mp (List.mem_map_of_mem _ hC0))
      have : C1 = C0 :=
        List.inj_on_of_nodup_map (inv_heads_nodup hI.inv) h1 hC0 h2
      subst this
      exact ⟨C1, h3, hiC0⟩
    · intro h2 hh2 C2 hC2 hiC2
      obtain ⟨hm, hhd⟩ := hsame h2 hh2 C2 hC2
      have := inv_chain_unique hI.inv hm hC0 hiC2 hiC0
      rw [← hhd, this]

theorem big_ring_free_path : ∀ (fuel i : Nat), i < 65536 →
    big_ring.free_path fuel (i : Int) = none := by
  intro fuel
  induction fuel with
  | zero => intro i _; rfl
  | succ fuel ih =>
    intro i hi
    have hlast : big_ring._free_last = 131071 := by decide
    have hnext : (big_ring._descs i)._next = (i + 1) % 65536 := by
      have : i < 131072 := by omega
      simp [big_ring, vring.create, vring.setup, this]
    have hidx : big_ring.desc_index i := ⟨by show i < 131072; omega, hi⟩
    have hne : (i : Int) ≠ 131071 := by omega
    simp only [vring.free_path, Int.toNat_ofNat, Nat.cast_nonneg, true_and, hidx, if_true,
      hlast, hne, if_false, hnext]
    rw [ih _ (Nat.mod_lt _ (by norm_num))]
    rfl

/-- C1 (amended): in every state of a ring of 1 to 65536 descriptors that is
reachable from the constructor, the ring has a free list `L0`, and `post` of
`N` chains of `k >= 1` buffers each, with `N * k` no more than the length of
`L0`, returns and takes exactly the first `N * k` descriptors of `L0` off
the free list; and once the host has returned each chain head once in the
used ring, in any order, `do_complete` (with a completion functor that does
not fail) returns and leaves a free list that is a permutation of `L0`: the
same descriptors, each once, and the same length. -/
theorem C1_post_drain_cycle (c : completion BC E) (buffers : BC → List buffer) (size : Nat)
    (r : vring BC) (e0 : E) (H : List Nat) (hr : reachable buffers c size r e0 H)
    (h0 : 0 < size) (h1 : size ≤ 65536)
    (hc : ∀ e s bc len, ∃ x, c.call e s bc len = .ok x) :
    ∃ L0 Cs, r.free_list = some L0 ∧ r.inv L0 Cs ∧ r.size = size ∧
      ∀ (chains : List BC) (N k : Nat), 1 ≤ k → chains.length = N →
        (∀ bc ∈ chains, (buffers bc).length = k) → N * k ≤ L0.length →
        ∀ (U : used_layout), U._idx < 65536 → ∀ (fuel : Nat) (e : E),
        ∃ r1,
          r.post buffers chains = .ok r1 ∧
          r1.free_list = some (L0.drop (N * k)) ∧
          (L0.drop (N * k)).length + N * k = L0.length ∧
          (((vring.pending { r1 with _used._shared := U }).map used_elem._id).Perm
              ((split_by (chains.map (fun bc => (buffers bc).length)) L0).map List.headI) →
           (vring.pending { r1 with _used._shared := U }).length < fuel → r.size ≤ fuel →
           ∃ b r3 e1 L3,
             vring.do_complete c fuel { r1 with _used._shared := U } e = .ok (b, r3, e1) ∧
             r3.free_list = some L3 ∧ L3.Perm L0 ∧ L3.Nodup ∧ L3.length = L0.length ∧
             r3.inv L3 Cs) := by
  obtain ⟨L, Cs, hI⟩ := reachable_inv buffers c size h0 h1 r e0 H hr
  exact ⟨L, Cs, free_list_of_free hI.inv.free, hI.inv, hI.size_eq,
    fun chains N k hk hN hlen hbud U hU fuel e =>
      post_drain_cycle c buffers chains r L Cs N k hc hI.inv hk hN hlen hbud hI.head hI.added
        hI.tail U hU fuel e⟩

/-- C1 (counterexample): two runs of the cycle.  On the fresh ring of four
descriptors, `post` of one chain of `k = 0` buffers takes `1 * 0 = 0`
descriptors and publishes head 0; after the host has returned that head once
and `do_complete` has drained it, the free list is `[0]`: three of the four
descriptors that were free before the post are lost.  On the ring of 131072
descriptors the constructor builds, the semaphore holds 131072 credits but
there is no free list (`_free_head = 0`, `_free_last = 131071`, and the
16-bit `_next` of descriptor 65535 is 0); `post` of one chain of one buffer
and `do_complete` of its head leave `_free_head = 1` and `_free_last = 0`. -/
theorem C1_counterexample :
    demo_ring.free_list = some [0, 1, 2, 3] ∧
    demo_ring.post id [[]] = .ok demo_posted_empty ∧
    demo_posted_empty.free_list = some [0, 1, 2, 3] ∧
    demo_posted_empty._avail._shared._ring 0 = 0 ∧
    (vring.pending { demo_posted_empty with _used._shared := demo_used_empty }).map used_elem._id
      = [0] ∧
    vring.do_complete demo_completion 8
        { demo_posted_empty with _used._shared := demo_used_empty } []
      = .ok demo_polled_empty ∧
    demo_polled_empty.2.1.free_list = some [0] ∧
    big_ring.size = 131072 ∧ big_ring._available_descriptors = 131072 ∧
    big_ring._free_head = 0 ∧ big_ring._free_last = 131071 ∧
    big_ring.free_list = none ∧
    big_ring.post id [[demo_buffer]] = .ok big_posted ∧
    big_posted._avail._shared._ring 0 = 0 ∧
    (vring.pending { big_posted with _used._shared := demo_used_empty }).map used_elem._id
      = [0] ∧
    vring.do_complete demo_completion 8 { big_posted with _used._shared := demo_used_empty } []
      = .ok big_polled ∧
    big_polled.2.1._free_head = 1 ∧ big_polled.2.1._free_last = 0 ∧
    (big_polled.2.1._descs 131071)._next = 0 ∧ (big_polled.2.1._descs 65535)._next = 0 := by
  refine ⟨by decide, rfl, by decide, by decide, by decide, rfl, by decide, rfl, by decide,
    by decide, by decide, ?_, rfl, by decide, by decide, rfl, by decide, by decide, by decide,
    by decide⟩
  unfold vring.free_list
  have h1 : big_ring._free_head = 0 := by decide
  rw [h1, if_neg (by decide)]
  exact big_ring_free_path _ 0 (by norm_num)

/-- C1, instance: two chains of two buffers on the fresh ring of four
descriptors, returned by the host in the opposite order. -/
theorem C1_witness :
    ∃ b r3 e1 L3,
      vring.do_complete demo_completion 8 { demo_posted with _used._shared := demo_used } []
        = .ok (b, r3, e1) ∧
      r3.free_list = some L3 ∧ L3.Perm [0, 1, 2, 3] ∧ L3.Nodup ∧ L3.length = 4 := by
  obtain ⟨L0, Cs, hfl, _, _, h⟩ := C1_post_drain_cycle demo_completion id 4 demo_ring [] []
    (reachable.create { size := 4 } (fun _ => []) (fun _ => {}) {} {} 0 0 [] rfl (by decide))
    (by decide) (by decide) demo_completion_total
  have hL : L0 = [0, 1, 2, 3] := by
    have h4 : demo_ring.free_list = some [0, 1, 2, 3] := by decide
    rw [h4] at hfl
    exact (Option.some.inj hfl).symm
  subst hL
  obtain ⟨r1, hpost, _, _, h2⟩ := h demo_chains 2 2 (by decide) rfl (by decide) (by decide)
    demo_used (by decide) 8 []
  have hr : r1 = demo_posted := by
    have := hpost.symm.trans demo_post_ok
    simpa using this
  subst hr
  obtain ⟨b, r3, e1, L3, h3, h4, h5, h6, h7, _⟩ := h2 (by decide) (by decide) (by decide)
  exact ⟨b, r3, e1, L3, h3, h4, h5, h6, h7⟩

/-- C2, counterexample: the ring of 131072 descriptors the constructor
leaves is reachable with no chain in flight, and it has no free list:
`_next` is 16 bits wide, so the walk from `_free_head = 0` stays below 65536
and never comes to `_free_last = 131071`; descriptor 70000, for one, is on
no list. -/
theorem C2_counterexample :
    reachable id demo_completion 131072 big_ring [] [] ∧
    big_ring.size = 131072 ∧ big_ring._free_head = 0 ∧ big_ring._free_last = 131071 ∧
    (big_ring._descs 65535)._next = 0 ∧
    big_ring.free_list = none := by
  refine ⟨?_, rfl, by decide, by decide, by decide, ?_⟩
  · exact reachable.create { size := 131072 } (fun _ => []) (fun _ => {}) {} {} 0 0 [] rfl
      (by decide)
  · unfold vring.free_list
    have h1 : big_ring._free_head = 0 := by decide
    rw [h1, if_neg (by decide)]
    exact big_ring_free_path _ 0 (by norm_num)

theorem demo_post_wrap_ok : demo_ring_wrap.post id demo_chains = .ok demo_posted_wrap := rfl

theorem demo_wrap_inv : demo_ring_wrap.inv [0, 1, 2, 3] [] :=
  inv_congr demo_inv rfl rfl rfl rfl

/-- C2, instance: descriptor 1 of the ring of four descriptors after `post`
of `demo_chains`. -/
theorem C2_witness :
    ∃ L, demo_posted.free_list = some L ∧ L.Nodup ∧
      ([] ++ (split_by (demo_chains.map (fun (bc : List buffer) => (id bc).length)) [0, 1, 2, 3]).map
        List.headI).Nodup ∧
      (∀ h ∈ [] ++ (split_by (demo_chains.map (fun (bc : List buffer) => (id bc).length)) [0, 1, 2, 3]).map
          List.headI, ∃ C, demo_posted.chain_of 4 h = some C) ∧
      ((1 ∈ L ∧ ∀ h ∈ [] ++ (split_by (demo_chains.map (fun (bc : List buffer) => (id bc).length))
            [0, 1, 2, 3]).map List.headI,
          ∀ C, demo_posted.chain_of 4 h = some C → 1 ∉ C) ∨
       (1 ∉ L ∧ ∃ h ∈ [] ++ (split_by (demo_chains.map (fun (bc : List buffer) => (id bc).length))
            [0, 1, 2, 3]).map List.headI,
          (∃ C, demo_posted.chain_of 4 h = some C ∧ 1 ∈ C) ∧
          ∀ h2 ∈ [] ++ (split_by (demo_chains.map (fun (bc : List buffer) => (id bc).length))
              [0, 1, 2, 3]).map List.headI,
            ∀ C2, demo_posted.chain_of 4 h2 = some C2 → 1 ∈ C2 → h2 = h)) :=
  C2_descriptor_partition id demo_completion 4 demo_posted [] _
    (reachable.post demo_ring demo_posted [] [] demo_chains [0, 1, 2, 3]
      (reachable.create { size := 4 } (fun _ => []) (fun _ => {}) {} {} 0 0 [] rfl (by decide))
      (by decide) (by decide) (by decide) demo_post_ok)
    (by decide) 1 (by decide)

/-- C3 (counterexample): after `post` of the two demo chains, which stores
the first under the head 0, a used ring in which the host reports the head 0
twice makes `do_complete` call the completion twice with the chain stored
under 0: the first call gets the chain `post` stored, the second the empty
chain the first call has left behind. -/
theorem C3_counterexample :
    demo_ring.post id demo_chains = .ok demo_posted ∧
    demo_posted._buffer_chains 0 = [demo_buffer, demo_buffer_w] ∧
    demo_posted._avail._shared._ring 0 = 0 ∧
    (vring.pending { demo_posted with _used._shared := demo_used_twice }).map used_elem._id
      = [0, 0] ∧
    vring.do_complete demo_completion 8 { demo_posted with _used._shared := demo_used_twice } []
      = .ok demo_polled_twice ∧
    demo_polled_twice.2.2 = [([demo_buffer, demo_buffer_w], 9), ([], 9)] := by
  refine ⟨rfl, by decide, by decide, by decide, rfl, by decide⟩

/-- C3, instance: the two chains of `demo_chains`, returned by the host in
the opposite order. -/
theorem C3_witness :
    (vring.do_complete demo_completion 8 { demo_posted with _used._shared := demo_used } []).map
        (fun x => (x.2.2, x.2.1._available_descriptors))
      = .ok ([([demo_buffer_w, demo_buffer], 7), ([demo_buffer, demo_buffer_w], 9)], 8) := by
  obtain ⟨r1, hpost, _, h⟩ := C3_completions_in_used_ring_order demo_completion id demo_chains
    demo_ring [0, 1, 2, 3] [] demo_inv (by decide) (by decide) (by decide) (by decide)
    (by decide) demo_used (by decide) 8 []
  have hr : r1 = demo_posted := by
    have := hpost.symm.trans demo_post_ok
    simpa using this
  subst hr
  rw [(h (by decide) (by decide) (by decide) (by decide)).1]
  rfl

/-- C5, instance: the two chains of `demo_chains` posted with the available
head at 65535 and completed with the used tail at 65535. -/
theorem C5_witness :
    demo_posted_wrap._avail._shared._ring 3 = 0 ∧
    demo_posted_wrap._avail._shared._ring 0 = 2 ∧
    demo_posted_wrap._avail._shared._idx = 1 ∧
    (vring.do_complete demo_completion 8
        { demo_posted_wrap with _used._shared := demo_used_wrap } []).map
        (fun x => (x.2.2, x.2.1._available_descriptors))
      = .ok ([([demo_buffer, demo_buffer_w], 9), ([demo_buffer_w, demo_buffer], 7)], 8) := by
  obtain ⟨r1, hpost, h1, h2, _, h⟩ := C5_index_wraparound demo_completion id demo_chains
    demo_ring_wrap [0, 1, 2, 3] [] 2 demo_wrap_inv (by decide) (by decide) (by decide)
    (by decide) (by decide) (by decide) (by decide) demo_used_wrap (by decide) 8 []
  have hr : r1 = demo_posted_wrap := by
    have := hpost.symm.trans demo_post_wrap_ok
    simpa using this
  subst hr
  refine ⟨by decide, by decide, h2, ?_⟩
  rw [(h (by decide) (by decide) (by decide) (by decide)).2]
  rfl

/-- C6, instance: `post` on the fresh ring, whose used-ring flags are 0. -/
theorem C6_witness : demo_posted.notified = demo_ring.notified + 1 :=
  (C6_post_kick_without_event_index id demo_chains demo_ring demo_posted rfl demo_post_ok).2
    (by decide)

/-- C7, instance: published index 5, avail-event 3, three chains added. -/
theorem C7_witness : demo_ring_ev.kick.notified = demo_ring_ev.notified + 1 :=
  (C7_kick_with_event_index demo_ring_ev rfl
    ⟨by decide, by decide, by decide, by decide, by decide, by decide⟩).1.mpr
    (Or.inl (by decide))

/-- C8, instance: the two chains of `demo_chains` on the fresh ring. -/
theorem C8_witness :
    ∃ r2 heads,
      demo_ring.post id demo_chains = .ok r2 ∧
      r2._avail._shared._ring
        = write_ring demo_ring._avail._shared._ring demo_ring.mask demo_ring._avail._head heads ∧
      List.Forall₂ (fun bc head =>
        ∃ C, r2.chain_of (id bc).length head = some C ∧
          C.length = (id bc).length ∧
          C.map (fun i => (r2._descs i).to_buffer) = id bc ∧
          (∀ i ∈ C.dropLast, (r2._descs i)._flags.has_next = true) ∧
          (∀ l, C.getLast? = some l → (r2._descs l)._flags.has_next = false) ∧
          (∀ i ∈ C, (r2._descs i)._flags.indirect = false)) demo_chains heads :=
  C8_post_builds_descriptor_chains id demo_chains demo_ring [0, 1, 2, 3] demo_inv.free
    (by decide) (by decide) (by decide) (by decide)

/-- C10, instance: the poll that finds two entries pending. -/
theorem C10_witness : demo_polled.1 = true :=
  (C10_do_complete_result demo_completion 8 { demo_posted with _used._shared := demo_used }
    demo_polled.2.1 [] demo_polled.2.2 demo_polled.1 (by decide) (by decide)
    demo_poll_ok).1.mpr (by decide)

theorem demo_txq_post_ok : demo_txq.post demo_packets = .ok demo_txq_posted := rfl

/-- C4, instance: a fresh ring of 256 descriptors and ten packets posted:
after the ten completions the available-descriptor count is 256 again. -/
theorem C4_witness :
    demo_txq._ring._available_descriptors = 256 ∧
    demo_txq_posted.1 = 10 ∧
    demo_txq_posted.2.2._ring._available_descriptors = 236 ∧
    ∃ b r3,
      vring.do_complete txq_complete 300
          { demo_txq_posted.2.2._ring with _used._shared := demo_tx_used } ()
        = .ok (b, r3, ()) ∧
      r3._available_descriptors = 256 := by
  obtain ⟨k, rest, q1, hpost, _, _, _, _, h⟩ := C4_tx_credits_round_trip demo_txq demo_packets
    (List.range 256) [] (create_inv _ _ _ _ _ _ _ (by norm_num) (by norm_num))
    (by simp [demo_txq, txq.create, vring.create, vring.setup])
    (by decide) (by decide) (by decide) demo_tx_used (by decide) 300
  have hq : q1 = demo_txq_posted.2.2 := by
    have := hpost.symm.trans demo_txq_post_ok
    simp only [Except.ok.injEq] at this
    rw [← this]
  subst hq
  exact ⟨by decide, by decide, by decide, h (by decide) (by decide) (by decide)⟩

/-! ## Running out of descriptors -/

theorem post_buffer_assert (st : post_state BC) (b : buffer) (h : st.ring.free []) :
    vring.post_buffer st b = .error .assertion := by
  have hh : st.ring._free_head = -1 := (free_nil_iff h).2 rfl
  simp [vring.post_buffer, vring.allocate_desc, hh]

theorem post_buffers_append : ∀ (b1 b2 : List buffer) (st : post_state BC),
    vring.post_buffers (b1 ++ b2) st
      = match vring.post_buffers b1 st with
        | .error f => .error f
        | .ok st1 => vring.post_buffers b2 st1 := by
  intro b1
  induction b1 with
  | nil => intro b2 st; simp [vring.post_buffers]
  | cons b bs ih =>
    intro b2 st
    simp only [List.cons_append, vring.post_buffers]
    cases h : vring.post_buffer st b with
    | error f => simp
    | ok st1 => simp only []; exact ih b2 st1

/-- The inner loop of `post` over more buffers than the free list has
descriptors stops at the `assert` of `allocate_desc`. -/
theorem post_buffers_short (bufs : List buffer) (st : post_state BC) (L : List Nat)
    (hfree : st.ring.free L) (hp : ∀ p, st.prev = some p → p ∉ L)
    (hlen : L.length < bufs.length) :
    vring.post_buffers bufs st = .error .assertion := by
  have hsplit : bufs = bufs.take L.length ++ bufs.drop L.length := (List.take_append_drop _ _).symm
  have hl1 : L.length = (bufs.take L.length).length := by
    rw [List.length_take]; omega
  obtain ⟨fh, fl, hok, hfree1⟩ :=
    post_buffers_free (bufs.take L.length) L st [] hl1 (by simpa using hfree)
      (by simpa using hp)
  rw [hsplit, post_buffers_append, hok]
  simp only []
  cases hd : bufs.drop L.length with
  | nil =>
    have := congrArg List.length hd
    simp at this; omega
  | cons b bs =>
    simp only [vring.post_buffers]
    rw [post_buffer_assert _ b (by simpa using hfree1)]


/-- One round of the outer loop of `post`, for a chain (empty or not) that
needs no more descriptors than the free list `L` has: the chain takes the
first descriptors of `L`. -/
theorem post_chain_budget (buffers : BC → List buffer) (r : vring BC) (bc : BC) (L : List Nat)
    (hfree : r.free L) (hsize : 0 < r.size) (hlen : (buffers bc).length ≤ L.length) :
    ∃ r1, vring.post_chain buffers r bc = .ok r1 ∧ r1.free (L.drop (buffers bc).length) ∧
      r1._config = r._config := by
  by_cases hb : buffers bc = []
  · obtain ⟨r1, h1, hc, hh, hl, hD⟩ : ∃ r1, vring.post_chain buffers r bc = .ok r1 ∧
        r1._config = r._config ∧ r1._free_head = r._free_head ∧
        r1._free_last = r._free_last ∧ r1._descs = r._descs := by
      simp only [vring.post_chain, hb, vring.post_buffers]
      rw [if_pos (by simpa using hsize)]
      exact ⟨_, rfl, rfl, rfl, rfl, rfl⟩
    refine ⟨r1, h1, ?_, hc⟩
    rw [hb]
    exact free_congr hfree hc hh hl (fun _ _ => by rw [hD])
  · have hsplit : L = L.take (buffers bc).length ++ L.drop (buffers bc).length :=
      (List.take_append_drop _ _).symm
    have hl : (L.take (buffers bc).length).length = (buffers bc).length := by
      rw [List.length_take]; omega
    have hne : L.take (buffers bc).length ≠ [] := by
      intro h; rw [h] at hl
      exact hb (List.length_eq_zero.1 hl.symm)
    have hfree1 : r.free (L.take (buffers bc).length ++ L.drop (buffers bc).length) := by
      rw [← hsplit]; exact hfree
    obtain ⟨fh, fl, hok, hf⟩ :=
      post_chain_free buffers r bc (L.take (buffers bc).length) (L.drop (buffers bc).length)
        hne hl hfree1
    exact ⟨_, hok, free_congr hf rfl rfl rfl (fun _ _ => rfl), rfl⟩

/-- The outer loop of `post` on a ring with free list `L`: it runs through
when the chains need no more buffers than `L` has descriptors, taking the
first descriptors of `L`, and stops at the `assert` of `allocate_desc` when
they need more. -/
theorem post_chains_budget (buffers : BC → List buffer) :
    ∀ (chains : List BC) (r : vring BC) (L : List Nat), r.free L → 0 < r.size →
    ((chains.map (fun bc => (buffers bc).length)).sum ≤ L.length →
      ∃ r1, vring.post_chains buffers chains r = .ok r1 ∧
        r1.free (L.drop (chains.map (fun bc => (buffers bc).length)).sum) ∧
        r1._config = r._config) ∧
    (L.length < (chains.map (fun bc => (buffers bc).length)).sum →
      vring.post_chains buffers chains r = .error .assertion) := by
  intro chains
  induction chains with
  | nil =>
    intro r L hfree _
    exact ⟨fun _ => ⟨r, rfl, by simpa using hfree, rfl⟩, fun h => by simp at h⟩
  | cons bc rest ih =>
    intro r L hfree hsize
    simp only [List.map_cons, List.sum_cons, vring.post_chains]
    by_cases hk : (buffers bc).length ≤ L.length
    · obtain ⟨r1, hok, hf1, hc1⟩ := post_chain_budget buffers r bc L hfree hsize hk
      have hs1 : 0 < r1.size := by simpa [vring.size, hc1] using hsize
      obtain ⟨ihok, iherr⟩ := ih r1 (L.drop (buffers bc).length) hf1 hs1
      rw [hok]
      simp only []
      constructor
      · intro htot
        obtain ⟨r2, h2, hf2, hc2⟩ := ihok (by rw [List.length_drop]; omega)
        refine ⟨r2, h2, ?_, hc2.trans hc1⟩
        rw [List.drop_drop] at hf2
        exact hf2
      · intro htot
        exact iherr (by rw [List.length_drop]; omega)
    · constructor
      · intro htot; omega
      · intro _
        have : vring.post_chain buffers r bc = .error .assertion := by
          simp only [vring.post_chain]
          rw [post_buffers_short (buffers bc) { ring := r } L hfree (by simp) (by omega)]
        rw [this]

/-- C11: on a ring of at least one descriptor with free list `L0`, `post`
fails at an `assert` (the one of `allocate_desc`, the only one it can reach)
if and only if the chains posted hold more buffers than `L0` has
descriptors.  When they hold no more, `post` returns, the descriptors it
allocated are the first ones of `L0`, each an index below the ring size, and
the rest of `L0` is the free list afterwards; and an allocation on a ring
whose free list is not empty returns the head of the list, an index below
the ring size. -/
theorem C11_post_asserts_iff_over_budget (buffers : BC → List buffer) (chains : List BC)
    (r : vring BC) (L0 : List Nat) (hfree : r.free L0) (hsize : 0 < r.size) :
    (r.post buffers chains = .error .assertion ↔
      L0.length < (chains.map (fun bc => (buffers bc).length)).sum) ∧
    ((chains.map (fun bc => (buffers bc).length)).sum ≤ L0.length →
      ∃ r2, r.post buffers chains = .ok r2 ∧
        r2.free (L0.drop (chains.map (fun bc => (buffers bc).length)).sum) ∧
        ∀ i ∈ L0.take (chains.map (fun bc => (buffers bc).length)).sum, i < r.size) ∧
    (∀ a L, r.free (a :: L) →
      ∃ r1, r.allocate_desc = .ok (a, r1) ∧ a < r.size ∧ r1.free L) := by
  obtain ⟨hok, herr⟩ := post_chains_budget buffers chains r L0 hfree hsize
  have hpost : (chains.map (fun bc => (buffers bc).length)).sum ≤ L0.length →
      ∃ r2, r.post buffers chains = .ok r2 ∧
        r2.free (L0.drop (chains.map (fun bc => (buffers bc).length)).sum) := by
    intro htot
    obtain ⟨r1, h1, hf1, _⟩ := hok htot
    refine ⟨r1.publish.kick, ?_, ?_⟩
    · simp only [vring.post, h1]
    · obtain ⟨kc, kd, kh, kl, _⟩ := kick_frame r1.publish
      exact free_congr hf1 kc kh kl (fun _ _ => by rw [kd]; rfl)
  refine ⟨⟨?_, ?_⟩, ?_, ?_⟩
  · intro hfail
    by_contra hle
    obtain ⟨r2, h2, _⟩ := hpost (Nat.le_of_not_lt hle)
    rw [h2] at hfail
    cases hfail
  · intro hlt
    simp only [vring.post, herr hlt]
  · intro htot
    obtain ⟨r2, h2, hf2⟩ := hpost htot
    exact ⟨r2, h2, hf2, fun i hi => (hfree.bound i (List.mem_of_mem_take hi)).1⟩
  · intro a L hf
    obtain ⟨fh, fl, hal, hfl⟩ := allocate_desc_free hf
    exact ⟨_, hal, (hf.bound a (List.mem_cons_self a L)).1, hfl⟩

/-- C11, instance: the fresh ring of four descriptors, one chain of five
buffers. -/
theorem C11_witness :
    demo_ring.post id [List.replicate 5 demo_buffer] = .error .assertion :=
  (C11_post_asserts_iff_over_budget id [List.replicate 5 demo_buffer] demo_ring [0, 1, 2, 3]
    demo_inv.free (by decide)).1.2 (by decide)

/-! ## The prefix of the input queue that `txq::post` takes -/

theorem taken_is_take : ∀ (pb : List packet) (s : Nat),
    txq.taken s pb = pb.take (txq.taken s pb).length := by
  intro pb
  induction pb with
  | nil => intro s; simp [txq.taken]
  | cons p pb ih =>
    intro s
    simp only [txq.taken]
    split_ifs with h
    · simp only [List.length_cons, List.take_succ_cons]
      rw [← ih]
    · simp

theorem taken_length_le (pb : List packet) (s : Nat) : (txq.taken s pb).length ≤ pb.length := by
  have h := congrArg List.length (taken_is_take pb s)
  rw [List.length_take] at h
  omega

/-- Every packet taken fits into the credits left by the packets before it. -/
theorem taken_fits : ∀ (pb : List packet) (s i : Nat), i < (txq.taken s pb).length →
    ((pb.take (i + 1)).map (fun p => p.nr_frags + 1)).sum ≤ s := by
  intro pb
  induction pb with
  | nil => intro s i hi; simp [txq.taken] at hi
  | cons p pb ih =>
    intro s i hi
    simp only [txq.taken] at hi
    split_ifs at hi with h
    · simp only [List.take_succ_cons, List.map_cons, List.sum_cons]
      cases i with
      | zero => simp; omega
      | succ i =>
        have := ih (s - (p.nr_frags + 1)) i (by simpa using hi)
        omega
    · simp at hi

/-- The first packet not taken does not fit into the credits left. -/
theorem taken_stops : ∀ (pb : List packet) (s : Nat), (txq.taken s pb).length < pb.length →
    s < ((pb.take ((txq.taken s pb).length + 1)).map (fun p => p.nr_frags + 1)).sum := by
  intro pb
  induction pb with
  | nil => intro s h; simp at h
  | cons p pb ih =>
    intro s hlt
    simp only [txq.taken] at hlt ⊢
    split_ifs at hlt ⊢ with h
    · simp only [List.length_cons, List.take_succ_cons, List.map_cons, List.sum_cons]
      have := ih (s - (p.nr_frags + 1)) (by simpa using hlt)
      omega
    · simp only [List.length_nil, Nat.zero_add, List.take_succ_cons, List.take_zero,
        List.map_cons, List.map_nil, List.sum_cons, List.sum_nil]
      omega


theorem length_le_frags (T : List packet) :
    T.length ≤ (T.map (fun p => p.nr_frags + 1)).sum := by
  induction T with
  | nil => simp
  | cons p T ih => simp only [List.length_cons, List.map_cons, List.sum_cons]; omega

/-- C12: on a transmit queue whose ring has no more credits than free
descriptors, `txq::post` returns, and the count `k` it returns is the
length of a prefix of the input queue `pb`: every packet `i < k` fits (its
fragment count plus one, added to what the packets before it took, is
within the credits), packet `k`, if there is one, does not fit, what is left
of the input queue is `pb` from position `k` on, and the ring has received
the chains of the packets `0 .. k-1` and no other, in this order: the
published index has advanced by `k`, the `k` slots from the old head hold
the heads of the chains, and under the `i`-th head the chain of the `i`-th
packet is stored, its descriptors showing the buffers of that chain. -/
theorem C12_txq_post_takes_front (q : txq) (pb : List packet) (L0 : List Nat)
    (Cs : List (List Nat)) (hinv : q._ring.inv L0 Cs)
    (hcred : q._ring._available_descriptors ≤ L0.length)
    (hh : q._ring._avail._head < 65536) (ha : q._ring._avail._avail_added_since_kick < 65536) :
    ∃ k rest q1,
      q.post pb = .ok (k, rest, q1) ∧
      k ≤ pb.length ∧ rest = pb.drop k ∧
      (∀ i, i < k →
        ((pb.take (i + 1)).map (fun p => p.nr_frags + 1)).sum ≤ q._ring._available_descriptors) ∧
      (k < pb.length →
        q._ring._available_descriptors < ((pb.take (k + 1)).map (fun p => p.nr_frags + 1)).sum) ∧
      q1._packets = (pb.take k).map q.chain_for ∧
      q1._ring._avail._shared._idx = (q._ring._avail._head + k) % 65536 ∧
      q1._ring._avail._shared._ring
        = write_ring q._ring._avail._shared._ring q._ring.mask q._ring._avail._head
            ((split_by ((pb.take k).map (fun p => p.nr_frags + 1)) L0).map List.headI) ∧
      List.Forall₂ (fun A p =>
          q1._ring._buffer_chains A.headI = q.chain_for p ∧
          A.map (fun a => (q1._ring._descs a).to_buffer) = (q.chain_for p).buffers)
        (split_by ((pb.take k).map (fun p => p.nr_frags + 1)) L0) (pb.take k) := by
  obtain ⟨st1, hloop, hq⟩ := post_loop_spec pb { q := { q with _packets := [] } }
  simp only [List.nil_append] at hloop hq
  have hpre := taken_is_take pb q._ring._available_descriptors
  have hfits := taken_fits pb q._ring._available_descriptors
  have hstops := taken_stops pb q._ring._available_descriptors
  have hkle := taken_length_le pb q._ring._available_descriptors
  have hsumle := taken_credits pb q._ring._available_descriptors
  generalize hT : txq.taken q._ring._available_descriptors pb = T
    at hloop hq hpre hfits hstops hkle hsumle
  have hpk : st1.q._packets = T.map q.chain_for := by rw [hq]; rfl
  have hrg : st1.q._ring = { q._ring with
      _available_descriptors := q._ring._available_descriptors
        - (T.map (fun p => p.nr_frags + 1)).sum } := by rw [hq]
  have hlens : st1.q._packets.map (fun bc => bc.buffers.length)
      = T.map (fun p => p.nr_frags + 1) := by
    rw [hpk, List.map_map]
    exact List.map_congr_left (fun p _ => (chain_for_buffers q p).1)
  have hinv0 : st1.q._ring.inv L0 Cs := by
    rw [hrg]; exact inv_congr hinv rfl rfl rfl rfl
  obtain ⟨r1, _, hpost, _, _, hF, _, hring, hhead, _⟩ :=
    post_spec packet_as_buffer_chain.buffers st1.q._packets st1.q._ring L0 Cs hinv0
      (by
        intro bc hbc h0
        rw [hpk] at hbc
        obtain ⟨p, _, rfl⟩ := List.mem_map.mp hbc
        have := (chain_for_buffers q p).1
        rw [h0] at this
        simp at this)
      (by rw [hlens]; omega)
      (by rw [hrg]; exact hh) (by rw [hrg]; exact ha)
  obtain ⟨_, kd, _, _, kb, _, ks, kh, _⟩ := kick_frame r1.publish
  have hkT : T.length ≤ 65536 := by
    have h1 := length_le_frags T
    have h2 : L0.length ≤ q._ring.size :=
      length_le_of_nodup_lt hinv.free.nodup (fun x hx => (hinv.free.bound x hx).1)
    have h3 : L0.length ≤ 65536 :=
      length_le_of_nodup_lt hinv.free.nodup (fun x hx => (hinv.free.bound x hx).2)
    omega
  refine ⟨T.length, pb.drop T.length,
    { st1.q with _ring := r1.publish.kick, tx_frags := st1.q.tx_frags + st1.nr_frags,
                 tx_bytes := st1.q.tx_bytes + st1.bytes }, ?_, hkle, rfl, hfits, hstops, ?_, ?_, ?_, ?_⟩
  · unfold txq.post
    rw [hloop]
    simp only [hpost]
    rw [hpk, List.length_map, Nat.mod_eq_of_lt (by omega)]
  · rw [← hpre]; exact hpk
  · simp only [ks]
    simp only [vring.publish, hhead, hpk, List.length_map, hrg]
  · simp only [ks]
    simp only [vring.publish, hring, hlens, ← hpre, hrg]
    rfl
  · rw [← hpre]
    simp only [kb, kd]
    rw [hlens, hpk, List.forall₂_map_right_iff] at hF
    exact hF.imp (fun A p h => ⟨h.2.1, h.2.2.1⟩)


theorem demo_txq_small_post_ok :
    demo_txq_small.post [demo_packet_1, demo_packet_2, demo_packet_1]
      = .ok demo_txq_small_posted := rfl

/-- C12, instance: four credits, packets of one, two and one fragment: the
first is taken (two credits), the second does not fit into the two credits
left, and the third, which would fit, is not taken. -/
theorem C12_witness :
    demo_txq_small_posted.1 = 1 ∧
    demo_txq_small_posted.2.1 = [demo_packet_2, demo_packet_1] := by
  obtain ⟨k, rest, q1, hpost, _, hrest, hfit, hstop, _⟩ :=
    C12_txq_post_takes_front demo_txq_small [demo_packet_1, demo_packet_2, demo_packet_1]
      (List.range 4) [] (create_inv _ _ _ _ _ _ _ (by decide) (by decide)) (by decide)
      (by decide) (by decide)
  have e : (k, rest, q1) = demo_txq_small_posted :=
    Except.ok.inj (hpost.symm.trans demo_txq_small_post_ok)
  have h2 : ¬ 1 < k := fun h => absurd (hfit 1 h) (by decide)
  have h1 : k ≠ 0 := by
    intro h0
    subst h0
    exact absurd (hstop (by decide)) (by decide)
  have hk : k = 1 := by omega
  subst hk
  rw [← e]
  exact ⟨rfl, hrest⟩

/-- C13: the loop of `txq::post` never stops at the `assert` on the future
of `wait`: it returns for every input queue and every state of the queue;
for a packet that passes the loop condition (fragment count plus one within
the credits) the credits requested, the fragment count of the packet with the
header in front, are no more than the fragment count plus one and no more
than the credits there are, and the loop goes on with exactly that many
credits fewer; so the credits left and the credits of the chains added to
`_packets` add up to the credits there were. -/
theorem C13_reservation_never_blocks (pb : List packet) (st : txq.post_locals) :
    (∃ rest st1, txq.post_loop pb st = .ok (rest, st1) ∧
      st1.q._ring._available_descriptors
        + ((st1.q._packets.drop st.q._packets.length).map (fun bc => bc.p.nr_frags)).sum
        = st.q._ring._available_descriptors) ∧
    (∀ p : packet, p.nr_frags + 1 ≤ st.q._ring._available_descriptors →
      (st.q.chain_for p).p.nr_frags ≤ p.nr_frags + 1 ∧
      (st.q.chain_for p).p.nr_frags ≤ st.q._ring._available_descriptors ∧
      txq.post_loop (p :: pb) st
        = txq.post_loop pb
            { q := { st.q with
                     _ring := { st.q._ring with
                                _available_descriptors :=
                                  st.q._ring._available_descriptors - (st.q.chain_for p).p.nr_frags }
                     _packets := st.q._packets ++ [st.q.chain_for p] }
              bytes := (st.bytes + p.len) % 18446744073709551616
              nr_frags := (st.nr_frags + p.nr_frags) % 18446744073709551616 }) := by
  constructor
  · obtain ⟨st1, hloop, hq⟩ := post_loop_spec pb st
    refine ⟨_, st1, hloop, ?_⟩
    have hsum := taken_credits pb st.q._ring._available_descriptors
    rw [hq]
    simp only [List.drop_left, List.map_map]
    have hf : (List.map ((fun bc : packet_as_buffer_chain => bc.p.nr_frags) ∘ st.q.chain_for)
        (txq.taken st.q._ring._available_descriptors pb))
        = (txq.taken st.q._ring._available_descriptors pb).map (fun p => p.nr_frags + 1) :=
      List.map_congr_left (fun p _ => (chain_for_buffers st.q p).2)
    rw [hf]
    omega
  · intro p hp
    have h1 := (chain_for_buffers st.q p).2
    refine ⟨by omega, by omega, ?_⟩
    have h2 : (packet.prepend
        { base := st.q.vhdr_addr, size := st.q._header_len,
          hdr := some (txq.make_vhdr st.q.hw p) } p).nr_frags
        ≤ st.q._ring._available_descriptors := by
      have : (st.q.chain_for p).p.nr_frags ≤ st.q._ring._available_descriptors := by omega
      exact this
    simp only [txq.post_loop]
    rw [if_pos hp, if_pos h2]
    rfl

/-! ## The virtio-net header of a transmitted packet -/


/-- The header of a TCP packet when checksum offload is on. -/
theorem make_vhdr_tcp (hw : hw_features) (p : packet) (hcsum : hw.tx_csum_l4_offload = true)
    (htcp : p.offload.protocol = .tcp) :
    txq.make_vhdr hw p =
      { needs_csum := if p.offload.needs_csum then 1 else 0
        csum_start := if p.offload.needs_csum then (14 + p.offload.ip_hdr_len) % 65536 else 0
        csum_offset := if p.offload.needs_csum then 16 else 0
        gso_type := if p.offload.tso_seg_size ≠ 0 then net_hdr.gso_tcpv4 else 0
        hdr_len := if p.offload.tso_seg_size ≠ 0
          then (14 + p.offload.ip_hdr_len + p.offload.tcp_hdr_len) % 65536 else 0
        gso_size := if p.offload.tso_seg_size ≠ 0 then p.offload.tso_seg_size % 65536 else 0 } := by
  simp only [txq.make_vhdr, hcsum, htcp, if_true, eth_hdr_len]
  by_cases h1 : p.offload.needs_csum = true <;> by_cases h2 : p.offload.tso_seg_size = 0 <;>
    simp [h1, h2]

/-- The header of a UDP packet when checksum offload is on. -/
theorem make_vhdr_udp (hw : hw_features) (p : packet) (hcsum : hw.tx_csum_l4_offload = true)
    (hudp : p.offload.protocol = .udp) :
    txq.make_vhdr hw p =
      { needs_csum := if p.offload.needs_csum then 1 else 0
        csum_start := if p.offload.needs_csum then (14 + p.offload.ip_hdr_len) % 65536 else 0
        csum_offset := if p.offload.needs_csum then 6 else 0
        gso_type := if hw.tx_ufo = true ∧ p.len > hw.mtu + 14 then net_hdr.gso_udp else 0
        hdr_len := if hw.tx_ufo = true ∧ p.len > hw.mtu + 14
          then (14 + p.offload.ip_hdr_len + p.offload.udp_hdr_len) % 65536 else 0
        gso_size := if hw.tx_ufo = true ∧ p.len > hw.mtu + 14
          then u16 ((hw.mtu : Int) - (p.offload.ip_hdr_len : Int) - (p.offload.udp_hdr_len : Int))
          else 0 } := by
  have hne : ip_protocol_num.udp ≠ ip_protocol_num.tcp := by decide
  simp only [txq.make_vhdr, hcsum, hudp, if_true, eth_hdr_len, if_neg hne]
  by_cases h1 : p.offload.needs_csum = true <;>
    by_cases h2 : hw.tx_ufo = true ∧ p.len > hw.mtu + 14 <;>
    simp [h1, h2]

/-- The header of a packet when checksum offload is off or the protocol is
neither TCP nor UDP. -/
theorem make_vhdr_none (hw : hw_features) (p : packet)
    (h : hw.tx_csum_l4_offload = false ∨
      (p.offload.protocol ≠ .tcp ∧ p.offload.protocol ≠ .udp)) :
    txq.make_vhdr hw p = {} := by
  rcases h with h | ⟨h1, h2⟩
  · simp [txq.make_vhdr, h]
  · simp [txq.make_vhdr, h1, h2]

/-- C14: for a TCP packet whose offload metadata asks for a checksum and
has a segment size `s` other than 0, on a queue whose hardware-feature
summary has checksum offload on (and TSO on or off: `post` does not read
that setting), the header that `txq::post` puts in front of the packet has `needs_csum = 1`, `gso_type = gso_tcpv4`,
`gso_size = s` and `hdr_len = 14 + ip_hdr_len + tcp_hdr_len` (the segment
size is a 16-bit, the two header lengths are 8-bit values). -/
theorem C14_tcp_tso_header (q : txq) (p : packet)
    (hcsum : q.hw.tx_csum_l4_offload = true)
    (htcp : p.offload.protocol = .tcp) (hneeds : p.offload.needs_csum = true)
    (hs : p.offload.tso_seg_size ≠ 0) (hs16 : p.offload.tso_seg_size < 65536)
    (hip : p.offload.ip_hdr_len < 256) (htl : p.offload.tcp_hdr_len < 256) :
    ∃ vhdr,
      (q.chain_for p).p.fragments
        = { base := q.vhdr_addr, size := q._header_len, hdr := some vhdr } :: p.fragments ∧
      vhdr = txq.make_vhdr q.hw p ∧
      vhdr.needs_csum = 1 ∧
      vhdr.gso_type = net_hdr.gso_tcpv4 ∧
      vhdr.gso_size = p.offload.tso_seg_size ∧
      vhdr.hdr_len = 14 + p.offload.ip_hdr_len + p.offload.tcp_hdr_len := by
  refine ⟨txq.make_vhdr q.hw p, rfl, rfl, ?_, ?_, ?_, ?_⟩
  · rw [make_vhdr_tcp q.hw p hcsum htcp]; simp [hneeds]
  · rw [make_vhdr_tcp q.hw p hcsum htcp]; simp [hs]
  · rw [make_vhdr_tcp q.hw p hcsum htcp]; simp only [if_pos hs]; omega
  · rw [make_vhdr_tcp q.hw p hcsum htcp]; simp only [if_pos hs]; omega

/-- C14, instance: checksum offload and TSO on, segments of 1400 bytes,
headers of 20 and 20 bytes. -/
theorem C14_witness :
    (txq.make_vhdr demo_hw demo_tcp_packet).needs_csum = 1 ∧
    (txq.make_vhdr demo_hw demo_tcp_packet).gso_type = 1 ∧
    (txq.make_vhdr demo_hw demo_tcp_packet).gso_size = 1400 ∧
    (txq.make_vhdr demo_hw demo_tcp_packet).hdr_len = 54 := by
  obtain ⟨vhdr, _, hv, h1, h2, h3, h4⟩ :=
    C14_tcp_tso_header { demo_txq with hw := demo_hw } demo_tcp_packet rfl rfl rfl
      (by decide) (by decide) (by decide) (by decide)
  subst hv
  exact ⟨h1, h2, h3, h4⟩

/-- C15: the header `txq::post` builds does not depend on the TSO setting
of the hardware-feature summary; with TSO off and checksum offload on, the
TCP packet that asks for segments of 1400 bytes gets `gso_type = gso_tcpv4`
(which is not `gso_none`) and `gso_size = 1400`, as it does with TSO on. -/
theorem C15_tso_setting_not_consulted :
    (∀ (hw : hw_features) (p : packet) (b : Bool),
      txq.make_vhdr { hw with tx_tso := b } p = txq.make_vhdr hw p) ∧
    demo_hw_no_tso.tx_tso = false ∧ demo_hw_no_tso.tx_csum_l4_offload = true ∧
    (txq.make_vhdr demo_hw_no_tso demo_tcp_packet).gso_type = net_hdr.gso_tcpv4 ∧
    (txq.make_vhdr demo_hw_no_tso demo_tcp_packet).gso_type ≠ net_hdr.gso_none ∧
    (txq.make_vhdr demo_hw_no_tso demo_tcp_packet).gso_size = 1400 := by
  refine ⟨fun hw p b => rfl, rfl, rfl, by decide, by decide, by decide⟩


/-- C16: for a UDP packet, on a queue whose hardware-feature summary has
checksum offload on, the header `txq::post` builds has `gso_type = gso_udp`
if and only if UFO is on and the packet is longer than `mtu + 14`; in that
case `gso_size` is `mtu - ip_hdr_len - udp_hdr_len` as a 16-bit value (the
difference itself when the MTU is a 16-bit value that has room for the two
headers) and `hdr_len = 14 + ip_hdr_len + udp_hdr_len`; otherwise `gso_type`
is `gso_none` and `gso_size` is 0. -/
theorem C16_udp_ufo_header (q : txq) (p : packet)
    (hcsum : q.hw.tx_csum_l4_offload = true) (hudp : p.offload.protocol = .udp)
    (hip : p.offload.ip_hdr_len < 256) (hul : p.offload.udp_hdr_len < 256) :
    ((txq.make_vhdr q.hw p).gso_type = net_hdr.gso_udp ↔
      (q.hw.tx_ufo = true ∧ p.len > q.hw.mtu + 14)) ∧
    (q.hw.tx_ufo = true ∧ p.len > q.hw.mtu + 14 →
      (txq.make_vhdr q.hw p).gso_size
        = u16 ((q.hw.mtu : Int) - (p.offload.ip_hdr_len : Int) - (p.offload.udp_hdr_len : Int)) ∧
      (p.offload.ip_hdr_len + p.offload.udp_hdr_len ≤ q.hw.mtu → q.hw.mtu < 65536 →
        (txq.make_vhdr q.hw p).gso_size
          = q.hw.mtu - p.offload.ip_hdr_len - p.offload.udp_hdr_len) ∧
      (txq.make_vhdr q.hw p).hdr_len = 14 + p.offload.ip_hdr_len + p.offload.udp_hdr_len) ∧
    (¬ (q.hw.tx_ufo = true ∧ p.len > q.hw.mtu + 14) →
      (txq.make_vhdr q.hw p).gso_type = net_hdr.gso_none ∧
      (txq.make_vhdr q.hw p).gso_size = 0) := by
  rw [make_vhdr_udp q.hw p hcsum hudp]
  by_cases hc : q.hw.tx_ufo = true ∧ p.len > q.hw.mtu + 14
  · simp only [if_pos hc]
    refine ⟨⟨fun _ => hc, fun _ => by trivial⟩, fun _ => ⟨by trivial, ?_, ?_⟩,
      fun hn => absurd hc hn⟩
    · intro hle hm
      simp only [u16]
      omega
    · omega
  · simp only [if_neg hc]
    exact ⟨⟨fun h => absurd h (by decide), fun h => absurd h hc⟩, fun h => absurd h hc,
      fun _ => ⟨by trivial, by trivial⟩⟩

/-- C16, instance: a UDP packet of 3000 bytes, MTU 1500, UFO on. -/
theorem C16_witness :
    (txq.make_vhdr demo_hw demo_udp_packet).gso_type = 3 ∧
    (txq.make_vhdr demo_hw demo_udp_packet).gso_size = 1472 ∧
    (txq.make_vhdr demo_hw demo_udp_packet).hdr_len = 42 :=
  have h := C16_udp_ufo_header { demo_txq with hw := demo_hw } demo_udp_packet rfl rfl
    (by decide) (by decide)
  ⟨h.1.2 (by decide), (h.2.1 (by decide)).2.1 (by decide) (by decide), (h.2.1 (by decide)).2.2⟩

/-- C17: for every packet, the header `txq::post` builds has `needs_csum`
1 if checksum offload is on in the hardware-feature summary, the protocol
is TCP or UDP and the offload metadata asks for a checksum, and 0 if not;
when it is 1, `csum_start = 14 + ip_hdr_len` (an 8-bit value) and
`csum_offset` is 16 for TCP and 6 for UDP; when it is 0, `csum_start` and
`csum_offset` are 0. -/
theorem C17_needs_csum (q : txq) (p : packet) (hip : p.offload.ip_hdr_len < 256) :
    ((txq.make_vhdr q.hw p).needs_csum = 1 ↔
      (q.hw.tx_csum_l4_offload = true ∧
        (p.offload.protocol = .tcp ∨ p.offload.protocol = .udp) ∧
        p.offload.needs_csum = true)) ∧
    ((txq.make_vhdr q.hw p).needs_csum ≠ 1 → (txq.make_vhdr q.hw p).needs_csum = 0) ∧
    ((txq.make_vhdr q.hw p).needs_csum = 1 →
      (txq.make_vhdr q.hw p).csum_start = 14 + p.offload.ip_hdr_len ∧
      (p.offload.protocol = .tcp → (txq.make_vhdr q.hw p).csum_offset = 16) ∧
      (p.offload.protocol = .udp → (txq.make_vhdr q.hw p).csum_offset = 6)) ∧
    ((txq.make_vhdr q.hw p).needs_csum = 0 →
      (txq.make_vhdr q.hw p).csum_start = 0 ∧ (txq.make_vhdr q.hw p).csum_offset = 0) := by
  have hmod : (14 + p.offload.ip_hdr_len) % 65536 = 14 + p.offload.ip_hdr_len :=
    Nat.mod_eq_of_lt (by omega)
  by_cases hcsum : q.hw.tx_csum_l4_offload = true
  · by_cases htcp : p.offload.protocol = .tcp
    · rw [make_vhdr_tcp q.hw p hcsum htcp]
      by_cases hn : p.offload.needs_csum = true <;> simp [hn, hcsum, htcp, hmod]
    · by_cases hudp : p.offload.protocol = .udp
      · rw [make_vhdr_udp q.hw p hcsum hudp]
        by_cases hn : p.offload.needs_csum = true <;> simp [hn, hcsum, hudp, hmod]
      · rw [make_vhdr_none q.hw p (Or.inr ⟨htcp, hudp⟩)]
        simp [htcp, hudp]
  · rw [make_vhdr_none q.hw p (Or.inl (by simpa using hcsum))]
    simp [hcsum]

/-- C17, instance: the TCP packet that asks for a checksum, IP header of 20
bytes. -/
theorem C17_witness :
    (txq.make_vhdr demo_hw demo_tcp_packet).needs_csum = 1 ∧
    (txq.make_vhdr demo_hw demo_tcp_packet).csum_start = 34 ∧
    (txq.make_vhdr demo_hw demo_tcp_packet).csum_offset = 16 :=
  have h := C17_needs_csum { demo_txq with hw := demo_hw } demo_tcp_packet (by decide)
  have h1 := h.1.2 ⟨rfl, Or.inl rfl, rfl⟩
  ⟨h1, (h.2.2.1 h1).1, (h.2.2.1 h1).2.1 rfl⟩

/-! ## The chain of a transmitted packet -/

/-- What `txq::post` leaves in the ring: it returns, `_packets` holds the
chains of the packets taken, and each of them is stored under the head of
its piece of the free list, whose descriptors show the buffers of the chain. -/
theorem txq_post_chains (q : txq) (pb : List packet) (L0 : List Nat)
    (Cs : List (List Nat)) (hinv : q._ring.inv L0 Cs)
    (hcred : q._ring._available_descriptors ≤ L0.length)
    (hh : q._ring._avail._head < 65536) (ha : q._ring._avail._avail_added_since_kick < 65536) :
    ∃ k rest q1,
      q.post pb = .ok (k, rest, q1) ∧
      q1._packets = (txq.taken q._ring._available_descriptors pb).map q.chain_for ∧
      List.Forall₂ (fun A p =>
          q1._ring._buffer_chains A.headI = q.chain_for p ∧
          A.map (fun a => (q1._ring._descs a).to_buffer) = (q.chain_for p).buffers)
        (split_by ((txq.taken q._ring._available_descriptors pb).map (fun p => p.nr_frags + 1)) L0)
        (txq.taken q._ring._available_descriptors pb) := by
  obtain ⟨st1, hloop, hq⟩ := post_loop_spec pb { q := { q with _packets := [] } }
  simp only [List.nil_append] at hloop hq
  have hsumle := taken_credits pb q._ring._available_descriptors
  generalize hT : txq.taken q._ring._available_descriptors pb = T at hloop hq hsumle
  have hpk : st1.q._packets = T.map q.chain_for := by rw [hq]; rfl
  have hrg : st1.q._ring = { q._ring with
      _available_descriptors := q._ring._available_descriptors
        - (T.map (fun p => p.nr_frags + 1)).sum } := by rw [hq]
  have hlens : st1.q._packets.map (fun bc => bc.buffers.length)
      = T.map (fun p => p.nr_frags + 1) := by
    rw [hpk, List.map_map]
    exact List.map_congr_left (fun p _ => (chain_for_buffers q p).1)
  have hinv0 : st1.q._ring.inv L0 Cs := by
    rw [hrg]; exact inv_congr hinv rfl rfl rfl rfl
  obtain ⟨r1, _, hpost, _, _, hF, _⟩ :=
    post_spec packet_as_buffer_chain.buffers st1.q._packets st1.q._ring L0 Cs hinv0
      (by
        intro bc hbc h0
        rw [hpk] at hbc
        obtain ⟨p, _, rfl⟩ := List.mem_map.mp hbc
        have := (chain_for_buffers q p).1
        rw [h0] at this
        simp at this)
      (by rw [hlens]; omega)
      (by rw [hrg]; exact hh) (by rw [hrg]; exact ha)
  obtain ⟨_, kd, _, _, kb, _⟩ := kick_frame r1.publish
  refine ⟨st1.q._packets.length % 4294967296, pb.drop T.length,
    { st1.q with _ring := r1.publish.kick, tx_frags := st1.q.tx_frags + st1.nr_frags,
                 tx_bytes := st1.q.tx_bytes + st1.bytes }, ?_, hpk, ?_⟩
  · unfold txq.post
    rw [hloop]
    simp only [hpost]
  · simp only [kb, kd]
    rw [hlens, hpk, List.forall₂_map_right_iff] at hF
    exact hF.imp (fun A p h => ⟨h.2.1, h.2.2.1⟩)

/-- C18 (counterexample): for a packet with one fragment of 2^32 + 5 bytes,
the chain `txq::post` stores has the header and this fragment, and the
buffer and the descriptor for the fragment have the length 5, not the size
of the fragment: `buffer::len` is a `uint32_t`. -/
theorem C18_counterexample :
    demo_txq_small.post [demo_packet_big] = .ok demo_txq_small_posted_big ∧
    (demo_txq_small_posted_big.2.2._ring._buffer_chains 0).p.fragments.map fragment.size
      = [12, 4294967301] ∧
    (demo_txq_small_posted_big.2.2._ring._buffer_chains 0).buffers.map buffer.len = [12, 5] ∧
    (demo_txq_small_posted_big.2.2._ring._descs 1)._len = 5 :=
  ⟨rfl, by decide, by decide, by decide⟩

/-- C18 (amended): `txq::post` on a queue whose ring has no more credits than
free descriptors returns, and for every packet it takes, the chain it hands
to the ring (the element of `_packets`, stored in the ring under the head of
the chain's descriptors) is the packet with one fragment in front, the
virtio-net header of `_header_len` bytes, followed by the packet's own
fragments in their order; the buffers of the chain, which the descriptors
show to the host, are these fragments one for one, each with `writeable`
false and with the size of its fragment modulo 2^32 as its length, which is
the size of the fragment when the header length and every fragment are
below 2^32 bytes. -/
theorem C18_chain_is_header_then_fragments (q : txq) (pb : List packet) (L0 : List Nat)
    (Cs : List (List Nat)) (hinv : q._ring.inv L0 Cs)
    (hcred : q._ring._available_descriptors ≤ L0.length)
    (hh : q._ring._avail._head < 65536) (ha : q._ring._avail._avail_added_since_kick < 65536) :
    ∃ k rest q1,
      q.post pb = .ok (k, rest, q1) ∧
      q1._packets = (txq.taken q._ring._available_descriptors pb).map q.chain_for ∧
      List.Forall₂ (fun A p =>
          ∃ vhdr : net_hdr_mrg,
            (q1._ring._buffer_chains A.headI).p.fragments
              = { base := q.vhdr_addr, size := q._header_len, hdr := some vhdr } :: p.fragments ∧
            (q1._ring._buffer_chains A.headI).buffers
              = { addr := virt_to_phys q.vhdr_addr, len := q._header_len % 4294967296,
                  writeable := false }
                :: p.fragments.map
                    (fun f => { addr := virt_to_phys f.base, len := f.size % 4294967296,
                                writeable := false }) ∧
            A.map (fun a => ((q1._ring._descs a)._len, (q1._ring._descs a)._flags.writeable))
              = (q._header_len % 4294967296, false)
                :: p.fragments.map (fun f => (f.size % 4294967296, false)) ∧
            (q._header_len < 4294967296 → (∀ f ∈ p.fragments, f.size < 4294967296) →
              (q1._ring._buffer_chains A.headI).buffers
                = { addr := virt_to_phys q.vhdr_addr, len := q._header_len, writeable := false }
                  :: p.fragments.map
                      (fun f => { addr := virt_to_phys f.base, len := f.size,
                                  writeable := false }) ∧
              A.map (fun a => ((q1._ring._descs a)._len, (q1._ring._descs a)._flags.writeable))
                = (q._header_len, false) :: p.fragments.map (fun f => (f.size, false))))
        (split_by ((txq.taken q._ring._available_descriptors pb).map (fun p => p.nr_frags + 1)) L0)
        (txq.taken q._ring._available_descriptors pb) := by
  obtain ⟨k, rest, q1, hpost, hpk, hF⟩ := txq_post_chains q pb L0 Cs hinv hcred hh ha
  refine ⟨k, rest, q1, hpost, hpk, hF.imp ?_⟩
  rintro A p ⟨hbc, hbufs⟩
  have hb : (q1._ring._buffer_chains A.headI).buffers
      = { addr := virt_to_phys q.vhdr_addr, len := q._header_len % 4294967296,
          writeable := false }
        :: p.fragments.map
            (fun f => { addr := virt_to_phys f.base, len := f.size % 4294967296,
                        writeable := false }) := by
    rw [hbc]
    simp only [packet_as_buffer_chain.buffers, txq.chain_for, packet.prepend, List.map_cons,
      fragment_to_buffer]
    rfl
  have hd : A.map (fun a => ((q1._ring._descs a)._len, (q1._ring._descs a)._flags.writeable))
      = (q._header_len % 4294967296, false)
        :: p.fragments.map (fun f => (f.size % 4294967296, false)) := by
    have h2 := congrArg (List.map (fun b : buffer => (b.len, b.writeable))) hbufs
    simp only [List.map_map] at h2
    rw [show (fun a => ((q1._ring._descs a)._len, (q1._ring._descs a)._flags.writeable))
        = ((fun b : buffer => (b.len, b.writeable)) ∘ fun a => (q1._ring._descs a).to_buffer)
        from rfl, h2]
    simp only [packet_as_buffer_chain.buffers, txq.chain_for, packet.prepend, List.map_cons,
      fragment_to_buffer, List.map_map]
    rfl
  refine ⟨txq.make_vhdr q.hw p, ?_, hb, hd, ?_⟩
  · rw [hbc]; rfl
  · intro hhl hfs
    have e1 : q._header_len % 4294967296 = q._header_len := Nat.mod_eq_of_lt hhl
    have e2 : p.fragments.map
          (fun f => ({ addr := virt_to_phys f.base, len := f.size % 4294967296,
                       writeable := false } : buffer))
        = p.fragments.map
          (fun f => { addr := virt_to_phys f.base, len := f.size, writeable := false }) :=
      List.map_congr_left (fun f hf => by rw [Nat.mod_eq_of_lt (hfs f hf)])
    have e3 : p.fragments.map (fun f => (f.size % 4294967296, false))
        = p.fragments.map (fun f => (f.size, false)) :=
      List.map_congr_left (fun f hf => by rw [Nat.mod_eq_of_lt (hfs f hf)])
    rw [hb, hd, e1, e2, e3]
    exact ⟨rfl, rfl⟩


theorem demo_txq_small_post_2_ok :
    demo_txq_small.post [demo_packet_2] = .ok demo_txq_small_posted_2 := rfl

/-- C18, instance: a packet of two fragments of 100 and 60 bytes, header of
12 bytes: the chain stored under descriptor 0 has three read-only buffers. -/
theorem C18_witness :
    (demo_txq_small_posted_2.2.2._ring._buffer_chains 0).buffers
      = [{ addr := 0, len := 12, writeable := false },
         { addr := 8192, len := 100, writeable := false },
         { addr := 12288, len := 60, writeable := false }] := by
  obtain ⟨k, rest, q1, hpost, _, hF⟩ :=
    C18_chain_is_header_then_fragments demo_txq_small [demo_packet_2] (List.range 4) []
      (create_inv _ _ _ _ _ _ _ (by decide) (by decide)) (by decide) (by decide) (by decide)
  have e : (k, rest, q1) = demo_txq_small_posted_2 :=
    Except.ok.inj (hpost.symm.trans demo_txq_small_post_2_ok)
  have hq : q1 = demo_txq_small_posted_2.2.2 := by rw [← e]
  subst hq
  have hT : txq.taken demo_txq_small._ring._available_descriptors [demo_packet_2]
      = [demo_packet_2] := rfl
  rw [hT] at hF
  have hS : split_by ([demo_packet_2].map (fun p => p.nr_frags + 1)) (List.range 4)
      = [[0, 1, 2]] := rfl
  rw [hS] at hF
  cases hF with
  | cons h _ =>
    obtain ⟨vhdr, _, _, _, h4⟩ := h
    exact (h4 (by decide) (by decide)).1

/-! ## Reassembly of a received packet -/

/-- A call of `complete_buffer` for a buffer that is not the first of its
packet and not the last. -/
theorem complete_buffer_middle (s : rxq_state) (credits : Nat) (c : single_buffer × Nat)
    (h1 : 1 < s._remaining_buffers) (h32 : s._remaining_buffers < 4294967296) :
    rxq.complete_buffer s credits c.1 c.2
      = .ok ({ s with
               _fragments := s._fragments ++ [rx_fragment c]
               _buffers := s._buffers ++ [c.1.elem.buf]
               _remaining_buffers := s._remaining_buffers - 1 },
             credits, { elem := { c.1.elem with buf := 0 } }) := by
  have hne : s._remaining_buffers ≠ 0 := by omega
  have hdec : (s._remaining_buffers + 4294967295) % 4294967296 = s._remaining_buffers - 1 := by
    omega
  have hne2 : s._remaining_buffers - 1 ≠ 0 := by omega
  simp only [rxq.complete_buffer, rxq.first_buffer, if_neg hne, hdec, if_neg hne2]
  rfl

/-- The call of `complete_buffer` for the last buffer of a packet that has
more than one. -/
theorem complete_buffer_last (s : rxq_state) (credits : Nat) (c : single_buffer × Nat)
    (h1 : s._remaining_buffers = 1) :
    rxq.complete_buffer s credits c.1 c.2
      = .ok ({ s with
               _fragments := s._fragments ++ [rx_fragment c]
               _buffers := []
               _remaining_buffers := 0
               rx_frags := s.rx_frags + (s._fragments ++ [rx_fragment c]).length
               rx_bytes := s.rx_bytes + ((s._fragments ++ [rx_fragment c]).map fragment.size).sum
               received := s.received ++ [{ fragments := s._fragments ++ [rx_fragment c] }]
               events := s.events ++
                 [.l2receive { fragments := s._fragments ++ [rx_fragment c] },
                  .signal (s._fragments ++ [rx_fragment c]).length] },
             credits + (s._fragments ++ [rx_fragment c]).length,
             { elem := { c.1.elem with buf := 0 } }) := by
  have hne : s._remaining_buffers ≠ 0 := by omega
  have hdec : (s._remaining_buffers + 4294967295) % 4294967296 = 0 := by rw [h1]
  simp only [rxq.complete_buffer, rxq.first_buffer, if_neg hne, hdec, if_true]
  rfl


/-- The calls of `complete_buffer` for the buffers of a packet after the
first: none but the last delivers a packet or signals credits, and the last
delivers the packet of all fragments and signals one credit per fragment. -/
theorem run_calls_rest : ∀ (rest : List (single_buffer × Nat)) (s : rxq_state) (credits : Nat),
    rest ≠ [] → s._remaining_buffers = rest.length → rest.length < 4294967296 →
    (∀ j, j < rest.length →
      ∃ s1, run_calls rxq_complete (rest.take j) s credits = .ok (s1, credits) ∧
        s1.received = s.received ∧ s1._remaining_buffers = rest.length - j ∧
        s1._fragments = s._fragments ++ (rest.take j).map rx_fragment) ∧
    ∃ s1, run_calls rxq_complete rest s credits
        = .ok (s1, credits + (s._fragments.length + rest.length)) ∧
      s1.received = s.received ++ [{ fragments := s._fragments ++ rest.map rx_fragment }] ∧
      s1._remaining_buffers = 0 := by
  intro rest
  induction rest with
  | nil => intro s credits h; exact absurd rfl h
  | cons c rest ih =>
    intro s credits _ hrem h32
    simp only [List.length_cons] at hrem h32
    by_cases hr : rest = []
    · subst hr
      have hstep : rxq_complete.call s credits c.1 c.2 = _ :=
        complete_buffer_last s credits c (by simpa using hrem)
      constructor
      · intro j hj
        have hj0 : j = 0 := by simpa using hj
        subst hj0
        exact ⟨s, rfl, rfl, by simpa using hrem, by simp⟩
      · refine ⟨{ s with
            _fragments := s._fragments ++ [rx_fragment c]
            _buffers := []
            _remaining_buffers := 0
            rx_frags := s.rx_frags + (s._fragments ++ [rx_fragment c]).length
            rx_bytes := s.rx_bytes + ((s._fragments ++ [rx_fragment c]).map fragment.size).sum
            received := s.received ++ [{ fragments := s._fragments ++ [rx_fragment c] }]
            events := s.events ++
              [.l2receive { fragments := s._fragments ++ [rx_fragment c] },
               .signal (s._fragments ++ [rx_fragment c]).length] },
          ?_, rfl, rfl⟩
        simp only [run_calls, hstep]
        simp
    · have hpos : 0 < rest.length := List.length_pos.mpr hr
      have hstep : rxq_complete.call s credits c.1 c.2 = _ :=
        complete_buffer_middle s credits c (by omega) (by omega)
      obtain ⟨ih1, s2, ih2, ihr, ihz⟩ := ih
        { s with
          _fragments := s._fragments ++ [rx_fragment c]
          _buffers := s._buffers ++ [c.1.elem.buf]
          _remaining_buffers := s._remaining_buffers - 1 }
        credits hr (by simp only []; omega) (by omega)
      constructor
      · intro j hj
        cases j with
        | zero => exact ⟨s, rfl, rfl, by simpa using hrem, by simp⟩
        | succ j =>
          obtain ⟨s1, h1, h2, h3, h4⟩ := ih1 j (by simpa using hj)
          refine ⟨s1, ?_, h2, ?_, ?_⟩
          · simp only [List.take_succ_cons, run_calls, hstep]
            exact h1
          · simp only [List.length_cons]; omega
          · rw [h4]; simp
      · refine ⟨s2, ?_, ?_, ihz⟩
        · simp only [run_calls, hstep]
          rw [ih2]
          simp only [List.length_append, List.length_cons, List.length_nil]
          congr 2
          omega
        · rw [ihr]; simp

/-- The call of `complete_buffer` for the first buffer of a packet of more
than one buffer: the header is read and stepped over, nothing is delivered. -/
theorem complete_buffer_first (s : rxq_state) (credits : Nat) (c : single_buffer × Nat)
    (h0 : s._remaining_buffers = 0) (hbuf : c.1.elem.buf ≠ 0)
    (hn : 1 < (s.mem c.1.elem.buf).num_buffers)
    (h32 : (s.mem c.1.elem.buf).num_buffers < 4294967296)
    (hl : s._header_len ≤ c.2) (hl64 : c.2 < 18446744073709551616) :
    rxq.complete_buffer s credits c.1 c.2
      = .ok ({ s with
               _fragments := [{ base := c.1.elem.buf + s._header_len, size := c.2 - s._header_len }]
               _buffers := [c.1.elem.buf]
               _remaining_buffers := (s.mem c.1.elem.buf).num_buffers - 1 },
             credits, { elem := { c.1.elem with buf := 0 } }) := by
  have hge : (s.mem c.1.elem.buf).num_buffers ≥ 1 := by omega
  have hdec : ((s.mem c.1.elem.buf).num_buffers + 4294967295) % 4294967296
      = (s.mem c.1.elem.buf).num_buffers - 1 := by omega
  have hne2 : (s.mem c.1.elem.buf).num_buffers - 1 ≠ 0 := by omega
  have hlen : (((c.2 : Int) - (s._header_len : Int)) % 18446744073709551616).toNat
      = c.2 - s._header_len := by omega
  simp only [rxq.complete_buffer, rxq.first_buffer, h0, if_true, if_neg hbuf, if_pos hge, hdec,
    if_neg hne2, hlen]
  rfl

/-- The call of `complete_buffer` for the only buffer of a packet. -/
theorem complete_buffer_only (s : rxq_state) (credits : Nat) (c : single_buffer × Nat)
    (h0 : s._remaining_buffers = 0) (hbuf : c.1.elem.buf ≠ 0)
    (hn : (s.mem c.1.elem.buf).num_buffers = 1)
    (hl : s._header_len ≤ c.2) (hl64 : c.2 < 18446744073709551616) :
    ∃ s1, rxq.complete_buffer s credits c.1 c.2
        = .ok (s1, credits + 1, { elem := { c.1.elem with buf := 0 } }) ∧
      s1.received = s.received ++
        [{ fragments :=
            [{ base := c.1.elem.buf + s._header_len, size := c.2 - s._header_len }] }] ∧
      s1._remaining_buffers = 0 := by
  have hge : (s.mem c.1.elem.buf).num_buffers ≥ 1 := by omega
  have hdec : ((s.mem c.1.elem.buf).num_buffers + 4294967295) % 4294967296 = 0 := by omega
  have hlen : (((c.2 : Int) - (s._header_len : Int)) % 18446744073709551616).toNat
      = c.2 - s._header_len := by omega
  simp only [rxq.complete_buffer, rxq.first_buffer, h0, if_true, if_neg hbuf, if_pos hge, hdec,
    hlen, List.nil_append, List.length_singleton]
  exact ⟨_, rfl, rfl, rfl⟩

theorem rx_fragment_len (rest : List (single_buffer × Nat)) :
    ((rest.map rx_fragment).map fragment.size).sum = (rest.map Prod.snd).sum := by
  induction rest with
  | nil => rfl
  | cons c rest ih => simp only [List.map_cons, List.sum_cons, ih]; rfl

/-- C19: when `complete_buffer` is called, with no packet under way, for a
first buffer whose header reports `num_buffers = n` (`n >= 1`; here
`n = rest.length + 1`) and whose reported length `l_1` is at least the
header length, and then for `n - 1` further buffers with reported lengths
`l_2 .. l_n`, the calls before the `n`-th deliver no packet (and signal no
credit), and the `n`-th delivers exactly one: it has `n` fragments, the
first `_header_len` bytes into the first buffer with length
`l_1 - _header_len`, each later one at the start of its buffer with length
`l_i`, so its length is `l_1 + ... + l_n - _header_len`. -/
theorem C19_receive_reassembly (s : rxq_state) (credits : Nat) (c1 : single_buffer × Nat)
    (rest : List (single_buffer × Nat))
    (h0 : s._remaining_buffers = 0) (hbuf : c1.1.elem.buf ≠ 0)
    (hn : (s.mem c1.1.elem.buf).num_buffers = rest.length + 1)
    (hn16 : rest.length + 1 < 65536)
    (hl : s._header_len ≤ c1.2) (hl64 : c1.2 < 18446744073709551616) :
    (∀ j, j < rest.length + 1 →
      ∃ s1, run_calls rxq_complete ((c1 :: rest).take j) s credits = .ok (s1, credits) ∧
        s1.received = s.received) ∧
    ∃ s1 p,
      run_calls rxq_complete (c1 :: rest) s credits = .ok (s1, credits + (rest.length + 1)) ∧
      s1.received = s.received ++ [p] ∧
      p.fragments = { base := c1.1.elem.buf + s._header_len, size := c1.2 - s._header_len }
          :: rest.map (fun c => { base := c.1.elem.buf, size := c.2 }) ∧
      p.nr_frags = rest.length + 1 ∧
      p.len + s._header_len = ((c1 :: rest).map Prod.snd).sum ∧
      s1._remaining_buffers = 0 := by
  have hsum : c1.2 - s._header_len + ((rest.map rx_fragment).map fragment.size).sum
      + s._header_len = ((c1 :: rest).map Prod.snd).sum := by
    rw [rx_fragment_len]
    simp only [List.map_cons, List.sum_cons]
    omega
  by_cases hr : rest = []
  · subst hr
    obtain ⟨s1, hstep, hrec, hz⟩ :=
      complete_buffer_only s credits c1 h0 hbuf (by simpa using hn) hl hl64
    have hcall : rxq_complete.call s credits c1.1 c1.2 = _ := hstep
    constructor
    · intro j hj
      have hj0 : j = 0 := by simpa using hj
      subst hj0
      exact ⟨s, rfl, rfl⟩
    · refine ⟨s1, { fragments :=
          [{ base := c1.1.elem.buf + s._header_len, size := c1.2 - s._header_len }] }, ?_, hrec,
        rfl, rfl, ?_, hz⟩
      · simp only [run_calls, hcall]
        rfl
      · simpa [packet.len] using hsum
  · have hstep : rxq_complete.call s credits c1.1 c1.2 = _ :=
      complete_buffer_first s credits c1 h0 hbuf
        (by rw [hn]; have := List.length_pos.mpr hr; omega) (by omega) hl hl64
    obtain ⟨h1, s2, h2, hrec, hz⟩ := run_calls_rest rest
      { s with
        _fragments := [{ base := c1.1.elem.buf + s._header_len, size := c1.2 - s._header_len }]
        _buffers := [c1.1.elem.buf]
        _remaining_buffers := (s.mem c1.1.elem.buf).num_buffers - 1 }
      credits hr (by simp only []; omega) (by omega)
    constructor
    · intro j hj
      cases j with
      | zero => exact ⟨s, rfl, rfl⟩
      | succ j =>
        obtain ⟨s1, hs1, hrec1, _⟩ := h1 j (by omega)
        refine ⟨s1, ?_, hrec1⟩
        simp only [List.take_succ_cons, run_calls, hstep]
        exact hs1
    · refine ⟨s2, _, ?_, hrec, rfl, ?_, ?_, hz⟩
      · simp only [run_calls, hstep]
        rw [h2]
        simp only [List.length_singleton]
        congr 2
        omega
      · simp [packet.nr_frags]
      · simpa [packet.len] using hsum

/-- C19, instance: three buffers of 4096 bytes, for which the host reports
4096, 4096 and 808 bytes, 9000 in all, and a header of 12 bytes: one packet
of three fragments and 8988 bytes, delivered by the third call. -/
theorem C19_witness :
    (∃ s2, run_calls rxq_complete
        [(demo_rx_buffer 4096, 4096), (demo_rx_buffer 8192, 4096)] demo_rx_state 0
        = .ok (s2, 0) ∧ s2.received = []) ∧
    ∃ s3 p, run_calls rxq_complete
        [(demo_rx_buffer 4096, 4096), (demo_rx_buffer 8192, 4096), (demo_rx_buffer 12288, 808)]
        demo_rx_state 0 = .ok (s3, 3) ∧
      s3.received = [p] ∧ p.nr_frags = 3 ∧ p.len = 8988 := by
  obtain ⟨h1, s3, p, hrun, hrec, _, hfr, hlen, _⟩ :=
    C19_receive_reassembly demo_rx_state 0 (demo_rx_buffer 4096, 4096)
      [(demo_rx_buffer 8192, 4096), (demo_rx_buffer 12288, 808)] rfl (by decide) rfl
      (by norm_num) (by decide) (by norm_num)
  refine ⟨h1 2 (by decide), s3, p, hrun, hrec, hfr, ?_⟩
  have h9000 : (List.map Prod.snd [(demo_rx_buffer 4096, 4096), (demo_rx_buffer 8192, 4096),
      (demo_rx_buffer 12288, 808)]).sum = 9000 := rfl
  rw [h9000] at hlen
  have h12 : demo_rx_state._header_len = 12 := rfl
  omega

/-! ## One round of the completion loop -/

/-- One round of the loop of `do_complete` on an entry that names the head
of the chain `C` in flight, when the call of the completion functor returns:
the chain joins the free list, the credits are what the call left, the tail
advances, and nothing else that a later round reads changes. -/
theorem complete_one_step (c : completion BC E) (fuel : Nat) (r : vring BC) (e : E)
    (L : List Nat) (Cs Cs1 : List (List Nat)) (C : List Nat) (hinv : r.inv L Cs)
    (hP : Cs.Perm (C :: Cs1))
    (hid : (r._used._shared._used_elements (r.masked r._used._tail))._id = C.headI)
    (hfuel : C.length ≤ fuel) (e1 : E) (s1 : Nat) (left : BC)
    (hcall : c.call e r._available_descriptors
      (r._buffer_chains (r._used._shared._used_elements (r.masked r._used._tail))._id)
      (r._used._shared._used_elements (r.masked r._used._tail))._len = .ok (e1, s1, left)) :
    ∃ r1, vring.complete_one c fuel r e = .ok (r1, e1) ∧ r1.inv (L ++ C) Cs1 ∧
      r1._available_descriptors = s1 ∧
      r1._used._tail = (r._used._tail + 1) % 65536 ∧
      r1._used._shared = r._used._shared ∧ r1._config = r._config ∧
      (∀ i, i ≠ C.headI → r1._buffer_chains i = r._buffer_chains i) ∧
      r1._avail = r._avail ∧ r1.notified = r.notified := by
  obtain ⟨D, fh, fl, hone, hinv1, _⟩ :=
    complete_one_ok c fuel r e L Cs Cs1 C hinv hP _ rfl hid hfuel e1 s1 left hcall
  refine ⟨_, hone, hinv1, rfl, rfl, rfl, rfl, ?_, rfl, rfl⟩
  intro i hi
  simp only [upd, hid, if_neg hi]

/-! ## Credits of a packet of three buffers -/

/-- The call of `complete_buffer` for the last buffer of a packet of more
than one: a packet of all fragments is delivered and one credit per fragment
signalled. -/
theorem complete_buffer_last_packet (s : rxq_state) (credits : Nat) (c : single_buffer × Nat)
    (h1 : s._remaining_buffers = 1) :
    ∃ s1 p, rxq.complete_buffer s credits c.1 c.2
        = .ok (s1, credits + (s._fragments.length + 1), { elem := { c.1.elem with buf := 0 } }) ∧
      s1.received = s.received ++ [p] ∧ p.nr_frags = s._fragments.length + 1 ∧
      s1._remaining_buffers = 0 := by
  have h := complete_buffer_last s credits c h1
  rw [List.length_append, List.length_singleton] at h
  exact ⟨_, { fragments := s._fragments ++ [rx_fragment c] }, h, rfl,
    by simp [packet.nr_frags], rfl⟩

/-- C20 (amended): when `do_complete` drains the three buffers of a packet
whose first header reports `num_buffers = 3`, it puts the descriptors of
each buffer back on the free list in the round of that buffer, but the
credits of the semaphore `_available_descriptors`, against which `post`
allocates, stay as they were through the first and the second round, in
which no packet is delivered; the third round delivers the packet of three
fragments and signals three credits. -/
theorem C20_credits_held_until_reassembled (r : vring single_buffer) (s : rxq_state)
    (fuel : Nat) (L : List Nat) (Cs Cs1 : List (List Nat)) (C1 C2 C3 : List Nat)
    (hinv : r.inv L Cs) (hP : Cs.Perm (C1 :: C2 :: C3 :: Cs1))
    (hidx : r._used._shared._idx = (r._used._tail + 3) % 65536)
    (h1 : (r._used._shared._used_elements (r.masked r._used._tail))._id = C1.headI)
    (h2 : (r._used._shared._used_elements (r.masked ((r._used._tail + 1) % 65536)))._id
      = C2.headI)
    (h3 : (r._used._shared._used_elements (r.masked ((r._used._tail + 2) % 65536)))._id
      = C3.headI)
    (h0 : s._remaining_buffers = 0)
    (hbuf : (r._buffer_chains C1.headI).elem.buf ≠ 0)
    (hn : (s.mem (r._buffer_chains C1.headI).elem.buf).num_buffers = 3)
    (hl : s._header_len ≤ (r._used._shared._used_elements (r.masked r._used._tail))._len)
    (hl64 : (r._used._shared._used_elements (r.masked r._used._tail))._len
      < 18446744073709551616)
    (hfuel : 4 ≤ fuel) (hf1 : C1.length ≤ fuel) (hf2 : C2.length ≤ fuel)
    (hf3 : C3.length ≤ fuel) :
    ∃ r1 s1 r2 s2 r3 s3,
      vring.complete_one rxq_complete fuel r
        (rxq_complete.bunch s ((((r._used._tail : Int) - (r._used._shared._idx : Int))
          % 18446744073709551616).toNat)) = .ok (r1, s1) ∧
      vring.complete_one rxq_complete fuel r1 s1 = .ok (r2, s2) ∧
      vring.complete_one rxq_complete fuel r2 s2 = .ok (r3, s3) ∧
      r.do_complete rxq_complete fuel s = .ok (true, r3, s3) ∧
      r1.free (L ++ C1) ∧ r2.free ((L ++ C1) ++ C2) ∧ r3.free (((L ++ C1) ++ C2) ++ C3) ∧
      r1._available_descriptors = r._available_descriptors ∧
      s1.received = s.received ∧ s1._remaining_buffers = 2 ∧
      r2._available_descriptors = r._available_descriptors ∧
      s2.received = s.received ∧ s2._remaining_buffers = 1 ∧
      r3._available_descriptors = r._available_descriptors + 3 ∧
      (∃ p, s3.received = s.received ++ [p] ∧ p.nr_frags = 3) ∧
      s3._remaining_buffers = 0 := by
  generalize hs0 : rxq_complete.bunch s ((((r._used._tail : Int) - (r._used._shared._idx : Int))
          % 18446744073709551616).toNat) = s0
  have hs0r : s0._remaining_buffers = 0 := by rw [← hs0]; exact h0
  have hs0m : s0.mem = s.mem := by rw [← hs0]; rfl
  have hs0h : s0._header_len = s._header_len := by rw [← hs0]; rfl
  have hs0v : s0.received = s.received := by rw [← hs0]; rfl
  -- first round
  obtain ⟨s1, hcall1, hv1, hr1, hg1⟩ : ∃ s1,
      rxq_complete.call s0 r._available_descriptors
        (r._buffer_chains (r._used._shared._used_elements (r.masked r._used._tail))._id)
        (r._used._shared._used_elements (r.masked r._used._tail))._len
        = .ok (s1, r._available_descriptors,
            { elem := { (r._buffer_chains
                (r._used._shared._used_elements (r.masked r._used._tail))._id).elem with
                buf := 0 } }) ∧
      s1.received = s.received ∧ s1._remaining_buffers = 2 ∧ s1._fragments.length = 1 := by
    refine ⟨_, complete_buffer_first s0 r._available_descriptors
      (r._buffer_chains (r._used._shared._used_elements (r.masked r._used._tail))._id,
        (r._used._shared._used_elements (r.masked r._used._tail))._len) hs0r
      (by rw [h1]; exact hbuf) (by rw [hs0m, h1, hn]; decide) (by rw [hs0m, h1, hn]; decide)
      (by rw [hs0h]; exact hl) hl64, hs0v, ?_, rfl⟩
    simp only [hs0m, h1, hn]
  obtain ⟨r1, hone1, hinv1, hcr1, ht1, hsh1, hc1, _, _, _⟩ :=
    complete_one_step rxq_complete fuel r s0 L Cs (C2 :: C3 :: Cs1) C1 hinv hP h1 hf1 _ _ _ hcall1
  have hm1 : ∀ x, r1.masked x = r.masked x := fun x => by
    simp only [vring.masked, vring.mask, vring.size, hc1]
  -- second round
  obtain ⟨s2, hcall2, hv2, hr2, hg2⟩ : ∃ s2,
      rxq_complete.call s1 r1._available_descriptors
        (r1._buffer_chains (r1._used._shared._used_elements (r1.masked r1._used._tail))._id)
        (r1._used._shared._used_elements (r1.masked r1._used._tail))._len
        = .ok (s2, r1._available_descriptors,
            { elem := { (r1._buffer_chains
                (r1._used._shared._used_elements (r1.masked r1._used._tail))._id).elem with
                buf := 0 } }) ∧
      s2.received = s.received ∧ s2._remaining_buffers = 1 ∧ s2._fragments.length = 2 := by
    refine ⟨_, complete_buffer_middle s1 r1._available_descriptors
      (r1._buffer_chains (r1._used._shared._used_elements (r1.masked r1._used._tail))._id,
        (r1._used._shared._used_elements (r1.masked r1._used._tail))._len)
      (by omega) (by omega), hv1, ?_, ?_⟩
    · simp only [hr1]
    · simp only [List.length_append, hg1, List.length_singleton]
  have hid2 : (r1._used._shared._used_elements (r1.masked r1._used._tail))._id = C2.headI := by
    rw [hsh1, hm1, ht1]; exact h2
  obtain ⟨r2, hone2, hinv2, hcr2, ht2, hsh2, hc2, _, _, _⟩ :=
    complete_one_step rxq_complete fuel r1 s1 (L ++ C1) (C2 :: C3 :: Cs1) (C3 :: Cs1) C2 hinv1
      (List.Perm.refl _) hid2 hf2 _ _ _ hcall2
  have hm2 : ∀ x, r2.masked x = r.masked x := fun x => by
    simp only [vring.masked, vring.mask, vring.size, hc2, hc1]
  -- third round
  obtain ⟨s3, p, hcall3, hv3, hp3, hr3⟩ :=
    complete_buffer_last_packet s2 r2._available_descriptors
      (r2._buffer_chains (r2._used._shared._used_elements (r2.masked r2._used._tail))._id,
        (r2._used._shared._used_elements (r2.masked r2._used._tail))._len) hr2
  have hcall3 : rxq_complete.call s2 r2._available_descriptors
        (r2._buffer_chains (r2._used._shared._used_elements (r2.masked r2._used._tail))._id)
        (r2._used._shared._used_elements (r2.masked r2._used._tail))._len = _ := hcall3
  have hid3 : (r2._used._shared._used_elements (r2.masked r2._used._tail))._id = C3.headI := by
    rw [hsh2, hsh1, hm2, ht2, ht1]
    have : ((r._used._tail + 1) % 65536 + 1) % 65536 = (r._used._tail + 2) % 65536 := by omega
    rw [this]; exact h3
  obtain ⟨r3, hone3, hinv3, hcr3, ht3, hsh3, _, _, _, _⟩ :=
    complete_one_step rxq_complete fuel r2 s2 ((L ++ C1) ++ C2) (C3 :: Cs1) Cs1 C3 hinv2
      (List.Perm.refl _) hid3 hf3 _ _ _ hcall3
  refine ⟨r1, s1, r2, s2, r3, s3, hone1, hone2, hone3, ?_, hinv1.free, hinv2.free, hinv3.free,
    hcr1, hv1, hr1, by rw [hcr2, hcr1], hv2, hr2, by rw [hcr3, hg2, hcr2, hcr1],
    ⟨p, by rw [hv3, hv2], by rw [hp3, hg2]⟩, hr3⟩
  -- the loop of `do_complete` is these three rounds
  obtain ⟨n, rfl⟩ : ∃ n, fuel = n + 4 := ⟨fuel - 4, by omega⟩
  have e0 : r._used._shared._idx ≠ r._used._tail := by rw [hidx]; omega
  have e1 : r._used._shared._idx ≠ r1._used._tail := by rw [hidx, ht1]; omega
  have e2 : r._used._shared._idx ≠ r2._used._tail := by rw [hidx, ht2, ht1]; omega
  have e3 : r._used._shared._idx = r3._used._tail := by rw [hidx, ht3, ht2, ht1]; omega
  have hcount : (((r._used._tail : Int) - (r._used._shared._idx : Int)) != 0) = true := by
    simp only [bne_iff_ne, ne_eq]
    omega
  unfold vring.do_complete
  simp only [hs0, hcount]
  simp only [vring.complete_loop, if_pos e0, hone1, if_pos e1, hone2, if_pos e2, hone3]
  rw [if_neg (not_not.mpr e3)]

theorem demo_rx_fill_ok :
    demo_rxq.prepare_buffers (fun i => 4096 * (i + 1)) = .ok demo_rxq_filled := rfl

theorem demo_rx_inv :
    vring.inv ({ demo_rxq_filled._ring with _used._shared := demo_rx_used } : vring single_buffer)
      [] [[0], [1], [2], [3]] := by
  have hc : demo_rxq._ring.inv (List.range 4) [] :=
    create_inv { size := 4, mergable_buffers := true } (fun _ => ({} : single_buffer))
      (fun _ => {}) {} {} 0 0 (by norm_num) (by norm_num)
  have h0 : vring.inv
      ({ demo_rxq._ring with _available_descriptors := 0 } : vring single_buffer)
      (List.range 4) [] := inv_congr hc rfl rfl rfl rfl
  have hne : ∀ bc ∈ (List.range 4).map (fun i => rxq.make_buffer_chain (4096 * (i + 1))),
      single_buffer.buffers bc ≠ [] := by
    intro bc _; simp [single_buffer.buffers]
  have htot : (((List.range 4).map (fun i => rxq.make_buffer_chain (4096 * (i + 1)))).map
      (fun bc => (single_buffer.buffers bc).length)).sum ≤ (List.range 4).length := by
    decide
  obtain ⟨r2, hpost, _, _, _, _, hinv⟩ :=
    post_spec_host single_buffer.buffers
      ((List.range 4).map (fun i => rxq.make_buffer_chain (4096 * (i + 1))))
      ({ demo_rxq._ring with _available_descriptors := 0 } : vring single_buffer)
      (List.range 4) [] h0 hne htot (by decide) (by decide)
  have hr2 : r2 = demo_rxq_filled._ring :=
    Except.ok.inj (hpost.symm.trans (rfl : _ = Except.ok demo_rxq_filled._ring))
  rw [hr2] at hinv
  exact inv_congr (hinv demo_rx_used demo_rxq_filled._ring._avail_event) rfl rfl rfl rfl

/-- C20, counterexample: a receive ring of four descriptors, all four posted
by `prepare_buffers` (free list empty, no credits), and a first buffer whose
header reports three buffers.  After the first round of the loop of
`do_complete` over the three returned buffers, and likewise after a whole
`do_complete` at the moment the host has returned the first buffer only,
descriptor 0 is back on the free list, while reassembly has two buffers to
go and no packet has been delivered. -/
theorem C20_counterexample :
    demo_rxq.prepare_buffers (fun i => 4096 * (i + 1)) = .ok demo_rxq_filled ∧
    demo_rxq_filled._ring.free_list = some [] ∧
    (demo_rxq_filled.st.mem (demo_rxq_filled._ring._buffer_chains 0).elem.buf).num_buffers = 3 ∧
    vring.complete_one rxq_complete 8
        { demo_rxq_filled._ring with _used._shared := demo_rx_used }
        (rxq_complete.bunch demo_rxq_filled.st 18446744073709551613) = .ok demo_rx_step ∧
    demo_rx_step.1.free_list = some [0] ∧
    demo_rx_step.2._remaining_buffers = 2 ∧ demo_rx_step.2.received = [] ∧
    vring.do_complete rxq_complete 8
        { demo_rxq_filled._ring with _used._shared := { demo_rx_used with _idx := 1 } }
        demo_rxq_filled.st = .ok demo_rx_polled_first ∧
    demo_rx_polled_first.2.1.free_list = some [0] ∧
    demo_rx_polled_first.2.2._remaining_buffers = 2 ∧
    demo_rx_polled_first.2.2.received = [] :=
  ⟨rfl, by decide, by decide, rfl, by decide, by decide, by decide, rfl, by decide, by decide,
    by decide⟩

/-- C20, instance: the filled receive ring of four descriptors and the three
returned buffers of `demo_rx_used`: no credit after the first round, three
after the call, with one packet of three fragments delivered. -/
theorem C20_witness :
    ∃ r1 s1 r3 s3,
      vring.complete_one rxq_complete 8
        { demo_rxq_filled._ring with _used._shared := demo_rx_used }
        (rxq_complete.bunch demo_rxq_filled.st 18446744073709551613) = .ok (r1, s1) ∧
      vring.do_complete rxq_complete 8
        { demo_rxq_filled._ring with _used._shared := demo_rx_used } demo_rxq_filled.st
        = .ok (true, r3, s3) ∧
      r1.free [0] ∧ r1._available_descriptors = 0 ∧ s1.received = [] ∧
      r3._available_descriptors = 3 ∧ ∃ p, s3.received = [p] ∧ p.nr_frags = 3 := by
  obtain ⟨r1, s1, r2, s2, r3, s3, hone1, _, _, hdo, hf1, _, _, hc1, hv1, _, _, _, _, hc3, hp, _⟩ :=
    C20_credits_held_until_reassembled
      ({ demo_rxq_filled._ring with _used._shared := demo_rx_used } : vring single_buffer)
      demo_rxq_filled.st 8 [] [[0], [1], [2], [3]] [[3]] [0] [1] [2] demo_rx_inv
      (List.Perm.refl _) (by decide) (by decide) (by decide) (by decide) rfl
      (by decide) (by decide) (by decide) (by decide) (by decide) (by decide) (by decide)
      (by decide)
  exact ⟨r1, s1, r3, s3, hone1, hdo, hf1, hc1, hv1, hc3, hp⟩

/-! ## Credits of a received packet -/

/-- The call of `complete_buffer` for the first buffer of a packet of more
than one buffer, whatever length the host reports: nothing is delivered and
no credit signalled. -/
theorem complete_buffer_first_any (s : rxq_state) (credits : Nat) (c : single_buffer × Nat)
    (h0 : s._remaining_buffers = 0) (hbuf : c.1.elem.buf ≠ 0)
    (hn : 1 < (s.mem c.1.elem.buf).num_buffers)
    (h32 : (s.mem c.1.elem.buf).num_buffers < 4294967296) :
    ∃ s1, rxq.complete_buffer s credits c.1 c.2
        = .ok (s1, credits, { elem := { c.1.elem with buf := 0 } }) ∧
      s1.received = s.received ∧
      s1._remaining_buffers = (s.mem c.1.elem.buf).num_buffers - 1 ∧
      s1._fragments.length = 1 := by
  have hge : (s.mem c.1.elem.buf).num_buffers ≥ 1 := by omega
  have hdec : ((s.mem c.1.elem.buf).num_buffers + 4294967295) % 4294967296
      = (s.mem c.1.elem.buf).num_buffers - 1 := by omega
  have hne2 : (s.mem c.1.elem.buf).num_buffers - 1 ≠ 0 := by omega
  simp only [rxq.complete_buffer, rxq.first_buffer, h0, if_true, if_neg hbuf, if_pos hge, hdec,
    if_neg hne2]
  exact ⟨_, rfl, rfl, rfl, rfl⟩

/-- The call of `complete_buffer` for the only buffer of a packet, whatever
length the host reports: the packet is delivered and one credit signalled. -/
theorem complete_buffer_only_any (s : rxq_state) (credits : Nat) (c : single_buffer × Nat)
    (h0 : s._remaining_buffers = 0) (hbuf : c.1.elem.buf ≠ 0)
    (hn : (s.mem c.1.elem.buf).num_buffers = 1) :
    ∃ s1 p, rxq.complete_buffer s credits c.1 c.2
        = .ok (s1, credits + 1, { elem := { c.1.elem with buf := 0 } }) ∧
      s1.received = s.received ++ [p] ∧ p.nr_frags = 1 ∧ s1._remaining_buffers = 0 := by
  have hge : (s.mem c.1.elem.buf).num_buffers ≥ 1 := by omega
  have hdec : ((s.mem c.1.elem.buf).num_buffers + 4294967295) % 4294967296 = 0 := by omega
  simp only [rxq.complete_buffer, rxq.first_buffer, h0, if_true, if_neg hbuf, if_pos hge, hdec,
    List.nil_append, List.length_singleton]
  exact ⟨_, _, rfl, rfl, rfl, rfl⟩

/-- The first part of `complete_buffer` delivers nothing. -/
theorem first_buffer_received (s : rxq_state) (buf len : Nat) (s0 : rxq_state)
    (frag_buf frag_len : Nat) (hf : rxq.first_buffer s buf len = .ok (s0, frag_buf, frag_len)) :
    s0.received = s.received := by
  unfold rxq.first_buffer at hf
  by_cases a : s._remaining_buffers = 0
  · by_cases b : buf = 0
    · simp only [a, b, if_true] at hf
      cases hf
    · by_cases c : (s.mem buf).num_buffers ≥ 1
      · simp only [a, if_true, if_neg b, if_pos c, Except.ok.injEq, Prod.mk.injEq] at hf
        rw [← hf.1]
      · simp only [a, if_true, if_neg b, if_neg c] at hf
        cases hf
  · simp only [if_neg a, Except.ok.injEq, Prod.mk.injEq] at hf
    rw [← hf.1]

/-- A call of `complete_buffer` that returns either leaves the credits and
the delivered packets as they were, or delivers one packet and signals as
many credits as the packet has fragments. -/
theorem complete_buffer_credits (s : rxq_state) (credits : Nat) (bc : single_buffer) (len : Nat)
    (s1 : rxq_state) (credits1 : Nat) (left : single_buffer)
    (h : rxq.complete_buffer s credits bc len = .ok (s1, credits1, left)) :
    (credits1 = credits ∧ s1.received = s.received ∧ s1._remaining_buffers ≠ 0) ∨
    (∃ p, s1.received = s.received ++ [p] ∧ credits1 = credits + p.nr_frags ∧
      s1._remaining_buffers = 0) := by
  cases hf : rxq.first_buffer s bc.elem.buf len with
  | error f => simp only [rxq.complete_buffer, hf] at h; cases h
  | ok x =>
    obtain ⟨s0, frag_buf, frag_len⟩ := x
    simp only [rxq.complete_buffer, hf] at h
    have hrec : s0.received = s.received := first_buffer_received s _ _ _ _ _ hf
    split_ifs at h with hz
    · simp only [Except.ok.injEq, Prod.mk.injEq] at h
      obtain ⟨h1, h2, _⟩ := h
      right
      refine ⟨{ fragments := s0._fragments ++ [{ base := frag_buf, size := frag_len }] }, ?_, ?_, ?_⟩
      · rw [← h1, ← hrec]
      · rw [← h2]; rfl
      · rw [← h1]; exact hz
    · simp only [Except.ok.injEq, Prod.mk.injEq] at h
      obtain ⟨h1, h2, _⟩ := h
      left
      refine ⟨h2.symm, ?_, ?_⟩
      · rw [← h1, ← hrec]
      · rw [← h1]; exact hz

theorem first_buffer_events (s : rxq_state) (buf len : Nat) (s0 : rxq_state)
    (frag_buf frag_len : Nat) (hf : rxq.first_buffer s buf len = .ok (s0, frag_buf, frag_len)) :
    s0.events = s.events := by
  unfold rxq.first_buffer at hf
  by_cases a : s._remaining_buffers = 0
  · by_cases b : buf = 0
    · simp only [a, b, if_true] at hf
      cases hf
    · by_cases c : (s.mem buf).num_buffers ≥ 1
      · simp only [a, if_true, if_neg b, if_pos c, Except.ok.injEq, Prod.mk.injEq] at hf
        rw [← hf.1]
      · simp only [a, if_true, if_neg b, if_neg c] at hf
        cases hf
  · simp only [if_neg a, Except.ok.injEq, Prod.mk.injEq] at hf
    rw [← hf.1]

/-- What a call of `complete_buffer` that returns has done: nothing towards
the device and the semaphore, or one `l2receive` of a packet followed by one
`signal` of as many credits as the packet has fragments. -/
theorem complete_buffer_events (s : rxq_state) (credits : Nat) (bc : single_buffer) (len : Nat)
    (s1 : rxq_state) (credits1 : Nat) (left : single_buffer)
    (h : rxq.complete_buffer s credits bc len = .ok (s1, credits1, left)) :
    (credits1 = credits ∧ s1.received = s.received ∧ s1._remaining_buffers ≠ 0 ∧
      s1.events = s.events) ∨
    (∃ p, s1.received = s.received ++ [p] ∧ credits1 = credits + p.nr_frags ∧
      s1._remaining_buffers = 0 ∧
      s1.events = s.events ++ [.l2receive p, .signal p.nr_frags]) := by
  cases hf : rxq.first_buffer s bc.elem.buf len with
  | error f => simp only [rxq.complete_buffer, hf] at h; cases h
  | ok x =>
    obtain ⟨s0, frag_buf, frag_len⟩ := x
    simp only [rxq.complete_buffer, hf] at h
    have hrec : s0.received = s.received := first_buffer_received s _ _ _ _ _ hf
    have hev : s0.events = s.events := first_buffer_events s _ _ _ _ _ hf
    split_ifs at h with hz
    · simp only [Except.ok.injEq, Prod.mk.injEq] at h
      obtain ⟨h1, h2, _⟩ := h
      right
      refine ⟨{ fragments := s0._fragments ++ [{ base := frag_buf, size := frag_len }] },
        ?_, ?_, ?_, ?_⟩
      · rw [← h1, ← hrec]
      · rw [← h2]; rfl
      · rw [← h1]; exact hz
      · rw [← h1, ← hev]; rfl
    · simp only [Except.ok.injEq, Prod.mk.injEq] at h
      obtain ⟨h1, h2, _⟩ := h
      left
      refine ⟨h2.symm, ?_, ?_, ?_⟩
      · rw [← h1, ← hrec]
      · rw [← h1]; exact hz
      · rw [← h1, ← hev]

/-- The calls of `l2receive` and `signal` a run of calls of `complete_buffer`
adds: for each packet delivered, in order, the `l2receive` of the packet and
then the `signal` of its fragment count. -/
theorem run_calls_events : ∀ (calls : List (single_buffer × Nat)) (s : rxq_state) (credits : Nat)
    (s1 : rxq_state) (credits1 : Nat),
    run_calls rxq_complete calls s credits = .ok (s1, credits1) →
    ∃ ps : List packet, s1.received = s.received ++ ps ∧
      s1.events = s.events ++ ps.flatMap (fun p => [.l2receive p, .signal p.nr_frags]) := by
  intro calls
  induction calls with
  | nil =>
    intro s credits s1 credits1 h
    simp only [run_calls, Except.ok.injEq, Prod.mk.injEq] at h
    exact ⟨[], by rw [← h.1]; simp, by rw [← h.1]; simp⟩
  | cons c calls ih =>
    intro s credits s1 credits1 h
    obtain ⟨bc, len⟩ := c
    simp only [run_calls] at h
    cases hc : rxq_complete.call s credits bc len with
    | error f => rw [hc] at h; cases h
    | ok x =>
      obtain ⟨s2, credits2, left⟩ := x
      rw [hc] at h
      obtain ⟨ps, hps, hev⟩ := ih s2 credits2 s1 credits1 h
      rcases complete_buffer_events s credits bc len s2 credits2 left hc with
        ⟨_, hr, _, he⟩ | ⟨p, hr, _, _, he⟩
      · exact ⟨ps, by rw [hps, hr], by rw [hev, he]⟩
      · refine ⟨p :: ps, by rw [hps, hr]; simp, ?_⟩
        rw [hev, he]
        simp

/-- C21: for a packet of `n` buffers (`n = rest.length + 1`, the count the
header of the first buffer reports), whatever lengths the host reports, the
calls of `complete_buffer` for the first `n - 1` buffers leave the count of
the semaphore as it was, deliver nothing and make no `signal`, and the call
for the `n`-th delivers the packet and leaves the count raised by exactly
`n`, having called `l2receive` with the packet first and then `signal(n)`,
once each; and any call of `complete_buffer` that returns either calls
neither or calls `l2receive` and after it `signal` with the fragment count
of the packet delivered. -/
theorem C21_credits_signalled_once (s : rxq_state) (credits : Nat) (c1 : single_buffer × Nat)
    (rest : List (single_buffer × Nat))
    (h0 : s._remaining_buffers = 0) (hbuf : c1.1.elem.buf ≠ 0)
    (hn : (s.mem c1.1.elem.buf).num_buffers = rest.length + 1)
    (hn16 : rest.length + 1 < 65536) :
    (∀ j, j < rest.length + 1 →
      ∃ s1, run_calls rxq_complete ((c1 :: rest).take j) s credits = .ok (s1, credits) ∧
        s1.received = s.received ∧ s1.events = s.events) ∧
    (∃ s1 p,
      run_calls rxq_complete (c1 :: rest) s credits = .ok (s1, credits + (rest.length + 1)) ∧
      s1.received = s.received ++ [p] ∧ p.nr_frags = rest.length + 1 ∧
      s1._remaining_buffers = 0 ∧
      s1.events = s.events ++ [.l2receive p, .signal (rest.length + 1)]) ∧
    (∀ (s0 : rxq_state) (cr : Nat) (bc : single_buffer) (len : Nat) (s1 : rxq_state) (cr1 : Nat)
        (left : single_buffer),
      rxq_complete.call s0 cr bc len = .ok (s1, cr1, left) →
      (cr1 = cr ∧ s1.received = s0.received ∧ s1._remaining_buffers ≠ 0 ∧
        s1.events = s0.events) ∨
      (∃ p, s1.received = s0.received ++ [p] ∧ cr1 = cr + p.nr_frags ∧
        s1._remaining_buffers = 0 ∧
        s1.events = s0.events ++ [.l2receive p, .signal p.nr_frags])) := by
  have hsame : ∀ (calls : List (single_buffer × Nat)) (s1 : rxq_state) (cr1 : Nat),
      run_calls rxq_complete calls s credits = .ok (s1, cr1) → s1.received = s.received →
      s1.events = s.events := by
    intro calls s1 cr1 hrun hrec
    obtain ⟨ps, hps, hev⟩ := run_calls_events calls s credits s1 cr1 hrun
    have : ps = [] := by
      rw [hrec] at hps
      exact (List.self_eq_append_right.mp hps)
    rw [hev, this]; simp
  have hone : ∀ (calls : List (single_buffer × Nat)) (s1 : rxq_state) (cr1 : Nat) (p : packet),
      run_calls rxq_complete calls s credits = .ok (s1, cr1) → s1.received = s.received ++ [p] →
      s1.events = s.events ++ [.l2receive p, .signal p.nr_frags] := by
    intro calls s1 cr1 p hrun hrec
    obtain ⟨ps, hps, hev⟩ := run_calls_events calls s credits s1 cr1 hrun
    have : ps = [p] := by
      rw [hrec] at hps
      exact (List.append_cancel_left hps).symm
    rw [hev, this]; simp
  refine ⟨?_, ?_, fun s0 cr bc len s1 cr1 left h =>
    complete_buffer_events s0 cr bc len s1 cr1 left h⟩
  · intro j hj
    cases j with
    | zero => exact ⟨s, rfl, rfl, rfl⟩
    | succ j =>
      have hr : rest ≠ [] := by
        intro h; rw [h] at hj; simp at hj
      obtain ⟨s1, hstep, hrec1, hrem1, _⟩ := complete_buffer_first_any s credits c1 h0 hbuf
        (by rw [hn]; have := List.length_pos.mpr hr; omega) (by omega)
      have hcall : rxq_complete.call s credits c1.1 c1.2 = _ := hstep
      obtain ⟨h1, _⟩ := run_calls_rest rest s1 credits hr (by rw [hrem1, hn]; omega) (by omega)
      obtain ⟨s2, hs2, hrec2, _⟩ := h1 j (by omega)
      have hrun : run_calls rxq_complete ((c1 :: rest).take (j + 1)) s credits
          = .ok (s2, credits) := by
        simp only [List.take_succ_cons, run_calls, hcall]
        exact hs2
      exact ⟨s2, hrun, hrec2.trans hrec1, hsame _ s2 credits hrun (hrec2.trans hrec1)⟩
  · by_cases hr : rest = []
    · subst hr
      obtain ⟨s1, p, hstep, hrec, hp, hz⟩ :=
        complete_buffer_only_any s credits c1 h0 hbuf (by simpa using hn)
      have hcall : rxq_complete.call s credits c1.1 c1.2 = _ := hstep
      have hrun : run_calls rxq_complete [c1] s credits = .ok (s1, credits + 1) := by
        simp only [run_calls, hcall]
      have hev := hone _ s1 _ p hrun hrec
      rw [hp] at hev
      exact ⟨s1, p, hrun, hrec, by simpa using hp, hz, hev⟩
    · obtain ⟨s1, hstep, hrec1, hrem1, hfr1⟩ := complete_buffer_first_any s credits c1 h0 hbuf
        (by rw [hn]; have := List.length_pos.mpr hr; omega) (by omega)
      have hcall : rxq_complete.call s credits c1.1 c1.2 = _ := hstep
      obtain ⟨_, s2, h2, hrec2, hz⟩ :=
        run_calls_rest rest s1 credits hr (by rw [hrem1, hn]; omega) (by omega)
      have hrun : run_calls rxq_complete (c1 :: rest) s credits
          = .ok (s2, credits + (rest.length + 1)) := by
        simp only [run_calls, hcall]
        rw [h2, hfr1]
        congr 2
        omega
      have hfr : ({ fragments := s1._fragments ++ rest.map rx_fragment } : packet).nr_frags
          = rest.length + 1 := by
        simp only [packet.nr_frags, List.length_append, hfr1, List.length_map]
        omega
      have hrec : s2.received = s.received
          ++ [{ fragments := s1._fragments ++ rest.map rx_fragment }] := by rw [hrec2, hrec1]
      have hev := hone _ s2 _ _ hrun hrec
      rw [hfr] at hev
      exact ⟨s2, _, hrun, hrec, hfr, hz, hev⟩

/-- C21, instance: the three buffers of the demo receive queue: no credit
after two calls, three after the third, signalled after the delivery. -/
theorem C21_witness :
    (∃ s2, run_calls rxq_complete
        [(demo_rx_buffer 4096, 4096), (demo_rx_buffer 8192, 4096)] demo_rx_state 0
        = .ok (s2, 0) ∧ s2.received = [] ∧ s2.events = []) ∧
    ∃ s3 p, run_calls rxq_complete
        [(demo_rx_buffer 4096, 4096), (demo_rx_buffer 8192, 4096), (demo_rx_buffer 12288, 808)]
        demo_rx_state 0 = .ok (s3, 3) ∧ s3.received = [p] ∧ p.nr_frags = 3 ∧
      s3.events = [.l2receive p, .signal 3] := by
  obtain ⟨h1, ⟨s3, p, hrun, hrec, hfr, _, hev⟩, _⟩ :=
    C21_credits_signalled_once demo_rx_state 0 (demo_rx_buffer 4096, 4096)
      [(demo_rx_buffer 8192, 4096), (demo_rx_buffer 12288, 808)] rfl (by decide) rfl
      (by norm_num)
  exact ⟨h1 2 (by decide), s3, p, hrun, hrec, hfr, hev⟩

/-! ## A first buffer that reports no buffers -/

/-- C22: when no packet is under way and the header of the (non-null) buffer
handed to `complete_buffer` reports `num_buffers = 0`, the call ends at the
`assert` and returns nothing: there is no state with a fragment appended, a
counter decremented or a credit signalled; the same holds for the run of
calls that starts with this buffer and for the `do_complete` that finds the
buffer at the tail of the used ring. -/
theorem C22_zero_buffers_rejected (s : rxq_state) (credits : Nat) (bc : single_buffer) (len : Nat)
    (h0 : s._remaining_buffers = 0) (hbuf : bc.elem.buf ≠ 0)
    (hn : (s.mem bc.elem.buf).num_buffers = 0) :
    rxq.complete_buffer s credits bc len = .error .assertion ∧
    (∀ rest, run_calls rxq_complete ((bc, len) :: rest) s credits = .error .assertion) ∧
    (∀ (r : vring single_buffer) (fuel : Nat),
      r._used._shared._idx ≠ r._used._tail →
      (r._used._shared._used_elements (r.masked r._used._tail))._id < r.size →
      r._buffer_chains (r._used._shared._used_elements (r.masked r._used._tail))._id = bc →
      r.do_complete rxq_complete (fuel + 1) s = .error .assertion) := by
  have hcb : ∀ (s0 : rxq_state) (cr l : Nat), s0._remaining_buffers = 0 → s0.mem = s.mem →
      rxq.complete_buffer s0 cr bc l = .error .assertion := by
    intro s0 cr l hs0 hm
    have hlt : ¬ (s.mem bc.elem.buf).num_buffers ≥ 1 := by omega
    simp only [rxq.complete_buffer, rxq.first_buffer, hs0, if_true, if_neg hbuf, hm, if_neg hlt]
  refine ⟨hcb s credits len h0 rfl, ?_, ?_⟩
  · intro rest
    have hcall : rxq_complete.call s credits bc len = .error .assertion := hcb s credits len h0 rfl
    simp only [run_calls, hcall]
  · intro r fuel hne hid hbc
    have hone := complete_one_error rxq_complete (fuel + 1) r
      (rxq_complete.bunch s ((((r._used._tail : Int) - (r._used._shared._idx : Int))
        % 18446744073709551616).toNat)) _ rfl hid .assertion
      (by rw [hbc]; exact hcb _ _ _ h0 rfl)
    unfold vring.do_complete
    simp only [vring.complete_loop, if_pos hne, hone]

/-- C22, instance: the demo receive queue and a buffer at address 8192,
where no header has been written. -/
theorem C22_witness :
    rxq.complete_buffer demo_rx_state 0 (demo_rx_buffer 8192) 4096 = .error .assertion :=
  (C22_zero_buffers_rejected demo_rx_state 0 (demo_rx_buffer 8192) 4096 rfl (by decide) rfl).1

/-! ## Refill of the receive ring -/

theorem split_by_ones : ∀ (c : Nat) (L : List Nat), c ≤ L.length →
    split_by (List.replicate c 1) L = (L.take c).map (fun a => [a]) := by
  intro c
  induction c with
  | zero => intro L _; simp [split_by]
  | succ c ih =>
    intro L hL
    cases L with
    | nil => simp at hL
    | cons a L =>
      simp only [List.replicate_succ, split_by, List.take_succ_cons, List.take_zero,
        List.drop_succ_cons, List.drop_zero, List.map_cons]
      rw [ih L (by simpa using hL)]

/-- C23: the continuation of `prepare_buffers` on a receive queue with
`c >= 1` credits, no more than its ring has free descriptors, returns; it
leaves no credit, and it has posted exactly `c` chains: the published index
has advanced by `c`, the `c` slots from the old head hold the first `c`
descriptors of the free list, which have left the list, and the `i`-th of
them is a chain of its own (no `has_next`) that shows the host a buffer of
4096 bytes at the `i`-th allocated address with `writeable` set, and under
which the `i`-th buffer chain is stored. -/
theorem C23_refill_takes_all_credits (q : rxq) (malloc : Nat → Nat) (L0 : List Nat)
    (Cs : List (List Nat)) (hinv : q._ring.inv L0 Cs)
    (hc1 : 1 ≤ q._ring._available_descriptors)
    (hcred : q._ring._available_descriptors ≤ L0.length)
    (hh : q._ring._avail._head < 65536) (ha : q._ring._avail._avail_added_since_kick < 65536) :
    ∃ q1, q.prepare_buffers malloc = .ok q1 ∧
      q1._ring._available_descriptors = 0 ∧ q1.st = q.st ∧
      q1._ring._avail._shared._idx
        = (q._ring._avail._head + q._ring._available_descriptors) % 65536 ∧
      q1._ring._avail._shared._ring
        = write_ring q._ring._avail._shared._ring q._ring.mask q._ring._avail._head
            (L0.take q._ring._available_descriptors) ∧
      q1._ring.free (L0.drop q._ring._available_descriptors) ∧
      List.Forall₂ (fun a i =>
          q1._ring._buffer_chains a = rxq.make_buffer_chain (malloc i) ∧
          (q1._ring._descs a).to_buffer
            = { addr := virt_to_phys (malloc i), len := 4096, writeable := true } ∧
          (q1._ring._descs a)._flags.has_next = false)
        (L0.take q._ring._available_descriptors) (List.range q._ring._available_descriptors) := by
  generalize hc : q._ring._available_descriptors = c at hc1 hcred ⊢
  have hL65 : L0.length ≤ 65536 :=
    length_le_of_nodup_lt hinv.free.nodup (fun x hx => (hinv.free.bound x hx).2)
  have hcount : (1 + (c - 1)) % 4294967296 = c := by omega
  have hinv0 : vring.inv ({ q._ring with _available_descriptors := 0 } : vring single_buffer)
      L0 Cs := inv_congr hinv rfl rfl rfl rfl
  have hlens : ((List.range c).map (fun i => rxq.make_buffer_chain (malloc i))).map
      (fun bc => (single_buffer.buffers bc).length) = List.replicate c 1 := by
    rw [List.map_map]
    have : ((fun bc => (single_buffer.buffers bc).length) ∘
        fun i => rxq.make_buffer_chain (malloc i)) = fun _ => 1 := rfl
    rw [this, List.map_const', List.length_range]
  have hsum : (List.replicate c 1).sum = c := by simp
  obtain ⟨r1, _, hpost, hfr, hinv1, hF, _, hring, hhead, _⟩ :=
    post_spec single_buffer.buffers ((List.range c).map (fun i => rxq.make_buffer_chain (malloc i)))
      ({ q._ring with _available_descriptors := 0 } : vring single_buffer) L0 Cs hinv0
      (by intro bc _; simp [single_buffer.buffers])
      (by rw [hlens, hsum]; exact hcred) hh ha
  rw [hlens, split_by_ones c L0 hcred] at hF hinv1 hring
  rw [hsum] at hinv1
  obtain ⟨kc, kd, kh, kl, kb, _, ks, _, kcr, _⟩ := kick_frame r1.publish
  refine ⟨{ q with _ring := r1.publish.kick }, ?_, ?_, rfl, ?_, ?_, ?_, ?_⟩
  · unfold rxq.prepare_buffers
    have hnot : ¬ c < 1 := by omega
    simp only [hc, if_neg hnot, le_refl, if_true, hcount, Nat.sub_self]
    rw [hpost]
  · simp only [kcr]
    exact hfr.credits
  · simp only [ks]
    simp only [vring.publish, hhead, List.length_map, List.length_range]
  · simp only [ks]
    simp only [vring.publish, hring, List.map_map]
    have : (List.headI ∘ fun a : Nat => [a]) = id := rfl
    rw [this, List.map_id]
    rfl
  · exact free_congr hinv1.free kc kh kl (fun _ _ => by rw [kd]; rfl)
  · rw [List.forall₂_map_left_iff, List.forall₂_map_right_iff] at hF
    refine (forall2_mem hF).imp ?_
    rintro a i ⟨ha, _, _, hbc, hbuf, _⟩
    simp only [kb, kd]
    refine ⟨hbc, ?_, ?_⟩
    · simp only [List.map_cons, List.map_nil, single_buffer.buffers, rxq.make_buffer_chain,
        List.cons.injEq, and_true] at hbuf
      exact hbuf
    · have hmem : [a] ∈ Cs ++ (L0.take c).map (fun a => [a]) :=
        List.mem_append_right _ (List.mem_map.mpr ⟨a, ha, rfl⟩)
      exact ((is_chain_single _ _ _).1 (hinv1.chains [a] hmem)).2

/-- C23, instance: the fresh receive queue over four descriptors, with four
credits: none is left, four chains are published and the free list is
empty. -/
theorem C23_witness :
    demo_rxq_filled._ring._available_descriptors = 0 ∧
    demo_rxq_filled._ring._avail._shared._idx = 4 ∧
    demo_rxq_filled._ring.free [] := by
  obtain ⟨q1, hq, h0, _, hidx, _, hfree, _⟩ :=
    C23_refill_takes_all_credits demo_rxq (fun i => 4096 * (i + 1)) (List.range 4) []
      (create_inv { size := 4, mergable_buffers := true } (fun _ => ({} : single_buffer))
        (fun _ => {}) {} {} 0 0 (by norm_num) (by norm_num))
      (by decide) (by decide) (by decide) (by decide)
  have e : q1 = demo_rxq_filled := Except.ok.inj (hq.symm.trans demo_rx_fill_ok)
  subst e
  exact ⟨h0, hidx, hfree⟩

/-! ## The feature mask of the driver -/

theorem and_two_pow_ne_zero (m p : Nat) : m &&& 2 ^ p ≠ 0 ↔ m.testBit p = true := by
  rw [Nat.and_two_pow]
  cases h : m.testBit p
  · simp
  · simp

/-- Bit `p` of the mask `setup_features` returns, for every bit `p` below
63. -/
theorem supported_testBit_eq (F : feature_bits) (ev cs tso lro ufo : Bool) (p : Nat)
    (hp : p < 63) :
    (device.supported F ev cs tso lro ufo).testBit p =
      (decide (F.ring_indirect_desc = p) || decide (F.net_mrg_rxbuf = p) ||
        (!ev && decide (F.ring_event_idx = p)) ||
        (!cs && (decide (F.net_csum = p) || decide (F.net_guest_csum = p))) ||
        (!tso && decide (F.net_host_tso4 = p)) ||
        (!lro && decide (F.net_guest_tso4 = p)) ||
        (!ufo && (decide (F.net_host_ufo = p) || decide (F.net_guest_ufo = p))) ||
        decide (F.net_mac = p)) := by
  have hm : ∀ x, (x % 18446744073709551616).testBit p = x.testBit p := by
    intro x
    have := Nat.testBit_mod_two_pow x 64 p
    rw [show (2 : Nat) ^ 64 = 18446744073709551616 from rfl] at this
    rw [this]
    have : p < 64 := by omega
    simp [this]
  simp only [device.supported, feature_bits.VIRTIO_RING_F_INDIRECT_DESC,
    feature_bits.VIRTIO_RING_F_EVENT_IDX, feature_bits.VIRTIO_NET_F_CSUM,
    feature_bits.VIRTIO_NET_F_GUEST_CSUM, feature_bits.VIRTIO_NET_F_MAC,
    feature_bits.VIRTIO_NET_F_GUEST_TSO4, feature_bits.VIRTIO_NET_F_GUEST_UFO,
    feature_bits.VIRTIO_NET_F_HOST_TSO4, feature_bits.VIRTIO_NET_F_HOST_UFO,
    feature_bits.VIRTIO_NET_F_MRG_RXBUF, hm]
  cases ev <;> cases cs <;> cases tso <;> cases lro <;> cases ufo <;>
    simp only [Bool.not_false, Bool.not_true, if_true, if_false, Nat.testBit_or,
      Nat.testBit_two_pow, Bool.true_and, Bool.false_and, Bool.or_false, Bool.or_assoc,
      Bool.false_eq_true]

/-- The bits of the mask `setup_features` returns, when the feature macros
are different bits. -/
theorem supported_testBit (F : feature_bits) (hF : F.distinct) (ev cs tso lro ufo : Bool) :
    (device.supported F ev cs tso lro ufo).testBit F.ring_indirect_desc = true ∧
    (device.supported F ev cs tso lro ufo).testBit F.net_mrg_rxbuf = true ∧
    (device.supported F ev cs tso lro ufo).testBit F.net_mac = true ∧
    (device.supported F ev cs tso lro ufo).testBit F.ring_event_idx = !ev ∧
    (device.supported F ev cs tso lro ufo).testBit F.net_csum = !cs ∧
    (device.supported F ev cs tso lro ufo).testBit F.net_guest_csum = !cs ∧
    (device.supported F ev cs tso lro ufo).testBit F.net_host_tso4 = !tso ∧
    (device.supported F ev cs tso lro ufo).testBit F.net_guest_tso4 = !lro ∧
    (device.supported F ev cs tso lro ufo).testBit F.net_host_ufo = !ufo ∧
    (device.supported F ev cs tso lro ufo).testBit F.net_guest_ufo = !ufo := by
  obtain ⟨hnd, hlt⟩ := hF
  simp only [List.nodup_cons, List.mem_cons, List.mem_singleton, not_or, List.not_mem_nil,
    not_false_eq_true, List.nodup_nil, and_true, forall_eq_or_imp, forall_eq,
    List.forall_mem_ne, ne_eq, imp_false] at hnd hlt
  obtain ⟨l1, l2, l3, l4, l5, l6, l7, l8, l9, l10, _⟩ := hlt
  obtain ⟨⟨h01, h02, h03, h04, h05, h06, h07, h08, h09⟩,
    ⟨h12, h13, h14, h15, h16, h17, h18, h19⟩,
    ⟨h23, h24, h25, h26, h27, h28, h29⟩,
    ⟨h34, h35, h36, h37, h38, h39⟩,
    ⟨h45, h46, h47, h48, h49⟩,
    ⟨h56, h57, h58, h59⟩,
    ⟨h67, h68, h69⟩,
    ⟨h78, h79⟩,
    h89⟩ := hnd
  rw [supported_testBit_eq F ev cs tso lro ufo _ l1, supported_testBit_eq F ev cs tso lro ufo _ l2,
    supported_testBit_eq F ev cs tso lro ufo _ l3, supported_testBit_eq F ev cs tso lro ufo _ l4,
    supported_testBit_eq F ev cs tso lro ufo _ l5, supported_testBit_eq F ev cs tso lro ufo _ l6,
    supported_testBit_eq F ev cs tso lro ufo _ l7, supported_testBit_eq F ev cs tso lro ufo _ l8,
    supported_testBit_eq F ev cs tso lro ufo _ l9, supported_testBit_eq F ev cs tso lro ufo _ l10]
  simp only [h01, h02, h03, h04, h05, h06, h07, h08, h09, h12, h13, h14, h15, h16, h17, h18, h19, h23,
    h24, h25, h26, h27, h28, h29, h34, h35, h36, h37, h38, h39, h45, h46, h47, h48, h49, h56,
    h57, h58, h59, h67, h68, h69, h78, h79, h89,
    Ne.symm h01, Ne.symm h02, Ne.symm h03, Ne.symm h04, Ne.symm h05, Ne.symm h06, Ne.symm h07,
    Ne.symm h08, Ne.symm h09, Ne.symm h12, Ne.symm h13, Ne.symm h14, Ne.symm h15, Ne.symm h16,
    Ne.symm h17, Ne.symm h18, Ne.symm h19, Ne.symm h23, Ne.symm h24, Ne.symm h25, Ne.symm h26,
    Ne.symm h27, Ne.symm h28, Ne.symm h29, Ne.symm h34, Ne.symm h35, Ne.symm h36, Ne.symm h37,
    Ne.symm h38, Ne.symm h39, Ne.symm h45, Ne.symm h46, Ne.symm h47, Ne.symm h48, Ne.symm h49,
    Ne.symm h56, Ne.symm h57, Ne.symm h58, Ne.symm h59, Ne.symm h67, Ne.symm h68, Ne.symm h69,
    Ne.symm h78, Ne.symm h79, Ne.symm h89,
    decide_False, decide_True, eq_self_iff_true, Bool.or_false,
    Bool.false_or, Bool.and_false, Bool.and_true, Bool.or_true, Bool.true_or, Bool.or_self,
    and_self]

theorem option_off_eq (opts : variables_map) (name : String)
    (h : ∀ n, opts name ≠ some (.uns n)) :
    device.option_off opts name = .ok (opts.is_off name) := by
  unfold device.option_off variables_map.count variables_map.as_string variables_map.is_off
  cases hv : opts name with
  | none => simp
  | some v =>
    cases v with
    | uns n => exact absurd hv (h n)
    | str s =>
      by_cases hs : s = "off"
      · subst hs; simp
      · simp [hs]

/-- The result of `setup_features` when the five options it reads hold
strings where they are given. -/
theorem setup_features_eq (F : feature_bits) (opts : variables_map) (hw : hw_features)
    (hty : ∀ name ∈ ["event-index", "csum-offload", "tso", "lro", "ufo"],
      ∀ n, opts name ≠ some (.uns n)) :
    device.setup_features F opts hw = .ok
      (device.supported F (opts.is_off "event-index") (opts.is_off "csum-offload")
        (opts.is_off "tso") (opts.is_off "lro") (opts.is_off "ufo"),
       { hw with
         tx_csum_l4_offload := !opts.is_off "csum-offload"
         rx_csum_offload := !opts.is_off "csum-offload"
         tx_tso := !opts.is_off "tso"
         rx_lro := !opts.is_off "lro"
         tx_ufo := !opts.is_off "ufo" }) := by
  have h1 := option_off_eq opts "event-index" (hty _ (by simp))
  have h2 := option_off_eq opts "csum-offload" (hty _ (by simp))
  have h3 := option_off_eq opts "tso" (hty _ (by simp))
  have h4 := option_off_eq opts "lro" (hty _ (by simp))
  have h5 := option_off_eq opts "ufo" (hty _ (by simp))
  simp only [device.setup_features, h1, h2, h3, h4, h5, bind, Except.bind, device.supported]

/-- What a constructor of `qp_vhost` that returns has returned. -/
theorem qp_vhost_create_ok (F : feature_bits) (env : vhost_env) (dev : device)
    (opts : variables_map) (q : qp) (ops : List vhost_op)
    (h : qp_vhost.create F env dev opts = .ok (q, ops)) :
    ∃ size tap_device,
      config_ring_size opts = .ok size ∧ opts.as_string "tap-device" = .ok tap_device ∧
      q._dev = dev ∧ q._header_len = qp_vhost.header_len F env dev ∧
      q._txq = txq.create (qp.txq_config F dev.features env.txq_storage size) dev.hw_features
        (qp_vhost.header_len F env dev) ∧
      q._rxq = rxq.create (qp.rxq_config F dev.features env.rxq_storage size)
        { _header_len := qp_vhost.header_len F env dev } ∧
      ops = [ .open_vhost_net, .VHOST_GET_FEATURES,
              .VHOST_SET_FEATURES (qp_vhost.negotiated env dev), .open_tun,
              .TUNSETIFF tap_device tap_flags,
              .TUNSETOFFLOAD (qp_vhost.tap_offload dev.hw_features),
              .TUNSETVNETHDRSZ (qp_vhost.header_len F env dev) ]
          ++ qp_vhost.vhost_setup env (qp.rxq_config F dev.features env.rxq_storage size)
              (qp.txq_config F dev.features env.txq_storage size) := by
  unfold qp_vhost.create at h
  cases hs : config_ring_size opts with
  | error f => simp [hs, bind, Except.bind] at h
  | ok size =>
    cases ht : opts.as_string "tap-device" with
    | error f => simp [hs, ht, bind, Except.bind] at h
    | ok tap =>
      simp only [hs, ht, bind, Except.bind] at h
      have hhl : (if env.backend_features &&& dev.features &&& F.VIRTIO_NET_F_MRG_RXBUF ≠ 0
          then sizeof_net_hdr_mrg else sizeof_net_hdr) = qp_vhost.header_len F env dev := rfl
      rw [hhl] at h
      by_cases hlen : tap.utf8ByteSize + 1 ≤ IFNAMSIZ
      · rw [if_pos hlen] at h
        simp only [Except.ok.injEq, Prod.mk.injEq] at h
        obtain ⟨hq, hops⟩ := h
        refine ⟨size, tap, rfl, rfl, ?_, ?_, ?_, ?_, ?_⟩
        · rw [← hq]
        · rw [← hq]
        · rw [← hq]
        · rw [← hq]
        · rw [← hops]; rfl
      · rw [if_neg hlen] at h
        cases h

theorem not_is_off (opts : variables_map) (name : String) :
    (!opts.is_off name) = true ↔ opts name ≠ some (.str "off") := by
  simp [variables_map.is_off]

theorem demo_opts_typed :
    ∀ name ∈ ["event-index", "csum-offload", "tso", "lro", "ufo"],
      ∀ n, demo_opts name ≠ some (.uns n) := by
  intro name hn n
  simp only [List.mem_cons, List.mem_singleton, List.not_mem_nil, or_false] at hn
  rcases hn with rfl | rfl | rfl | rfl | rfl <;> simp [demo_opts]

/-- The device the constructor of `device` builds when the five options it
reads hold strings where they are given. -/
theorem device_create_eq (F : feature_bits) (opts : variables_map)
    (hty : ∀ name ∈ ["event-index", "csum-offload", "tso", "lro", "ufo"],
      ∀ n, opts name ≠ some (.uns n)) :
    device.create F opts = .ok
      { _opts := opts
        _hw_features :=
          { tx_csum_l4_offload := !opts.is_off "csum-offload"
            rx_csum_offload := !opts.is_off "csum-offload"
            tx_tso := !opts.is_off "tso"
            rx_lro := !opts.is_off "lro"
            tx_ufo := !opts.is_off "ufo" }
        _features := device.supported F (opts.is_off "event-index") (opts.is_off "csum-offload")
          (opts.is_off "tso") (opts.is_off "lro") (opts.is_off "ufo") } := by
  simp only [device.create, setup_features_eq F opts {} hty]

/-- C24: for every option map in which the five on/off options hold
strings where they are given, and feature macros that are ten distinct
bits, the constructor of `device` returns, the driver-supported mask
`features()` contains indirect descriptors, mergeable RX buffers and MAC
reporting, and contains event-index, CSUM and GUEST_CSUM, HOST_TSO4,
GUEST_TSO4, HOST_UFO and GUEST_UFO exactly when the option event-index,
csum-offload, tso, lro, ufo respectively is not "off" (absent counts as
on); the flags tx_csum_l4_offload, rx_csum_offload, tx_tso, rx_lro and
tx_ufo of `hw_features()` are true under the same conditions; and the one
`VHOST_SET_FEATURES` call of the constructor of `qp_vhost` sends the
bitwise AND of the backend mask with this mask. -/
theorem C24_supported_feature_mask (F : feature_bits) (hF : F.distinct) (opts : variables_map)
    (hty : ∀ name ∈ ["event-index", "csum-offload", "tso", "lro", "ufo"],
      ∀ n, opts name ≠ some (.uns n)) :
    ∃ dev, device.create F opts = .ok dev ∧
      dev.features &&& F.VIRTIO_RING_F_INDIRECT_DESC ≠ 0 ∧
      dev.features &&& F.VIRTIO_NET_F_MRG_RXBUF ≠ 0 ∧
      dev.features &&& F.VIRTIO_NET_F_MAC ≠ 0 ∧
      (dev.features &&& F.VIRTIO_RING_F_EVENT_IDX ≠ 0 ↔ opts "event-index" ≠ some (.str "off")) ∧
      (dev.features &&& F.VIRTIO_NET_F_CSUM ≠ 0 ↔ opts "csum-offload" ≠ some (.str "off")) ∧
      (dev.features &&& F.VIRTIO_NET_F_GUEST_CSUM ≠ 0 ↔
        opts "csum-offload" ≠ some (.str "off")) ∧
      (dev.features &&& F.VIRTIO_NET_F_HOST_TSO4 ≠ 0 ↔ opts "tso" ≠ some (.str "off")) ∧
      (dev.features &&& F.VIRTIO_NET_F_GUEST_TSO4 ≠ 0 ↔ opts "lro" ≠ some (.str "off")) ∧
      (dev.features &&& F.VIRTIO_NET_F_HOST_UFO ≠ 0 ↔ opts "ufo" ≠ some (.str "off")) ∧
      (dev.features &&& F.VIRTIO_NET_F_GUEST_UFO ≠ 0 ↔ opts "ufo" ≠ some (.str "off")) ∧
      (dev.hw_features.tx_csum_l4_offload = true ↔ opts "csum-offload" ≠ some (.str "off")) ∧
      (dev.hw_features.rx_csum_offload = true ↔ opts "csum-offload" ≠ some (.str "off")) ∧
      (dev.hw_features.tx_tso = true ↔ opts "tso" ≠ some (.str "off")) ∧
      (dev.hw_features.rx_lro = true ↔ opts "lro" ≠ some (.str "off")) ∧
      (dev.hw_features.tx_ufo = true ↔ opts "ufo" ≠ some (.str "off")) ∧
      ∀ env opts2 q ops, qp_vhost.create F env dev opts2 = .ok (q, ops) →
        ∀ x, vhost_op.VHOST_SET_FEATURES x ∈ ops ↔ x = env.backend_features &&& dev.features := by
  obtain ⟨b1, b2, b3, b4, b5, b6, b7, b8, b9, b10⟩ :=
    supported_testBit F hF (opts.is_off "event-index") (opts.is_off "csum-offload")
      (opts.is_off "tso") (opts.is_off "lro") (opts.is_off "ufo")
  refine ⟨_, device_create_eq F opts hty, ?_, ?_, ?_, ?_, ?_, ?_, ?_, ?_, ?_, ?_,
    ?_, ?_, ?_, ?_, ?_, ?_⟩
  · exact (and_two_pow_ne_zero _ _).mpr b1
  · exact (and_two_pow_ne_zero _ _).mpr b2
  · exact (and_two_pow_ne_zero _ _).mpr b3
  · exact (and_two_pow_ne_zero _ _).trans (b4 ▸ not_is_off opts _)
  · exact (and_two_pow_ne_zero _ _).trans (b5 ▸ not_is_off opts _)
  · exact (and_two_pow_ne_zero _ _).trans (b6 ▸ not_is_off opts _)
  · exact (and_two_pow_ne_zero _ _).trans (b7 ▸ not_is_off opts _)
  · exact (and_two_pow_ne_zero _ _).trans (b8 ▸ not_is_off opts _)
  · exact (and_two_pow_ne_zero _ _).trans (b9 ▸ not_is_off opts _)
  · exact (and_two_pow_ne_zero _ _).trans (b10 ▸ not_is_off opts _)
  · exact not_is_off opts _
  · exact not_is_off opts _
  · exact not_is_off opts _
  · exact not_is_off opts _
  · exact not_is_off opts _
  · intro env opts2 q ops h x
    obtain ⟨size, tap, _, _, _, _, _, _, hops⟩ := qp_vhost_create_ok F env _ opts2 q ops h
    rw [hops]
    simp [qp_vhost.vhost_setup, qp_vhost.negotiated]

theorem C24_witness :
    ∃ dev, device.create demo_bits demo_opts = .ok dev ∧
      dev.features &&& demo_bits.VIRTIO_NET_F_HOST_TSO4 = 0 ∧
      dev.features &&& demo_bits.VIRTIO_NET_F_CSUM ≠ 0 ∧
      dev.hw_features.tx_tso = false ∧ dev.hw_features.tx_ufo = true := by
  obtain ⟨dev, h, _, _, _, _, hc, _, ht, _, _, _, _, _, hwt, _, hwu, _⟩ :=
    C24_supported_feature_mask demo_bits (by simp [feature_bits.distinct, demo_bits]) demo_opts
      demo_opts_typed
  refine ⟨dev, h, ?_, hc.mpr (by simp [demo_opts]), ?_, hwu.mpr (by simp [demo_opts])⟩
  · by_contra hne
    exact ht.mp hne (by simp [demo_opts])
  · cases hb : dev.hw_features.tx_tso with
    | false => rfl
    | true => exact absurd rfl (hwt.mp hb)

/-- The queue pair and the system calls of a constructor of `qp_vhost` that
finds its options. -/
theorem qp_vhost_create_eq (F : feature_bits) (env : vhost_env) (dev : device)
    (opts : variables_map) (size : Nat) (tap : String)
    (hs : config_ring_size opts = .ok size) (ht : opts.as_string "tap-device" = .ok tap)
    (hl : tap.utf8ByteSize + 1 ≤ IFNAMSIZ) :
    qp_vhost.create F env dev opts = .ok
      ({ _dev := dev, _header_len := qp_vhost.header_len F env dev,
         _txq := txq.create (qp.txq_config F dev.features env.txq_storage size) dev.hw_features
           (qp_vhost.header_len F env dev),
         _rxq := rxq.create (qp.rxq_config F dev.features env.rxq_storage size)
           { _header_len := qp_vhost.header_len F env dev } },
       [ .open_vhost_net, .VHOST_GET_FEATURES,
         .VHOST_SET_FEATURES (qp_vhost.negotiated env dev), .open_tun,
         .TUNSETIFF tap tap_flags,
         .TUNSETOFFLOAD (qp_vhost.tap_offload dev.hw_features),
         .TUNSETVNETHDRSZ (qp_vhost.header_len F env dev) ]
        ++ qp_vhost.vhost_setup env (qp.rxq_config F dev.features env.rxq_storage size)
            (qp.txq_config F dev.features env.txq_storage size)) := by
  simp only [qp_vhost.create, hs, ht, bind, Except.bind, if_pos hl]
  rfl

theorem default_opts_typed :
    ∀ name ∈ ["event-index", "csum-offload", "tso", "lro", "ufo"],
      ∀ n, default_opts name ≠ some (.uns n) := by
  intro name hn n
  simp only [List.mem_cons, List.mem_singleton, List.not_mem_nil, or_false] at hn
  rcases hn with rfl | rfl | rfl | rfl | rfl <;> simp [default_opts]

theorem demo_dev_eq :
    device.create demo_bits default_opts = .ok demo_dev ∧
    demo_dev.hw_features =
      { tx_csum_l4_offload := true, rx_csum_offload := true, rx_lro := true, tx_tso := true,
        tx_ufo := true } ∧
    demo_dev.features = device.supported demo_bits false false false false false := by
  have h := device_create_eq demo_bits default_opts default_opts_typed
  have e1 : default_opts.is_off "event-index" = false := by simp [variables_map.is_off, default_opts]
  have e2 : default_opts.is_off "csum-offload" = false := by simp [variables_map.is_off, default_opts]
  have e3 : default_opts.is_off "tso" = false := by simp [variables_map.is_off, default_opts]
  have e4 : default_opts.is_off "lro" = false := by simp [variables_map.is_off, default_opts]
  have e5 : default_opts.is_off "ufo" = false := by simp [variables_map.is_off, default_opts]
  rw [e1, e2, e3, e4, e5] at h
  have hd : demo_dev =
      { _opts := default_opts,
        _hw_features :=
          { tx_csum_l4_offload := true, rx_csum_offload := true, rx_lro := true, tx_tso := true,
            tx_ufo := true },
        _features := device.supported demo_bits false false false false false } := by
    unfold demo_dev; rw [h]; rfl
  rw [hd]
  exact ⟨h, rfl, rfl⟩

theorem default_ring_size : config_ring_size default_opts = .ok 256 := by
  simp [config_ring_size, variables_map.count, variables_map.as_unsigned, default_opts]

theorem default_tap : default_opts.as_string "tap-device" = .ok "tap0" := by
  simp [variables_map.as_string, default_opts]

theorem tap0_fits : "tap0".utf8ByteSize + 1 ≤ IFNAMSIZ := by decide

theorem common_config_event_index (F : feature_bits) (features : Nat) (r : ring_config) :
    (qp.common_config F features r).event_index = true ↔
      features &&& F.VIRTIO_RING_F_EVENT_IDX ≠ 0 := by
  simp [qp.common_config]

theorem demo_dev_event_idx : demo_dev.features &&& demo_bits.VIRTIO_RING_F_EVENT_IDX ≠ 0 := by
  rw [demo_dev_eq.2.2]
  have h := supported_testBit demo_bits (by simp [feature_bits.distinct, demo_bits])
    false false false false false
  exact (and_two_pow_ne_zero _ _).mpr h.2.2.2.1

/-- C25 (fails on the code): with the default options and a backend that
reports any feature mask `backend`, also one that lacks checksum, TSO4 and
UFO such as 0, the constructors of `device` and `qp_vhost` return (bring-up
does not fail), the mask negotiated is `backend` ANDed with the supported
mask, and the hardware-feature summary the device exposes and the transmit
queue reads still reports tx_csum_l4_offload, rx_csum_offload, tx_tso and
tx_ufo as active; the tap device is given checksum, TSO4 and UFO offload. -/
theorem C25_offloads_ignore_backend (backend : Nat) :
    ∃ q ops, qp_vhost.create demo_bits (demo_env backend) demo_dev default_opts = .ok (q, ops) ∧
      device.create demo_bits default_opts = .ok demo_dev ∧
      qp_vhost.negotiated (demo_env backend) demo_dev = backend &&& demo_dev.features ∧
      qp_vhost.negotiated (demo_env 0) demo_dev = 0 ∧
      q._dev.hw_features.tx_csum_l4_offload = true ∧
      q._dev.hw_features.rx_csum_offload = true ∧
      q._dev.hw_features.tx_tso = true ∧
      q._dev.hw_features.tx_ufo = true ∧
      q._txq.hw = q._dev.hw_features ∧
      vhost_op.TUNSETOFFLOAD 19 ∈ ops := by
  have h := qp_vhost_create_eq demo_bits (demo_env backend) demo_dev default_opts 256 "tap0"
    default_ring_size default_tap tap0_fits
  refine ⟨_, _, h, demo_dev_eq.1, rfl, ?_, ?_, ?_, ?_, ?_, rfl, ?_⟩
  · simp [qp_vhost.negotiated, demo_env]
  · show demo_dev.hw_features.tx_csum_l4_offload = true
    rw [demo_dev_eq.2.1]
  · show demo_dev.hw_features.rx_csum_offload = true
    rw [demo_dev_eq.2.1]
  · show demo_dev.hw_features.tx_tso = true
    rw [demo_dev_eq.2.1]
  · show demo_dev.hw_features.tx_ufo = true
    rw [demo_dev_eq.2.1]
  · rw [demo_dev_eq.2.1]
    simp [qp_vhost.tap_offload]

/-- C26 (fails on the code): with the default options and a backend that
reports any feature mask `backend`, also one without event-index such as 0,
`ring_config.event_index` of the transmit and of the receive ring is true,
while the mask negotiated with the backend 0 has no `VIRTIO_RING_F_EVENT_IDX`:
`common_config` reads the supported mask of the device, not the negotiated
one. -/
theorem C26_event_index_ignores_backend (backend : Nat) :
    ∃ q ops, qp_vhost.create demo_bits (demo_env backend) demo_dev default_opts = .ok (q, ops) ∧
      q._txq._ring._config.event_index = true ∧
      q._rxq._ring._config.event_index = true ∧
      qp_vhost.negotiated (demo_env 0) demo_dev &&& demo_bits.VIRTIO_RING_F_EVENT_IDX = 0 := by
  have h := qp_vhost_create_eq demo_bits (demo_env backend) demo_dev default_opts 256 "tap0"
    default_ring_size default_tap tap0_fits
  refine ⟨_, _, h, ?_, ?_, ?_⟩
  · exact (common_config_event_index _ _ _).mpr demo_dev_event_idx
  · exact (common_config_event_index _ _ _).mpr demo_dev_event_idx
  · simp [qp_vhost.negotiated, demo_env]

/-- C28 (fails on the code): `config_ring_size` returns the ring-size option
when the option `event-index` is given and 256 when `event-index` is not
given.  On the map that gives a ring size of 512 and no `event-index` it
returns 256, and both rings get 256 descriptors; on the map that gives
`event-index` and no ring size it throws. -/
theorem C28_ring_size_keyed_on_event_index :
    ring_size_only_opts.as_unsigned "virtio-ring-size" = .ok 512 ∧
    config_ring_size ring_size_only_opts = .ok 256 ∧
    (∃ q ops, qp_vhost.create demo_bits (demo_env 0) demo_dev ring_size_only_opts = .ok (q, ops) ∧
      q._txq._ring._config.size = 256 ∧ q._rxq._ring._config.size = 256) ∧
    event_index_only_opts.count "virtio-ring-size" = 0 ∧
    config_ring_size event_index_only_opts = .error .exception ∧
    ∀ opts : variables_map, config_ring_size opts =
      if (opts "event-index").isSome then opts.as_unsigned "virtio-ring-size" else .ok 256 := by
  have h1 : config_ring_size ring_size_only_opts = .ok 256 := by
    simp [config_ring_size, variables_map.count, ring_size_only_opts]
  have h2 : ring_size_only_opts.as_string "tap-device" = .ok "tap0" := by
    simp [variables_map.as_string, ring_size_only_opts]
  refine ⟨?_, h1, ⟨_, _, qp_vhost_create_eq demo_bits (demo_env 0) demo_dev ring_size_only_opts
    256 "tap0" h1 h2 tap0_fits, rfl, rfl⟩, ?_, ?_, ?_⟩
  · simp [variables_map.as_unsigned, ring_size_only_opts]
  · simp [variables_map.count, event_index_only_opts]
  · simp [config_ring_size, variables_map.count, variables_map.as_unsigned, event_index_only_opts]
  · intro opts
    unfold config_ring_size variables_map.count
    cases opts "event-index" <;> simp

/-- C27 (counterexample): for a ring of 2^28 descriptors with the descriptor
table at the page-aligned address 4096, the `unsigned` product `16 * r.size`
is 0 and `common_config` places the available ring at 4096, on the
descriptor table, not at base + 16 * size. -/
theorem C27_counterexample :
    (4096 : Nat) % 4096 = 0 ∧
    (qp.common_config demo_bits 0 { size := 268435456, descs := 4096 }).avail = 4096 ∧
    (qp.common_config demo_bits 0 { size := 268435456, descs := 4096 }).avail
      ≠ 4096 + 16 * 268435456 ∧
    (qp.txq_config demo_bits 0 4096 268435456).avail = 4096 := by
  refine ⟨by norm_num, ?_, ?_, ?_⟩ <;> norm_num [qp.common_config, qp.txq_config]

/-- C27 (amended): for every ring size below 2^28 and page-aligned
descriptor-table base, `common_config` places the available ring at
base + 16 * size, right after the descriptor table, and the used ring at the
smallest multiple of 4096 that is not below avail + 4 + 2 * size + 2, the end
of the available ring, so the three regions do not overlap and the offset of
the used ring from the descriptor table is a multiple of 4096; the
used-event field is at avail + 4 + 2 * size and the avail-event field at
used + 4 + 8 * size. -/
theorem C27_ring_layout (F : feature_bits) (features : Nat) (r : ring_config)
    (hb : r.descs % 4096 = 0) (hs : r.size < 268435456) :
    (qp.common_config F features r).descs = r.descs ∧
    (qp.common_config F features r).size = r.size ∧
    (qp.common_config F features r).avail = r.descs + 16 * r.size ∧
    (qp.common_config F features r).avail + 4 + 2 * r.size + 2
      ≤ (qp.common_config F features r).used ∧
    (qp.common_config F features r).used % 4096 = 0 ∧
    (∀ a, a % 4096 = 0 → (qp.common_config F features r).avail + 4 + 2 * r.size + 2 ≤ a →
      (qp.common_config F features r).used ≤ a) ∧
    ((qp.common_config F features r).used - r.descs) % 4096 = 0 ∧
    vring.used_event_addr (qp.common_config F features r)
      = (qp.common_config F features r).avail + 4 + 2 * r.size ∧
    vring.avail_event_addr (qp.common_config F features r)
      = (qp.common_config F features r).used + 4 + 8 * r.size := by
  have e1 : (16 * r.size) % 4294967296 = 16 * r.size := Nat.mod_eq_of_lt (by omega)
  have e2 : (2 * r.size) % 4294967296 = 2 * r.size := Nat.mod_eq_of_lt (by omega)
  simp only [qp.common_config, align_up, e1, e2, vring.used_event_addr, vring.avail_event_addr]
  refine ⟨trivial, trivial, trivial, ?_, ?_, ?_, ?_, trivial, trivial⟩
  · omega
  · omega
  · intro a ha hle
    omega
  · omega

theorem C27_witness :
    (qp.common_config demo_bits 0 { size := 256, descs := 1048576 }).avail = 1048576 + 16 * 256 ∧
    (qp.common_config demo_bits 0 { size := 256, descs := 1048576 }).used % 4096 = 0 := by
  have h := C27_ring_layout demo_bits 0 { size := 256, descs := 1048576 } (by norm_num)
    (by norm_num)
  exact ⟨h.2.2.1, h.2.2.2.2.1⟩

theorem header_len_mrg (F : feature_bits) (env : vhost_env) (dev : device) :
    (qp_vhost.header_len F env dev = 12 ↔
      qp_vhost.negotiated env dev &&& F.VIRTIO_NET_F_MRG_RXBUF ≠ 0) ∧
    (qp_vhost.header_len F env dev = 10 ↔
      qp_vhost.negotiated env dev &&& F.VIRTIO_NET_F_MRG_RXBUF = 0) := by
  unfold qp_vhost.header_len
  by_cases h : qp_vhost.negotiated env dev &&& F.VIRTIO_NET_F_MRG_RXBUF = 0
  · simp [h, sizeof_net_hdr]
  · simp [h, sizeof_net_hdr_mrg, sizeof_net_hdr]

/-- C29: after the constructor of `qp_vhost`, `_header_len` is 12, the size
of `net_hdr_mrg` with its `num_buffers`, if and only if
`VIRTIO_NET_F_MRG_RXBUF` is in the negotiated mask, and 10, the size of
`net_hdr`, otherwise; the transmit queue prepends a header fragment of this
length to every packet, the receive queue strips this length from the first
buffer of a packet, whatever the host has written, and the one
`TUNSETVNETHDRSZ` call configures this length on the tap device. -/
theorem C29_header_length (F : feature_bits) (env : vhost_env) (dev : device)
    (opts : variables_map) (q : qp) (ops : List vhost_op)
    (h : qp_vhost.create F env dev opts = .ok (q, ops)) :
    (q._header_len = 12 ↔ qp_vhost.negotiated env dev &&& F.VIRTIO_NET_F_MRG_RXBUF ≠ 0) ∧
    (q._header_len = 10 ↔ qp_vhost.negotiated env dev &&& F.VIRTIO_NET_F_MRG_RXBUF = 0) ∧
    sizeof_net_hdr_mrg = 12 ∧ sizeof_net_hdr = 10 ∧
    q._txq._header_len = q._header_len ∧
    q._rxq.st._header_len = q._header_len ∧
    (∀ p, ((q._txq.chain_for p).p.fragments.head?).map fragment.size = some q._header_len) ∧
    (∀ (m : Nat → net_hdr_mrg) (buf len : Nat), buf ≠ 0 → 1 ≤ (m buf).num_buffers →
      ∃ s0, rxq.first_buffer { q._rxq.st with mem := m } buf len =
        .ok (s0, buf + q._header_len,
             (((len : Int) - (q._header_len : Int)) % 18446744073709551616).toNat)) ∧
    (∀ n, vhost_op.TUNSETVNETHDRSZ n ∈ ops ↔ n = q._header_len) := by
  obtain ⟨size, tap, _, _, _, hl, ht, hr, hops⟩ := qp_vhost_create_ok F env dev opts q ops h
  have htx : q._txq._header_len = q._header_len := by rw [ht, hl]; rfl
  have hrx : q._rxq.st._header_len = q._header_len := by rw [hr, hl]; rfl
  have hrem : q._rxq.st._remaining_buffers = 0 := by rw [hr]; rfl
  refine ⟨?_, ?_, rfl, rfl, htx, hrx, ?_, ?_, ?_⟩
  · rw [hl]; exact (header_len_mrg F env dev).1
  · rw [hl]; exact (header_len_mrg F env dev).2
  · intro p
    simp [txq.chain_for, packet.prepend, htx]
  · intro m buf len hb hn
    refine ⟨{ ({ q._rxq.st with mem := m } : rxq_state) with
      _remaining_buffers := (m buf).num_buffers, _fragments := [], _buffers := [] }, ?_⟩
    simp only [rxq.first_buffer, hrem, if_true, if_neg hb, ge_iff_le, if_pos hn, hrx]
  · intro n
    rw [hops, hl]
    simp [qp_vhost.vhost_setup]

theorem C29_witness :
    ∃ q ops, qp_vhost.create demo_bits (demo_env 32768) demo_dev default_opts = .ok (q, ops) ∧
      q._header_len = 12 ∧ q._txq._header_len = 12 ∧ q._rxq.st._header_len = 12 ∧
      vhost_op.TUNSETVNETHDRSZ 12 ∈ ops := by
  have h := qp_vhost_create_eq demo_bits (demo_env 32768) demo_dev default_opts 256 "tap0"
    default_ring_size default_tap tap0_fits
  obtain ⟨h12, _, _, _, htx, hrx, _, _, hop⟩ :=
    C29_header_length demo_bits (demo_env 32768) demo_dev default_opts _ _ h
  have hm : qp_vhost.negotiated (demo_env 32768) demo_dev &&& demo_bits.VIRTIO_NET_F_MRG_RXBUF
      ≠ 0 := by
    have hb := supported_testBit demo_bits (by simp [feature_bits.distinct, demo_bits])
      false false false false false
    refine (and_two_pow_ne_zero _ _).mpr ?_
    rw [qp_vhost.negotiated, Nat.testBit_and, demo_dev_eq.2.2, hb.2.1]
    simp [demo_env, demo_bits]
    decide
  have e := h12.mpr hm
  exact ⟨_, _, h, e, htx.trans e, hrx.trans e, (hop 12).mpr e.symm⟩

/-- C30: the system calls of the constructor of `qp_vhost` from the eighth
on are, in this order, set owner, set memory table, the ring size of queue 0
and of queue 1, the ring addresses of queue 0 and of queue 1, the kick and
call event channels of queue 0 and of queue 1, and the attachment of the
backend to queue 0 and to queue 1; the seven before them are of none of
these kinds; and whatever comes before an attachment of the backend contains
set owner, the memory table, and the size and the addresses of both
queues. -/
theorem C30_vhost_setup_order (F : feature_bits) (env : vhost_env) (dev : device)
    (opts : variables_map) (q : qp) (ops : List vhost_op)
    (h : qp_vhost.create F env dev opts = .ok (q, ops)) :
    ops.filterMap vhost_op.stage = [0, 1, 2, 2, 3, 3, 4, 4, 4, 4, 5, 5] ∧
    (ops.take 7).filterMap vhost_op.stage = [] ∧
    ops.drop 7 =
      [ .VHOST_SET_OWNER,
        .VHOST_SET_MEM_TABLE 0 (2 ^ 47 - 4096) 0,
        .VHOST_SET_VRING_NUM 0 q._rxq._ring._config.size,
        .VHOST_SET_VRING_NUM 1 q._txq._ring._config.size,
        .VHOST_SET_VRING_ADDR 0 q._rxq._ring._config.descs q._rxq._ring._config.used
          q._rxq._ring._config.avail,
        .VHOST_SET_VRING_ADDR 1 q._txq._ring._config.descs q._txq._ring._config.used
          q._txq._ring._config.avail,
        .VHOST_SET_VRING_KICK 0 env.rxq_kick_fd,
        .VHOST_SET_VRING_CALL 0 env.rxq_notify_fd,
        .VHOST_SET_VRING_KICK 1 env.txq_kick_fd,
        .VHOST_SET_VRING_CALL 1 env.txq_notify_fd,
        .VHOST_NET_SET_BACKEND 0 env.tap_fd,
        .VHOST_NET_SET_BACKEND 1 env.tap_fd ] ∧
    ∀ pre idx fd post, ops = pre ++ vhost_op.VHOST_NET_SET_BACKEND idx fd :: post →
      vhost_op.VHOST_SET_OWNER ∈ pre ∧
      vhost_op.VHOST_SET_MEM_TABLE 0 (2 ^ 47 - 4096) 0 ∈ pre ∧
      vhost_op.VHOST_SET_VRING_NUM 0 q._rxq._ring._config.size ∈ pre ∧
      vhost_op.VHOST_SET_VRING_NUM 1 q._txq._ring._config.size ∈ pre ∧
      vhost_op.VHOST_SET_VRING_ADDR 0 q._rxq._ring._config.descs q._rxq._ring._config.used
        q._rxq._ring._config.avail ∈ pre ∧
      vhost_op.VHOST_SET_VRING_ADDR 1 q._txq._ring._config.descs q._txq._ring._config.used
        q._txq._ring._config.avail ∈ pre := by
  obtain ⟨size, tap, _, _, _, _, ht, hr, hops⟩ := qp_vhost_create_ok F env dev opts q ops h
  have hrc : q._rxq._ring._config = qp.rxq_config F dev.features env.rxq_storage size := by
    rw [hr]; rfl
  have htc : q._txq._ring._config = qp.txq_config F dev.features env.txq_storage size := by
    rw [ht]; rfl
  rw [hrc, htc]
  simp only [qp_vhost.vhost_setup, List.cons_append, List.nil_append] at hops
  refine ⟨by rw [hops]; rfl, by rw [hops]; rfl, by rw [hops]; rfl, ?_⟩
  intro pre idx fd post hsplit
  obtain ⟨n, hn⟩ : ∃ n, n = pre.length := ⟨_, rfl⟩
  have hlen : ops.length = 19 := by rw [hops]; rfl
  have hn19 : n < 19 := by
    have := congrArg List.length hsplit
    simp only [List.length_append, List.length_cons] at this
    omega
  have hx : ops.get? n = some (vhost_op.VHOST_NET_SET_BACKEND idx fd) := by
    rw [hsplit, hn, List.get?_eq_getElem?, List.getElem?_append_right (le_refl _)]; simp
  have hp : pre = ops.take n := by
    rw [hsplit, hn]; simp
  rw [hops] at hx hp
  interval_cases n <;> simp at hx <;> (rw [hp]; simp)

theorem C30_witness :
    ∃ q ops, qp_vhost.create demo_bits (demo_env 0) demo_dev default_opts = .ok (q, ops) ∧
      ops.filterMap vhost_op.stage = [0, 1, 2, 2, 3, 3, 4, 4, 4, 4, 5, 5] ∧
      ops.length = 19 := by
  have h := qp_vhost_create_eq demo_bits (demo_env 0) demo_dev default_opts 256 "tap0"
    default_ring_size default_tap tap0_fits
  exact ⟨_, _, h, (C30_vhost_setup_order demo_bits (demo_env 0) demo_dev default_opts _ _ h).1,
    rfl⟩

theorem init_calls_called (F : feature_bits) (env : vhost_env) (dev : device) :
    ∀ calls : List (variables_map × Nat),
      device.init_calls F env dev calls true = [] ∨
      device.init_calls F env dev calls true = [.error .assertion] := by
  intro calls
  cases calls with
  | nil => exact Or.inl rfl
  | cons call rest =>
    right
    by_cases hq : call.2 = 0
    · simp [device.init_calls, device.init_local_queue, hq]
    · simp [device.init_calls, device.init_local_queue, hq]

/-- C31: `init_local_queue` returns a queue pair only for the queue id 0 and
only while the static flag `called` is unset, and then it returns what the
constructor of `qp_vhost` builds; a call with a non-zero queue id or with
the flag set ends at an `assert` and leaves the flag as it was; a call with
queue id 0 and the flag unset sets the flag, also when the constructor
fails, so every later call ends at an `assert`; and in every run of
successive calls at most one call returns a queue pair. -/
theorem C31_single_queue_pair (F : feature_bits) (env : vhost_env) (dev : device) :
    (∀ opts qid called x,
      (device.init_local_queue F env dev opts qid called).2 = .ok x ↔
        (qid = 0 ∧ called = false ∧ qp_vhost.create F env dev opts = .ok x)) ∧
    (∀ opts qid called,
      (qid ≠ 0 ∨ called = true) ↔
        device.init_local_queue F env dev opts qid called = (called, .error .assertion)) ∧
    (∀ opts1 opts2 qid2,
      device.init_local_queue F env dev opts2 qid2
        (device.init_local_queue F env dev opts1 0 false).1 = (true, .error .assertion)) ∧
    (∀ calls called,
      ((device.init_calls F env dev calls called).filter Except.isOk).length ≤ 1) := by
  refine ⟨?_, ?_, ?_, ?_⟩
  · intro opts qid called x
    unfold device.init_local_queue
    by_cases hq : qid = 0
    · cases called <;> simp [hq]
    · simp [hq]
  · intro opts qid called
    unfold device.init_local_queue
    by_cases hq : qid = 0
    · cases called <;> simp [hq]
    · simp [hq]
  · intro opts1 opts2 qid2
    by_cases hq : qid2 = 0
    · simp [device.init_local_queue, hq]
    · simp [device.init_local_queue, hq]
  · intro calls called
    cases called with
    | true =>
      rcases init_calls_called F env dev calls with h | h <;> rw [h] <;> simp [Except.isOk, Except.toBool]
    | false =>
      induction calls with
      | nil => simp [device.init_calls]
      | cons call rest ih =>
        by_cases hq : call.2 = 0
        · have hstep : device.init_local_queue F env dev call.1 call.2 false
              = (true, qp_vhost.create F env dev call.1) := by
            simp [device.init_local_queue, hq]
          unfold device.init_calls
          rw [hstep]
          cases hc : qp_vhost.create F env dev call.1 with
          | error f =>
            cases f <;>
              rcases init_calls_called F env dev rest with h | h <;>
              simp [h, Except.isOk, Except.toBool]
          | ok x =>
            rcases init_calls_called F env dev rest with h | h <;>
              simp [h, Except.isOk, Except.toBool]
        · simp [device.init_calls, device.init_local_queue, hq, Except.isOk, Except.toBool]

/-- C37: when checksum offload is off in the hardware-feature summary, or the
protocol of the packet is neither TCP nor UDP, the header `txq::post` builds
is all zero, whatever the other offload metadata of the packet and the TSO
and UFO settings, and this header is what the first fragment of the chain
built for the packet holds. -/
theorem C37_header_all_zero (q : txq) (p : packet)
    (h : q.hw.tx_csum_l4_offload = false ∨
      (p.offload.protocol ≠ .tcp ∧ p.offload.protocol ≠ .udp)) :
    txq.make_vhdr q.hw p = {} ∧
    (txq.make_vhdr q.hw p).needs_csum = 0 ∧
    (txq.make_vhdr q.hw p).gso_type = net_hdr.gso_none ∧
    (txq.make_vhdr q.hw p).hdr_len = 0 ∧
    (txq.make_vhdr q.hw p).gso_size = 0 ∧
    (txq.make_vhdr q.hw p).csum_start = 0 ∧
    (txq.make_vhdr q.hw p).csum_offset = 0 ∧
    (txq.make_vhdr q.hw p).num_buffers = 0 ∧
    ((q.chain_for p).p.fragments.head?).map fragment.hdr = some (some {}) := by
  have e := make_vhdr_none q.hw p h
  have e2 : ((q.chain_for p).p.fragments.head?).map fragment.hdr
      = some (some (txq.make_vhdr q.hw p)) := rfl
  rw [e2, e]
  exact ⟨rfl, rfl, rfl, rfl, rfl, rfl, rfl, rfl, rfl⟩

theorem C37_witness :
    txq.make_vhdr demo_hw
      { demo_tcp_packet with offload := { demo_tcp_packet.offload with protocol := .icmp } } = {} ∧
    txq.make_vhdr { demo_hw with tx_csum_l4_offload := false } demo_tcp_packet = {} :=
  ⟨(C37_header_all_zero { demo_txq_small with hw := demo_hw }
      { demo_tcp_packet with offload := { demo_tcp_packet.offload with protocol := .icmp } }
      (Or.inr ⟨by decide, by decide⟩)).1,
   (C37_header_all_zero { demo_txq_small with hw := { demo_hw with tx_csum_l4_offload := false } }
      demo_tcp_packet (Or.inl rfl)).1⟩

/-- C39: for every ring size an `unsigned` holds and a page-aligned storage,
the end of the used ring with its avail-event field, used + 4 + 8 * size + 2,
in the layout `txq_config` and `rxq_config` compute does not exceed the end
of the `vring_storage_size(size)` bytes allocated, and that size is
3 * 4096 + 26 * size. -/
theorem C39_storage_holds_layout (F : feature_bits) (features storage ring_size : Nat)
    (hb : storage % 4096 = 0) (hs : ring_size < 4294967296) :
    qp.vring_storage_size ring_size = 3 * 4096 + 26 * ring_size ∧
    (qp.txq_config F features storage ring_size).size = ring_size ∧
    (qp.txq_config F features storage ring_size).descs = storage ∧
    (qp.txq_config F features storage ring_size).used + 4 + 8 * ring_size + 2
      ≤ storage + qp.vring_storage_size ring_size ∧
    vring.avail_event_addr (qp.txq_config F features storage ring_size) + 2
      ≤ storage + qp.vring_storage_size ring_size ∧
    (qp.rxq_config F features storage ring_size).used + 4 + 8 * ring_size + 2
      ≤ storage + qp.vring_storage_size ring_size ∧
    vring.avail_event_addr (qp.rxq_config F features storage ring_size) + 2
      ≤ storage + qp.vring_storage_size ring_size := by
  have e0 : ring_size % 4294967296 = ring_size := Nat.mod_eq_of_lt hs
  have e1 : (16 * ring_size) % 4294967296 ≤ 16 * ring_size := Nat.mod_le _ _
  have e2 : (2 * ring_size) % 4294967296 ≤ 2 * ring_size := Nat.mod_le _ _
  have e3 : (3 * 4096 + ring_size * (16 + 2 + 8)) % 18446744073709551616
      = 3 * 4096 + 26 * ring_size := by
    rw [Nat.mod_eq_of_lt (by omega)]; omega
  simp only [qp.vring_storage_size, qp.txq_config, qp.rxq_config, qp.common_config, align_up,
    vring.avail_event_addr, e0, e3]
  refine ⟨trivial, trivial, trivial, ?_, ?_, ?_, ?_⟩ <;> omega

theorem C39_witness :
    (qp.txq_config demo_bits 0 1048576 256).used + 4 + 8 * 256 + 2
      ≤ 1048576 + qp.vring_storage_size 256 ∧
    qp.vring_storage_size 256 = 18944 := by
  have h := C39_storage_holds_layout demo_bits 0 1048576 256 (by norm_num) (by norm_num)
  exact ⟨h.2.2.2.1, h.1⟩

/-- What a round of the loop of `do_complete` that returns has done to the
used ring: the tail is one further, and the callback has returned the
environment of the result. -/
theorem complete_one_used (c : completion BC E) (fuel : Nat) (r : vring BC) (e : E)
    (r1 : vring BC) (e1 : E) (h : vring.complete_one c fuel r e = .ok (r1, e1)) :
    r1._used._tail = (r._used._tail + 1) % 65536 ∧ r1._used._shared = r._used._shared ∧
    ∃ s2 left, c.call e r._available_descriptors
      (r._buffer_chains (r._used._shared._used_elements (r.masked r._used._tail))._id)
      (r._used._shared._used_elements (r.masked r._used._tail))._len = .ok (e1, s2, left) := by
  unfold vring.complete_one at h
  simp only at h
  by_cases hsz : (r._used._shared._used_elements (r.masked r._used._tail))._id
      < vring.size { r with _used._tail := (r._used._tail + 1) % 65536 }
  · rw [if_pos hsz] at h
    cases hcall : c.call e r._available_descriptors
        (r._buffer_chains (r._used._shared._used_elements (r.masked r._used._tail))._id)
        (r._used._shared._used_elements (r.masked r._used._tail))._len with
    | error f => rw [hcall] at h; cases h
    | ok res2 =>
      obtain ⟨e3, s3, left⟩ := res2
      rw [hcall] at h
      simp only at h
      split_ifs at h with h1 h2
      all_goals simp only at h
      all_goals first
        | cases h
        | (split at h
           · cases h
           · simp only [Except.ok.injEq, Prod.mk.injEq] at h
             obtain ⟨hr, he⟩ := h
             rw [← hr, ← he]
             exact ⟨rfl, rfl, s3, left, rfl⟩)
  · rw [if_neg hsz] at h; cases h

/-- A property of the environment that every callback keeps holds after the
loop of `do_complete`, and the loop ends with the tail at the index read. -/
theorem complete_loop_keeps (c : completion BC E) (fuel : Nat) (used_head : Nat) (P : E → Prop)
    (hP : ∀ e s bc len e1 s1 left, c.call e s bc len = .ok (e1, s1, left) → P e → P e1) :
    ∀ (n : Nat) (r : vring BC) (e : E) (r1 : vring BC) (e1 : E),
      vring.complete_loop c fuel used_head n r e = .ok (r1, e1) → P e →
      P e1 ∧ r1._used._tail = used_head := by
  intro n
  induction n with
  | zero => intro r e r1 e1 h; simp [vring.complete_loop] at h
  | succ n ih =>
    intro r e r1 e1 h hp
    unfold vring.complete_loop at h
    by_cases hne : used_head ≠ r._used._tail
    · rw [if_pos hne] at h
      cases hone : vring.complete_one c fuel r e with
      | error f => rw [hone] at h; cases h
      | ok res =>
        obtain ⟨r2, e2⟩ := res
        rw [hone] at h
        obtain ⟨_, _, s2, left, hcall⟩ := complete_one_used c fuel r e r2 e2 hone
        exact ih r2 e2 r1 e1 h (hP _ _ _ _ _ _ _ hcall hp)
    · rw [if_neg hne] at h
      simp only [Except.ok.injEq, Prod.mk.injEq] at h
      obtain ⟨rfl, rfl⟩ := h
      exact ⟨hp, (not_not.mp hne).symm⟩

theorem complete_buffer_bunch (s : rxq_state) (credits : Nat) (bc : single_buffer) (len : Nat)
    (s1 : rxq_state) (credits1 : Nat) (left : single_buffer)
    (h : rxq.complete_buffer s credits bc len = .ok (s1, credits1, left)) :
    s1.rx_pkts_bunch = s.rx_pkts_bunch := by
  cases hf : rxq.first_buffer s bc.elem.buf len with
  | error f => simp only [rxq.complete_buffer, hf] at h; cases h
  | ok x =>
    obtain ⟨s0, frag_buf, frag_len⟩ := x
    simp only [rxq.complete_buffer, hf] at h
    have h0 : s0.rx_pkts_bunch = s.rx_pkts_bunch := by
      unfold rxq.first_buffer at hf
      by_cases a : s._remaining_buffers = 0
      · by_cases b : bc.elem.buf = 0
        · simp only [a, b, if_true] at hf
          cases hf
        · by_cases c : (s.mem bc.elem.buf).num_buffers ≥ 1
          · simp only [a, if_true, if_neg b, if_pos c, Except.ok.injEq, Prod.mk.injEq] at hf
            rw [← hf.1]
          · simp only [a, if_true, if_neg b, if_neg c] at hf
            cases hf
      · simp only [if_neg a, Except.ok.injEq, Prod.mk.injEq] at hf
        rw [← hf.1]
    split_ifs at h with hz
    · simp only [Except.ok.injEq, Prod.mk.injEq] at h
      rw [← h.1, ← h0]
    · simp only [Except.ok.injEq, Prod.mk.injEq] at h
      rw [← h.1, ← h0]

/-- C33 (fails on the code): a `do_complete` of the receive ring that finds
the used index `n >= 1` ahead of its tail, without a wrap of the 16-bit
index, processes these `n` entries (the tail ends at the index) and has
added `2^64 - n` to the received-packet-bunch statistic, not `n`: the count
is computed as tail minus index. -/
theorem C33_bunch_count_negated (r : vring single_buffer) (s : rxq_state) (fuel : Nat)
    (b : Bool) (r1 : vring single_buffer) (s1 : rxq_state)
    (h : r.do_complete rxq_complete fuel s = .ok (b, r1, s1))
    (hlt : r._used._tail < r._used._shared._idx) (hi : r._used._shared._idx < 65536) :
    r.pending.length = r._used._shared._idx - r._used._tail ∧
    r1._used._tail = r._used._shared._idx ∧
    s1.rx_pkts_bunch
      = (s.rx_pkts_bunch
          + (18446744073709551616 - (r._used._shared._idx - r._used._tail)))
        % 18446744073709551616 := by
  have hcount : ((((r._used._tail : Int) - (r._used._shared._idx : Int))
      % 18446744073709551616).toNat) = 18446744073709551616 - (r._used._shared._idx - r._used._tail) := by
    omega
  refine ⟨?_, ?_⟩
  · simp only [vring.pending, List.length_map, List.length_range, u16]
    omega
  · unfold vring.do_complete at h
    simp only at h
    rw [hcount] at h
    cases hl : vring.complete_loop rxq_complete fuel r._used._shared._idx fuel r
        (rxq_complete.bunch s (18446744073709551616 - (r._used._shared._idx - r._used._tail))) with
    | error f => rw [hl] at h; cases h
    | ok res =>
      obtain ⟨r2, s2⟩ := res
      rw [hl] at h
      simp only [Except.ok.injEq, Prod.mk.injEq] at h
      obtain ⟨_, hr, hs⟩ := h
      have := complete_loop_keeps rxq_complete fuel r._used._shared._idx
        (fun e => e.rx_pkts_bunch = (s.rx_pkts_bunch
          + (18446744073709551616 - (r._used._shared._idx - r._used._tail)))
        % 18446744073709551616)
        (fun e cr bc len e1 cr1 left hc hp => by
          rw [← hp]; exact complete_buffer_bunch e cr bc len e1 cr1 left hc)
        fuel r _ r2 s2 hl rfl
      rw [← hr, ← hs]
      exact ⟨this.2, this.1⟩

theorem C33_witness :
    vring.do_complete rxq_complete 8
        { demo_rxq_filled._ring with _used._shared := demo_rx_used } demo_rxq_filled.st
      = .ok demo_rx_polled ∧
    (vring.pending ({ demo_rxq_filled._ring with _used._shared := demo_rx_used }
      : vring single_buffer)).length = 3 ∧
    demo_rx_polled.2.1._used._tail = 3 ∧
    demo_rxq_filled.st.rx_pkts_bunch = 0 ∧
    demo_rx_polled.2.2.rx_pkts_bunch = 18446744073709551613 := by
  have h := C33_bunch_count_negated
    ({ demo_rxq_filled._ring with _used._shared := demo_rx_used } : vring single_buffer)
    demo_rxq_filled.st 8 demo_rx_polled.1 demo_rx_polled.2.1 demo_rx_polled.2.2 rfl
    (by decide) (by decide)
  exact ⟨rfl, h.1, h.2.1, rfl, h.2.2⟩

/-- The packet the calls of `complete_buffer` for the buffers of one packet
deliver, when the first buffer holds at least the header. -/
theorem run_calls_packet (s : rxq_state) (credits : Nat) (c1 : single_buffer × Nat)
    (rest : List (single_buffer × Nat))
    (h0 : s._remaining_buffers = 0) (hbuf : c1.1.elem.buf ≠ 0)
    (hn : (s.mem c1.1.elem.buf).num_buffers = rest.length + 1)
    (hn16 : rest.length + 1 < 65536)
    (hl : s._header_len ≤ c1.2) (hl64 : c1.2 < 18446744073709551616) :
    ∃ s1, run_calls rxq_complete (c1 :: rest) s credits = .ok (s1, credits + (rest.length + 1)) ∧
      s1.received = s.received ++
        [{ fragments := { base := c1.1.elem.buf + s._header_len, size := c1.2 - s._header_len }
            :: rest.map rx_fragment }] := by
  by_cases hr : rest = []
  · subst hr
    obtain ⟨s1, hstep, hrec, _⟩ :=
      complete_buffer_only s credits c1 h0 hbuf (by simpa using hn) hl hl64
    have hcall : rxq_complete.call s credits c1.1 c1.2 = _ := hstep
    refine ⟨s1, ?_, hrec⟩
    simp only [run_calls, hcall]
    rfl
  · have hstep : rxq_complete.call s credits c1.1 c1.2 = _ :=
      complete_buffer_first s credits c1 h0 hbuf
        (by rw [hn]; have := List.length_pos.mpr hr; omega) (by omega) hl hl64
    obtain ⟨_, s2, h2, hrec, _⟩ := run_calls_rest rest
      { s with
        _fragments := [{ base := c1.1.elem.buf + s._header_len, size := c1.2 - s._header_len }]
        _buffers := [c1.1.elem.buf]
        _remaining_buffers := (s.mem c1.1.elem.buf).num_buffers - 1 }
      credits hr (by simp only []; omega) (by omega)
    refine ⟨s2, ?_, hrec⟩
    simp only [run_calls, hstep]
    rw [h2]
    simp only [List.length_singleton]
    congr 2
    omega

/-- C38 (counterexample): with a header length of 12, a first and only
buffer for which the host reports 5 bytes gives a fragment, and a delivered
packet, of 2^64 - 7 bytes: `frag_len -= _header_len` wraps around. -/
theorem C38_counterexample :
    demo_rx_state_one._header_len = 12 ∧ demo_rx_state_one._remaining_buffers = 0 ∧
    (rxq.complete_buffer demo_rx_state_one 0 (demo_rx_buffer 4096) 5).map
        (fun x => (x.1.received, x.2.1))
      = .ok ([{ fragments := [{ base := 4108, size := 18446744073709551609 }] }], 1) ∧
    (5 : Nat) < 18446744073709551609 :=
  ⟨rfl, rfl, rfl, by norm_num⟩

/-- C38 (amended): when the length the host reports for the first buffer of
a packet is at least the header length, every call of `complete_buffer`
that returns appends one fragment of a length no greater than the reported
length, and the packet delivered for the buffers of one packet has one
fragment per buffer, each no longer than the length reported for its buffer,
so the length of the packet does not exceed the sum of the reported
lengths. -/
theorem C38_fragment_within_reported_length (s : rxq_state) (credits : Nat)
    (c1 : single_buffer × Nat) (rest : List (single_buffer × Nat))
    (h0 : s._remaining_buffers = 0) (hbuf : c1.1.elem.buf ≠ 0)
    (hn : (s.mem c1.1.elem.buf).num_buffers = rest.length + 1)
    (hn16 : rest.length + 1 < 65536)
    (hl : s._header_len ≤ c1.2) (hl64 : c1.2 < 18446744073709551616) :
    (∃ s1 p,
      run_calls rxq_complete (c1 :: rest) s credits = .ok (s1, credits + (rest.length + 1)) ∧
      s1.received = s.received ++ [p] ∧
      List.Forall₂ (fun f c => f.size ≤ c.2) p.fragments (c1 :: rest) ∧
      p.len ≤ ((c1 :: rest).map Prod.snd).sum) ∧
    (∀ (t : rxq_state) (cr : Nat) (bc : single_buffer) (len : Nat) (t1 : rxq_state) (cr1 : Nat)
        (left : single_buffer),
      rxq.complete_buffer t cr bc len = .ok (t1, cr1, left) →
      len < 18446744073709551616 → (t._remaining_buffers = 0 → t._header_len ≤ len) →
      ∃ f, t1._fragments = (if t._remaining_buffers = 0 then [] else t._fragments) ++ [f] ∧
        f.size ≤ len) := by
  constructor
  · obtain ⟨s1, hrun, hrec⟩ := run_calls_packet s credits c1 rest h0 hbuf hn hn16 hl hl64
    refine ⟨s1, _, hrun, hrec, ?_, ?_⟩
    · refine List.Forall₂.cons (Nat.sub_le _ _) ?_
      rw [List.forall₂_map_left_iff]
      exact List.forall₂_same.mpr (fun c _ => le_refl _)
    · simp only [packet.len, List.map_cons, List.sum_cons]
      have := rx_fragment_len rest
      omega
  · intro t cr bc len t1 cr1 left h hlen hfirst
    cases hf : rxq.first_buffer t bc.elem.buf len with
    | error f => simp only [rxq.complete_buffer, hf] at h; cases h
    | ok x =>
      obtain ⟨t0, frag_buf, frag_len⟩ := x
      simp only [rxq.complete_buffer, hf] at h
      have h0' : t0._fragments = (if t._remaining_buffers = 0 then [] else t._fragments) ∧
          frag_len ≤ len := by
        unfold rxq.first_buffer at hf
        by_cases a : t._remaining_buffers = 0
        · by_cases b : bc.elem.buf = 0
          · simp only [a, b, if_true] at hf
            cases hf
          · by_cases c : (t.mem bc.elem.buf).num_buffers ≥ 1
            · simp only [a, if_true, if_neg b, if_pos c, Except.ok.injEq, Prod.mk.injEq] at hf
              have := hfirst a
              refine ⟨by rw [← hf.1, if_pos a], ?_⟩
              rw [← hf.2.2]
              omega
            · simp only [a, if_true, if_neg b, if_neg c] at hf
              cases hf
        · simp only [if_neg a, Except.ok.injEq, Prod.mk.injEq] at hf
          exact ⟨by rw [← hf.1, if_neg a], by rw [← hf.2.2]⟩
      refine ⟨{ base := frag_buf, size := frag_len }, ?_, h0'.2⟩
      split_ifs at h with hz
      · simp only [Except.ok.injEq, Prod.mk.injEq] at h
        rw [← h.1, ← h0'.1]
      · simp only [Except.ok.injEq, Prod.mk.injEq] at h
        rw [← h.1, ← h0'.1]

theorem C38_witness :
    ∃ s3 p, run_calls rxq_complete
        [(demo_rx_buffer 4096, 4096), (demo_rx_buffer 8192, 4096), (demo_rx_buffer 12288, 808)]
        demo_rx_state 0 = .ok (s3, 3) ∧
      s3.received = [p] ∧ p.len ≤ 9000 := by
  obtain ⟨⟨s3, p, hrun, hrec, _, hlen⟩, _⟩ :=
    C38_fragment_within_reported_length demo_rx_state 0 (demo_rx_buffer 4096, 4096)
      [(demo_rx_buffer 8192, 4096), (demo_rx_buffer 12288, 808)] rfl (by decide) rfl
      (by norm_num) (by decide) (by norm_num)
  exact ⟨s3, p, hrun, hrec, hlen⟩

/-- C36 (counterexample): `post` of one empty chain on the fresh ring of
four writes the head index 0 to the available ring and publishes it, while
descriptor 0 is still the first of the free list; and after a chain of one
buffer has been posted, which has the head 0 and is in flight, `post` of an
empty chain publishes 0 again and replaces the buffer chain stored under
0. -/
theorem C36_counterexample :
    demo_ring.post id [[]] = .ok demo_posted_empty ∧
    demo_posted_empty._avail._shared._idx = 1 ∧
    demo_posted_empty._avail._shared._ring 0 = 0 ∧
    demo_posted_empty.free_list = some [0, 1, 2, 3] ∧
    demo_ring.post id [[demo_buffer]] = .ok demo_posted_one ∧
    demo_posted_one._avail._shared._ring 0 = 0 ∧
    demo_posted_one.free_list = some [1, 2, 3] ∧
    demo_posted_one._buffer_chains 0 = [demo_buffer] ∧
    demo_posted_one.post id [[]] = .ok demo_posted_one_empty ∧
    demo_posted_one_empty._avail._shared._idx = 2 ∧
    demo_posted_one_empty._avail._shared._ring 1 = 0 ∧
    demo_posted_one_empty._buffer_chains 0 = [] :=
  ⟨rfl, by decide, by decide, by decide, rfl, by decide, by decide, by decide, rfl, by decide,
    by decide, by decide⟩

/-- C36 (amended): for every sequence of non-empty chains that need no more
descriptors than the free list holds, `post` returns; the head indices it
writes to the available ring are, chain by chain, the first descriptors of
consecutive pieces of the free list, each piece as long as its chain and
taken off the free list, and the chain is stored under its head; no head
is still on the free list or in a chain that was in flight before, and the
buffer chains stored under the heads of those chains are as they were. -/
theorem C36_post_publishes_allocated_heads (buffers : BC → List buffer) (chains : List BC)
    (r : vring BC) (L0 : List Nat) (Cs : List (List Nat)) (hinv : r.inv L0 Cs)
    (hne : ∀ bc ∈ chains, buffers bc ≠ [])
    (htot : (chains.map (fun bc => (buffers bc).length)).sum ≤ L0.length)
    (hh : r._avail._head < 65536) (ha : r._avail._avail_added_since_kick < 65536) :
    ∃ r1, r.post buffers chains = .ok r1 ∧
      r1._avail._shared._ring = write_ring r._avail._shared._ring r.mask r._avail._head
        ((split_by (chains.map (fun bc => (buffers bc).length)) L0).map List.headI) ∧
      (split_by (chains.map (fun bc => (buffers bc).length)) L0).flatten
        = L0.take (chains.map (fun bc => (buffers bc).length)).sum ∧
      r1.free (L0.drop (chains.map (fun bc => (buffers bc).length)).sum) ∧
      List.Forall₂ (fun A bc =>
          A.length = (buffers bc).length ∧ A.headI ∈ A ∧ r1._buffer_chains A.headI = bc)
        (split_by (chains.map (fun bc => (buffers bc).length)) L0) chains ∧
      (∀ h ∈ (split_by (chains.map (fun bc => (buffers bc).length)) L0).map List.headI,
        h ∈ L0 ∧ h ∉ L0.drop (chains.map (fun bc => (buffers bc).length)).sum ∧
        ∀ C ∈ Cs, h ∉ C) ∧
      (∀ C ∈ Cs, r1._buffer_chains C.headI = r._buffer_chains C.headI) := by
  obtain ⟨r2, _, hpost, _, hinv2, hF, hB, hring, _, _⟩ :=
    post_spec buffers chains r L0 Cs hinv hne htot hh ha
  obtain ⟨kc, kd, kh, kl, kb, _, ks, _, _, _⟩ := kick_frame r2.publish
  obtain ⟨hsplit, hlens⟩ := split_by_spec _ L0 htot
  have hflat : (split_by (chains.map (fun bc => (buffers bc).length)) L0).flatten
      = L0.take (chains.map (fun bc => (buffers bc).length)).sum := by
    have h1 := congrArg (List.take (chains.map (fun bc => (buffers bc).length)).sum) hsplit
    have hl : (split_by (chains.map (fun bc => (buffers bc).length)) L0).flatten.length
        = (chains.map (fun bc => (buffers bc).length)).sum := by
      have h2 := congrArg List.length hsplit
      simp only [List.length_append, List.length_drop] at h2
      omega
    rw [← h1, ← hl, List.take_left]
  have hnd := List.nodup_append.mp hinv2.nodup
  have hheads : ∀ h ∈ (split_by (chains.map (fun bc => (buffers bc).length)) L0).map List.headI,
      h ∈ (split_by (chains.map (fun bc => (buffers bc).length)) L0).flatten := by
    intro h hh
    obtain ⟨A, hA, rfl⟩ := List.mem_map.mp hh
    obtain ⟨bc, _, hAne, _⟩ := forall2_of_mem_left hF A hA
    exact mem_flatten_of hA (headI_mem hAne)
  refine ⟨r2.publish.kick, hpost, ?_, hflat, ?_, ?_, ?_, ?_⟩
  · rw [ks]; exact hring
  · have := (inv_congr hinv2 (by rw [kc]; rfl) (by rw [kd]; rfl) (by rw [kh]; rfl)
      (by rw [kl]; rfl) : r2.publish.kick.inv _ _)
    exact this.free
  · rw [kb]
    have hF2 := forall2_and hF (List.forall₂_map_right_iff.mp hlens)
    exact hF2.imp (fun A bc h => ⟨h.2, headI_mem h.1.1, h.1.2.1⟩)
  · intro h hh
    have hfl := hheads h hh
    refine ⟨?_, ?_, ?_⟩
    · rw [hflat] at hfl
      exact List.mem_of_mem_take hfl
    · intro hd
      exact hnd.2.2 hd (by rw [List.flatten_append]; exact List.mem_append_right _ hfl)
    · intro C hC hmem
      have hnd1 := hnd.2.1
      rw [List.flatten_append] at hnd1
      exact (List.nodup_append.mp hnd1).2.2 (mem_flatten_of hC hmem) hfl
  · intro C hC
    rw [kb]
    apply hB
    intro hmem
    have hCne : C ≠ [] := is_chain_ne_nil (hinv.chains C hC)
    have hnd1 := hnd.2.1
    rw [List.flatten_append] at hnd1
    exact (List.nodup_append.mp hnd1).2.2 (mem_flatten_of hC (headI_mem hCne)) (hheads _ hmem)

theorem C36_witness :
    ∃ r1, demo_ring.post id demo_chains = .ok r1 ∧
      r1._avail._shared._ring
        = write_ring demo_ring._avail._shared._ring demo_ring.mask demo_ring._avail._head [0, 2] ∧
      r1.free [] := by
  obtain ⟨r1, hpost, hring, _, hfree, _⟩ :=
    C36_post_publishes_allocated_heads id demo_chains demo_ring [0, 1, 2, 3] []
      (setup_inv _ (by decide) (by decide)) (by decide) (by decide) (by decide) (by decide)
  exact ⟨r1, hpost, hring, hfree⟩

/-- The walk of `do_complete` along a chain does not end in fewer steps than
the chain has descriptors. -/
theorem chain_end_short (size : Nat) (D : Nat → desc) : ∀ (C : List Nat) (id fuel : Nat),
    is_chain D id C → (∀ x ∈ C, x < size) → fuel < C.length →
    chain_end size D fuel id = .error .diverged := by
  intro C
  induction C with
  | nil => intro id fuel h; exact absurd h (by simp [is_chain])
  | cons a C ih =>
    intro id fuel h hb hf
    cases fuel with
    | zero => rfl
    | succ fuel =>
      have ha : a < size := hb a (by simp)
      cases C with
      | nil => simp at hf
      | cons b C =>
        rw [is_chain_cons2] at h
        obtain ⟨rfl, hn, hrest⟩ := h
        have := ih _ fuel hrest (fun x hx => hb x (List.mem_cons_of_mem _ hx))
          (by simpa using hf)
        simp [chain_end, ha, hn, this]

/-- The loop of `do_complete` does not return in fewer rounds than there
are entries between the tail and the index. -/
theorem complete_loop_short (c : completion BC E) (fuel : Nat) (used_head : Nat)
    (hu : used_head < 65536) :
    ∀ (n : Nat) (r : vring BC) (e : E), r._used._tail < 65536 →
      n ≤ u16 ((used_head : Int) - (r._used._tail : Int)) →
      ∀ x, vring.complete_loop c fuel used_head n r e ≠ .ok x := by
  intro n
  induction n with
  | zero => intro r e _ _ x h; simp [vring.complete_loop] at h
  | succ n ih =>
    intro r e ht hn x h
    have hne : used_head ≠ r._used._tail := by
      intro heq
      rw [heq] at hn
      simp [u16] at hn
    unfold vring.complete_loop at h
    rw [if_pos hne] at h
    cases hone : vring.complete_one c fuel r e with
    | error f => rw [hone] at h; cases h
    | ok res =>
      obtain ⟨r2, e2⟩ := res
      rw [hone] at h
      obtain ⟨ht2, _, _⟩ := complete_one_used c fuel r e r2 e2 hone
      have hs := u16_sub_succ hu ht hne
      exact ih r2 e2 (by rw [ht2]; exact Nat.mod_lt _ (by norm_num))
        (by rw [ht2]; omega) x h

/-- C34: when every pending used-ring entry names the head of a chain in
flight, none twice, the ring invariant holds (the descriptor table is as
`post` left it) and the callbacks return, then `do_complete` returns for
every fuel above the number of pending entries and not below the ring size:
no index leaves the descriptor table or the buffer-chain array and no loop
runs on.  The number of pending entries is (used index - tail) mod 2^16; the
id of each is below the ring size and heads a chain of descriptors below the
ring size, whose `has_next` walk ends at the last descriptor of the chain in
exactly as many steps as the chain is long; and the outer loop returns,
with the tail at the used index, after exactly as many rounds as there are
pending entries. -/
theorem C34_do_complete_terminates (c : completion BC E) (r : vring BC) (e : E)
    (L : List Nat) (Cs : List (List Nat)) (hinv : r.inv L Cs)
    (ht : r._used._tail < 65536) (hi : r._used._shared._idx < 65536)
    (hnd : (r.pending.map used_elem._id).Nodup)
    (hsub : ∀ id ∈ r.pending.map used_elem._id, id ∈ Cs.map List.headI)
    (hcall : ∀ e s bc len, ∃ x, c.call e s bc len = .ok x) :
    r.pending.length = u16 ((r._used._shared._idx : Int) - (r._used._tail : Int)) ∧
    (∀ ue ∈ r.pending, ue._id < r.size ∧
      ∃ C ∈ Cs, ue._id = C.headI ∧ (∀ x ∈ C, x < r.size) ∧
        (∀ fuel, C.length ≤ fuel →
          ∃ l, C.getLast? = some l ∧ chain_end r.size r._descs fuel ue._id = .ok l) ∧
        (∀ fuel, fuel < C.length → chain_end r.size r._descs fuel ue._id = .error .diverged)) ∧
    (∀ fuel n e0, r.size ≤ fuel →
      (r.pending.length < n →
        ∃ r1 e1, vring.complete_loop c fuel r._used._shared._idx n r e0 = .ok (r1, e1) ∧
          r1._used._tail = r._used._shared._idx) ∧
      (n ≤ r.pending.length →
        ∀ x, vring.complete_loop c fuel r._used._shared._idx n r e0 ≠ .ok x)) ∧
    (∀ fuel, r.pending.length < fuel → r.size ≤ fuel →
      ∃ b r1 e1, r.do_complete c fuel e = .ok (b, r1, e1) ∧
        r1._used._tail = r._used._shared._idx) := by
  have hlen : r.pending.length = u16 ((r._used._shared._idx : Int) - (r._used._tail : Int)) := by
    simp [vring.pending]
  obtain ⟨Ps, Cs1, hP, hF0⟩ := match_chains _ Cs hnd hsub
  have hF : List.Forall₂ (fun ue C => ue._id = C.headI) r.pending Ps := by
    rw [List.forall₂_map_left_iff] at hF0
    exact hF0
  have hPlen : ∀ fuel, r.size ≤ fuel → ∀ C ∈ Ps, C.length ≤ fuel := fun fuel hfuel C hC =>
    (inv_chain_length hinv (hP.mem_iff.mpr (List.mem_append_left _ hC))).trans hfuel
  refine ⟨hlen, ?_, ?_, ?_⟩
  · intro ue hue
    have hid := hsub ue._id (List.mem_map_of_mem _ hue)
    obtain ⟨C, hC, hhead⟩ := List.mem_map.mp hid
    have hchain : is_chain r._descs ue._id C := by rw [← hhead]; exact hinv.chains C hC
    have hb : ∀ x ∈ C, x < r.size := fun x hx => (hinv.bound C hC x hx).1
    have hCne : C ≠ [] := is_chain_ne_nil (hinv.chains C hC)
    refine ⟨?_, C, hC, hhead.symm, hb, ?_, ?_⟩
    · rw [← hhead]; exact hb _ (headI_mem hCne)
    · intro fuel hf
      exact chain_end_of_is_chain r.size r._descs C ue._id fuel hchain hb hf
    · intro fuel hf
      exact chain_end_short r.size r._descs C ue._id fuel hchain hb hf
  · intro fuel n e0 hfuel
    constructor
    · intro hn
      obtain ⟨_, ho⟩ := complete_loop_spec c fuel r.pending Ps n r e0 L Cs Cs1 hinv hP hF rfl
        ht hi hn (hPlen fuel hfuel)
      obtain ⟨⟨e1, s1⟩, hrun⟩ := run_calls_total c hcall (calls_of r r.pending) e0
        r._available_descriptors
      obtain ⟨B, D, fh, fl, hloop, _, _⟩ := ho e1 s1 hrun
      exact ⟨_, _, hloop, rfl⟩
    · intro hn
      exact complete_loop_short c fuel _ hi n r e0 ht (by rw [← hlen]; exact hn)
  · intro fuel hn hfuel
    obtain ⟨_, ho⟩ := do_complete_spec c fuel r e L Cs Cs1 Ps hinv hP hF ht hi hn
      (hPlen fuel hfuel)
    obtain ⟨⟨e1, s1⟩, hrun⟩ := run_calls_total c hcall (calls_of r r.pending)
      (c.bunch e ((((r._used._tail : Int) - (r._used._shared._idx : Int))
        % 18446744073709551616).toNat)) r._available_descriptors
    obtain ⟨B, D, fh, fl, hdo, _, _⟩ := ho e1 s1 hrun
    exact ⟨_, _, _, hdo, rfl⟩

theorem C34_witness :
    (vring.pending ({ demo_posted with _used._shared := demo_used } : vring (List buffer))).length
      = 2 ∧
    (∃ b r1 e1,
      vring.do_complete demo_completion 8 { demo_posted with _used._shared := demo_used } []
        = .ok (b, r1, e1) ∧ r1._used._tail = 2) ∧
    chain_end 4 demo_posted._descs 2 2 = .ok 3 ∧
    chain_end 4 demo_posted._descs 1 2 = .error .diverged := by
  have hinv0 : demo_ring.inv [0, 1, 2, 3] [] := setup_inv _ (by decide) (by decide)
  obtain ⟨r2, hpost, _, _, _, _, hinv2⟩ :=
    post_spec_host id demo_chains demo_ring [0, 1, 2, 3] [] hinv0 (by decide) (by decide)
      (by decide) (by decide)
  have hr2 : r2 = demo_posted := Except.ok.inj (hpost.symm.trans demo_post_ok)
  rw [hr2] at hinv2
  have hinv : vring.inv ({ demo_posted with _used._shared := demo_used } : vring (List buffer))
      [] [[0, 1], [2, 3]] := inv_congr (hinv2 demo_used demo_posted._avail_event) rfl rfl rfl rfl
  obtain ⟨h1, _, _, h4⟩ :=
    C34_do_complete_terminates demo_completion
      ({ demo_posted with _used._shared := demo_used } : vring (List buffer)) []
      [] [[0, 1], [2, 3]] hinv (by decide) (by decide) (by decide) (by decide)
      (fun e s bc len => ⟨_, rfl⟩)
  exact ⟨h1, h4 8 (by decide) (by decide), rfl, rfl⟩

/-- The invariant of the reachable ring states after a `post` of non-empty
chains within the free list. -/
theorem reach_inv_post (buffers : BC → List buffer) (chains : List BC) (r r1 : vring BC)
    (size : Nat) (H L : List Nat) (Cs : List (List Nat)) (hI : reach_inv size r H L Cs)
    (hne : ∀ bc ∈ chains, buffers bc ≠ [])
    (htot : (chains.map (fun bc => (buffers bc).length)).sum ≤ L.length)
    (hpost : r.post buffers chains = .ok r1) :
    reach_inv size r1
      (H ++ (split_by (chains.map (fun bc => (buffers bc).length)) L).map List.headI)
      (L.drop (chains.map (fun bc => (buffers bc).length)).sum)
      (Cs ++ split_by (chains.map (fun bc => (buffers bc).length)) L) ∧
    r1._available_descriptors = r._available_descriptors ∧
    List.Forall₂ (fun A bc => r1._buffer_chains A.headI = bc ∧ A.length = (buffers bc).length)
      (split_by (chains.map (fun bc => (buffers bc).length)) L) chains ∧
    (∀ C ∈ Cs, r1._buffer_chains C.headI = r._buffer_chains C.headI) := by
  obtain ⟨r2, _, hpost2, hfr, hinv2, hF, hB, _, hhead, hadd⟩ :=
    post_spec buffers chains r L Cs hI.inv hne htot hI.head hI.added
  have hr1 : r1 = r2.publish.kick := by
    rw [hpost] at hpost2
    exact Except.ok.inj hpost2
  subst hr1
  obtain ⟨hk1, hk2, hk3, hk4, hk5, hk6, _, hk8, hk9, _⟩ := kick_frame r2.publish
  obtain ⟨hsplit, hlens⟩ := split_by_spec _ L htot
  have hnd := List.nodup_append.mp hinv2.nodup
  have hnd1 := hnd.2.1
  rw [List.flatten_append] at hnd1
  refine ⟨⟨?_, inv_congr hinv2 (by rw [hk1]; rfl) (by rw [hk2]; rfl) (by rw [hk3]; rfl)
      (by rw [hk4]; rfl), ?_, ?_, ?_, ?_, ?_, ?_⟩, ?_, ?_, ?_⟩
  · rw [hk1]
    show r2._config.size = size
    rw [hfr.config]; exact hI.size_eq
  · rw [List.map_append]
    exact List.Perm.append_right _ hI.heads
  · intro i hi
    have := hI.cover i hi
    rw [← hsplit] at this
    simp only [List.mem_append, List.flatten_append] at this ⊢
    tauto
  · rw [hk8]
    exact hhead ▸ Nat.mod_lt _ (by norm_num)
  · refine lt_of_le_of_lt (kick_added_le _) ?_
    exact hadd ▸ Nat.mod_lt _ (by norm_num)
  · rw [hk6]
    exact hfr.used ▸ hI.tail
  · rw [hk6]
    exact hfr.used ▸ hI.used_idx
  · rw [hk9]; exact hfr.credits
  · rw [hk5]
    have hF2 := forall2_and hF (List.forall₂_map_right_iff.mp hlens)
    exact hF2.imp (fun A bc h => ⟨h.1.2.1, h.2⟩)
  · intro C hC
    rw [hk5]
    apply hB
    intro hmem
    obtain ⟨A, hA, hAh⟩ := List.mem_map.mp hmem
    obtain ⟨bc, _, hAne, _⟩ := forall2_of_mem_left hF A hA
    have hCne : C ≠ [] := is_chain_ne_nil (hI.inv.chains C hC)
    exact (List.nodup_append.mp hnd1).2.2 (mem_flatten_of hC (headI_mem hCne))
      (mem_flatten_of hA (hAh ▸ headI_mem hAne))

/-- The invariant of the reachable ring states after a `do_complete` on
pending entries that name heads in flight, none twice: the chains `Ps` of
the pending entries have joined the free list. -/
theorem reach_inv_complete (c : completion BC E) (fuel : Nat) (r r1 : vring BC) (e e1 : E)
    (b : Bool) (size : Nat) (H L : List Nat) (Cs : List (List Nat))
    (hI : reach_inv size r H L Cs)
    (hnd : (r.pending.map used_elem._id).Nodup)
    (hsub : ∀ id ∈ r.pending.map used_elem._id, id ∈ H)
    (hn : r.pending.length < fuel) (hfuel : r.size ≤ fuel)
    (hdo : r.do_complete c fuel e = .ok (b, r1, e1)) :
    ∃ Ps Cs1, Cs.Perm (Ps ++ Cs1) ∧
      List.Forall₂ (fun ue C => ue._id = C.headI) r.pending Ps ∧
      reach_inv size r1 (H.filter (fun h => decide (h ∉ r.pending.map used_elem._id)))
        (L ++ Ps.flatten) Cs1 ∧
      (∀ C ∈ Cs1, r1._buffer_chains C.headI = r._buffer_chains C.headI) ∧
      run_calls c (calls_of r r.pending)
          (c.bunch e ((((r._used._tail : Int) - (r._used._shared._idx : Int))
            % 18446744073709551616).toNat)) r._available_descriptors
        = .ok (e1, r1._available_descriptors) := by
  have hsub2 : ∀ id ∈ r.pending.map used_elem._id, id ∈ Cs.map List.headI :=
    fun id hid => hI.heads.mem_iff.mpr (hsub id hid)
  obtain ⟨hrun, h2⟩ := do_complete_inflight c fuel r e L Cs hI.inv hI.tail hI.used_idx hnd hsub2
    hn hfuel
  obtain ⟨Ps, Cs1, hP, hF, hinv3, h3, h4, h5, h6, _, hB⟩ := h2 b r1 e1 hdo
  have hPsheads : Ps.map List.headI = r.pending.map used_elem._id := forall2_map_eq hF
  have hheads2 : (Cs.map List.headI).Perm (r.pending.map used_elem._id ++ Cs1.map List.headI) := by
    have := hP.map List.headI
    rwa [List.map_append, hPsheads] at this
  have hnd2 : (r.pending.map used_elem._id ++ Cs1.map List.headI).Nodup :=
    hheads2.nodup_iff.mp (inv_heads_nodup hI.inv)
  have hdisj := (List.nodup_append.mp hnd2).2.2
  refine ⟨Ps, Cs1, hP, hF, ⟨by rw [h5]; exact hI.size_eq, hinv3, ?_, ?_, by rw [h6]; exact hI.head,
      by rw [h6]; exact hI.added, by rw [h3]; exact hI.used_idx,
      by rw [h4]; exact hI.used_idx⟩, ?_, ?_⟩
  · have e1 := (hheads2.symm.trans hI.heads).filter
      (fun h => decide (h ∉ r.pending.map used_elem._id))
    rw [List.filter_append] at e1
    have e2 : List.filter (fun h => decide (h ∉ r.pending.map used_elem._id))
        (r.pending.map used_elem._id) = [] := by
      rw [List.filter_eq_nil_iff]
      intro a ha
      simpa using ha
    have e3 : List.filter (fun h => decide (h ∉ r.pending.map used_elem._id))
        (Cs1.map List.headI) = Cs1.map List.headI := by
      rw [List.filter_eq_self]
      intro a ha
      simp only [decide_eq_true_eq]
      exact fun h => hdisj h ha
    rwa [e2, e3, List.nil_append] at e1
  · intro i hi
    have := hI.cover i hi
    have hp := hP.flatten
    simp only [List.flatten_append] at hp
    simp only [List.mem_append] at this ⊢
    rcases this with h | h
    · exact Or.inl (Or.inl h)
    · rcases List.mem_append.mp (hp.mem_iff.mp h) with h | h
      · exact Or.inl (Or.inr h)
      · exact Or.inr h
  · intro C hC
    apply hB
    intro hmem
    exact hdisj hmem (List.mem_map_of_mem _ hC)
  · rw [hdo] at hrun
    exact hrun.symm

theorem reach_inv_congr {size : Nat} {r r1 : vring BC} {H L : List Nat} {Cs : List (List Nat)}
    (h : reach_inv size r H L Cs) (hs : r1._config = r._config) (hD : r1._descs = r._descs)
    (hh : r1._free_head = r._free_head) (hl : r1._free_last = r._free_last)
    (ha : r1._avail = r._avail) (ht : r1._used._tail = r._used._tail)
    (hi : r1._used._shared._idx < 65536) : reach_inv size r1 H L Cs :=
  ⟨by rw [hs]; exact h.size_eq, inv_congr h.inv hs hD hh hl, h.heads, h.cover,
    by rw [ha]; exact h.head, by rw [ha]; exact h.added, by rw [ht]; exact h.tail, hi⟩

theorem txq_reachable_inv (size : Nat) (h0 : 0 < size) (h1 : size ≤ 65536) (q : txq)
    (H : List Nat) (hr : txq_reachable size q H) : ∃ L Cs, txq_inv size q H L Cs := by
  induction hr with
  | create conf hw hl hs =>
    subst hs
    refine ⟨List.range conf.size, [], ⟨rfl, ?_, by simp, ?_, by simp [txq.create, vring.create,
      vring.setup], by simp [txq.create, vring.create, vring.setup],
      by simp [txq.create, vring.create, vring.setup],
      by simp [txq.create, vring.create, vring.setup]⟩, ?_, by simp⟩
    · exact create_inv conf _ _ _ _ _ _ h0 h1
    · intro i hi
      simpa using hi
    · simp [txq.create, vring.create, vring.setup]
  | host q H U ae _ hU ih =>
    obtain ⟨L, Cs, hI⟩ := ih
    exact ⟨L, Cs, reach_inv_congr hI.ring rfl rfl rfl rfl rfl rfl hU, hI.credits, hI.stored⟩
  | post q q1 H pb rest k L0 _ hfl hpost ih =>
    obtain ⟨L, Cs, hI⟩ := ih
    have hL : L0 = L := by
      have := free_list_of_free hI.ring.inv.free
      rw [hfl] at this
      exact (Option.some.inj this)
    subst hL
    obtain ⟨st1, hloop, hq⟩ := post_loop_spec pb { q := { q with _packets := [] } }
    simp only [List.nil_append] at hloop hq
    have hsumle := taken_credits pb q._ring._available_descriptors
    generalize hT : txq.taken q._ring._available_descriptors pb = T at hloop hq hsumle
    have hpk : st1.q._packets = T.map q.chain_for := by rw [hq]; rfl
    have hrg : st1.q._ring = { q._ring with
        _available_descriptors := q._ring._available_descriptors
          - (T.map (fun p => p.nr_frags + 1)).sum } := by rw [hq]
    have hlens : st1.q._packets.map (fun bc => bc.buffers.length)
        = T.map (fun p => p.nr_frags + 1) := by
      rw [hpk, List.map_map]
      exact List.map_congr_left (fun p _ => (chain_for_buffers q p).1)
    have hI0 : reach_inv size st1.q._ring H L0 Cs := by
      rw [hrg]
      exact reach_inv_congr hI.ring rfl rfl rfl rfl rfl rfl hI.ring.used_idx
    unfold txq.post at hpost
    rw [hloop] at hpost
    simp only at hpost
    cases hp : st1.q._ring.post packet_as_buffer_chain.buffers st1.q._packets with
    | error f => rw [hp] at hpost; cases hpost
    | ok ring =>
      rw [hp] at hpost
      simp only [Except.ok.injEq, Prod.mk.injEq] at hpost
      obtain ⟨_, _, hq1⟩ := hpost
      have hq1r : q1._ring = ring := by rw [← hq1]
      have hq1p : q1._packets = st1.q._packets := by rw [← hq1]
      obtain ⟨hR, hcr, hF, hB⟩ := reach_inv_post packet_as_buffer_chain.buffers st1.q._packets
        st1.q._ring ring size H L0 Cs hI0
        (by
          intro bc hbc hz
          rw [hpk] at hbc
          obtain ⟨p, _, rfl⟩ := List.mem_map.mp hbc
          have := (chain_for_buffers q p).1
          rw [hz] at this
          simp at this)
        (by rw [hlens]; have := hI.credits; omega) hp
      refine ⟨_, _, ⟨by rw [hq1r, hq1p]; exact hR, ?_, ?_⟩⟩
      · rw [hq1r, hcr, hrg, List.length_drop, hlens]
        have := hI.credits
        simp only
        omega
      · intro C hC
        rw [hq1r]
        rcases List.mem_append.mp hC with hC | hC
        · rw [hB C hC, hrg]
          exact hI.stored C hC
        · obtain ⟨bc, _, hbc, hlen⟩ := forall2_of_mem_left hF C hC
          rw [hbc, hlen]
          simp [packet_as_buffer_chain.buffers, packet.nr_frags]
  | complete q r1 H b fuel _ hnd hsub hn hfuel hdo ih =>
    obtain ⟨L, Cs, hI⟩ := ih
    obtain ⟨Ps, Cs1, hP, hF, hR, hB, hrun⟩ := reach_inv_complete txq_complete fuel q._ring r1
      () () b size H L Cs hI.ring hnd hsub hn hfuel hdo
    rw [run_calls_txq] at hrun
    simp only [Except.ok.injEq, Prod.mk.injEq, true_and] at hrun
    have hPs : ∀ C ∈ Ps, C ∈ Cs := fun C hC => hP.mem_iff.mpr (List.mem_append_left _ hC)
    have hsum : ((calls_of q._ring q._ring.pending).map (fun x => x.1.p.nr_frags)).sum
        = Ps.flatten.length := by
      have hF2 : List.Forall₂
          (fun (ue : used_elem) (C : List Nat) =>
            (q._ring._buffer_chains ue._id).p.nr_frags = C.length) q._ring.pending Ps := by
        refine (forall2_mem hF).imp ?_
        rintro ue C ⟨_, hC, hid⟩
        rw [hid]
        exact hI.stored C (hPs C hC)
      have e1 := forall2_map_eq hF2
      rw [List.length_flatten, e1]
      simp only [calls_of, List.map_map]
      rfl
    refine ⟨_, _, ⟨hR, ?_, ?_⟩⟩
    · show r1._available_descriptors = _
      rw [← hrun, hsum, List.length_append, hI.credits]
    · intro C hC
      show (r1._buffer_chains C.headI).p.nr_frags = _
      rw [hB C hC]
      exact hI.stored C (hP.mem_iff.mpr (List.mem_append_right _ hC))

theorem complete_buffer_held (s : rxq_state) (credits : Nat) (bc : single_buffer) (len : Nat)
    (s1 : rxq_state) (credits1 : Nat) (left : single_buffer)
    (h : rxq.complete_buffer s credits bc len = .ok (s1, credits1, left)) :
    credits1 + s1.held = credits + s.held + 1 := by
  cases hf : rxq.first_buffer s bc.elem.buf len with
  | error f => simp only [rxq.complete_buffer, hf] at h; cases h
  | ok x =>
    obtain ⟨s0, frag_buf, frag_len⟩ := x
    simp only [rxq.complete_buffer, hf] at h
    have h0 : s0._fragments.length = s.held := by
      unfold rxq.first_buffer at hf
      by_cases a : s._remaining_buffers = 0
      · by_cases b : bc.elem.buf = 0
        · simp only [a, b, if_true] at hf
          cases hf
        · by_cases c : (s.mem bc.elem.buf).num_buffers ≥ 1
          · simp only [a, if_true, if_neg b, if_pos c, Except.ok.injEq, Prod.mk.injEq] at hf
            rw [← hf.1]
            simp [rxq_state.held, a]
          · simp only [a, if_true, if_neg b, if_neg c] at hf
            cases hf
      · simp only [if_neg a, Except.ok.injEq, Prod.mk.injEq] at hf
        rw [← hf.1]
        simp [rxq_state.held, a]
    split_ifs at h with hz
    · simp only [Except.ok.injEq, Prod.mk.injEq] at h
      obtain ⟨h1, h2, _⟩ := h
      rw [← h1, ← h2]
      simp only [rxq_state.held, hz, if_true, List.length_append, List.length_singleton, h0]
      simp only [rxq_state.held] at h0
      omega
    · simp only [Except.ok.injEq, Prod.mk.injEq] at h
      obtain ⟨h1, h2, _⟩ := h
      rw [← h1, ← h2]
      simp only [rxq_state.held, hz, if_false, List.length_append, List.length_singleton, h0]
      simp only [rxq_state.held] at h0
      omega

theorem run_calls_held : ∀ (calls : List (single_buffer × Nat)) (s : rxq_state) (credits : Nat)
    (s1 : rxq_state) (credits1 : Nat),
    run_calls rxq_complete calls s credits = .ok (s1, credits1) →
    credits1 + s1.held = credits + s.held + calls.length := by
  intro calls
  induction calls with
  | nil =>
    intro s credits s1 credits1 h
    simp only [run_calls, Except.ok.injEq, Prod.mk.injEq] at h
    rw [← h.1, ← h.2]
    rfl
  | cons c calls ih =>
    intro s credits s1 credits1 h
    obtain ⟨bc, len⟩ := c
    simp only [run_calls] at h
    cases hc : rxq_complete.call s credits bc len with
    | error f => rw [hc] at h; cases h
    | ok x =>
      obtain ⟨s2, credits2, left⟩ := x
      rw [hc] at h
      have h1 := complete_buffer_held s credits bc len s2 credits2 left hc
      have h2 := ih s2 credits2 s1 credits1 h
      simp only [List.length_cons]
      omega

/-- The continuation of `prepare_buffers` on a receive queue whose ring
satisfies the invariant of the reachable states and has no more credits
than free descriptors: it returns, with no credit left and the first
descriptors of the free list, one per credit, in flight as chains of one. -/
theorem prepare_buffers_spec (size : Nat) (h1 : size ≤ 65536) (q : rxq) (malloc : Nat → Nat)
    (H L : List Nat) (Cs : List (List Nat)) (hI : reach_inv size q._ring H L Cs)
    (hcred : q._ring._available_descriptors ≤ L.length) :
    ∃ q1, q.prepare_buffers malloc = .ok q1 ∧ q1.st = q.st ∧
      q1._ring._available_descriptors = 0 ∧
      reach_inv size q1._ring (H ++ L.take q._ring._available_descriptors)
        (L.drop q._ring._available_descriptors)
        (Cs ++ (L.take q._ring._available_descriptors).map (fun a => [a])) := by
  generalize hc : q._ring._available_descriptors = c at hcred ⊢
  have hL : L.length ≤ size := by
    have := length_le_of_nodup_lt hI.inv.free.nodup (fun x hx => (hI.inv.free.bound x hx).1)
    rw [vring.size, hI.size_eq] at this
    exact this
  by_cases hc0 : c < 1
  · have hz : c = 0 := by omega
    subst hz
    refine ⟨q, ?_, rfl, hc, ?_⟩
    · unfold rxq.prepare_buffers
      rw [hc, if_pos hc0]
    · simpa using hI
  · have hcount : (1 + (c - 1)) % 4294967296 = c := by
      rw [Nat.mod_eq_of_lt (by omega)]; omega
    have hI0 : reach_inv size ({ q._ring with _available_descriptors := 0 } : vring single_buffer)
        H L Cs := reach_inv_congr hI rfl rfl rfl rfl rfl rfl hI.used_idx
    have hlens : ((List.range c).map (fun i => rxq.make_buffer_chain (malloc i))).map
        (fun bc => (single_buffer.buffers bc).length) = List.replicate c 1 := by
      rw [List.map_map]
      have : ((fun bc => (single_buffer.buffers bc).length) ∘
          fun i => rxq.make_buffer_chain (malloc i)) = fun _ => 1 := rfl
      rw [this, List.map_const', List.length_range]
    have hsum : (List.replicate c 1).sum = c := by simp
    have hne : ∀ bc ∈ (List.range c).map (fun i => rxq.make_buffer_chain (malloc i)),
        single_buffer.buffers bc ≠ [] := by
      intro bc _; simp [single_buffer.buffers]
    obtain ⟨r2, _, hpost, _⟩ :=
      post_spec single_buffer.buffers ((List.range c).map (fun i => rxq.make_buffer_chain (malloc i)))
        ({ q._ring with _available_descriptors := 0 } : vring single_buffer) L Cs hI0.inv hne
        (by rw [hlens, hsum]; exact hcred) hI0.head hI0.added
    obtain ⟨hR, hcr, _, _⟩ := reach_inv_post single_buffer.buffers
      ((List.range c).map (fun i => rxq.make_buffer_chain (malloc i)))
      ({ q._ring with _available_descriptors := 0 } : vring single_buffer) r2.publish.kick
      size H L Cs hI0 hne (by rw [hlens, hsum]; exact hcred) hpost
    rw [hlens, hsum, split_by_ones c L hcred] at hR
    have hheads : ((L.take c).map (fun a => [a])).map List.headI = L.take c := by
      rw [List.map_map]
      have : (List.headI ∘ fun a : Nat => [a]) = id := rfl
      rw [this, List.map_id]
    rw [hheads] at hR
    refine ⟨{ q with _ring := r2.publish.kick }, ?_, rfl, hcr, hR⟩
    unfold rxq.prepare_buffers
    simp only [hc, if_neg hc0, le_refl, if_true, hcount, Nat.sub_self]
    rw [hpost]

theorem rxq_reachable_inv (size : Nat) (h0 : 0 < size) (h1 : size ≤ 65536) (q : rxq)
    (H : List Nat) (hr : rxq_reachable size q H) : ∃ L Cs, rxq_inv size q H L Cs := by
  induction hr with
  | create conf hl hs =>
    subst hs
    refine ⟨List.range conf.size, [], ⟨rfl, ?_, by simp, ?_, by simp [rxq.create, vring.create,
      vring.setup], by simp [rxq.create, vring.create, vring.setup],
      by simp [rxq.create, vring.create, vring.setup],
      by simp [rxq.create, vring.create, vring.setup]⟩, ?_, by simp⟩
    · exact create_inv conf _ _ _ _ _ _ h0 h1
    · intro i hi
      simpa using hi
    · simp [rxq.create, vring.create, vring.setup, rxq_state.held]
  | host q H U ae m _ hU ih =>
    obtain ⟨L, Cs, hI⟩ := ih
    exact ⟨L, Cs, reach_inv_congr hI.ring rfl rfl rfl rfl rfl rfl hU, hI.credits, hI.single⟩
  | refill q q1 H malloc L0 _ hfl hpre ih =>
    obtain ⟨L, Cs, hI⟩ := ih
    have hL : L0 = L := by
      have := free_list_of_free hI.ring.inv.free
      rw [hfl] at this
      exact (Option.some.inj this)
    subst hL
    have hcred : q._ring._available_descriptors ≤ L0.length := by
      have := hI.credits; omega
    obtain ⟨q2, hq2, hst, hz, hR⟩ := prepare_buffers_spec size h1 q malloc H L0 Cs hI.ring hcred
    have hq : q1 = q2 := Except.ok.inj (hpre.symm.trans hq2)
    subst hq
    refine ⟨_, _, ⟨hR, ?_, ?_⟩⟩
    · rw [hz, hst, List.length_drop]
      have := hI.credits
      omega
    · intro C hC
      rcases List.mem_append.mp hC with hC | hC
      · exact hI.single C hC
      · obtain ⟨a, _, rfl⟩ := List.mem_map.mp hC
        rfl
  | complete q r1 s1 H b fuel _ hnd hsub hn hfuel hdo ih =>
    obtain ⟨L, Cs, hI⟩ := ih
    obtain ⟨Ps, Cs1, hP, hF, hR, _, hrun⟩ := reach_inv_complete rxq_complete fuel q._ring r1
      q.st s1 b size H L Cs hI.ring hnd hsub hn hfuel hdo
    have hheld := run_calls_held _ _ _ _ _ hrun
    have hPs : ∀ C ∈ Ps, C.length = 1 :=
      fun C hC => hI.single C (hP.mem_iff.mpr (List.mem_append_left _ hC))
    have hflat : Ps.flatten.length = q._ring.pending.length := by
      rw [List.length_flatten, hF.length_eq]
      have : Ps.map List.length = List.replicate Ps.length 1 := by
        rw [List.eq_replicate_iff]
        exact ⟨by simp, fun x hx => by
          obtain ⟨C, hC, rfl⟩ := List.mem_map.mp hx
          exact hPs C hC⟩
      rw [this]
      simp
    refine ⟨_, _, ⟨hR, ?_, ?_⟩⟩
    · show (L ++ Ps.flatten).length = r1._available_descriptors + s1.held
      rw [List.length_append, hflat, hI.credits]
      have hb : (rxq_complete.bunch q.st ((((q._ring._used._tail : Int)
          - (q._ring._used._shared._idx : Int)) % 18446744073709551616).toNat)).held
          = q.st.held := rfl
      rw [hb] at hheld
      simp only [calls_of, List.length_map] at hheld
      omega
    · intro C hC
      exact hI.single C (hP.mem_iff.mpr (List.mem_append_right _ hC))

/-- On the fresh transmit ring of 131072 descriptors the walk along `_next`
from a descriptor below 65536 never reaches `_free_last`. -/
theorem big_txq_free_path : ∀ (fuel i : Nat), i < 65536 →
    big_txq._ring.free_path fuel (i : Int) = none := by
  intro fuel
  induction fuel with
  | zero => intro i _; rfl
  | succ fuel ih =>
    intro i hi
    have hlast : big_txq._ring._free_last = 131071 := by decide
    have hnext : (big_txq._ring._descs i)._next = (i + 1) % 65536 := by
      have : i < 131072 := by omega
      simp [big_txq, txq.create, vring.create, vring.setup, this]
    have hidx : big_txq._ring.desc_index i := ⟨by show i < 131072; omega, hi⟩
    have hne : (i : Int) ≠ 131071 := by omega
    simp only [vring.free_path, Int.toNat_ofNat, Nat.cast_nonneg, true_and, hidx, if_true,
      hlast, hne, if_false, hnext]
    rw [ih _ (Nat.mod_lt _ (by norm_num))]
    rfl

/-- On the fresh transmit ring of 131072 descriptors every `_next` field is
below 65536. -/
theorem big_txq_next_small : ∀ i, (big_txq._ring._descs i)._next < 65536 := by
  intro i
  by_cases h : i < 131072
  · have : (big_txq._ring._descs i)._next = (i + 1) % 65536 := by
      simp [big_txq, txq.create, vring.create, vring.setup, h]
    rw [this]
    exact Nat.mod_lt _ (by norm_num)
  · have : (big_txq._ring._descs i)._next = 0 := by
      simp [big_txq, txq.create, vring.create, vring.setup, h]
    rw [this]
    norm_num

/-- C32 (counterexample): the transmit queue the constructor builds over a
ring of 131072 descriptors is a state in which a post can start; its
semaphore holds 131072 credits, but the ring has no free list of that
length: `_next` is 16 bits wide, so every link leads to a descriptor below
65536, the walk from `_free_head = 0` comes back to 0 after descriptor 65535
and never reaches `_free_last = 131071`. -/
theorem C32_counterexample :
    txq_reachable 131072 big_txq [] ∧
    big_txq._ring._available_descriptors = 131072 ∧
    big_txq._ring._free_head = 0 ∧ big_txq._ring._free_last = 131071 ∧
    (big_txq._ring._descs 65535)._next = 0 ∧
    (∀ i, (big_txq._ring._descs i)._next < 65536) ∧
    big_txq._ring.free_list = none := by
  refine ⟨txq_reachable.create { size := 131072 } {} 12 rfl, by decide, by decide, by decide,
    by decide, big_txq_next_small, ?_⟩
  unfold vring.free_list
  have h1 : big_txq._ring._free_head = 0 := by decide
  rw [h1, if_neg (by decide)]
  exact big_txq_free_path _ 0 (by norm_num)

/-- C32 (amended): in every state of a transmit or receive queue over a ring of 1 to
65536 descriptors that is reachable from the constructor by completed calls
of `txq::post`, of the continuation of `rxq::prepare_buffers` and of
`do_complete`, with a host that returns heads in flight, none twice, the
count of the available-descriptor semaphore does not exceed the length of
the free list: for the transmit queue the two are equal, for the receive
queue the free list is longer by the number of buffers held for a packet
that is not complete yet.  Hence `txq::post`, for every input queue, and
`prepare_buffers` return from such a state: the `assert` of `allocate_desc`
is not reached. -/
theorem C32_credits_within_free_list (size : Nat) (h0 : 0 < size) (h1 : size ≤ 65536) :
    (∀ q H, txq_reachable size q H →
      ∃ L, q._ring.free_list = some L ∧ q._ring._available_descriptors = L.length ∧
        ∀ pb, ∃ k rest q1, q.post pb = .ok (k, rest, q1)) ∧
    (∀ q H, rxq_reachable size q H →
      ∃ L, q._ring.free_list = some L ∧ q._ring._available_descriptors ≤ L.length ∧
        L.length = q._ring._available_descriptors + q.st.held ∧
        ∀ malloc, ∃ q1, q.prepare_buffers malloc = .ok q1) := by
  constructor
  · intro q H hr
    obtain ⟨L, Cs, hI⟩ := txq_reachable_inv size h0 h1 q H hr
    refine ⟨L, free_list_of_free hI.ring.inv.free, hI.credits, ?_⟩
    intro pb
    obtain ⟨k, rest, q1, hpost, _⟩ := txq_post_chains q pb L Cs hI.ring.inv
      (le_of_eq hI.credits) hI.ring.head hI.ring.added
    exact ⟨k, rest, q1, hpost⟩
  · intro q H hr
    obtain ⟨L, Cs, hI⟩ := rxq_reachable_inv size h0 h1 q H hr
    have hcred : q._ring._available_descriptors ≤ L.length := by
      have := hI.credits; omega
    refine ⟨L, free_list_of_free hI.ring.inv.free, hcred, hI.credits, ?_⟩
    intro malloc
    obtain ⟨q1, hq1, _⟩ := prepare_buffers_spec size h1 q malloc H L Cs hI.ring hcred
    exact ⟨q1, hq1⟩

theorem C32_witness :
    (∃ L, demo_txq_small_posted.2.2._ring.free_list = some L ∧
      demo_txq_small_posted.2.2._ring._available_descriptors = L.length) ∧
    (∃ L, demo_rxq_filled._ring.free_list = some L ∧
      demo_rxq_filled._ring._available_descriptors ≤ L.length) := by
  have htx : txq_reachable 4 demo_txq_small_posted.2.2 _ :=
    txq_reachable.post demo_txq_small demo_txq_small_posted.2.2 []
      [demo_packet_1, demo_packet_2, demo_packet_1] demo_txq_small_posted.2.1
      demo_txq_small_posted.1 [0, 1, 2, 3]
      (txq_reachable.create { size := 4 } {} 12 rfl) (by decide) demo_txq_small_post_ok
  have hrx : rxq_reachable 4 demo_rxq_filled _ :=
    rxq_reachable.refill demo_rxq demo_rxq_filled [] (fun i => 4096 * (i + 1)) [0, 1, 2, 3]
      (rxq_reachable.host (rxq.create { size := 4, mergable_buffers := true }
          { _header_len := 12 }) [] {} 0 demo_rx_state.mem
        (rxq_reachable.create { size := 4, mergable_buffers := true } 12 rfl) (by decide))
      (by decide) demo_rx_fill_ok
  obtain ⟨htxq, hrxq⟩ := C32_credits_within_free_list 4 (by decide) (by decide)
  obtain ⟨L, h1, h2, _⟩ := htxq _ _ htx
  obtain ⟨L2, h3, h4, _⟩ := hrxq _ _ hrx
  exact ⟨⟨L, h1, h2⟩, ⟨L2, h3, h4⟩⟩

end virtio
